import Mathlib

/-!
# Memory subsystem of the Prolog virtual machine (`src/pl-alloc.c`)

A shallow embedding of the stack regions, the overflow diagnostics and the
global-stack writers of `pl-alloc.c`, followed by the properties proved about
them.

Conventions of the embedding:

* pointers are byte addresses (`Nat`); a `Word *` advanced by `n` moves by
  `n * sizeofWord` bytes (`SIZEOF_VOIDP == 8`);
* a `LocalFrame` pointer is the chain of frames reached through `parentFrame`,
  the frame itself first; `NULL` is the empty chain;
* C truth values (`TRUE`/`FALSE`, `int` flags tested for non-zero) are `Bool`.
-/

set_option autoImplicit false

namespace PlAlloc

/-! ## Definitions -/

/-! ### Stack regions -/

/-- A stack region (`struct stack` seen through the generic `Stack` pointer):
the fields of the region that `pl-alloc.c` reads or writes. -/
structure Stack where
  base : Nat
  top : Nat
  max : Nat
  spare : Nat
  def_spare : Nat
  name : String
deriving DecidableEq

/-- Modelled from the spec: `roomStackP(s)` is a macro of `pl-incl.h`, which is
not among the sources; it is the free room of the region, the signed distance
from `top` to `max`. -/
def roomStackP (s : Stack) : Int := (s.max : Int) - (s.top : Int)

/-- Modelled from the spec: `usedStackP(s)` is a macro of `pl-incl.h`, which is
not among the sources; it is the number of bytes in use, from `base` to
`top`. -/
def usedStackP (s : Stack) : Int := (s.top : Int) - (s.base : Int)

/-- The region invariant of the data model: `base ≤ top ≤ max`. -/
def Stack.wf (s : Stack) : Prop := s.base ≤ s.top ∧ s.top ≤ s.max

instance (s : Stack) : Decidable s.wf := by
  unfold Stack.wf; exact inferInstance

/-- The conversion of a `ptrdiff_t` to `size_t` (64 bits), which C applies to
the signed operand when a `ptrdiff_t` is compared with a `size_t`: a negative
value has `2 ^ 64` added, and so becomes a large unsigned one. -/
def toSizeT (d : Int) : Int := if d < 0 then d + 2 ^ 64 else d

/-- The function `enableSpareStack(s, always)`: the new region and the returned
truth value. The test `roomStackP(s) < s->def_spare` compares a `ptrdiff_t`
with the `size_t` field `def_spare`, so the room is converted to `size_t`. -/
def enableSpareStack (s : Stack) (always : Bool) : Stack × Bool :=
  if s.spare ≠ 0 ∧ (toSizeT (roomStackP s) < (s.def_spare : Int) ∨ always = true) then
    ({ s with max := s.max + s.spare, spare := 0 }, true)
  else
    (s, false)

/-! ### Tagged cells -/

/-- Bytes per cell (`sizeof(word)`, `SIZEOF_VOIDP == 8`). -/
abbrev sizeofWord : Nat := 8

/-- Modelled from the spec: the type tag in the low bits of a cell (the `TAG_*`
constants of `pl-incl.h`, which is not among the sources). -/
inductive Tag where
  | TAG_VAR | TAG_ATTVAR | TAG_FLOAT | TAG_INTEGER
  | TAG_STRING | TAG_ATOM | TAG_COMPOUND | TAG_REFERENCE
deriving DecidableEq

/-- Modelled from the spec: the storage bits of a cell (the `STG_*` constants of
`pl-incl.h`, which is not among the sources). -/
inductive Storage where
  | STG_INLINE | STG_STATIC | STG_GLOBAL | STG_LOCAL
deriving DecidableEq

/-- Modelled from the spec: a tagged cell (`word`). The bit layout is fixed by
macros of `pl-incl.h`, which is not among the sources, so a cell is kept in
decoded form: an unbound variable, an atom handle, a functor handle, an inline
small integer, a tagged pointer (`consPtr`), the header of an indirect block
(kind, word count, pad count), or plain bits. -/
inductive Word where
  | var : Word
  | atom (name : String) : Word
  | functor (name : String) (arity : Nat) : Word
  | int (i : Int) : Word
  | ptr (addr : Nat) (stg : Storage) (tag : Tag) : Word
  | hdr (wsize : Nat) (pad : Nat) (tag : Tag) : Word
  | bits (n : Nat) : Word
deriving DecidableEq

instance : Inhabited Word := ⟨Word.var⟩

/-- Modelled from the spec: `consPtr(p, ts)` of `pl-incl.h` (not among the
sources) packs an address with storage and tag bits. -/
def consPtr (p : Nat) (stg : Storage) (tag : Tag) : Word := Word.ptr p stg tag

/-- Modelled from the spec: smallest inline integer (`PLMINTAGGEDINT` of
`pl-incl.h`, not among the sources; 64-bit cells with 7 tag bits). -/
def PLMINTAGGEDINT : Int := -(2 ^ 56)

/-- Modelled from the spec: largest inline integer (`PLMAXTAGGEDINT`). -/
def PLMAXTAGGEDINT : Int := 2 ^ 56 - 1

/-- Modelled from the spec: `consInt(i)` of `pl-incl.h` (not among the sources)
shifts the integer left over the tag bits, so only the low 57 bits survive; the
cell holds the value that `valInt` reads back. -/
def consInt (i : Int) : Word := Word.int ((i + 2 ^ 56) % 2 ^ 57 - 2 ^ 56)

/-- Modelled from the spec: `consUInt(i)`, as `consInt` on an unsigned
argument. -/
def consUInt (i : Nat) : Word := consInt (i : Int)

/-- Modelled from the spec: `valInt(w)` of `pl-incl.h` (not among the sources)
reads an inline integer back. -/
def valInt (w : Word) : Int :=
  match w with
  | Word.int i => i
  | _ => 0

/-- Modelled from the spec: `isTerm(w)` of `pl-incl.h` (not among the sources):
the cell is a compound pointer. -/
def isTerm (w : Word) : Bool :=
  match w with
  | Word.ptr _ _ Tag.TAG_COMPOUND => true
  | _ => false

def ATOM_nil : Word := Word.atom "[]"
def ATOM_stack_overflow : Word := Word.atom "stack_overflow"
def ATOM_stack_limit : Word := Word.atom "stack_limit"
def ATOM_localused : Word := Word.atom "localused"
def ATOM_globalused : Word := Word.atom "globalused"
def ATOM_trailused : Word := Word.atom "trailused"
def ATOM_depth : Word := Word.atom "depth"
def ATOM_environments : Word := Word.atom "environments"
def ATOM_choicepoints : Word := Word.atom "choicepoints"
def ATOM_cycle : Word := Word.atom "cycle"
def ATOM_non_terminating : Word := Word.atom "non_terminating"
def ATOM_stack : Word := Word.atom "stack"
def ATOM_cyclic_term : Word := Word.atom "cyclic_term"
def ATOM_aborted : Word := Word.atom "$aborted"
def FUNCTOR_frame3 : Word := Word.functor "frame" 3
def FUNCTOR_colon2 : Word := Word.functor ":" 2
def FUNCTOR_dot2 : Word := Word.functor "[|]" 2
def FUNCTOR_divide2 : Word := Word.functor "/" 2
def FUNCTOR_error2 : Word := Word.functor "error" 2
def FUNCTOR_resource_error1 : Word := Word.functor "resource_error" 1

/-- Modelled from the spec: `dict_functor(n)` of `pl-dict.c` (not among the
sources), the functor of a keyed record with `n` key-value pairs and a tag. -/
def dict_functor (n : Nat) : Word := Word.functor "dict" (2 * n + 1)

/-! ### Frames -/

/-- The fields of `struct functorDef` read by this file. -/
structure FunctorDef where
  functor : Word
  name : Word
  arity : Nat
deriving DecidableEq

/-- The field of `struct module` read by this file. -/
structure Module where
  name : Word
deriving DecidableEq

/-- A predicate (`struct definition`); a predicate pointer is the record, and
pointer equality is equality of records. -/
structure Definition where
  functor : FunctorDef
  module : Module
deriving DecidableEq

/-- A call frame (`struct localFrame`): predicate, call depth and the address
of its first argument cell (the cell right behind the frame). The parent link
is the rest of the chain the frame sits in. -/
structure Frame where
  predicate : Definition
  level : Nat
  argv : Nat
deriving DecidableEq

instance : Inhabited Frame := ⟨⟨⟨⟨Word.var, Word.var, 0⟩, ⟨Word.var⟩⟩, 0, 0⟩⟩

/-- A `LocalFrame` pointer: the frame followed by its ancestors; `NULL` is
`[]`. -/
abbrev LocalFrame := List Frame

/-- The macro `parentFrame(fr)`. -/
def parentFrame (fr : LocalFrame) : LocalFrame := fr.tail

/-- The frame a non-`NULL` `LocalFrame` points to. -/
def frameOf (fr : LocalFrame) : Frame := fr.headD default

/-- The macro `argFrameP(fr, i)`: the address of argument cell `i`. -/
def argFrameP (fr : Frame) (i : Nat) : Nat := fr.argv + sizeofWord * i

/-- The read-only view of term memory used by the diagnostics, through macros
and helpers that are not among the sources (`deRef`, `*p`, `isList`,
`skip_list`, `valueFunctor(functorTerm(w))`, `is_variant_ptr`); they are taken
as parameters. The report is written to fresh cells above `gTop`, which the
viewed terms do not reach. -/
structure TermView where
  deRef : Nat → Nat
  valueAt : Nat → Word
  isList : Word → Bool
  skip_list : Nat → Int × Nat
  functorDef : Word → FunctorDef
  is_variant_ptr : Nat → Nat → Bool

abbrev MAX_CYCLE : Nat := 20
abbrev CYCLE_CTX : Nat := 1
abbrev MAX_PRE_LOOP : Nat := 20
abbrev MIN_REPEAT : Nat := 100

/-- The array `cycle_entry ce[]`: entry `i` is `ce[i].frame`. -/
abbrev CycleEntries := List LocalFrame

/-- The function `is_variant_frame(fr1, fr2)`. -/
def is_variant_frame (V : TermView) (fr1 fr2 : Frame) : Bool :=
  if fr1.predicate = fr2.predicate then
    (List.range fr1.predicate.functor.arity).all
      (fun i => V.is_variant_ptr (argFrameP fr1 i) (argFrameP fr2 i))
  else
    false

/-- First loop of `non_terminating_recursion`: from `fr` at `depth`, walk up
while `fr && depth < MAX_CYCLE`, stopping at a frame with the predicate of
`fr0` at `depth >= mindepth`, else recording `ce[depth].frame = fr`. Returns the
final `fr`, `depth` and `ce`. -/
def scanLoop (pred0 : Definition) (mindepth : Nat) :
    LocalFrame → Nat → CycleEntries → LocalFrame × Nat × CycleEntries
  | [], depth, ce => ([], depth, ce)
  | f :: rest, depth, ce =>
    if depth < MAX_CYCLE then
      if f.predicate = pred0 ∧ depth ≥ mindepth then
        (f :: rest, depth, ce)
      else
        scanLoop pred0 mindepth rest (depth + 1) (ce.set depth (f :: rest))
    else
      (f :: rest, depth, ce)

/-- Inner loop of the repetition check: `for(i; fr && i<depth; i++, fr =
parentFrame(fr))`, comparing the predicate of `fr` with that of `ce[i].frame`.
`none` is the `goto again` on a mismatch, `some fr` the frame the loop ends
on. -/
def compareLoop (ce : CycleEntries) (depth : Nat) :
    LocalFrame → Nat → Option LocalFrame
  | [], _ => some []
  | f :: rest, i =>
    if i < depth then
      if f.predicate ≠ (frameOf (ce.getD i [])).predicate then
        none
      else
        compareLoop ce depth rest (i + 1)
    else
      some (f :: rest)

/-- How the loop `for(repeat=MIN_REPEAT; fr && --repeat > 0; )` ends. -/
inductive RepeatResult where
  | mismatch : RepeatResult
  | done (fr : LocalFrame) (rep : Int) : RepeatResult
deriving DecidableEq

/-- The loop `for(...; fr && --repeat > 0; )` entered with counter `rep` and
frame `fr`: the counter is decremented only when `fr` is not `NULL`. -/
def repeatLoop (ce : CycleEntries) (depth : Nat) :
    Nat → LocalFrame → RepeatResult
  | rep, [] => RepeatResult.done [] (rep : Int)
  | 0, f :: rest => RepeatResult.done (f :: rest) (-1)
  | rep + 1, f :: rest =>
    if rep > 0 then
      match compareLoop ce depth (f :: rest) 0 with
      | none => RepeatResult.mismatch
      | some fr => repeatLoop ce depth rep fr
    else
      RepeatResult.done (f :: rest) 0

/-- The loop `for(fr=ctx; fr && nctx-- > 0; fr = parentFrame(fr))
ce[depth++].frame = fr`. -/
def ctxLoop : Nat → LocalFrame → Nat → CycleEntries → Nat × CycleEntries
  | _, [], depth, ce => (depth, ce)
  | 0, _ :: _, depth, ce => (depth, ce)
  | nctx + 1, f :: rest, depth, ce =>
    ctxLoop nctx rest (depth + 1) (ce.set depth (f :: rest))

/-- The body of `non_terminating_recursion` from the label `again` on, for the
start frame `f0` with ancestors `rest`. Each `goto again` raises `mindepth`,
which is bounded by `MAX_CYCLE`; `fuel` counts the passes left and
`MAX_CYCLE` passes are always enough. Returns the result, `ce` and
`*is_cycle`. -/
def againLoop (V : TermView) (f0 : Frame) (rest : LocalFrame) :
    Nat → Nat → CycleEntries → Bool → Nat × CycleEntries × Bool
  | 0, _, ce, is_cycle => (0, ce, is_cycle)
  | fuel + 1, mindepth, ce, is_cycle =>
    match scanLoop f0.predicate mindepth rest 1 ce with
    | ([], _, ce1) => (0, ce1, is_cycle)
    | (f :: frest, depth, ce1) =>
      if depth ≥ MAX_CYCLE then
        (0, ce1, is_cycle)
      else
        match repeatLoop ce1 depth MIN_REPEAT (f :: frest) with
        | RepeatResult.mismatch =>
          if depth + 1 > MAX_CYCLE then
            (0, ce1, is_variant_frame V f0 f)
          else
            againLoop V f0 rest fuel (depth + 1) ce1 (is_variant_frame V f0 f)
        | RepeatResult.done _ rep =>
          if rep = 0 then
            ((ctxLoop CYCLE_CTX (f :: frest) depth ce1).1,
             (ctxLoop CYCLE_CTX (f :: frest) depth ce1).2,
             is_variant_frame V f0 f)
          else
            (0, ce1, is_variant_frame V f0 f)

/-- The function `non_terminating_recursion(fr0, ce, &is_cycle)`; it is only
called on a frame that is not `NULL`. Returns the result, `ce` and
`*is_cycle`. -/
def non_terminating_recursion (V : TermView) (fr0 : LocalFrame)
    (ce : CycleEntries) (is_cycle : Bool) : Nat × CycleEntries × Bool :=
  match fr0 with
  | [] => (0, ce, is_cycle)
  | f0 :: rest => againLoop V f0 rest MAX_CYCLE 1 (ce.set 0 (f0 :: rest)) is_cycle

/-- The loop of `find_non_terminating_recursion` with `max_pre_loop` start
frames left. -/
def findLoop (V : TermView) :
    Nat → LocalFrame → CycleEntries → Bool → Nat × CycleEntries × Bool
  | _, [], ce, is_cycle => (0, ce, is_cycle)
  | 0, _ :: _, ce, is_cycle => (0, ce, is_cycle)
  | n + 1, f :: rest, ce, is_cycle =>
    if (non_terminating_recursion V (f :: rest) ce is_cycle).1 ≠ 0 then
      non_terminating_recursion V (f :: rest) ce is_cycle
    else
      findLoop V n rest
        (non_terminating_recursion V (f :: rest) ce is_cycle).2.1
        (non_terminating_recursion V (f :: rest) ce is_cycle).2.2

/-- The function `find_non_terminating_recursion(fr, ce, &is_cycle)`. -/
def find_non_terminating_recursion (V : TermView) (fr : LocalFrame)
    (ce : CycleEntries) (is_cycle : Bool) : Nat × CycleEntries × Bool :=
  findLoop V MAX_PRE_LOOP fr ce is_cycle

/-- The function `top_of_stack(fr, ce, maxdepth)`, entered at `depth`: the
final `depth` and `ce`. -/
def topLoop (maxdepth : Nat) : LocalFrame → Nat → CycleEntries → Nat × CycleEntries
  | [], depth, ce => (depth, ce)
  | f :: rest, depth, ce =>
    if depth < maxdepth then
      topLoop maxdepth rest (depth + 1) (ce.set depth (f :: rest))
    else
      (depth, ce)

/-- The function `top_of_stack(fr, ce, maxdepth)`. -/
def top_of_stack (fr : LocalFrame) (ce : CycleEntries) (maxdepth : Nat) :
    Nat × CycleEntries :=
  topLoop maxdepth fr 0 ce

/-- The `k`-th ancestor of `fr`: `parentFrame` applied `k` times; `NULL` when
the chain ends before. -/
def ancestor (fr : LocalFrame) : Nat → LocalFrame
  | 0 => fr
  | k + 1 => ancestor (parentFrame fr) k

/-- The predicate pattern of period `d` holds above `fr0` for `MIN_REPEAT`
repetitions: the `MIN_REPEAT * d`-th ancestor of `fr0` exists and every `k`-th
ancestor below it has the predicate of the `(k mod d)`-th ancestor. -/
def periodHolds (fr0 : LocalFrame) (d : Nat) : Prop :=
  ancestor fr0 (MIN_REPEAT * d) ≠ [] ∧
  ∀ k, k < MIN_REPEAT * d →
    (frameOf (ancestor fr0 k)).predicate = (frameOf (ancestor fr0 (k % d))).predicate

/-! ### Machine state -/

/-- The log of cell writes, newest first: the pair `(a, w)` records `*a = w`
for the cell at byte address `a`. -/
abbrev Mem := List (Nat × Word)

/-- The write `*a = w`. -/
def writeCell (m : Mem) (a : Nat) (w : Word) : Mem := (a, w) :: m

/-- The value last written to the cell at `a` (an unbound variable when the
log has no write to it). -/
def readCell (m : Mem) (a : Nat) : Word := (m.lookup a).getD Word.var

/-- A choice point (`struct choice`); only its parent link is followed, which
is the rest of the chain the choice point sits in. -/
structure ChoicePoint where
  id : Nat
deriving DecidableEq

/-- A `Choice` pointer: the choice point followed by its parents; `NULL` is
`[]`. -/
abbrev Choice := List ChoicePoint

/-- A query frame (`struct queryFrame`): the saved choice point and saved
argument-stack pointer; the parent link is the rest of the chain. -/
structure QueryFrameData where
  saved_bfr : Choice
  aSave : Nat
deriving DecidableEq

/-- A `QueryFrame` pointer: the frame followed by its parents. -/
abbrev QueryFrame := List QueryFrameData

/-- The regions a `Stack` pointer of this file can point to: the four regions
of `LD->stacks` and `GD->combined_stack`. -/
inductive StackId where
  | «local» | global | trail | argument | combined
deriving DecidableEq

/-- The record `LD->stacks` (the field `stackset` of the state). -/
structure Stacks where
  «local» : Stack
  global : Stack
  trail : Stack
  argument : Stack
  limit : Nat
deriving DecidableEq

/-- Output and process events of the diagnostics. -/
inductive Event where
  | Sdprintf (msg : String)
  | print_backtrace_named (why : String)
  | save_backtrace (why : String)
  | fatalError (msg : String)
deriving DecidableEq

/-- The engine state this file works on: the fields of `LD` (and
`GD->combined_stack`) that are read or written, the memory log and the
output. -/
structure PL_local_data where
  stackset : Stacks
  combined_stack : Stack
  outofstack : Option StackId
  trim_stack_requested : Bool
  exception_processing : Bool
  exception_bin : Nat
  exception_term : Nat
  bin_value : Word
  throw_environment : Bool
  environment_frame : LocalFrame
  BFR : Choice
  query : QueryFrame
  frozen_bar : Nat
  mem : Mem
  output : List Event
deriving DecidableEq

/-- The macro `gTop`. -/
def gTop (s : PL_local_data) : Nat := s.stackset.global.top

/-- The macro `gMax`. -/
def gMax (s : PL_local_data) : Nat := s.stackset.global.max

/-- The assignment `gTop = p`. -/
def setGTop (s : PL_local_data) (p : Nat) : PL_local_data :=
  { s with stackset := { s.stackset with global := { s.stackset.global with top := p } } }

/-- The assignment `*a = w`. -/
def poke (s : PL_local_data) (a : Nat) (w : Word) : PL_local_data :=
  { s with mem := writeCell s.mem a w }

/-- The assignments `*p++ = w` for the words of a list, in order. -/
def pokeSeq (s : PL_local_data) : Nat → List Word → PL_local_data
  | _, [] => s
  | p, w :: ws => pokeSeq (poke s p w) (p + sizeofWord) ws

/-- Printing and backtrace calls: an event appended to the output. -/
def emit (s : PL_local_data) (e : Event) : PL_local_data :=
  { s with output := s.output ++ [e] }

/-- The region a `Stack` pointer points to. -/
def stackOf (s : PL_local_data) : StackId → Stack
  | StackId.local => s.stackset.local
  | StackId.global => s.stackset.global
  | StackId.trail => s.stackset.trail
  | StackId.argument => s.stackset.argument
  | StackId.combined => s.combined_stack

/-- How a call ends: it returns a value, leaves through `longjmp`, terminates
the process through `fatalError`, has the process aborted (a failed `assert`,
or a fault in a store), or does not end. -/
inductive Outcome (α : Type) where
  | ret (val : α) (s : PL_local_data) : Outcome α
  | jump (s : PL_local_data) : Outcome α
  | fatal (s : PL_local_data) : Outcome α
  | abort (s : PL_local_data) : Outcome α
  | hang : Outcome α

/-- Modelled from the spec: the modes of the reclaimer call (`ALLOW_GC`,
`ALLOW_SHIFT`, `ALLOW_CHECKED` of `pl-incl.h`, not among the sources). -/
def ALLOW_GC : Nat := 1

/-- Modelled from the spec: see `ALLOW_GC`. -/
def ALLOW_SHIFT : Nat := 2

/-- Modelled from the spec: see `ALLOW_GC`. -/
def ALLOW_CHECKED : Nat := 4

/-- Modelled from the spec: the resource classifications (`*_OVERFLOW` of
`pl-incl.h`, not among the sources) and the C truth values. -/
def TRUE : Int := 1

/-- Modelled from the spec: see `TRUE`. -/
def FALSE : Int := 0

/-- Modelled from the spec: see `TRUE`. -/
def LOCAL_OVERFLOW : Int := -1

/-- Modelled from the spec: see `TRUE`. -/
def GLOBAL_OVERFLOW : Int := -2

/-- Modelled from the spec: see `TRUE`. -/
def TRAIL_OVERFLOW : Int := -3

/-- Modelled from the spec: see `TRUE`. -/
def ARGUMENT_OVERFLOW : Int := -4

/-- Modelled from the spec: see `TRUE`. -/
def STACK_OVERFLOW : Int := -5

/-- Modelled from the spec: see `TRUE`. -/
def MEMORY_OVERFLOW : Int := -6

/-- The enumeration `stack_overflow_action`. -/
inductive stack_overflow_action where
  | STACK_OVERFLOW_RAISE | STACK_OVERFLOW_THROW
deriving DecidableEq

/-- The external collaborators of this file, taken as parameters: the term
view, the constant `LOCAL_MARGIN`, the order `dict_order` puts the key-value
pairs of a dict in, the test `hasGlobalSpace(n)`, the reclaimer call
`ensureGlobalSpace(n, flags)` with its result code and the state it leaves, and
`PL_error(NULL, 0, NULL, ERR_NOMEM)`. -/
structure Ext where
  view : TermView
  LOCAL_MARGIN : Nat
  dict_order : List (Word × Word) → List (Word × Word)
  hasGlobalSpace : PL_local_data → Nat → Bool
  ensureGlobalSpace : PL_local_data → Nat → Nat → Int × PL_local_data
  PL_error_nomem : PL_local_data → Bool × PL_local_data

/-! ### Spare capacity and counters -/

/-- The function `enableSpareStacks()`. -/
def enableSpareStacks (s : PL_local_data) : PL_local_data :=
  { s with stackset :=
      { s.stackset with
        «local» := (enableSpareStack s.stackset.local false).1
        global := (enableSpareStack s.stackset.global false).1
        trail := (enableSpareStack s.stackset.trail false).1 } }

/-- The loop of `env_frames(fr)` with the running `count`. -/
def envFramesLoop : LocalFrame → Int → Int
  | [], count => count
  | _ :: rest, count => envFramesLoop rest (count + 1)

/-- The function `env_frames(fr)`. -/
def env_frames (fr : LocalFrame) : Int := envFramesLoop fr 0

/-- The loop of `choice_points(chp)` with the running `count` and `qfr`; a
choice point without parent met when no query frame is left keeps the loop
spinning, and `fuel` bounds the passes made. -/
def choicePointsLoop : Nat → Choice → QueryFrame → Int → Option Int
  | 0, _, _, _ => none
  | _ + 1, [], _, count => some count
  | fuel + 1, _ :: p :: prest, qfr, count =>
    choicePointsLoop fuel (p :: prest) qfr (count + 1)
  | fuel + 1, [_], q :: qrest, count =>
    choicePointsLoop fuel q.saved_bfr qrest (count + 1)
  | fuel + 1, [c], [], count =>
    choicePointsLoop fuel [c] [] (count + 1)

/-- The function `choice_points(chp)` in a state with query frames `query`;
`none` when the loop does not end. Every pass but the last moves to another
choice point, so the number of choice points in all chains plus one bounds the
passes of a loop that ends. -/
def choice_points (chp : Choice) (query : QueryFrame) : Option Int :=
  choicePointsLoop
    (chp.length + (query.map (fun q => q.saved_bfr.length)).sum + 1) chp query 0

/-! ### Rendering frames on the global stack -/

/-- The loop of `size_frame_term(fr)` over the argument indices left, with the
running `size`. -/
def sizeFrameTermLoop (V : TermView) (fr : Frame) : List Nat → Nat → Nat
  | [], size => size
  | i :: is, size =>
    if isTerm (V.valueAt (V.deRef (argFrameP fr i))) = true then
      sizeFrameTermLoop V fr is (size + 3)
    else
      sizeFrameTermLoop V fr is size

/-- The function `size_frame_term(fr)`. -/
def size_frame_term (V : TermView) (fr : Frame) : Nat :=
  sizeFrameTermLoop V fr (List.range fr.predicate.functor.arity)
    (4 + 3 + fr.predicate.functor.arity + 1)

/-- The argument loop of `push_goal(fr)` over the argument indices left, with
the pointers `p` and `ad` and the memory log. -/
def pushGoalArgs (V : TermView) (fr : Frame) : List Nat → Nat → Nat → Mem → Nat × Nat × Mem
  | [], p, ad, m => (p, ad, m)
  | i :: is, p, ad, m =>
    if isTerm (V.valueAt (V.deRef (argFrameP fr i))) = true then
      if V.isList (V.valueAt (V.deRef (argFrameP fr i))) = true then
        if V.isList (V.valueAt (V.deRef (V.skip_list (V.deRef (argFrameP fr i))).2)) = true then
          pushGoalArgs V fr is (p + sizeofWord) (ad + 3 * sizeofWord)
            (writeCell (writeCell (writeCell
              (writeCell m p (consPtr ad Storage.STG_GLOBAL Tag.TAG_COMPOUND))
              ad FUNCTOR_dot2)
              (ad + sizeofWord) ATOM_cyclic_term)
              (ad + 2 * sizeofWord) ATOM_nil)
        else
          pushGoalArgs V fr is (p + sizeofWord) (ad + 3 * sizeofWord)
            (writeCell (writeCell (writeCell
              (writeCell m p (consPtr ad Storage.STG_GLOBAL Tag.TAG_COMPOUND))
              ad FUNCTOR_dot2)
              (ad + sizeofWord) (consInt (V.skip_list (V.deRef (argFrameP fr i))).1))
              (ad + 2 * sizeofWord)
              (V.valueAt (V.deRef (V.skip_list (V.deRef (argFrameP fr i))).2)))
      else
        pushGoalArgs V fr is (p + sizeofWord) (ad + 3 * sizeofWord)
          (writeCell (writeCell (writeCell
            (writeCell m p (consPtr ad Storage.STG_GLOBAL Tag.TAG_COMPOUND))
            ad FUNCTOR_divide2)
            (ad + sizeofWord) (V.functorDef (V.valueAt (V.deRef (argFrameP fr i)))).name)
            (ad + 2 * sizeofWord)
            (consInt (V.functorDef (V.valueAt (V.deRef (argFrameP fr i)))).arity))
    else
      pushGoalArgs V fr is (p + sizeofWord) ad
        (writeCell m p (V.valueAt (V.deRef (argFrameP fr i))))

/-- The function `push_goal(fr)`: the returned cell and the new state. -/
def push_goal (V : TermView) (fr : Frame) (s : PL_local_data) : Word × PL_local_data :=
  let p := gTop s
  let s1 := pokeSeq s p
    [FUNCTOR_frame3, consInt fr.level,
     consPtr (p + 4 * sizeofWord) Storage.STG_GLOBAL Tag.TAG_COMPOUND, ATOM_nil,
     FUNCTOR_colon2, fr.predicate.module.name]
  let q := p + 4 * sizeofWord
  if fr.predicate.functor.arity > 0 then
    let s2 := pokeSeq s1 (q + 2 * sizeofWord)
      [consPtr (q + 3 * sizeofWord) Storage.STG_GLOBAL Tag.TAG_COMPOUND,
       fr.predicate.functor.functor]
    let r := pushGoalArgs V fr (List.range fr.predicate.functor.arity)
      (q + 4 * sizeofWord) (q + 4 * sizeofWord + fr.predicate.functor.arity * sizeofWord) s2.mem
    (consPtr p Storage.STG_GLOBAL Tag.TAG_COMPOUND, setGTop { s2 with mem := r.2.2 } r.2.1)
  else
    (consPtr p Storage.STG_GLOBAL Tag.TAG_COMPOUND,
     setGTop (poke s1 (q + 2 * sizeofWord) fr.predicate.functor.name) (q + 3 * sizeofWord))

/-- The size loop of `push_cycle(ce, depth)` over the indices left. -/
def pushCycleSize (V : TermView) (ce : CycleEntries) : List Nat → Nat → Nat
  | [], size => size
  | i :: is, size => pushCycleSize V ce is (size + size_frame_term V (frameOf (ce.getD i [])))

/-- The write loop of `push_cycle(ce, depth)` over the indices left, with the
pointer `p`. -/
def pushCycleLoop (V : TermView) (ce : CycleEntries) (depth : Nat) :
    List Nat → Nat → PL_local_data → PL_local_data
  | [], _, s => s
  | i :: is, p, s =>
    pushCycleLoop V ce depth is (p + 3 * sizeofWord)
      (poke
        (poke (push_goal V (frameOf (ce.getD i [])) (poke s p FUNCTOR_dot2)).2
          (p + sizeofWord) (push_goal V (frameOf (ce.getD i [])) (poke s p FUNCTOR_dot2)).1)
        (p + 2 * sizeofWord)
        (if i + 1 < depth then
          consPtr (p + 3 * sizeofWord) Storage.STG_GLOBAL Tag.TAG_COMPOUND
        else ATOM_nil))

/-- The function `push_cycle(ce, depth)`: the list cell, or `none` for the
result 0 when there is no room, and the new state. -/
def push_cycle (V : TermView) (ce : CycleEntries) (depth : Nat) (s : PL_local_data) :
    Option Word × PL_local_data :=
  if gTop s + pushCycleSize V ce (List.range depth) (depth * 3) * sizeofWord < gMax s then
    (some (consPtr (gTop s) Storage.STG_GLOBAL Tag.TAG_COMPOUND),
     pushCycleLoop V ce depth (List.range depth) (gTop s)
       (setGTop s (gTop s + depth * 3 * sizeofWord)))
  else
    (none, s)

/-- The function `push_stack(ce, depth, name, &p)`: the new `p` and state. -/
def push_stack (V : TermView) (ce : CycleEntries) (depth : Nat) (name : Word) (p : Nat)
    (s : PL_local_data) : Nat × PL_local_data :=
  match push_cycle V ce depth (setGTop s (p + 2 * sizeofWord)) with
  | (some w, s1) => (p + 2 * sizeofWord, poke (poke s1 p w) (p + sizeofWord) name)
  | (none, s1) => (p, setGTop s1 p)

/-- The key-value pairs of the dict at `dict` with `n` pairs, value first. -/
def dictPairs (m : Mem) (dict n : Nat) : List (Word × Word) :=
  (List.range n).map (fun j =>
    (readCell m (dict + (2 + 2 * j) * sizeofWord), readCell m (dict + (3 + 2 * j) * sizeofWord)))

/-- Writing key-value pairs back from pair `j` on. -/
def storePairs (s : PL_local_data) (dict : Nat) : Nat → List (Word × Word) → PL_local_data
  | _, [] => s
  | j, kv :: rest =>
    storePairs
      (poke (poke s (dict + (2 + 2 * j) * sizeofWord) kv.1) (dict + (3 + 2 * j) * sizeofWord) kv.2)
      dict (j + 1) rest

/-- Modelled from the spec: `dict_order(dict, FALSE)` of `pl-dict.c` (not among
the sources) puts the `n` key-value pairs of the keyed record in key order, in
place; the order is the parameter `dict_order`. -/
def dictOrder (E : Ext) (dict n : Nat) (s : PL_local_data) : PL_local_data :=
  storePairs s dict 0 ((E.dict_order (dictPairs s.mem dict n)).take n)

/-- The words of the fixed part of the overflow context, in the order
written. -/
def contextFixed (s : PL_local_data) (cps : Int) : List Word :=
  [dict_functor 1, ATOM_stack_overflow,
   consInt ((s.stackset.limit / 1024 : Nat) : Int), ATOM_stack_limit,
   consInt ((usedStackP s.stackset.local).tdiv 1024), ATOM_localused,
   consInt ((usedStackP s.stackset.global).tdiv 1024), ATOM_globalused,
   consInt ((usedStackP s.stackset.trail).tdiv 1024), ATOM_trailused] ++
  (match s.environment_frame with
   | [] => []
   | f :: _ => [consUInt f.level, ATOM_depth]) ++
  [consInt (env_frames s.environment_frame), ATOM_environments,
   consInt cps, ATOM_choicepoints]

/-- The stack part of `push_overflow_context`: the scan for a non-terminating
recursion when the local stack is short of room, else (or when the scan finds
nothing) the top of the stack. The local array `ce` has `MAX_CYCLE + CYCLE_CTX`
entries; it and `is_cycle` start uninitialised, here all `NULL` and 0. The
test `roomStack(local) < LD->stacks.local.def_spare + LOCAL_MARGIN` compares a
`ptrdiff_t` with a `size_t`, so the room is converted to `size_t`. Returns the
new `p` and state. -/
def contextStack (E : Ext) (p : Nat) (s : PL_local_data) : Nat × PL_local_data :=
  if toSizeT (roomStackP s.stackset.local)
      < ((s.stackset.local.def_spare + E.LOCAL_MARGIN : Nat) : Int) then
    if (find_non_terminating_recursion E.view s.environment_frame
          (List.replicate (MAX_CYCLE + CYCLE_CTX) []) false).1 ≠ 0 then
      push_stack E.view
        (find_non_terminating_recursion E.view s.environment_frame
          (List.replicate (MAX_CYCLE + CYCLE_CTX) []) false).2.1
        (find_non_terminating_recursion E.view s.environment_frame
          (List.replicate (MAX_CYCLE + CYCLE_CTX) []) false).1
        (if (find_non_terminating_recursion E.view s.environment_frame
              (List.replicate (MAX_CYCLE + CYCLE_CTX) []) false).2.2 = true
         then ATOM_cycle else ATOM_non_terminating)
        p s
    else if (top_of_stack s.environment_frame
          (find_non_terminating_recursion E.view s.environment_frame
            (List.replicate (MAX_CYCLE + CYCLE_CTX) []) false).2.1 5).1 ≠ 0 then
      push_stack E.view
        (top_of_stack s.environment_frame
          (find_non_terminating_recursion E.view s.environment_frame
            (List.replicate (MAX_CYCLE + CYCLE_CTX) []) false).2.1 5).2
        (top_of_stack s.environment_frame
          (find_non_terminating_recursion E.view s.environment_frame
            (List.replicate (MAX_CYCLE + CYCLE_CTX) []) false).2.1 5).1
        ATOM_stack p s
    else
      (p, s)
  else if (top_of_stack s.environment_frame (List.replicate (MAX_CYCLE + CYCLE_CTX) []) 5).1 ≠ 0 then
    push_stack E.view
      (top_of_stack s.environment_frame (List.replicate (MAX_CYCLE + CYCLE_CTX) []) 5).2
      (top_of_stack s.environment_frame (List.replicate (MAX_CYCLE + CYCLE_CTX) []) 5).1
      ATOM_stack p s
  else
    (p, s)

/-- The function `push_overflow_context(stack, extra)`: the context cell and
the new state; `none` when `choice_points` does not end. -/
def push_overflow_context (E : Ext) (stack : Stack) (extra : Nat) (s : PL_local_data) :
    Option (Word × PL_local_data) :=
  if gTop s + (2 * 7 + extra) * sizeofWord < gMax s then
    match choice_points s.BFR s.query with
    | none => none
    | some cps =>
      let dict := gTop s
      let p := dict + (contextFixed s cps).length * sizeofWord
      let r := contextStack E p (setGTop (pokeSeq s dict (contextFixed s cps)) p)
      let n := ((r.1 - dict) / sizeofWord - 2) / 2
      some (consPtr dict Storage.STG_GLOBAL Tag.TAG_COMPOUND,
            dictOrder E dict n (poke r.2 dict (dict_functor n)))
  else
    some (Word.atom stack.name, s)

/-- Modelled from the spec: `freezeGlobal()` of `pl-incl.h` (not among the
sources) protects the global stack below the current top from being
reclaimed. -/
def freezeGlobal (s : PL_local_data) : PL_local_data := { s with frozen_bar := gTop s }

/-- The fatal branch of `outOfStack`: the messages printed before the process
is terminated. -/
def outOfStackFatal (stack : StackId) (s : PL_local_data) : PL_local_data :=
  emit (emit (emit (emit (emit s
    (Event.Sdprintf ("failed to recover from " ++ (stackOf s stack).name ++ "-overflow")))
    (Event.print_backtrace_named "out-of-stack"))
    (Event.save_backtrace "crash"))
    (Event.print_backtrace_named "crash"))
    (Event.fatalError "Sorry, cannot continue")

/-- The steps of `outOfStack` from `save_backtrace(msg)` to
`LD->outofstack = stack`. -/
def outOfStackEnter (stack : StackId) (s : PL_local_data) : PL_local_data :=
  { enableSpareStacks
      (if (stackOf s stack).spare < (stackOf s stack).def_spare / 4 then
        emit (emit (emit s (Event.save_backtrace "out-of-stack"))
          (Event.Sdprintf ((stackOf s stack).name ++ "-overflow")))
          (Event.print_backtrace_named "out-of-stack")
      else
        emit s (Event.save_backtrace "out-of-stack")) with
    trim_stack_requested := true
    exception_processing := true
    outofstack := some stack }

/-- The steps of `outOfStack` after `push_overflow_context` returned `ctx`:
the error term is written when five cells fit, else the exception is
`aborted`; then `exception_term = exception_bin`. -/
def outOfStackTerm (ctx : Word) (s : PL_local_data) : PL_local_data :=
  if gTop s + 5 * sizeofWord < gMax s then
    { freezeGlobal
        { setGTop (pokeSeq s (gTop s)
            [FUNCTOR_error2,
             consPtr (gTop s + 3 * sizeofWord) Storage.STG_GLOBAL Tag.TAG_COMPOUND,
             ctx, FUNCTOR_resource_error1, ATOM_stack])
            (gTop s + 5 * sizeofWord) with
          bin_value := consPtr (gTop s) Storage.STG_GLOBAL Tag.TAG_COMPOUND } with
      exception_term := s.exception_bin }
  else
    { emit s (Event.Sdprintf
        "ERROR: Out of global-stack. No room for exception term.  Aborting.") with
      bin_value := ATOM_aborted
      exception_term := s.exception_bin }

/-- The function `outOfStack(stack, how)`. -/
def outOfStack (E : Ext) (stack : StackId) (how : stack_overflow_action)
    (s : PL_local_data) : Outcome Bool :=
  if s.outofstack = some stack then
    Outcome.fatal (outOfStackFatal stack s)
  else
    match push_overflow_context E (stackOf (outOfStackEnter stack s) stack) 6
        (outOfStackEnter stack s) with
    | none => Outcome.hang
    | some r =>
      if how = stack_overflow_action.STACK_OVERFLOW_THROW ∧
          (outOfStackTerm r.1 r.2).throw_environment = true then
        Outcome.jump (outOfStackTerm r.1 r.2)
      else
        Outcome.ret false (outOfStackTerm r.1 r.2)

/-- The function `raiseStackOverflow(overflow)`. -/
def raiseStackOverflow (E : Ext) (overflow : Int) (s : PL_local_data) : Outcome Bool :=
  if overflow = LOCAL_OVERFLOW then
    outOfStack E StackId.local stack_overflow_action.STACK_OVERFLOW_RAISE s
  else if overflow = GLOBAL_OVERFLOW then
    outOfStack E StackId.global stack_overflow_action.STACK_OVERFLOW_RAISE s
  else if overflow = TRAIL_OVERFLOW then
    outOfStack E StackId.trail stack_overflow_action.STACK_OVERFLOW_RAISE s
  else if overflow = STACK_OVERFLOW then
    outOfStack E StackId.combined stack_overflow_action.STACK_OVERFLOW_RAISE s
  else if overflow = ARGUMENT_OVERFLOW then
    outOfStack E StackId.argument stack_overflow_action.STACK_OVERFLOW_RAISE s
  else if overflow = MEMORY_OVERFLOW then
    Outcome.ret (E.PL_error_nomem s).1 (E.PL_error_nomem s).2
  else if overflow = FALSE then
    Outcome.ret false s
  else
    Outcome.abort s

/-- The state a call leaves when it returns or leaves through `longjmp`. -/
def Outcome.finalState {α : Type} : Outcome α → Option PL_local_data
  | Outcome.ret _ s => some s
  | Outcome.jump s => some s
  | _ => none

/-- The call terminated the process through `fatalError`. -/
def Outcome.isFatal {α : Type} : Outcome α → Bool
  | Outcome.fatal _ => true
  | _ => false

/-- A sequence of `outOfStack` calls with nothing in between: each call runs in
the state the call before it left, and the sequence ends with the first call
that does not come back. The list holds how each call made ended. -/
def outOfStackSeq (E : Ext) :
    List (StackId × stack_overflow_action) → PL_local_data → List (Outcome Bool)
  | [], _ => []
  | c :: rest, s =>
    outOfStack E c.1 c.2 s ::
      (match (outOfStack E c.1 c.2 s).finalState with
       | some s' => outOfStackSeq E rest s'
       | none => [])

/-! ### Allocation on the global stack -/

/-- Modelled from the spec: `mkIndHdr(n, tag)` of `pl-incl.h` (not among the
sources), the header of an indirect block of `n` payload words. -/
def mkIndHdr (n : Nat) (tag : Tag) : Word := Word.hdr n 0 tag

/-- Modelled from the spec: `mkStrHdr(n, pad)` of `pl-incl.h` (not among the
sources), the header of a string of `n` payload words of which the last `pad`
bytes are padding. -/
def mkStrHdr (n pad : Nat) : Word := Word.hdr n pad Tag.TAG_STRING

/-- Modelled from the spec: `wsizeofInd(m)` of `pl-incl.h` (not among the
sources), the word count declared by a header. -/
def wsizeofInd (m : Word) : Nat :=
  match m with
  | Word.hdr n _ _ => n
  | _ => 0

/-- Modelled from the spec: `padHdr(m)` of `pl-incl.h` (not among the sources),
the pad count declared by a header. -/
def padHdr (m : Word) : Nat :=
  match m with
  | Word.hdr _ pad _ => pad
  | _ => 0

/-- Modelled from the spec: `tag(w)` of `pl-incl.h` (not among the sources), the
type tag of a cell. -/
def tagOf (w : Word) : Tag :=
  match w with
  | Word.var => Tag.TAG_VAR
  | Word.atom _ => Tag.TAG_ATOM
  | Word.functor _ _ => Tag.TAG_ATOM
  | Word.int _ => Tag.TAG_INTEGER
  | Word.ptr _ _ t => t
  | Word.hdr _ _ t => t
  | Word.bits _ => Tag.TAG_VAR

/-- The number `WORDS_PER_DOUBLE` of cells a double takes. -/
abbrev WORDS_PER_DOUBLE : Nat := 1

/-- The function `allocGlobalNoShift(n)`: the address of the cells, or `none`
for `NULL`, and the new state. The pointer sum `gTop+n` is an address of 64
bits: it wraps around at `2 ^ 64`. -/
def allocGlobalNoShift (n : Nat) (s : PL_local_data) : Option Nat × PL_local_data :=
  if (gTop s + n * sizeofWord) % 2 ^ 64 > gMax s then
    (none, s)
  else
    (some (gTop s), setGTop s ((gTop s + n * sizeofWord) % 2 ^ 64))

/-- The function `allocGlobal(n)`: the address of the cells, or `none` for
`NULL`. -/
def allocGlobal (E : Ext) (n : Nat) (s : PL_local_data) : Outcome (Option Nat) :=
  if E.hasGlobalSpace s n = false then
    if (E.ensureGlobalSpace s n ALLOW_GC).1 ≠ TRUE then
      match raiseStackOverflow E (E.ensureGlobalSpace s n ALLOW_GC).1
          (E.ensureGlobalSpace s n ALLOW_GC).2 with
      | Outcome.ret _ s2 => Outcome.ret none s2
      | Outcome.jump s2 => Outcome.jump s2
      | Outcome.fatal s2 => Outcome.fatal s2
      | Outcome.abort s2 => Outcome.abort s2
      | Outcome.hang => Outcome.hang
    else
      Outcome.ret (some (gTop (E.ensureGlobalSpace s n ALLOW_GC).2))
        (setGTop (E.ensureGlobalSpace s n ALLOW_GC).2
          (gTop (E.ensureGlobalSpace s n ALLOW_GC).2 + n * sizeofWord))
  else
    Outcome.ret (some (gTop s)) (setGTop s (gTop s + n * sizeofWord))

/-- The boxed branch of `put_int64` once three cells are there: header,
payload (the 64 bits of `l`), header, and the pointer stored in `*at`. -/
def putInt64Boxed (dest : Nat) (l : Int) (s : PL_local_data) : PL_local_data :=
  poke
    (pokeSeq (setGTop s (gTop s + 3 * sizeofWord)) (gTop s)
      [mkIndHdr 1 Tag.TAG_INTEGER, Word.bits (l % 2 ^ 64).toNat, mkIndHdr 1 Tag.TAG_INTEGER])
    dest (consPtr (gTop s) Storage.STG_GLOBAL Tag.TAG_INTEGER)

/-- The function `put_int64(at, l, flags)` for `SIZEOF_VOIDP == 8`: the result
code and the new state. -/
def put_int64 (E : Ext) (dest : Nat) (l : Int) (flags : Nat) (s : PL_local_data) :
    Int × PL_local_data :=
  if valInt (consInt l) = l then
    (TRUE, poke s dest (consInt l))
  else if E.hasGlobalSpace s 3 = false then
    if (E.ensureGlobalSpace s 3 flags).1 ≠ TRUE then
      E.ensureGlobalSpace s 3 flags
    else
      (TRUE, putInt64Boxed dest l (E.ensureGlobalSpace s 3 flags).2)
  else
    (TRUE, putInt64Boxed dest l s)

/-- The writes of `put_double` once the room question is settled: `gTop`
moves by `2 + WORDS_PER_DOUBLE` cells, `*at` gets the pointer, and the block is
header, the bytes of the double, header. -/
def putDoubleBoxed (dest : Nat) (d : Nat) (s : PL_local_data) : PL_local_data :=
  pokeSeq
    (poke (setGTop s (gTop s + (2 + WORDS_PER_DOUBLE) * sizeofWord)) dest
      (consPtr (gTop s) Storage.STG_GLOBAL Tag.TAG_FLOAT))
    (gTop s)
    [mkIndHdr WORDS_PER_DOUBLE Tag.TAG_FLOAT, Word.bits d, mkIndHdr WORDS_PER_DOUBLE Tag.TAG_FLOAT]

/-- The function `put_double(at, d, flags)`, the double given by its 64 bits:
the result code and the new state. -/
def put_double (E : Ext) (dest : Nat) (d : Nat) (flags : Nat) (s : PL_local_data) :
    Int × PL_local_data :=
  if flags ≠ ALLOW_CHECKED ∧ E.hasGlobalSpace s (2 + WORDS_PER_DOUBLE) = false then
    if (E.ensureGlobalSpace s (2 + WORDS_PER_DOUBLE) flags).1 ≠ TRUE then
      E.ensureGlobalSpace s (2 + WORDS_PER_DOUBLE) flags
    else
      (TRUE, putDoubleBoxed dest d (E.ensureGlobalSpace s (2 + WORDS_PER_DOUBLE) flags).2)
  else
    (TRUE, putDoubleBoxed dest d s)

/-- The cell count `lw = (len+sizeof(word))/sizeof(word)` of `allocString`; the
sum is a `size_t` of 64 bits and wraps around at `2 ^ 64`. -/
def stringWords (len : Nat) : Nat := (len + sizeofWord) % 2 ^ 64 / sizeofWord

/-- The pad count `pad = (int)(lw*sizeof(word) - len)` of `allocString`; the
difference is taken in `size_t`, modulo `2 ^ 64`. For every `len` below
`2 ^ 64` it lies between 1 and 8, so the cast to `int` keeps it. -/
def stringPad (len : Nat) : Nat := (stringWords len * sizeofWord + 2 ^ 64 - len) % 2 ^ 64

/-- The function `allocString(len)`: the address of the block, or `none` for
`NULL`. The three stores are `p[0] = m`, `p[lw] = 0` and `p[lw+1] = m`, in
this order. -/
def allocString (E : Ext) (len : Nat) (s : PL_local_data) : Outcome (Option Nat) :=
  match allocGlobal E (2 + stringWords len) s with
  | Outcome.ret (some p) s1 =>
    Outcome.ret (some p)
      (poke (poke (poke s1 p (mkStrHdr (stringWords len) (stringPad len)))
        (p + stringWords len * sizeofWord) (Word.bits 0))
        (p + (stringWords len + 1) * sizeofWord)
        (mkStrHdr (stringWords len) (stringPad len)))
  | Outcome.ret none s1 => Outcome.ret none s1
  | Outcome.jump s1 => Outcome.jump s1
  | Outcome.fatal s1 => Outcome.fatal s1
  | Outcome.abort s1 => Outcome.abort s1
  | Outcome.hang => Outcome.hang

/-- The copy loop `while(n-- > 0) *p++ = *pc++` of `globalIndirectFromCode`
over code memory `code`: the final `pc` and state. -/
def copyFromCode (code : Nat → Word) : Nat → Nat → Nat → PL_local_data → Nat × PL_local_data
  | 0, pc, _, s => (pc, s)
  | n + 1, pc, p, s => copyFromCode code n (pc + sizeofWord) (p + sizeofWord) (poke s p (code pc))

/-- The function `globalIndirectFromCode(&PC)` over code memory `code`: the
cell returned, or `none` for 0, and the new `PC`. -/
def globalIndirectFromCode (E : Ext) (code : Nat → Word) (pc : Nat) (s : PL_local_data) :
    Outcome (Option Word × Nat) :=
  match allocGlobal E (wsizeofInd (code pc) + 2) s with
  | Outcome.ret (some p) s1 =>
    Outcome.ret
      (some (consPtr p Storage.STG_GLOBAL (tagOf (code pc))),
       (copyFromCode code (wsizeofInd (code pc)) (pc + sizeofWord) (p + sizeofWord)
          (poke s1 p (code pc))).1)
      (poke
        (copyFromCode code (wsizeofInd (code pc)) (pc + sizeofWord) (p + sizeofWord)
          (poke s1 p (code pc))).2
        (p + (wsizeofInd (code pc) + 1) * sizeofWord) (code pc))
  | Outcome.ret none s1 => Outcome.ret (none, pc) s1
  | Outcome.jump s1 => Outcome.jump s1
  | Outcome.fatal s1 => Outcome.fatal s1
  | Outcome.abort s1 => Outcome.abort s1
  | Outcome.hang => Outcome.hang

/-! ### Integers: 32-bit cells and reading back -/

/-- Modelled from the spec: `consInt(i)` of `pl-incl.h` (not among the sources)
where a cell has 32 bits: of the integer shifted left over the 7 tag bits the
low 25 bits survive. -/
def consInt32 (i : Int) : Word := Word.int ((i + 2 ^ 24) % 2 ^ 25 - 2 ^ 24)

/-- The conversion `(word)x` of a 64-bit integer to a cell of 32 bits. -/
def toWord32 (x : Int) : Nat := (x % 2 ^ 32).toNat

/-- The boxed branch of `put_int64` for `SIZEOF_VOIDP == 4` once four cells of
four bytes are there: header, the two halves of `l` in the order of the
platform (`WORDS_BIGENDIAN` or not; `l>>32` is the arithmetic shift), header,
and the pointer stored in `*at`. -/
def putInt64Boxed32 (bigEndian : Bool) (dest : Nat) (l : Int) (s : PL_local_data) :
    PL_local_data :=
  poke
    (poke
      (poke
        (poke
          (poke (setGTop s (gTop s + 4 * 4)) (gTop s) (mkIndHdr 2 Tag.TAG_INTEGER))
          (gTop s + 4)
          (Word.bits (if bigEndian = true then toWord32 (l / 2 ^ 32) else toWord32 l)))
        (gTop s + 2 * 4)
        (Word.bits (if bigEndian = true then toWord32 l else toWord32 (l / 2 ^ 32))))
      (gTop s + 3 * 4) (mkIndHdr 2 Tag.TAG_INTEGER))
    dest (consPtr (gTop s) Storage.STG_GLOBAL Tag.TAG_INTEGER)

/-- The function `put_int64(at, l, flags)` for `SIZEOF_VOIDP == 4`, with the
byte order of the platform: the result code and the new state. -/
def put_int64_32 (bigEndian : Bool) (E : Ext) (dest : Nat) (l : Int) (flags : Nat)
    (s : PL_local_data) : Int × PL_local_data :=
  if valInt (consInt32 l) = l then
    (TRUE, poke s dest (consInt32 l))
  else if E.hasGlobalSpace s 4 = false then
    if (E.ensureGlobalSpace s 4 flags).1 ≠ TRUE then
      E.ensureGlobalSpace s 4 flags
    else
      (TRUE, putInt64Boxed32 bigEndian dest l (E.ensureGlobalSpace s 4 flags).2)
  else
    (TRUE, putInt64Boxed32 bigEndian dest l s)

/-- The state in which `put_int64` takes its `req` cells at `gTop`: the one
the reclaimer left when there was no room, else the state of the call. -/
def putInt64Base (E : Ext) (req flags : Nat) (s : PL_local_data) : PL_local_data :=
  if E.hasGlobalSpace s req = false then (E.ensureGlobalSpace s req flags).2 else s

/-- The bits of a payload cell. -/
def wordBits (w : Word) : Nat :=
  match w with
  | Word.bits n => n
  | _ => 0

/-- Modelled from the spec: `valIndirectP(w)` of `pl-incl.h` (not among the
sources), the address of the first payload cell of the block `w` points to,
one cell of `wordBytes` bytes behind the header. -/
def valIndirectP (wordBytes : Nat) (w : Word) : Nat :=
  match w with
  | Word.ptr a _ _ => a + wordBytes
  | _ => 0

/-- The value of an `int64_t` object that holds the 64 bits `n`. -/
def toInt64 (n : Nat) : Int :=
  if n % 2 ^ 64 < 2 ^ 63 then ((n % 2 ^ 64 : Nat) : Int) else ((n % 2 ^ 64 : Nat) : Int) - 2 ^ 64

/-- The function `valBignum__LD(w)` (`SIZEOF_VOIDP == 4`): the two payload
cells are copied to `val.w[0]` and `val.w[1]` and read as `val.i`; in the union
the cell at the lower address holds the low half of `val.i` on a little-endian
platform and the high half on a big-endian one. -/
def valBignum__LD (bigEndian : Bool) (m : Mem) (w : Word) : Int :=
  toInt64
    (if bigEndian = true then
      wordBits (readCell m (valIndirectP 4 w)) * 2 ^ 32 + wordBits (readCell m (valIndirectP 4 w + 4))
    else
      wordBits (readCell m (valIndirectP 4 w)) + wordBits (readCell m (valIndirectP 4 w + 4)) * 2 ^ 32)

/-- Modelled from the spec: the macro `valBignum(w)` of `pl-incl.h` (not among
the sources) where a cell has 64 bits, `*(int64_t *)valIndirectP(w)`. -/
def valBignum (m : Mem) (w : Word) : Int :=
  toInt64 (wordBits (readCell m (valIndirectP sizeofWord w)))

/-- Modelled from the spec: `valInteger(w)` of `pl-incl.h` (not among the
sources) decodes an integer cell: the inline value, or the boxed one. -/
def valInteger (m : Mem) (w : Word) : Int :=
  match w with
  | Word.int i => i
  | _ => valBignum m w

/-- As `valInteger` where a cell has 32 bits, the boxed value read by
`valBignum__LD`. -/
def valInteger32 (bigEndian : Bool) (m : Mem) (w : Word) : Int :=
  match w with
  | Word.int i => i
  | _ => valBignum__LD bigEndian m w

/-! ### Strings

The payload of a string is accessed through `char *` and `pl_wchar_t *`
pointers. A payload cell holds its eight bytes as the base-256 digits of
`Word.bits n`; the byte at offset `k` of the cell is digit `k`. The order is
that of a little-endian platform; the string functions write and read the
payload through the same byte view, so the order does not show in what they
return. -/

/-- The byte at offset `k` of a cell that holds the bits `n`. -/
def byteOf (n k : Nat) : Nat := n / 2 ^ (8 * k) % 256

/-- The bits `n` of a cell after the byte at offset `k` is set to `b`. -/
def setByte (n k b : Nat) : Nat :=
  n % 2 ^ (8 * k) + b % 256 * 2 ^ (8 * k) + n / 2 ^ (8 * (k + 1)) * 2 ^ (8 * (k + 1))

/-- The read `*(unsigned char *)a` of the byte at address `a`, which lies in
the cell at `a - a % sizeofWord`. -/
def readByte (m : Mem) (a : Nat) : Nat :=
  byteOf (wordBits (readCell m (a - a % sizeofWord))) (a % sizeofWord)

/-- The write `*(unsigned char *)a = b`. -/
def writeByte (m : Mem) (a b : Nat) : Mem :=
  writeCell m (a - a % sizeofWord)
    (Word.bits (setByte (wordBits (readCell m (a - a % sizeofWord))) (a % sizeofWord) b))

/-- The bytes `bs` stored from address `dst` on, one after the other: `memcpy`
from a source with these bytes, or a loop of byte stores `*t++ = b`. -/
def memcpy (m : Mem) : Nat → List Nat → Mem
  | _, [] => m
  | dst, b :: bs => memcpy (writeByte m dst b) (dst + 1) bs

/-- Modelled from the spec: `sizeof(pl_wchar_t)`; `pl_wchar_t` is `wchar_t`
(`pl-incl.h`, not among the sources), taken as four bytes. -/
abbrev sizeofWChar : Nat := 4

/-- The four bytes of a `pl_wchar_t` object that holds `c`, lowest address
first. -/
def wcharBytes (c : Nat) : List Nat :=
  [c % 256, c / 2 ^ 8 % 256, c / 2 ^ 16 % 256, c / 2 ^ 24 % 256]

/-- The read `*(pl_wchar_t *)a`. -/
def readWChar (m : Mem) (a : Nat) : Nat :=
  readByte m a + 2 ^ 8 * readByte m (a + 1) + 2 ^ 16 * readByte m (a + 2)
    + 2 ^ 24 * readByte m (a + 3)

/-- Modelled from the spec: `valPtr(w)` of `pl-incl.h` (not among the sources),
the address a pointer cell holds. -/
def valPtr (w : Word) : Nat :=
  match w with
  | Word.ptr a _ _ => a
  | _ => 0

/-- The function `globalString(len, s)`, where `s i` is the byte `s[i]`: the
cell returned, `none` for 0. The size `len+1` is a `size_t` and wraps around
at `2 ^ 64`. The marker and the `len` bytes take `len + 1` bytes of the
payload; when the size or the cell count wrapped around, the payload is
shorter than that, `memcpy` runs over the end of the block and on through the
address space, and the process is terminated in it (`Outcome.abort`). -/
def globalString (E : Ext) (len : Nat) (s : Nat → Nat) (st : PL_local_data) :
    Outcome (Option Word) :=
  match allocString E ((len + 1) % 2 ^ 64) st with
  | Outcome.ret (some p) s1 =>
    if len + 1 ≤ stringWords ((len + 1) % 2 ^ 64) * sizeofWord then
      Outcome.ret (some (consPtr p Storage.STG_GLOBAL Tag.TAG_STRING))
        { s1 with
          mem :=
            memcpy (writeByte s1.mem (p + sizeofWord) 66) (p + sizeofWord + 1)
              ((List.range len).map s) }
    else
      Outcome.abort s1
  | Outcome.ret none s1 => Outcome.ret none s1
  | Outcome.jump s1 => Outcome.jump s1
  | Outcome.fatal s1 => Outcome.fatal s1
  | Outcome.abort s1 => Outcome.abort s1
  | Outcome.hang => Outcome.hang

/-- Modelled from the spec: the value of a `pl_wchar_t` object that holds the
32 bits `c`. `pl_wchar_t` is `wchar_t` (`pl-incl.h`, not among the sources),
taken as a signed integer of 32 bits: bits with the top bit set are a negative
value. -/
def wcharVal (c : Nat) : Int :=
  if c % 2 ^ 32 < 2 ^ 31 then ((c % 2 ^ 32 : Nat) : Int) else ((c % 2 ^ 32 : Nat) : Int) - 2 ^ 32

/-- The loop `for(p=s; p<e; p++) if ( *p > 0xff ) break;` of `globalWString`
from index `i` with `n` elements left: the index `p - s` it ends with. The
element `s i` is given by its 32 bits and compared as a `pl_wchar_t`. -/
def wideScan (s : Nat → Nat) : Nat → Nat → Nat
  | 0, i => i
  | n + 1, i => if wcharVal (s i) > 0xff then i else wideScan s n (i + 1)

/-- The function `globalWString(len, s)`, where `s i` holds the 32 bits of the
element `s[i]`: the cell returned, `none` for 0. The sizes `len+1`,
`(len+1)*sizeof(pl_wchar_t)` and `len*sizeof(pl_wchar_t)` are `size_t` values
and wrap around at `2 ^ 64`. As in `globalString`, when a size or the cell
count wrapped around so that the bytes stored do not fit the payload, the
stores run over the end of the block and on through the address space, and the
process is terminated in them (`Outcome.abort`). -/
def globalWString (E : Ext) (len : Nat) (s : Nat → Nat) (st : PL_local_data) :
    Outcome (Option Word) :=
  if wideScan s len 0 = len then
    match allocString E ((len + 1) % 2 ^ 64) st with
    | Outcome.ret (some g) s1 =>
      if len + 1 ≤ stringWords ((len + 1) % 2 ^ 64) * sizeofWord then
        Outcome.ret (some (consPtr g Storage.STG_GLOBAL Tag.TAG_STRING))
          { s1 with
            mem :=
              memcpy (writeByte s1.mem (g + sizeofWord) 66) (g + sizeofWord + 1)
                ((List.range len).map (fun i => s i % 256)) }
      else
        Outcome.abort s1
    | Outcome.ret none s1 => Outcome.ret none s1
    | Outcome.jump s1 => Outcome.jump s1
    | Outcome.fatal s1 => Outcome.fatal s1
    | Outcome.abort s1 => Outcome.abort s1
    | Outcome.hang => Outcome.hang
  else
    match allocString E ((len + 1) * sizeofWChar % 2 ^ 64) st with
    | Outcome.ret (some g) s1 =>
      if sizeofWChar + len * sizeofWChar % 2 ^ 64
          ≤ stringWords ((len + 1) * sizeofWChar % 2 ^ 64) * sizeofWord then
        Outcome.ret (some (consPtr g Storage.STG_GLOBAL Tag.TAG_STRING))
          { s1 with
            mem :=
              memcpy
                (writeByte (memcpy s1.mem (g + sizeofWord) (wcharBytes 0)) (g + sizeofWord) 87)
                (g + sizeofWord + sizeofWChar)
                ((((List.range len).map (fun i => wcharBytes (s i))).flatten).take
                  (len * sizeofWChar % 2 ^ 64)) }
      else
        Outcome.abort s1
    | Outcome.ret none s1 => Outcome.ret none s1
    | Outcome.jump s1 => Outcome.jump s1
    | Outcome.fatal s1 => Outcome.fatal s1
    | Outcome.abort s1 => Outcome.abort s1
    | Outcome.hang => Outcome.hang

/-- The function `getCharsString__LD(w, &len)`: the pointer returned (`none`
for `NULL`) and the length stored; `none` when the `assert` fails. -/
def getCharsString__LD (m : Mem) (w : Word) : Option (Option Nat × Nat) :=
  if readByte m (valPtr w + sizeofWord) = 66 then
    some (some (valPtr w + sizeofWord + 1),
      wsizeofInd (readCell m (valPtr w)) * sizeofWord - padHdr (readCell m (valPtr w)) - 1)
  else if readByte m (valPtr w + sizeofWord) = 87 then
    some (none,
      wsizeofInd (readCell m (valPtr w)) * sizeofWord - padHdr (readCell m (valPtr w)) - 1)
  else
    none

/-- The function `getCharsWString__LD(w, &len)`: the pointer returned (`none`
for `NULL`) and the length stored (`none` when nothing is stored). -/
def getCharsWString__LD (m : Mem) (w : Word) : Option Nat × Option Nat :=
  if readByte m (valPtr w + sizeofWord) ≠ 87 then
    (none, none)
  else
    (some (valPtr w + sizeofWord + sizeofWChar),
     some ((wsizeofInd (readCell m (valPtr w)) * sizeofWord - padHdr (readCell m (valPtr w)))
        / sizeofWChar - 1))

/-! ### Generic operations on indirect blocks -/

/-- Modelled from the spec: `addressIndirect(w)` of `pl-incl.h` (not among the
sources), the address of the header cell of the block `w` points to. -/
def addressIndirect (w : Word) : Nat := valPtr w

/-- The loop `while( n-- > 0 ) { if ( *++p1 != *++p2 ) fail; }` of
`equalIndirect`; true when it runs to its end. -/
def equalIndirectLoop (m : Mem) : Nat → Nat → Nat → Bool
  | 0, _, _ => true
  | n + 1, p1, p2 =>
    if readCell m (p1 + sizeofWord) ≠ readCell m (p2 + sizeofWord) then false
    else equalIndirectLoop m n (p1 + sizeofWord) (p2 + sizeofWord)

/-- The function `equalIndirect(w1, w2)`. -/
def equalIndirect (m : Mem) (w1 w2 : Word) : Bool :=
  if readCell m (addressIndirect w1) = readCell m (addressIndirect w2) then
    equalIndirectLoop m (wsizeofInd (readCell m (addressIndirect w1)))
      (addressIndirect w1) (addressIndirect w2)
  else
    false

/-- The loop `while(n-- > 0) { if ( *++pc != *++pa ) fail; }` of
`equalIndirectFromCode`: the final `pc`, or `none` when it fails. -/
def equalIndirectFromCodeLoop (code : Nat → Word) (m : Mem) : Nat → Nat → Nat → Option Nat
  | 0, pc, _ => some pc
  | n + 1, pc, pa =>
    if code (pc + sizeofWord) ≠ readCell m (pa + sizeofWord) then none
    else equalIndirectFromCodeLoop code m n (pc + sizeofWord) (pa + sizeofWord)

/-- The function `equalIndirectFromCode(a, &PC)` over code memory `code`: the
truth value returned and the value of `PC` after the call. -/
def equalIndirectFromCode (code : Nat → Word) (m : Mem) (a : Word) (PC : Nat) : Bool × Nat :=
  if code PC = readCell m (addressIndirect a) then
    match equalIndirectFromCodeLoop code m (wsizeofInd (code PC)) PC (addressIndirect a) with
    | some pc => (true, pc + sizeofWord)
    | none => (false, PC)
  else
    (false, PC)

/-! ### The argument stack -/

/-- The external collaborators of `pushArgumentStack__LD`, taken as
parameters: `nextStackSize(stack, minfree)` with the new size in bytes it
returns (0 when the stack cannot grow), and `stack_realloc(base, size)` with
the new base it returns (`none` for `NULL`) and the memory it leaves. -/
structure StackExt where
  nextStackSize : Stack → Nat → Nat
  stack_realloc : PL_local_data → Nat → Nat → Option (Nat × Mem)

/-- The pointer `a` moved by `d` bytes. -/
def shiftPtr (a : Nat) (d : Int) : Nat := ((a : Int) + d).toNat

/-- The call ended as it did, its return value dropped: a call in a `void`
function. -/
def Outcome.discard {α : Type} : Outcome α → Outcome Unit
  | Outcome.ret _ s => Outcome.ret () s
  | Outcome.jump s => Outcome.jump s
  | Outcome.fatal s => Outcome.fatal s
  | Outcome.abort s => Outcome.abort s
  | Outcome.hang => Outcome.hang

/-- The steps `aTop += as; aBase = newbase;` and the loop over the query frames
`qf->aSave += as` of `pushArgumentStack__LD`, for the displacement `as` in
cells. -/
def rebaseArgumentStack (newbase : Nat) (as : Int) (s : PL_local_data) : PL_local_data :=
  { s with
    stackset := { s.stackset with
      argument := { s.stackset.argument with
        top := shiftPtr s.stackset.argument.top (as * sizeofWord)
        base := newbase } }
    query := s.query.map (fun qf => { qf with aSave := shiftPtr qf.aSave (as * sizeofWord) }) }

/-- The steps `aMax = addPointer(newbase, newsize); *aTop++ = p;` of
`pushArgumentStack__LD`; the entry `p`, a pointer to a cell, is kept as its
bits. -/
def pushArgumentEntry (p newbase newsize : Nat) (s : PL_local_data) : PL_local_data :=
  { poke s s.stackset.argument.top (Word.bits p) with
    stackset := { s.stackset with
      argument := { s.stackset.argument with
        max := newbase + newsize
        top := s.stackset.argument.top + sizeofWord } } }

/-- The function `pushArgumentStack__LD(p)`. The difference `newbase - aBase`
of two `Word *` pointers counts cells. -/
def pushArgumentStack__LD (E : Ext) (X : StackExt) (p : Nat) (s : PL_local_data) :
    Outcome Unit :=
  if X.nextStackSize s.stackset.argument 1 ≠ 0 then
    match X.stack_realloc s s.stackset.argument.base (X.nextStackSize s.stackset.argument 1) with
    | some (newbase, m) =>
      if ((newbase : Int) - (s.stackset.argument.base : Int)) / sizeofWord ≠ 0 then
        Outcome.ret ()
          (pushArgumentEntry p newbase (X.nextStackSize s.stackset.argument 1)
            (rebaseArgumentStack newbase
              (((newbase : Int) - (s.stackset.argument.base : Int)) / sizeofWord)
              { s with mem := m }))
      else
        Outcome.ret ()
          (pushArgumentEntry p newbase (X.nextStackSize s.stackset.argument 1)
            { s with mem := m })
    | none =>
      (outOfStack E StackId.argument stack_overflow_action.STACK_OVERFLOW_THROW s).discard
  else
    (outOfStack E StackId.argument stack_overflow_action.STACK_OVERFLOW_THROW s).discard

/-! ### Lingering objects -/

/-- The record `linger_list` (declared in `pl-alloc.h`, not among the sources;
the fields are those `linger` and `free_lingering` use). Pointers are
addresses, `NULL` is 0; `unalloc` is the address of the deallocator. -/
structure linger_list where
  next : Nat
  generation : Nat
  object : Nat
  unalloc : Nat
deriving DecidableEq

/-- The memory the linger functions work on: the list head `*list`, the live
records by address, the calls `(*unalloc)(object)` made so far, in order, as
pairs of deallocator and object, and the records handed to `freeHeap`, in
order. -/
structure LingerHeap where
  head : Nat
  recs : Nat → Option linger_list
  calls : List (Nat × Nat)
  freed : List Nat

/-- A pointer of type `linger_list **`: `list` itself, or `&c->next` for the
record at address `c`. -/
inductive LingerPtr where
  | list : LingerPtr
  | nextOf (c : Nat) : LingerPtr
deriving DecidableEq

/-- The read `*p`; `none` when `p` lies in a record that is not live. -/
def LingerHeap.load (h : LingerHeap) : LingerPtr → Option Nat
  | LingerPtr.list => some h.head
  | LingerPtr.nextOf c => (h.recs c).map (fun r => r.next)

/-- The write `*p = v`. -/
def LingerHeap.store (h : LingerHeap) : LingerPtr → Nat → LingerHeap
  | LingerPtr.list, v => { h with head := v }
  | LingerPtr.nextOf c, v =>
    { h with recs := fun a =>
        if a = c then (h.recs c).map (fun r => { r with next := v }) else h.recs a }

/-- Modelled from the spec: `COMPARE_AND_SWAP(p, o, n)` of `pl-incl.h` (not
among the sources), run without interference: when `*p` is `o` it stores `n`
and yields true, else it stores nothing and yields false. -/
def COMPARE_AND_SWAP (h : LingerHeap) (p : LingerPtr) (o n : Nat) : Option (Bool × LingerHeap) :=
  match h.load p with
  | none => none
  | some v => if v = o then some (true, h.store p n) else some (false, h)

/-- The loop `do { o = *list; c->next = o; } while(!COMPARE_AND_SWAP(list, o, c))`
of `linger`; `fuel` bounds the passes made. -/
def lingerLoop : Nat → LingerHeap → Nat → Option LingerHeap
  | 0, _, _ => none
  | fuel + 1, h, c =>
    match COMPARE_AND_SWAP (h.store (LingerPtr.nextOf c) h.head) LingerPtr.list h.head c with
    | some (true, h2) => some h2
    | some (false, h2) => lingerLoop fuel h2 c
    | none => none

/-- The function `linger(list, unalloc, object)`, where `c` is the block that
`allocHeapOrHalt(sizeof(*c))` returned and `gen` is what `global_generation()`
returned; the `next` field of the new block is 0 until it is assigned. -/
def linger (fuel : Nat) (c gen unalloc object : Nat) (h : LingerHeap) : Option LingerHeap :=
  lingerLoop fuel
    { h with recs := fun a => if a = c then some ⟨0, gen, object, unalloc⟩ else h.recs a } c

/-- The loop `while(!COMPARE_AND_SWAP(p, c, c->next)) p = &(*p)->next` of
`free_lingering`: the state and the final `p`. -/
def unlinkLoop : Nat → LingerHeap → LingerPtr → Nat → Option (LingerHeap × LingerPtr)
  | 0, _, _, _ => none
  | fuel + 1, h, p, c =>
    match h.recs c with
    | none => none
    | some r =>
      match COMPARE_AND_SWAP h p c r.next with
      | none => none
      | some (true, h1) => some (h1, p)
      | some (false, h1) =>
        match h1.load p with
        | none => none
        | some q => unlinkLoop fuel h1 (LingerPtr.nextOf q) c

/-- The loop `while(c)` of `free_lingering` with the variables `p` and `c`;
`fuel` bounds the passes made. The call `(*c->unalloc)(c->object)` is recorded
in `calls`, and `freeHeap(c, sizeof(*c))` ends the life of the record. -/
def freeLingeringLoop (generation : Nat) : Nat → LingerHeap → LingerPtr → Nat → Option LingerHeap
  | 0, _, _, _ => none
  | fuel + 1, h, p, c =>
    if c = 0 then some h
    else
      match h.recs c with
      | none => none
      | some r =>
        if r.generation < generation then
          match unlinkLoop (fuel + 1) h p c with
          | none => none
          | some (h1, p1) =>
            match h1.recs c with
            | none => none
            | some r1 =>
              match LingerHeap.load
                  { h1 with
                    calls := h1.calls ++ [(r1.unalloc, r1.object)]
                    recs := fun a => if a = c then none else h1.recs a
                    freed := h1.freed ++ [c] } p1 with
              | none => none
              | some c1 =>
                freeLingeringLoop generation fuel
                  { h1 with
                    calls := h1.calls ++ [(r1.unalloc, r1.object)]
                    recs := fun a => if a = c then none else h1.recs a
                    freed := h1.freed ++ [c] } p1 c1
        else
          match h.load p with
          | none => none
          | some q =>
            match h.load (LingerPtr.nextOf q) with
            | none => none
            | some c1 => freeLingeringLoop generation fuel h (LingerPtr.nextOf q) c1

/-- The function `free_lingering(list, generation)`; `none` when `fuel` passes
do not end the loop. -/
def free_lingering (fuel : Nat) (generation : Nat) (h : LingerHeap) : Option LingerHeap :=
  match h.load LingerPtr.list with
  | none => none
  | some c => freeLingeringLoop generation fuel h LingerPtr.list c

/-- A call of `linger`: the block allocated for the record, the generation
stamped, the deallocator and the object. -/
structure LingerCall where
  block : Nat
  generation : Nat
  unalloc : Nat
  object : Nat
deriving DecidableEq

/-- A sequence of `linger` calls on one list, first call first. -/
def lingerAll (fuel : Nat) : List LingerCall → LingerHeap → Option LingerHeap
  | [], h => some h
  | x :: rest, h =>
    match linger fuel x.block x.generation x.unalloc x.object h with
    | none => none
    | some h1 => lingerAll fuel rest h1

/-- The empty list with no live record. -/
def emptyLingerHeap : LingerHeap := ⟨0, fun _ => none, [], []⟩

/-! ### Heap allocation

The underlying allocator (`GC_MALLOC` and its variants, `malloc`, `realloc`)
is external: a call is recorded as an event, and the block it returns (0 for
`NULL`) is the parameter `r` of the function that makes the call. -/

/-- What a heap function does besides returning: calls of the underlying
allocator and deallocator, `memset`, `GC_SET_FLAGS` and `fatalError`. -/
inductive HeapEvent where
  | allocate (n : Nat)
  | reallocate (mem n : Nat)
  | release (mem : Nat)
  | memset (mem magic n : Nat)
  | set_flags (mem : Nat)
  | fatalError (msg : String)
deriving DecidableEq

/-- How a call of a heap function ends: it returns a block (0 for `NULL`), or
the process is terminated; with the events up to then. -/
inductive HeapOutcome where
  | ret (block : Nat) (events : List HeapEvent)
  | halt (events : List HeapEvent)
deriving DecidableEq

/-- How a call of `freeHeap` ends: it returns, or the process is terminated by
a fault in a store; with the events up to then, the faulting one last. -/
inductive FreeOutcome where
  | done (events : List HeapEvent)
  | fault (events : List HeapEvent)
deriving DecidableEq

/-- The constant `ALLOC_FREE_MAGIC`. -/
def ALLOC_FREE_MAGIC : Nat := 0xFB

/-- The constant `ALLOC_NEW_MAGIC`. -/
def ALLOC_NEW_MAGIC : Nat := 0xF9

/-- The function `outOfCore()`: the call of `fatalError`, which terminates the
process. -/
def outOfCore : List HeapEvent := [HeapEvent.fatalError "Could not allocate memory: %s"]

/-- The function `allocHeap(n)` of the Boehm-GC strategy; `debug` is
`ALLOC_DEBUG`. -/
def BoehmGC.allocHeap (debug : Bool) (r n : Nat) : Nat × List HeapEvent :=
  (r, [HeapEvent.allocate n] ++
    (if debug = true ∧ r ≠ 0 then [HeapEvent.memset r ALLOC_NEW_MAGIC n] else []))

/-- The function `allocHeapOrHalt(n)` of the Boehm-GC strategy. -/
def BoehmGC.allocHeapOrHalt (debug : Bool) (r n : Nat) : HeapOutcome :=
  if (BoehmGC.allocHeap debug r n).1 = 0 then
    HeapOutcome.halt ((BoehmGC.allocHeap debug r n).2 ++ outOfCore)
  else
    HeapOutcome.ret (BoehmGC.allocHeap debug r n).1 (BoehmGC.allocHeap debug r n).2

/-- The function `freeHeap(mem, n)` of the Boehm-GC strategy. -/
def BoehmGC.freeHeap (debug : Bool) (mem n : Nat) : FreeOutcome :=
  FreeOutcome.done
    ((if debug = true ∧ mem ≠ 0 then [HeapEvent.memset mem ALLOC_FREE_MAGIC n] else []) ++
      [HeapEvent.release mem])

/-- The function `allocHeap(n)` of the system-malloc strategy. -/
def SystemMalloc.allocHeap (debug : Bool) (r n : Nat) : Nat × List HeapEvent :=
  (r, [HeapEvent.allocate n] ++
    (if debug = true ∧ r ≠ 0 then [HeapEvent.memset r ALLOC_NEW_MAGIC n] else []))

/-- The function `allocHeapOrHalt(n)` of the system-malloc strategy. -/
def SystemMalloc.allocHeapOrHalt (debug : Bool) (r n : Nat) : HeapOutcome :=
  if n ≠ 0 then
    if (SystemMalloc.allocHeap debug r n).1 = 0 then
      HeapOutcome.halt ((SystemMalloc.allocHeap debug r n).2 ++ outOfCore)
    else
      HeapOutcome.ret (SystemMalloc.allocHeap debug r n).1 (SystemMalloc.allocHeap debug r n).2
  else
    HeapOutcome.ret 0 []

/-- The function `freeHeap(mem, n)` of the system-malloc strategy. With
`ALLOC_DEBUG` the `memset` is made whatever `mem` is: for `NULL` and a size
that is not 0 it stores through the null pointer, which terminates the process
before `free` is reached. -/
def SystemMalloc.freeHeap (debug : Bool) (mem n : Nat) : FreeOutcome :=
  if debug = true then
    if mem = 0 ∧ n ≠ 0 then
      FreeOutcome.fault [HeapEvent.memset mem ALLOC_FREE_MAGIC n]
    else
      FreeOutcome.done [HeapEvent.memset mem ALLOC_FREE_MAGIC n, HeapEvent.release mem]
  else
    FreeOutcome.done [HeapEvent.release mem]

/-- The function `PL_malloc(size)`; `r` is what `GC_MALLOC(size)` returns. -/
def PL_malloc (r size : Nat) : HeapOutcome :=
  if r ≠ 0 then HeapOutcome.ret r [HeapEvent.allocate size]
  else HeapOutcome.halt ([HeapEvent.allocate size] ++ outOfCore)

/-- The function `PL_malloc_atomic(size)`; `r` is what `GC_MALLOC_ATOMIC(size)`
returns. -/
def PL_malloc_atomic (r size : Nat) : HeapOutcome :=
  if r ≠ 0 then HeapOutcome.ret r [HeapEvent.allocate size]
  else HeapOutcome.halt ([HeapEvent.allocate size] ++ outOfCore)

/-- The function `PL_malloc_uncollectable(size)`; `r` is what
`GC_MALLOC_UNCOLLECTABLE(size)` returns. -/
def PL_malloc_uncollectable (r size : Nat) : HeapOutcome :=
  if r ≠ 0 then HeapOutcome.ret r [HeapEvent.allocate size]
  else HeapOutcome.halt ([HeapEvent.allocate size] ++ outOfCore)

/-- The function `PL_malloc_atomic_uncollectable(size)`; `r` is what
`GC_MALLOC_ATOMIC_UNCOLLECTABLE(size)` returns. -/
def PL_malloc_atomic_uncollectable (r size : Nat) : HeapOutcome :=
  if r ≠ 0 then HeapOutcome.ret r [HeapEvent.allocate size]
  else HeapOutcome.halt ([HeapEvent.allocate size] ++ outOfCore)

/-- The function `PL_malloc_unmanaged(size)`; `r` is what `GC_MALLOC(size)`
returns, and `flag` says that `HAVE_BOEHM_GC` and `GC_FLAG_UNCOLLECTABLE` are
defined. -/
def PL_malloc_unmanaged (flag : Bool) (r size : Nat) : HeapOutcome :=
  if r ≠ 0 then
    HeapOutcome.ret r
      ([HeapEvent.allocate size] ++ (if flag = true then [HeapEvent.set_flags r] else []))
  else HeapOutcome.halt ([HeapEvent.allocate size] ++ outOfCore)

/-- The function `PL_malloc_atomic_unmanaged(size)`; `r` is what
`GC_MALLOC_ATOMIC(size)` returns. -/
def PL_malloc_atomic_unmanaged (flag : Bool) (r size : Nat) : HeapOutcome :=
  if r ≠ 0 then
    HeapOutcome.ret r
      ([HeapEvent.allocate size] ++ (if flag = true then [HeapEvent.set_flags r] else []))
  else HeapOutcome.halt ([HeapEvent.allocate size] ++ outOfCore)

/-- The function `PL_realloc(mem, size)`; `r` is what `GC_REALLOC(mem, size)`
returns. -/
def PL_realloc (r mem size : Nat) : HeapOutcome :=
  if r = 0 then HeapOutcome.halt ([HeapEvent.reallocate mem size] ++ outOfCore)
  else HeapOutcome.ret r [HeapEvent.reallocate mem size]

/-- The call returned a block that is not `NULL`. -/
def HeapOutcome.returnsBlock : HeapOutcome → Bool
  | HeapOutcome.ret b _ => decide (b ≠ 0)
  | HeapOutcome.halt _ => false

/-- The call terminated the process through `outOfCore`: the events end with
its call of `fatalError`. -/
def HeapOutcome.haltsOutOfCore : HeapOutcome → Bool
  | HeapOutcome.ret _ _ => false
  | HeapOutcome.halt ev =>
    decide (ev.getLast? = some (HeapEvent.fatalError "Could not allocate memory: %s"))

/-! ### The debugging list of the Boehm-GC strategy -/

/-- The record `linger` of `GC_linger`; `next` is an address, 0 for `NULL`. -/
structure GCLinger where
  next : Nat
  object : Nat
deriving DecidableEq

/-- The memory `GC_linger` works on: the global `GC_lingering` and the records
by address. -/
structure GCLingerHeap where
  GC_lingering : Nat
  recs : Nat → Option GCLinger

/-- The function `GC_linger(ptr)`, where `l` is the block that
`GC_MALLOC_UNCOLLECTABLE(sizeof(*l))` returned; the `next` field of the new
block is 0 until it is assigned. The lock is not modelled: one call runs at a
time. -/
def GC_linger (l ptr : Nat) (h : GCLingerHeap) : GCLingerHeap :=
  let h1 : GCLingerHeap :=
    { h with recs := fun a => if a = l then some ⟨0, ptr⟩ else h.recs a }
  let h2 : GCLingerHeap :=
    { h1 with
      recs := fun a =>
        if a = l then (h1.recs l).map (fun r => { r with next := h1.GC_lingering })
        else h1.recs a }
  { h2 with GC_lingering := ((h2.recs l).map (fun r => r.next)).getD 0 }

/-- The objects tracked: those of the records reached from the address `a`
through the `next` fields, in order, the list ending with `NULL`. -/
def GCLingerChain (h : GCLingerHeap) : Nat → List Nat → Prop
  | a, [] => a = 0
  | a, o :: rest =>
    a ≠ 0 ∧ ∃ r, h.recs a = some r ∧ r.object = o ∧ GCLingerChain h r.next rest

/-- The empty debugging list with no live record. -/
def emptyGCLingerHeap : GCLingerHeap := ⟨0, fun _ => none⟩

/-! ### Assumptions used in the statements -/

/-- The region invariant `base ≤ top ≤ max` for the four regions of
`LD->stacks`. -/
def stacksWf (s : PL_local_data) : Prop :=
  s.stackset.local.wf ∧ s.stackset.global.wf ∧ s.stackset.trail.wf ∧ s.stackset.argument.wf

instance (s : PL_local_data) : Decidable (stacksWf s) := by
  unfold stacksWf; exact inferInstance

/-- What the allocation functions rely on from the external collaborators:
`hasGlobalSpace(n)` holds only when `n` cells fit below `gMax`; the reclaimer
and `PL_error` leave the regions well formed; and when the reclaimer reports
success the `n` cells asked for fit. -/
def ExtOk (E : Ext) : Prop :=
  (∀ s n, E.hasGlobalSpace s n = true → gTop s + n * sizeofWord ≤ gMax s) ∧
  (∀ s n f, stacksWf s → stacksWf (E.ensureGlobalSpace s n f).2) ∧
  (∀ s n f, (E.ensureGlobalSpace s n f).1 = TRUE →
    gTop (E.ensureGlobalSpace s n f).2 + n * sizeofWord
      ≤ gMax (E.ensureGlobalSpace s n f).2) ∧
  (∀ s, stacksWf s → stacksWf (E.PL_error_nomem s).2)

/-- The log `m'` extends the log `m` by writes to cells that lie in
`[lo, hi)`. -/
def WritesWithin (m m' : Mem) (lo hi : Nat) : Prop :=
  ∃ added : Mem, m' = added ++ m ∧ ∀ x ∈ added, lo ≤ x.1 ∧ x.1 + sizeofWord ≤ hi

/-- The state `s'` differs from `s` in the memory log and `gTop` at most. -/
def sameBut (s s' : PL_local_data) : Prop :=
  ∃ (m : Mem) (g : Nat), s' = setGTop { s with mem := m } g

/-- What `push_goal` leaves in memory `M` for argument `i` of the frame, with
the argument cell at `cell` and the description cells at `ad`: the argument
cell holds the dereferenced argument when that is not compound, else a pointer
to three cells at `ad`, which hold `'[|]'(cyclic_term, [])` for a list that
ends in a list cell, `'[|]'(Len, End)` with the cell `End` at which the list
ends for any other list, and `Name/Arity` for any other compound. -/
def DescriptorAt (V : TermView) (fr : Frame) (i : Nat) (M : Mem) (cell ad : Nat) : Prop :=
  (isTerm (V.valueAt (V.deRef (argFrameP fr i))) = false →
    readCell M cell = V.valueAt (V.deRef (argFrameP fr i))) ∧
  (isTerm (V.valueAt (V.deRef (argFrameP fr i))) = true →
    readCell M cell = consPtr ad Storage.STG_GLOBAL Tag.TAG_COMPOUND ∧
    (V.isList (V.valueAt (V.deRef (argFrameP fr i))) = true →
      V.isList (V.valueAt (V.deRef (V.skip_list (V.deRef (argFrameP fr i))).2)) = true →
      readCell M ad = FUNCTOR_dot2 ∧
      readCell M (ad + sizeofWord) = ATOM_cyclic_term ∧
      readCell M (ad + 2 * sizeofWord) = ATOM_nil) ∧
    (V.isList (V.valueAt (V.deRef (argFrameP fr i))) = true →
      V.isList (V.valueAt (V.deRef (V.skip_list (V.deRef (argFrameP fr i))).2)) = false →
      readCell M ad = FUNCTOR_dot2 ∧
      readCell M (ad + sizeofWord) = consInt (V.skip_list (V.deRef (argFrameP fr i))).1 ∧
      readCell M (ad + 2 * sizeofWord)
        = V.valueAt (V.deRef (V.skip_list (V.deRef (argFrameP fr i))).2)) ∧
    (V.isList (V.valueAt (V.deRef (argFrameP fr i))) = false →
      readCell M ad = FUNCTOR_divide2 ∧
      readCell M (ad + sizeofWord) = (V.functorDef (V.valueAt (V.deRef (argFrameP fr i)))).name ∧
      readCell M (ad + 2 * sizeofWord)
        = consInt (V.functorDef (V.valueAt (V.deRef (argFrameP fr i)))).arity))

/-- The list that starts at address `a` holds the records `l`, in order: each
is live at its address `block`, which is not `NULL`, with the generation,
deallocator and object given, and its `next` field leads to the rest; the list
ends with `NULL`. -/
def LingerChain (h : LingerHeap) : Nat → List LingerCall → Prop
  | a, [] => a = 0
  | a, x :: rest =>
    a = x.block ∧ a ≠ 0 ∧
    ∃ r, h.recs a = some r ∧ r.generation = x.generation ∧ r.unalloc = x.unalloc ∧
      r.object = x.object ∧ LingerChain h r.next rest

/-- The count `choice_points` is meant to return, following its walk: the
choice points of the chain `chp`, then, a query frame being left, those
counted from the saved choice point of that frame in its parent frames; `none`
when a chain that is not empty ends with no query frame left, where the walk
has nowhere to go on. -/
def countChoicePoints : Choice → QueryFrame → Option Nat
  | [], _ => some 0
  | _ :: _, [] => none
  | _ :: cs, q :: qs => (countChoicePoints q.saved_bfr qs).map (fun k => k + (cs.length + 1))

/-- The payload bytes `globalWString(len, s)` writes for a text, the marker
first: `B` and one byte for each code point when the scan finds no code point
above `0xFF`, else `W`, three zero bytes and four bytes for each code
point. -/
def textContent (len : Nat) (s : Nat → Nat) : List Nat :=
  if wideScan s len 0 = len then
    66 :: (List.range len).map (fun i => s i % 256)
  else
    87 :: 0 :: 0 :: 0 :: ((List.range len).map (fun i => wcharBytes (s i))).flatten

/-- The block at `p` is a string block with the payload bytes `content`: its
header records the word count and pad count `allocString` computes for the
length of `content`, and each payload cell holds 64 bits whose bytes are those
of `content` at its place, zero behind the end of `content`. -/
def StringBlock (m : Mem) (p : Nat) (content : List Nat) : Prop :=
  readCell m p
    = mkStrHdr (content.length / sizeofWord + 1)
        ((content.length / sizeofWord + 1) * sizeofWord - content.length) ∧
  ∀ j, j < content.length / sizeofWord + 1 →
    ∃ n, readCell m (p + (j + 1) * sizeofWord) = Word.bits n ∧ n < 2 ^ 64 ∧
      ∀ k, k < sizeofWord → byteOf n k = content.getD (j * sizeofWord + k) 0

/-! ### Example data for the recursion scan -/

/-- A term view for examples: a cell holds its address as an integer, cells
below address 16 hold 0; two argument cells are variants when they hold the
same value. -/
def exampleView : TermView where
  deRef := fun a => a
  valueAt := fun a => Word.int (if a < 16 then 0 else (a : Int))
  isList := fun _ => false
  skip_list := fun a => (0, a)
  functorDef := fun _ => ⟨Word.functor "f" 1, Word.atom "f", 1⟩
  is_variant_ptr := fun a b => decide ((if a < 16 then 0 else a) = (if b < 16 then 0 else b))

/-- The predicate `user:p/1`. -/
def examplePred : Definition := ⟨⟨Word.functor "p" 1, Word.atom "p", 1⟩, ⟨Word.atom "user"⟩⟩

/-- A chain of 101 frames of `p/1`; frame `k` has its argument cell at address
`8 * k`, so that the first two frames hold the same argument and every later
frame a different one. -/
def exampleChain : LocalFrame :=
  (List.range 101).map (fun k => ⟨examplePred, 101 - k, 8 * k⟩)

/-- An array `ce` of `MAX_CYCLE + CYCLE_CTX` entries, all `NULL`. -/
def emptyEntries : CycleEntries := List.replicate 21 []

/-- The predicates `user:q/1` and `user:r/1`. -/
def examplePredQ : Definition := ⟨⟨Word.functor "q" 1, Word.atom "q", 1⟩, ⟨Word.atom "user"⟩⟩

/-- See `examplePredQ`. -/
def examplePredR : Definition := ⟨⟨Word.functor "r" 1, Word.atom "r", 1⟩, ⟨Word.atom "user"⟩⟩

/-- A chain of 450 frames of `p/1`: 150 repetitions of the 3-frame pattern
`p, p, p`. -/
def exampleSameChain : LocalFrame :=
  ⟨examplePred, 450, 0⟩ ::
    (List.range 449).map (fun k => ⟨examplePred, 450 - (k + 1), 8 * (k + 1)⟩)

/-- A chain of 450 frames: 150 repetitions of the 3-frame pattern `p, q, r`,
every frame with its argument cell at address 0, so that the arguments are the
same in every repetition. -/
def examplePatternChain : LocalFrame :=
  ⟨examplePred, 450, 0⟩ ::
    (List.range 449).map (fun k =>
      ⟨if (k + 1) % 3 = 0 then examplePred else if (k + 1) % 3 = 1 then examplePredQ
        else examplePredR, 450 - (k + 1), 0⟩)

/-- As `examplePatternChain`, frame `k` with its argument cell at address
`8 * k + 16`, so that the arguments differ from one repetition to the next. -/
def exampleVaryingChain : LocalFrame :=
  ⟨examplePred, 450, 16⟩ ::
    (List.range 449).map (fun k =>
      ⟨if (k + 1) % 3 = 0 then examplePred else if (k + 1) % 3 = 1 then examplePredQ
        else examplePredR, 450 - (k + 1), 8 * (k + 1) + 16⟩)

/-! ### Example data for the overflow handler -/

/-- External collaborators for examples: no local margin, a `dict_order` that
keeps the order, room tested against `gMax`, a reclaimer that always reports a
global overflow. -/
def exampleExt : Ext where
  view := exampleView
  LOCAL_MARGIN := 0
  dict_order := fun l => l
  hasGlobalSpace := fun s n => decide (gTop s + n * sizeofWord ≤ gMax s)
  ensureGlobalSpace := fun s _ _ => (GLOBAL_OVERFLOW, s)
  PL_error_nomem := fun s => (false, s)

/-- A state for examples: three frames of `p/1`, two choice points in one
query, a local stack with 900 bytes of room and a global stack with 800 bytes
of room. -/
def exampleState : PL_local_data where
  stackset :=
    ⟨⟨10000, 10100, 11000, 64, 64, "local"⟩, ⟨0, 800, 1600, 64, 64, "global"⟩,
     ⟨20000, 20000, 21000, 64, 64, "trail"⟩, ⟨30000, 30000, 31000, 0, 0, "argument"⟩,
     1048576⟩
  combined_stack := ⟨0, 0, 0, 0, 0, "stack"⟩
  outofstack := none
  trim_stack_requested := false
  exception_processing := false
  exception_bin := 1
  exception_term := 0
  bin_value := Word.var
  throw_environment := false
  environment_frame := exampleChain.take 3
  BFR := [⟨1⟩, ⟨2⟩]
  query := [⟨[], 30000⟩]
  frozen_bar := 0
  mem := []
  output := []

/-- The state `outOfStack` leaves on a local overflow raised in
`exampleState`. -/
def exampleOverflowState : PL_local_data :=
  ((outOfStack exampleExt StackId.local stack_overflow_action.STACK_OVERFLOW_RAISE
    exampleState).finalState).getD exampleState

/-- As `exampleState`, with the 101-frame chain of `p/1` as environment, the
spare of the local stack donated already (an earlier overflow is being
handled) and 20 bytes of room left on it: not below a quarter of the default
spare of 64 bytes, but below the default spare. -/
def exampleDeepState : PL_local_data :=
  { exampleState with
    environment_frame := exampleChain
    stackset := { exampleState.stackset with «local» := ⟨10000, 10980, 11000, 0, 64, "local"⟩ } }

/-- As `exampleState`, with an empty global stack that starts at address
1000. -/
def exampleEmptyState : PL_local_data :=
  { exampleState with
    stackset := { exampleState.stackset with global := ⟨1000, 1000, 1600, 64, 64, "global"⟩ } }

/-- As `exampleState`, with `gTop` 8 bytes above `gMax`. -/
def exampleOverState : PL_local_data :=
  { exampleState with
    stackset := { exampleState.stackset with global := ⟨0, 1608, 1600, 64, 64, "global"⟩ } }

/-- As `exampleState`, with the global stack full: `gTop = gMax`. -/
def exampleFullState : PL_local_data :=
  { exampleState with
    stackset := { exampleState.stackset with global := ⟨0, 1600, 1600, 0, 64, "global"⟩ } }

/-! ### Example data for the rendering of a frame -/

/-- A term view for examples: the cell at address 100 holds a pointer to the
list cell at 500, the first cell of the partial list `[a, b | foo(x)]`;
`skip_list` counts its 2 elements and stops at the cell at address 300, which
holds the pointer to the compound `foo(x)` at 700. -/
def partialListView : TermView where
  deRef := fun a => a
  valueAt := fun a =>
    if a = 100 then Word.ptr 500 Storage.STG_GLOBAL Tag.TAG_COMPOUND
    else if a = 300 then Word.ptr 700 Storage.STG_GLOBAL Tag.TAG_COMPOUND
    else Word.var
  isList := fun w => decide (w = Word.ptr 500 Storage.STG_GLOBAL Tag.TAG_COMPOUND)
  skip_list := fun _ => (2, 300)
  functorDef := fun _ => ⟨Word.functor "foo" 1, Word.atom "foo", 1⟩
  is_variant_ptr := fun _ _ => false

/-- A frame of `user:p/1` at depth 1 whose argument cell is at address 100. -/
def partialListFrame : Frame := ⟨examplePred, 1, 100⟩

/-! ### Example data for the argument stack -/

/-- External collaborators for examples: the stack grows to twice its size,
and the block moves to address 40000 with the memory as it is. -/
def exampleStackExt : StackExt where
  nextStackSize := fun st _ => 2 * (st.max - st.base)
  stack_realloc := fun s _ _ => some (40000, s.mem)

/-! ## Theorems -/

/-! ### Lemmas on the loops of the recursion scan -/

theorem drop_succ_of_cons {α : Type} (l : List α) (n : Nat) (a : α) (t : List α)
    (h : a :: t = l.drop n) : t = l.drop (n + 1) := by
  have : l.drop (n + 1) = (l.drop n).drop 1 := by
    rw [List.drop_drop]
  rw [this, ← h]; rfl

theorem lt_length_of_drop_cons {α : Type} (l : List α) (n : Nat) (a : α) (t : List α)
    (h : a :: t = l.drop n) : n < l.length := by
  by_contra hc
  rw [List.drop_eq_nil_of_le (by omega)] at h
  cases h

theorem getD_set_self (ce : CycleEntries) (i : Nat) (x : LocalFrame) (h : i < ce.length) :
    (ce.set i x).getD i [] = x := by
  simp [List.getD_eq_getElem?_getD, List.getElem?_set, h]

theorem getD_set_other (ce : CycleEntries) (i j : Nat) (x : LocalFrame) (h : i ≠ j) :
    (ce.set i x).getD j [] = ce.getD j [] := by
  simp [List.getD_eq_getElem?_getD, List.getElem?_set, h]

theorem scanLoop_spec (p0 : Definition) (mind : Nat) (chain : LocalFrame) :
    ∀ (fr : LocalFrame) (depth : Nat) (ce : CycleEntries),
      fr = chain.drop depth → MAX_CYCLE ≤ ce.length →
      (scanLoop p0 mind fr depth ce).1 = chain.drop (scanLoop p0 mind fr depth ce).2.1 ∧
      depth ≤ (scanLoop p0 mind fr depth ce).2.1 ∧
      (scanLoop p0 mind fr depth ce).2.2.length = ce.length ∧
      (∀ i, i < depth → (scanLoop p0 mind fr depth ce).2.2.getD i [] = ce.getD i []) ∧
      (∀ i, depth ≤ i → i < (scanLoop p0 mind fr depth ce).2.1 →
        (scanLoop p0 mind fr depth ce).2.2.getD i [] = chain.drop i ∧
        i < chain.length ∧ i < MAX_CYCLE ∧
        ¬ ((frameOf (chain.drop i)).predicate = p0 ∧ mind ≤ i)) ∧
      ((scanLoop p0 mind fr depth ce).1 ≠ [] → (scanLoop p0 mind fr depth ce).2.1 < MAX_CYCLE →
        (frameOf (scanLoop p0 mind fr depth ce).1).predicate = p0 ∧
        mind ≤ (scanLoop p0 mind fr depth ce).2.1) := by
  intro fr
  induction fr with
  | nil =>
    intro depth ce hfr _
    simp only [scanLoop]
    refine ⟨hfr, le_refl _, by simp, by simp, ?_, ?_⟩
    · intro i h1 h2; omega
    · intro h; exact absurd rfl h
  | cons f rest ih =>
    intro depth ce hfr hlen
    unfold scanLoop
    by_cases h1 : depth < MAX_CYCLE
    · simp only [if_pos h1]
      by_cases h2 : f.predicate = p0 ∧ depth ≥ mind
      · simp only [if_pos h2]
        refine ⟨hfr, le_refl _, by simp, by simp, ?_, ?_⟩
        · intro i h1 h2; omega
        · intro _ _
          exact ⟨h2.1, h2.2⟩
      · simp only [if_neg h2]
        have hrest := drop_succ_of_cons chain depth f rest hfr
        have hlt := lt_length_of_drop_cons chain depth f rest hfr
        have hlen' : MAX_CYCLE ≤ (ce.set depth (f :: rest)).length := by
          rw [List.length_set]; exact hlen
        obtain ⟨a1, a2, a3, a4, a5, a6⟩ := ih (depth + 1) (ce.set depth (f :: rest)) hrest hlen'
        refine ⟨a1, by omega, ?_, ?_, ?_, a6⟩
        · rw [a3, List.length_set]
        · intro i hi
          rw [a4 i (by omega), getD_set_other _ _ _ _ (by omega)]
        · intro i hi1 hi2
          by_cases hid : i = depth
          · subst hid
            refine ⟨?_, hlt, h1, ?_⟩
            · rw [a4 i (by omega), getD_set_self _ _ _ (by omega)]
              exact hfr
            · rw [← hfr]
              exact h2
          · exact a5 i (by omega) hi2
    · simp only [if_neg h1]
      refine ⟨hfr, le_refl _, by simp, by simp, ?_, ?_⟩
      · intro i h1 h2; omega
      · intro _ hd; exact absurd hd h1

theorem compareLoop_none_iff (ce : CycleEntries) (d : Nat) :
    ∀ (fr : LocalFrame) (i : Nat),
      compareLoop ce d fr i = none ↔
        ∃ j, j < fr.length ∧ i + j < d ∧
          (frameOf (fr.drop j)).predicate ≠ (frameOf (ce.getD (i + j) [])).predicate := by
  intro fr
  induction fr with
  | nil =>
    intro i
    simp [compareLoop]
  | cons f rest ih =>
    intro i
    unfold compareLoop
    by_cases h1 : i < d
    · simp only [if_pos h1]
      by_cases h2 : f.predicate ≠ (frameOf (ce.getD i [])).predicate
      · simp only [if_pos h2, true_iff]
        exact ⟨0, by simp, by omega, by simpa [frameOf] using h2⟩
      · simp only [if_neg h2]
        rw [ih (i + 1)]
        constructor
        · rintro ⟨j, hj1, hj2, hj3⟩
          refine ⟨j + 1, by simp; omega, by omega, ?_⟩
          have : i + (j + 1) = i + 1 + j := by omega
          rw [this]
          simpa using hj3
        · rintro ⟨j, hj1, hj2, hj3⟩
          cases j with
          | zero =>
            exfalso
            apply h2
            simpa [frameOf] using hj3
          | succ j =>
            refine ⟨j, by simp at hj1; omega, by omega, ?_⟩
            have : i + (j + 1) = i + 1 + j := by omega
            rw [this] at hj3
            simpa using hj3
    · simp only [if_neg h1]
      constructor
      · intro h; cases h
      · rintro ⟨j, _, hj2, _⟩; omega

theorem compareLoop_some (ce : CycleEntries) (d : Nat) :
    ∀ (fr : LocalFrame) (i : Nat) (fr' : LocalFrame),
      compareLoop ce d fr i = some fr' → fr' = fr.drop (d - i) := by
  intro fr
  induction fr with
  | nil =>
    intro i fr' h
    simp [compareLoop] at h
    simp [h]
  | cons f rest ih =>
    intro i fr' h
    unfold compareLoop at h
    by_cases h1 : i < d
    · simp only [if_pos h1] at h
      by_cases h2 : f.predicate ≠ (frameOf (ce.getD i [])).predicate
      · simp only [if_pos h2] at h; cases h
      · simp only [if_neg h2] at h
        have := ih (i + 1) fr' h
        rw [this]
        have : d - i = (d - (i + 1)) + 1 := by omega
        rw [this]; rfl
    · simp only [if_neg h1] at h
      have hz : d - i = 0 := by omega
      rw [hz]
      simpa using h.symm

theorem repeatLoop_mismatch_iff (ce : CycleEntries) (d : Nat) :
    ∀ (r : Nat) (fr : LocalFrame),
      repeatLoop ce d r fr = RepeatResult.mismatch ↔
        ∃ j, j < fr.length ∧ j < (r - 1) * d ∧
          (frameOf (fr.drop j)).predicate ≠ (frameOf (ce.getD (j % d) [])).predicate := by
  intro r
  induction r with
  | zero =>
    intro fr
    cases fr with
    | nil => simp [repeatLoop]
    | cons f rest => simp [repeatLoop]
  | succ r ih =>
    intro fr
    cases fr with
    | nil => simp [repeatLoop]
    | cons f rest =>
      unfold repeatLoop
      by_cases hr : r > 0
      · simp only [if_pos hr]
        cases hc : compareLoop ce d (f :: rest) 0 with
        | none =>
          simp only [true_iff]
          obtain ⟨j, hj1, hj2, hj3⟩ := (compareLoop_none_iff ce d (f :: rest) 0).1 hc
          rw [Nat.zero_add] at hj2 hj3
          refine ⟨j, hj1, ?_, ?_⟩
          · have : d ≤ (r + 1 - 1) * d := by
              have : 1 ≤ r + 1 - 1 := by omega
              calc d = 1 * d := by omega
                _ ≤ (r + 1 - 1) * d := Nat.mul_le_mul_right d this
            omega
          · rw [Nat.mod_eq_of_lt hj2]; exact hj3
        | some fr' =>
          simp only
          have hfr' := compareLoop_some ce d (f :: rest) 0 fr' hc
          rw [Nat.sub_zero] at hfr'
          have hnone : ¬ compareLoop ce d (f :: rest) 0 = none := by rw [hc]; simp
          rw [compareLoop_none_iff] at hnone
          rw [ih fr', hfr']
          have hmul : (r + 1 - 1) * d = (r - 1) * d + d := by
            have : r + 1 - 1 = (r - 1) + 1 := by omega
            rw [this, Nat.add_mul, Nat.one_mul]
          constructor
          · rintro ⟨j, hj1, hj2, hj3⟩
            refine ⟨j + d, ?_, by omega, ?_⟩
            · rw [List.length_drop] at hj1; omega
            · rw [List.drop_drop] at hj3
              rw [Nat.add_mod_right]
              have h : d + j = j + d := by omega
              rw [h] at hj3
              exact hj3
          · rintro ⟨j, hj1, hj2, hj3⟩
            by_cases hjd : j < d
            · exfalso
              apply hnone
              refine ⟨j, hj1, by omega, ?_⟩
              rw [Nat.zero_add]
              rw [Nat.mod_eq_of_lt hjd] at hj3
              exact hj3
            · refine ⟨j - d, ?_, by omega, ?_⟩
              · rw [List.length_drop]; omega
              · rw [List.drop_drop]
                have h : d + (j - d) = j := by omega
                rw [h]
                have h2 : (j - d) % d = j % d := by
                  conv_rhs => rw [← h, Nat.add_mod_left]
                rw [h2]; exact hj3
      · simp only [if_neg hr]
        have : r = 0 := by omega
        subst this
        simp

theorem repeatLoop_done_zero (ce : CycleEntries) (d : Nat) :
    ∀ (r : Nat) (fr fr' : LocalFrame), 1 ≤ r →
      repeatLoop ce d r fr = RepeatResult.done fr' 0 →
        (r - 1) * d < fr.length ∧ fr' = fr.drop ((r - 1) * d) := by
  intro r
  induction r with
  | zero =>
    intro fr fr' h1 h
    omega
  | succ r ih =>
    intro fr fr' _ h
    cases fr with
    | nil =>
      simp only [repeatLoop, RepeatResult.done.injEq] at h
      omega
    | cons f rest =>
      unfold repeatLoop at h
      by_cases hr : r > 0
      · simp only [if_pos hr] at h
        cases hc : compareLoop ce d (f :: rest) 0 with
        | none => rw [hc] at h; cases h
        | some fr1 =>
          rw [hc] at h
          simp only at h
          have hfr1 := compareLoop_some ce d (f :: rest) 0 fr1 hc
          rw [Nat.sub_zero] at hfr1
          obtain ⟨b2, b3⟩ := ih fr1 fr' (by omega) h
          have hmul : (r + 1 - 1) * d = (r - 1) * d + d := by
            have : r + 1 - 1 = (r - 1) + 1 := by omega
            rw [this, Nat.add_mul, Nat.one_mul]
          rw [hfr1, List.length_drop] at b2
          refine ⟨by omega, ?_⟩
          rw [b3, hfr1, List.drop_drop, hmul]
          congr 1; omega
      · simp only [if_neg hr] at h
        have : r = 0 := by omega
        subst this
        simp only [RepeatResult.done.injEq, and_true] at h
        subst h
        simp

theorem repeatLoop_done_nonzero (ce : CycleEntries) (d : Nat) :
    ∀ (r : Nat) (fr fr' : LocalFrame) (rep : Int),
      repeatLoop ce d r fr = RepeatResult.done fr' rep → rep ≠ 0 → 1 ≤ r →
        fr.length ≤ (r - 1) * d := by
  intro r
  induction r with
  | zero =>
    intro fr fr' rep _ _ h1; omega
  | succ r ih =>
    intro fr fr' rep h hrep _
    cases fr with
    | nil => simp
    | cons f rest =>
      unfold repeatLoop at h
      by_cases hr : r > 0
      · simp only [if_pos hr] at h
        cases hc : compareLoop ce d (f :: rest) 0 with
        | none => rw [hc] at h; cases h
        | some fr1 =>
          rw [hc] at h
          simp only at h
          have hfr1 := compareLoop_some ce d (f :: rest) 0 fr1 hc
          rw [Nat.sub_zero] at hfr1
          have b := ih fr1 fr' rep h hrep (by omega)
          have hmul : (r + 1 - 1) * d = (r - 1) * d + d := by
            have : r + 1 - 1 = (r - 1) + 1 := by omega
            rw [this, Nat.add_mul, Nat.one_mul]
          rw [hfr1, List.length_drop] at b
          omega
      · simp only [if_neg hr] at h
        simp at h
        exact absurd h.2.symm hrep


theorem ancestor_eq_drop : ∀ (k : Nat) (fr : LocalFrame), ancestor fr k = fr.drop k
  | 0, fr => rfl
  | k + 1, fr => by
    cases fr with
    | nil => simp [ancestor, parentFrame, ancestor_eq_drop k]
    | cons f rest => simp [ancestor, parentFrame, ancestor_eq_drop k]

theorem periodHolds_iff (fr0 : LocalFrame) (d : Nat) :
    periodHolds fr0 d ↔
      (MIN_REPEAT * d < fr0.length ∧
        ∀ k, k < MIN_REPEAT * d →
          (frameOf (fr0.drop k)).predicate = (frameOf (fr0.drop (k % d))).predicate) := by
  unfold periodHolds
  simp only [ancestor_eq_drop]
  constructor
  · rintro ⟨h1, h2⟩
    refine ⟨?_, h2⟩
    by_contra hc
    exact h1 (List.drop_eq_nil_of_le (by omega))
  · rintro ⟨h1, h2⟩
    refine ⟨?_, h2⟩
    intro hc
    rw [List.drop_eq_nil_iff] at hc
    omega

theorem not_periodHolds_of_short (fr0 : LocalFrame) (d : Nat)
    (h : fr0.length ≤ MIN_REPEAT * d) : ¬ periodHolds fr0 d := by
  rw [periodHolds_iff]; rintro ⟨h1, _⟩; omega

theorem not_periodHolds_of_pred_ne (fr0 : LocalFrame) (d : Nat) (hd : 1 ≤ d)
    (h : (frameOf (fr0.drop d)).predicate ≠ (frameOf fr0).predicate) :
    ¬ periodHolds fr0 d := by
  rw [periodHolds_iff]; rintro ⟨_, h2⟩
  apply h
  have := h2 d (by simp only [MIN_REPEAT]; omega)
  rw [Nat.mod_self] at this
  simpa using this

theorem candidate_mismatch (chain : LocalFrame) (d : Nat) (ce1 : CycleEntries)
    (hce : ∀ i, i < d → ce1.getD i [] = chain.drop i)
    (h : repeatLoop ce1 d MIN_REPEAT (chain.drop d) = RepeatResult.mismatch) :
    ¬ periodHolds chain d := by
  rw [repeatLoop_mismatch_iff] at h
  obtain ⟨j, hj1, hj2, hj3⟩ := h
  have hd : 0 < d := by
    rcases Nat.eq_zero_or_pos d with h0 | h0
    · subst h0; simp at hj2
    · exact h0
  rw [periodHolds_iff]; rintro ⟨_, h2⟩
  apply hj3
  rw [hce (j % d) (Nat.mod_lt _ hd), List.drop_drop]
  have := h2 (d + j) (by simp only [MIN_REPEAT] at hj2 ⊢; omega)
  rw [Nat.add_mod_left] at this
  exact this

theorem candidate_done_zero (chain : LocalFrame) (d : Nat) (hd : 1 ≤ d) (ce1 : CycleEntries)
    (hce : ∀ i, i < d → ce1.getD i [] = chain.drop i) (fr' : LocalFrame)
    (h : repeatLoop ce1 d MIN_REPEAT (chain.drop d) = RepeatResult.done fr' 0) :
    periodHolds chain d := by
  obtain ⟨h1, _⟩ := repeatLoop_done_zero ce1 d MIN_REPEAT (chain.drop d) fr' (by decide) h
  have hnm : ¬ repeatLoop ce1 d MIN_REPEAT (chain.drop d) = RepeatResult.mismatch := by
    rw [h]; intro hc; cases hc
  rw [repeatLoop_mismatch_iff] at hnm
  rw [List.length_drop] at h1
  simp only [MIN_REPEAT] at h1
  rw [periodHolds_iff]
  refine ⟨by simp only [MIN_REPEAT]; omega, ?_⟩
  intro k hk
  by_cases hkd : k < d
  · rw [Nat.mod_eq_of_lt hkd]
  · by_contra hne
    apply hnm
    refine ⟨k - d, ?_, ?_, ?_⟩
    · rw [List.length_drop]; simp only [MIN_REPEAT] at hk; omega
    · simp only [MIN_REPEAT] at hk ⊢; omega
    · have hmod : (k - d) % d = k % d := by
        have h : d + (k - d) = k := by omega
        conv_rhs => rw [← h, Nat.add_mod_left]
      rw [hmod, hce (k % d) (Nat.mod_lt _ (by omega)), List.drop_drop]
      have h : d + (k - d) = k := by omega
      rw [h]
      exact hne

theorem candidate_done_nonzero (chain : LocalFrame) (d : Nat) (ce1 : CycleEntries)
    (fr' : LocalFrame) (rep : Int) (hrep : rep ≠ 0)
    (h : repeatLoop ce1 d MIN_REPEAT (chain.drop d) = RepeatResult.done fr' rep) :
    chain.length ≤ MIN_REPEAT * d := by
  have := repeatLoop_done_nonzero ce1 d MIN_REPEAT (chain.drop d) fr' rep h hrep (by decide)
  rw [List.length_drop] at this
  simp only [MIN_REPEAT] at this ⊢
  omega

theorem ctxLoop_one (f : Frame) (frest : LocalFrame) (depth : Nat) (ce : CycleEntries) :
    ctxLoop CYCLE_CTX (f :: frest) depth ce = (depth + 1, ce.set depth (f :: frest)) := by
  cases frest with
  | nil => simp [ctxLoop]
  | cons g r => simp [ctxLoop]


theorem againLoop_spec (V : TermView) (f0 : Frame) (rest : LocalFrame) :
    ∀ (fuel mind : Nat) (ce : CycleEntries) (ic : Bool),
      1 ≤ mind → MAX_CYCLE + 1 ≤ fuel + mind → MAX_CYCLE ≤ ce.length →
      ce.getD 0 [] = f0 :: rest →
      (∀ d, 1 ≤ d → d < mind → ¬ periodHolds (f0 :: rest) d) →
      (againLoop V f0 rest fuel mind ce ic).2.1.length = ce.length ∧
      (((againLoop V f0 rest fuel mind ce ic).1 = 0 ∧
          ∀ d, 1 ≤ d → d < MAX_CYCLE → ¬ periodHolds (f0 :: rest) d) ∨
        (∃ P, (againLoop V f0 rest fuel mind ce ic).1 = P + 1 ∧ 1 ≤ P ∧ P < MAX_CYCLE ∧
          periodHolds (f0 :: rest) P ∧
          (∀ d, 1 ≤ d → d < P → ¬ periodHolds (f0 :: rest) d) ∧
          (∀ i, i ≤ P → (againLoop V f0 rest fuel mind ce ic).2.1.getD i [] = (f0 :: rest).drop i) ∧
          (againLoop V f0 rest fuel mind ce ic).2.2 =
            is_variant_frame V f0 (frameOf ((f0 :: rest).drop P)))) := by
  intro fuel
  induction fuel with
  | zero =>
    intro mind ce ic _ hfuel _ _ hinv
    simp only [againLoop]
    refine ⟨trivial, Or.inl ⟨trivial, ?_⟩⟩
    intro d hd1 hd2
    exact hinv d hd1 (by omega)
  | succ fuel ih =>
    intro mind ce ic hmind hfuel hlen hce0 hinv
    have hscan := scanLoop_spec f0.predicate mind (f0 :: rest) rest 1 ce (by simp) hlen
    unfold againLoop
    rcases hs : scanLoop f0.predicate mind rest 1 ce with ⟨fr, depth, ce1⟩
    rw [hs] at hscan
    simp only at hscan
    obtain ⟨a1, a2, a3, a4, a5, a6⟩ := hscan
    -- candidates skipped by the scan
    have hskip : ∀ d, 1 ≤ d → d < depth → ¬ periodHolds (f0 :: rest) d := by
      intro d hd1 hd2
      by_cases hdm : d < mind
      · exact hinv d hd1 hdm
      · have := (a5 d hd1 hd2).2.2.2
        apply not_periodHolds_of_pred_ne _ _ hd1
        intro hp
        apply this
        refine ⟨?_, by omega⟩
        rw [hp]; rfl
    have hce1 : ∀ i, i < depth → ce1.getD i [] = (f0 :: rest).drop i := by
      intro i hi
      rcases Nat.eq_zero_or_pos i with h0 | h0
      · subst h0
        rw [a4 0 (by omega), hce0]; rfl
      · exact (a5 i h0 hi).1
    cases fr with
    | nil =>
      simp only
      refine ⟨a3, Or.inl ⟨trivial, ?_⟩⟩
      intro d hd1 hd2
      by_cases hdd : d < depth
      · exact hskip d hd1 hdd
      · apply not_periodHolds_of_short
        have hl : (f0 :: rest).length ≤ depth := by
          have := a1.symm
          rw [List.drop_eq_nil_iff] at this
          exact this
        simp only [MIN_REPEAT]
        omega
    | cons f frest =>
      simp only
      by_cases hdep : depth ≥ MAX_CYCLE
      · simp only [if_pos hdep]
        refine ⟨a3, Or.inl ⟨trivial, ?_⟩⟩
        intro d hd1 hd2
        exact hskip d hd1 (by omega)
      · simp only [if_neg hdep]
        have hdl : depth < MAX_CYCLE := by omega
        have ha6 := a6 (by simp) hdl
        cases hr : repeatLoop ce1 depth MIN_REPEAT (f :: frest) with
        | mismatch =>
          simp only
          rw [a1] at hr
          have hnot := candidate_mismatch (f0 :: rest) depth ce1 hce1 hr
          have hdp : ¬ (depth + 1 > MAX_CYCLE) := by omega
          simp only [if_neg hdp]
          have hce10 : ce1.getD 0 [] = f0 :: rest := by
            rw [a4 0 (by omega), hce0]
          have hinv' : ∀ d, 1 ≤ d → d < depth + 1 → ¬ periodHolds (f0 :: rest) d := by
            intro d hd1 hd2
            by_cases hdd : d < depth
            · exact hskip d hd1 hdd
            · have : d = depth := by omega
              subst this
              exact hnot
          have := ih (depth + 1) ce1 (is_variant_frame V f0 f) (by omega) (by omega)
            (by rw [a3]; exact hlen) hce10 hinv'
          rw [a3] at this
          exact this
        | done fr' rep =>
          simp only
          by_cases hrep : rep = 0
          · simp only [if_pos hrep]
            subst hrep
            rw [a1] at hr
            have hvalid := candidate_done_zero (f0 :: rest) depth a2 ce1 hce1 fr' hr
            rw [ctxLoop_one]
            simp only
            refine ⟨by rw [List.length_set]; exact a3, Or.inr ⟨depth, rfl, a2, hdl, hvalid, hskip, ?_, ?_⟩⟩
            · intro i hi
              by_cases hid : i = depth
              · subst hid
                rw [getD_set_self _ _ _ (by rw [a3]; omega)]
                exact a1
              · rw [getD_set_other _ _ _ _ (by omega)]
                exact hce1 i (by omega)
            · rw [← a1]; rfl
          · simp only [if_neg hrep]
            rw [a1] at hr
            have hshort := candidate_done_nonzero (f0 :: rest) depth ce1 fr' rep hrep hr
            refine ⟨a3, Or.inl ⟨trivial, ?_⟩⟩
            intro d hd1 hd2
            by_cases hdd : d < depth
            · exact hskip d hd1 hdd
            · apply not_periodHolds_of_short
              have : MIN_REPEAT * depth ≤ MIN_REPEAT * d := Nat.mul_le_mul_left _ (by omega)
              omega

theorem toSizeT_of_nonneg (d : Int) (h : 0 ≤ d) : toSizeT d = d := by
  unfold toSizeT
  rw [if_neg (by omega)]

theorem toSizeT_of_neg (d : Int) (h : d < 0) : toSizeT d = d + 2 ^ 64 := by
  unfold toSizeT
  rw [if_pos h]

theorem toSizeT_room_of_le (s : Stack) (h : s.top ≤ s.max) :
    toSizeT (roomStackP s) = ((s.max - s.top : Nat) : Int) := by
  unfold roomStackP
  rw [toSizeT_of_nonneg _ (by omega)]
  omega

theorem toSizeT_room_of_gt (s : Stack) (h : s.max < s.top) :
    toSizeT (roomStackP s) = 2 ^ 64 - ((s.top - s.max : Nat) : Int) := by
  unfold roomStackP
  rw [toSizeT_of_neg _ (by omega)]
  omega

/-- C2 fails as stated: on a region whose `top` is 24 bytes above `max`, with
64 bytes of spare armed, the free room `max - top` is negative, so below the
default spare of 64, yet the unforced call returns FALSE and leaves the region
as it is: the test compares the room as a `size_t`. -/
theorem enableSpareStack_room_counterexample :
    (⟨1000, 1624, 1600, 64, 64, "global"⟩ : Stack).spare ≠ 0 ∧
    roomStackP ⟨1000, 1624, 1600, 64, 64, "global"⟩ < 64 ∧
    (enableSpareStack ⟨1000, 1624, 1600, 64, 64, "global"⟩ false).2 = false ∧
    (enableSpareStack ⟨1000, 1624, 1600, 64, 64, "global"⟩ false).1
      = ⟨1000, 1624, 1600, 64, 64, "global"⟩ := by
  refine ⟨by decide, by decide, by decide, by decide⟩

/-- C2 (amended): `enableSpareStack(s, always)` returns TRUE exactly when
`s.spare ≠ 0` and (the free room, taken as a `size_t`, is below `def_spare` or
`always`). The room taken as a `size_t` is `max - top` when `top ≤ max`, where
the test is that of the free room itself, and `2 ^ 64 - (top - max)` when
`top` is above `max`, where only a forced call donates. On TRUE `max` has
grown by `spare`, `spare` is 0, `max + spare` is conserved and `base`, `top`,
`def_spare` (and the name) are unchanged; otherwise the call returns FALSE and
the region is unchanged. -/
theorem enableSpareStack_spec (s : Stack) (always : Bool) :
    ((enableSpareStack s always).2 = true ↔
      (s.spare ≠ 0 ∧ (toSizeT (roomStackP s) < (s.def_spare : Int) ∨ always = true))) ∧
    (s.top ≤ s.max →
      toSizeT (roomStackP s) = ((s.max - s.top : Nat) : Int) ∧
      ((enableSpareStack s always).2 = true ↔
        (s.spare ≠ 0 ∧ (s.max - s.top < s.def_spare ∨ always = true)))) ∧
    (s.max < s.top →
      toSizeT (roomStackP s) = 2 ^ 64 - ((s.top - s.max : Nat) : Int) ∧
      (s.top - s.max + s.def_spare ≤ 2 ^ 64 →
        ((enableSpareStack s always).2 = true ↔ (s.spare ≠ 0 ∧ always = true)))) ∧
    ((enableSpareStack s always).2 = true →
      (enableSpareStack s always).1.max = s.max + s.spare ∧
      (enableSpareStack s always).1.spare = 0 ∧
      (enableSpareStack s always).1.max + (enableSpareStack s always).1.spare
        = s.max + s.spare ∧
      (enableSpareStack s always).1.base = s.base ∧
      (enableSpareStack s always).1.top = s.top ∧
      (enableSpareStack s always).1.def_spare = s.def_spare ∧
      (enableSpareStack s always).1.name = s.name) ∧
    ((enableSpareStack s always).2 = false → (enableSpareStack s always).1 = s) := by
  have hiff : (enableSpareStack s always).2 = true ↔
      (s.spare ≠ 0 ∧ (toSizeT (roomStackP s) < (s.def_spare : Int) ∨ always = true)) := by
    unfold enableSpareStack
    by_cases h : s.spare ≠ 0 ∧ (toSizeT (roomStackP s) < (s.def_spare : Int) ∨ always = true)
    · simp only [if_pos h]
      simp [h]
    · simp only [if_neg h]
      simp [h]
  refine ⟨hiff, ?_, ?_, ?_, ?_⟩
  · intro hle
    refine ⟨toSizeT_room_of_le s hle, ?_⟩
    rw [hiff, toSizeT_room_of_le s hle]
    constructor
    · rintro ⟨h1, h2 | h2⟩
      · exact ⟨h1, Or.inl (by omega)⟩
      · exact ⟨h1, Or.inr h2⟩
    · rintro ⟨h1, h2 | h2⟩
      · exact ⟨h1, Or.inl (by omega)⟩
      · exact ⟨h1, Or.inr h2⟩
  · intro hgt
    refine ⟨toSizeT_room_of_gt s hgt, ?_⟩
    intro hsmall
    rw [hiff, toSizeT_room_of_gt s hgt]
    constructor
    · rintro ⟨h1, h2 | h2⟩
      · exfalso; omega
      · exact ⟨h1, h2⟩
    · rintro ⟨h1, h2⟩
      exact ⟨h1, Or.inr h2⟩
  · unfold enableSpareStack
    by_cases h : s.spare ≠ 0 ∧ (toSizeT (roomStackP s) < (s.def_spare : Int) ∨ always = true)
    · simp only [if_pos h]
      simp
    · simp only [if_neg h]
      simp
  · unfold enableSpareStack
    by_cases h : s.spare ≠ 0 ∧ (toSizeT (roomStackP s) < (s.def_spare : Int) ∨ always = true)
    · simp only [if_pos h]
      simp
    · simp only [if_neg h]
      simp

/-- The amended C2 on a region that donates: its room of 4 is below the default
spare of 16. -/
theorem enableSpareStack_spec_witness :
    (enableSpareStack ⟨0, 96, 100, 16, 16, "local"⟩ false).1.max = 100 + 16 ∧
    (enableSpareStack ⟨0, 96, 100, 16, 16, "local"⟩ false).1.spare = 0 :=
  ⟨((enableSpareStack_spec ⟨0, 96, 100, 16, 16, "local"⟩ false).2.2.2.1 (by decide)).1,
   ((enableSpareStack_spec ⟨0, 96, 100, 16, 16, "local"⟩ false).2.2.2.1 (by decide)).2.1⟩

/-- C3 fails as stated: on a region with ample room (room 100, default spare
16) a first unforced call does not donate, and a second, forced call made
directly after it donates: it returns TRUE and moves `max`. -/
theorem enableSpareStack_second_call_counterexample :
    ¬ (∀ (s : Stack) (a1 a2 : Bool),
        (enableSpareStack (enableSpareStack s a1).1 a2).2 = false ∧
        (enableSpareStack (enableSpareStack s a1).1 a2).1.max
          = (enableSpareStack s a1).1.max ∧
        (enableSpareStack (enableSpareStack s a1).1 a2).1.spare
          = (enableSpareStack s a1).1.spare) := by
  intro h
  have h1 := (h ⟨0, 0, 100, 16, 16, "local"⟩ false true).1
  revert h1
  decide

/-- C3 (amended): a second call `enableSpareStack(s, a2)` made directly after
`enableSpareStack(s, a1)` returns FALSE and leaves the whole region (so `max`
and `spare`) unchanged whenever the first call donated, or the first call was
forced, or the second call is not forced. -/
theorem enableSpareStack_idempotent (s : Stack) (a1 a2 : Bool)
    (h : (enableSpareStack s a1).2 = true ∨ a1 = true ∨ a2 = false) :
    (enableSpareStack (enableSpareStack s a1).1 a2).2 = false ∧
    (enableSpareStack (enableSpareStack s a1).1 a2).1 = (enableSpareStack s a1).1 := by
  unfold enableSpareStack
  by_cases h1 : s.spare ≠ 0 ∧ (toSizeT (roomStackP s) < (s.def_spare : Int) ∨ a1 = true)
  · simp [h1]
  · have hfst : (enableSpareStack s a1).2 = false := by
      unfold enableSpareStack; simp only [if_neg h1]
    simp only [if_neg h1]
    rcases h with h | h | h
    · rw [hfst] at h; exact absurd h (by decide)
    · subst h
      have hs : s.spare = 0 := by
        by_contra hne
        exact h1 ⟨hne, Or.inr rfl⟩
      simp [hs]
    · subst h
      have h2 : ¬ (s.spare ≠ 0 ∧ (toSizeT (roomStackP s) < (s.def_spare : Int) ∨ false = true)) := by
        intro hc
        rcases hc with ⟨hsp, hr | hf⟩
        · exact h1 ⟨hsp, Or.inl hr⟩
        · exact absurd hf (by decide)
      simp only [if_neg h2]
      exact ⟨trivial, trivial⟩

/-- Witness for the amended C3: the first call donates, the second is a no-op
even when forced. -/
theorem enableSpareStack_idempotent_witness :
    (enableSpareStack (enableSpareStack ⟨0, 96, 100, 16, 16, "local"⟩ false).1 true).2 = false ∧
    (enableSpareStack (enableSpareStack ⟨0, 96, 100, 16, 16, "local"⟩ false).1 true).1
      = (enableSpareStack ⟨0, 96, 100, 16, 16, "local"⟩ false).1 :=
  enableSpareStack_idempotent ⟨0, 96, 100, 16, 16, "local"⟩ false true (Or.inl (by decide))

theorem non_terminating_recursion_spec (V : TermView) (f0 : Frame) (rest : LocalFrame)
    (ce : CycleEntries) (ic : Bool) (hce : MAX_CYCLE ≤ ce.length) :
    (non_terminating_recursion V (f0 :: rest) ce ic).2.1.length = ce.length ∧
    (((non_terminating_recursion V (f0 :: rest) ce ic).1 = 0 ∧
        ∀ d, 1 ≤ d → d < MAX_CYCLE → ¬ periodHolds (f0 :: rest) d) ∨
      (∃ P, (non_terminating_recursion V (f0 :: rest) ce ic).1 = P + 1 ∧ 1 ≤ P ∧ P < MAX_CYCLE ∧
        periodHolds (f0 :: rest) P ∧
        (∀ d, 1 ≤ d → d < P → ¬ periodHolds (f0 :: rest) d) ∧
        (∀ i, i ≤ P →
          (non_terminating_recursion V (f0 :: rest) ce ic).2.1.getD i [] = (f0 :: rest).drop i) ∧
        (non_terminating_recursion V (f0 :: rest) ce ic).2.2 =
          is_variant_frame V f0 (frameOf ((f0 :: rest).drop P)))) := by
  have h := againLoop_spec V f0 rest MAX_CYCLE 1 (ce.set 0 (f0 :: rest)) ic (le_refl 1)
    (le_refl _) (by rw [List.length_set]; exact hce)
    (getD_set_self ce 0 (f0 :: rest) (by simp only [MAX_CYCLE] at hce; omega))
    (by intro d h1 h2; omega)
  rw [List.length_set] at h
  exact h

/-- C5: soundness of the recursion detection. If `non_terminating_recursion`
returns `r ≠ 0` then `r = P + 1` with `1 ≤ P ≤ 19`; for every `i < r` the index
`i` is below `MAX_CYCLE` and `ce[i]` is the `i`-th ancestor of `fr0`; and for
every `k` with `P ≤ k < 100 * P` the `k`-th ancestor exists and has the
predicate of the `(k mod P)`-th ancestor. -/
theorem non_terminating_recursion_sound (V : TermView) (fr0 : LocalFrame)
    (ce : CycleEntries) (ic : Bool) (hce : MAX_CYCLE ≤ ce.length)
    (hr : (non_terminating_recursion V fr0 ce ic).1 ≠ 0) :
    ∃ P, (non_terminating_recursion V fr0 ce ic).1 = P + 1 ∧ 1 ≤ P ∧ P ≤ 19 ∧
      (∀ i, i < P + 1 → i < MAX_CYCLE ∧
        (non_terminating_recursion V fr0 ce ic).2.1.getD i [] = ancestor fr0 i) ∧
      (∀ k, P ≤ k → k < MIN_REPEAT * P →
        ancestor fr0 k ≠ [] ∧
        (frameOf (ancestor fr0 k)).predicate = (frameOf (ancestor fr0 (k % P))).predicate) := by
  cases fr0 with
  | nil => exact absurd rfl hr
  | cons f0 rest =>
    rcases (non_terminating_recursion_spec V f0 rest ce ic hce).2 with h | ⟨P, h1, h2, h3, h4, _, h6, _⟩
    · exact absurd h.1 hr
    · refine ⟨P, h1, h2, by simp only [MAX_CYCLE] at h3; omega, ?_, ?_⟩
      · intro i hi
        refine ⟨by omega, ?_⟩
        rw [ancestor_eq_drop]
        exact h6 i (by omega)
      · intro k _ hk2
        have hp := (periodHolds_iff _ _).1 h4
        refine ⟨?_, h4.2 k hk2⟩
        rw [ancestor_eq_drop]
        intro hc
        rw [List.drop_eq_nil_iff] at hc
        omega

set_option maxRecDepth 100000 in
/-- Witness for C5: the 101-frame chain of `p/1` is reported with period 1. -/
theorem non_terminating_recursion_sound_witness :
    ∃ P, (non_terminating_recursion exampleView exampleChain emptyEntries false).1 = P + 1 ∧
      1 ≤ P ∧ P ≤ 19 ∧
      (∀ i, i < P + 1 → i < MAX_CYCLE ∧
        (non_terminating_recursion exampleView exampleChain emptyEntries false).2.1.getD i []
          = ancestor exampleChain i) ∧
      (∀ k, P ≤ k → k < MIN_REPEAT * P →
        ancestor exampleChain k ≠ [] ∧
        (frameOf (ancestor exampleChain k)).predicate
          = (frameOf (ancestor exampleChain (k % P))).predicate) :=
  non_terminating_recursion_sound exampleView exampleChain emptyEntries false
    (by decide) (by decide)

/-- The elements of a list that repeats the three elements `a`, `b`, `c`. -/
theorem flatten_replicate_three {α : Type} (a b c : α) :
    ∀ (n k : Nat), k < 3 * n →
      ((List.replicate n [a, b, c]).flatten)[k]?
        = some (if k % 3 = 0 then a else if k % 3 = 1 then b else c)
  | 0, k, h => by omega
  | n + 1, k, h => by
    rw [List.replicate_succ, List.flatten_cons]
    match k with
    | 0 => simp
    | 1 => simp
    | 2 => simp
    | k + 3 =>
      have := flatten_replicate_three a b c n k (by omega)
      have e : (k + 3) % 3 = k % 3 := by omega
      rw [e]
      simpa using this

/-- A chain whose first 450 predicates repeat the pattern `a`, `b`, `c` has at
least 450 frames, and frame `k` has the predicate the pattern gives it. -/
theorem pattern_frames (fr : LocalFrame) (a b c : Definition)
    (h : (fr.take 450).map (fun f => f.predicate) = (List.replicate 150 [a, b, c]).flatten) :
    ancestor fr 449 ≠ [] ∧
    ∀ k, k < 450 → (frameOf (ancestor fr k)).predicate
      = if k % 3 = 0 then a else if k % 3 = 1 then b else c := by
  have hlen : 450 ≤ fr.length := by
    have := congrArg List.length h
    simp only [List.length_map, List.length_take, List.length_flatten, List.map_replicate,
      List.sum_replicate, List.length_cons, List.length_nil, smul_eq_mul] at this
    omega
  refine ⟨?_, ?_⟩
  · rw [ancestor_eq_drop]
    intro hc
    rw [List.drop_eq_nil_iff] at hc
    omega
  · intro k hk
    have h1 : ((fr.take 450).map (fun f => f.predicate))[k]?
        = ((List.replicate 150 [a, b, c]).flatten)[k]? := by rw [h]
    rw [flatten_replicate_three a b c 150 k (by omega), List.getElem?_map,
      List.getElem?_take_of_lt hk, List.getElem?_eq_getElem (by omega)] at h1
    simp only [Option.map_some', Option.some.injEq] at h1
    rw [ancestor_eq_drop, ← h1]
    unfold frameOf
    rw [List.headD_eq_head?_getD, List.head?_drop, List.getElem?_eq_getElem (by omega)]
    rfl

set_option maxRecDepth 1000000 in
/-- C6 fails as stated: a chain of 450 frames that repeats the 3-frame pattern
`p, p, p` for 150 repetitions is detected with period 1, the least period it
has, and not with period 3. -/
theorem least_period_counterexample :
    (exampleSameChain.take 450).map (fun f => f.predicate)
      = (List.replicate 150 [examplePred, examplePred, examplePred]).flatten ∧
    (non_terminating_recursion exampleView exampleSameChain emptyEntries false).1 = 1 + 1 ∧
    (non_terminating_recursion exampleView exampleSameChain emptyEntries false).1 ≠ 3 + 1 := by
  refine ⟨by decide, by decide, by decide⟩

/-- C6 (amended): shallowest period and completeness. `non_terminating_recursion`
returns `P + 1` exactly when `P` is the least `d` in `1..19` for which the
pattern of period `d` holds (`periodHolds`), and 0 exactly when there is no
such `d`. In particular a chain whose first 450 frames repeat a 3-frame pattern
of predicates `a, b, c` for 150 repetitions is detected with period 1 when the
three predicates are the same, and with period 3 otherwise; in the latter case
the report is flagged a cycle when, for each of the first 447 frames, every
argument is a variant of the argument of the frame three below it, and is not
flagged when each of these frames has an argument that is not. -/
theorem non_terminating_recursion_least_period (V : TermView) (f0 : Frame)
    (rest : LocalFrame) (ce : CycleEntries) (ic : Bool) (hce : MAX_CYCLE ≤ ce.length) :
    (∀ P, (non_terminating_recursion V (f0 :: rest) ce ic).1 = P + 1 ↔
      (1 ≤ P ∧ P ≤ 19 ∧ periodHolds (f0 :: rest) P ∧
        ∀ d, 1 ≤ d → d < P → ¬ periodHolds (f0 :: rest) d)) ∧
    ((non_terminating_recursion V (f0 :: rest) ce ic).1 = 0 ↔
      ∀ d, 1 ≤ d → d ≤ 19 → ¬ periodHolds (f0 :: rest) d) ∧
    (∀ a b c : Definition,
      ((f0 :: rest).take 450).map (fun f => f.predicate)
        = (List.replicate 150 [a, b, c]).flatten →
      ((a = b ∧ b = c) → (non_terminating_recursion V (f0 :: rest) ce ic).1 = 1 + 1) ∧
      (¬ (a = b ∧ b = c) →
        (non_terminating_recursion V (f0 :: rest) ce ic).1 = 3 + 1 ∧
        ((List.zip ((f0 :: rest).take 447) (((f0 :: rest).drop 3).take 447)).all
            (fun fg => (List.range fg.1.predicate.functor.arity).all
              (fun i => V.is_variant_ptr (argFrameP fg.1 i) (argFrameP fg.2 i))) = true →
          (non_terminating_recursion V (f0 :: rest) ce ic).2.2 = true) ∧
        ((List.zip ((f0 :: rest).take 447) (((f0 :: rest).drop 3).take 447)).all
            (fun fg => (List.range fg.1.predicate.functor.arity).any
              (fun i => !(V.is_variant_ptr (argFrameP fg.1 i) (argFrameP fg.2 i)))) = true →
          (non_terminating_recursion V (f0 :: rest) ce ic).2.2 = false))) := by
  have hspec := (non_terminating_recursion_spec V f0 rest ce ic hce).2
  have part1 : ∀ P, (non_terminating_recursion V (f0 :: rest) ce ic).1 = P + 1 ↔
      (1 ≤ P ∧ P ≤ 19 ∧ periodHolds (f0 :: rest) P ∧
        ∀ d, 1 ≤ d → d < P → ¬ periodHolds (f0 :: rest) d) := by
    intro P
    constructor
    · intro hP
      rcases hspec with h | ⟨Q, h1, h2, h3, h4, h5, _, _⟩
      · rw [h.1] at hP; omega
      · have : Q = P := by omega
        subst this
        exact ⟨h2, by simp only [MAX_CYCLE] at h3; omega, h4, h5⟩
    · rintro ⟨hP1, hP2, hP3, hP4⟩
      rcases hspec with h | ⟨Q, h1, h2, h3, h4, h5, _, _⟩
      · exact absurd hP3 (h.2 P hP1 (by simp only [MAX_CYCLE]; omega))
      · rcases Nat.lt_trichotomy P Q with hlt | heq | hgt
        · exact absurd hP3 (h5 P hP1 hlt)
        · rw [h1, heq]
        · exact absurd h4 (hP4 Q h2 hgt)
  refine ⟨part1, ?_, ?_⟩
  · constructor
    · intro h0 d hd1 hd2
      rcases hspec with h | ⟨Q, h1, _⟩
      · exact h.2 d hd1 (by simp only [MAX_CYCLE]; omega)
      · rw [h0] at h1; omega
    · intro hall
      rcases hspec with h | ⟨Q, _, h2, h3, h4, _⟩
      · exact h.1
      · exact absurd h4 (hall Q h2 (by simp only [MAX_CYCLE] at h3; omega))
  · intro a b c hlist
    obtain ⟨hlen, hpat⟩ := pattern_frames (f0 :: rest) a b c hlist
    have hlen' : 449 < (f0 :: rest).length := by
      rw [ancestor_eq_drop] at hlen
      by_contra hc
      exact hlen (List.drop_eq_nil_of_le (by omega))
    have h0 := hpat 0 (by omega)
    have h1 := hpat 1 (by omega)
    have h2 := hpat 2 (by omega)
    have h3 := hpat 3 (by omega)
    simp only [Nat.zero_mod, if_true] at h0
    norm_num at h1 h2 h3
    refine ⟨?_, ?_⟩
    · rintro ⟨hab, hbc⟩
      rw [part1 1]
      refine ⟨le_refl 1, by omega, ⟨?_, ?_⟩, ?_⟩
      · rw [ancestor_eq_drop]
        intro hc
        rw [List.drop_eq_nil_iff] at hc
        simp only [MIN_REPEAT] at hc
        omega
      · intro k hk
        simp only [MIN_REPEAT] at hk
        rw [hpat k (by omega), hpat (k % 1) (by omega), ← hbc, ← hab]
        simp only [ite_self]
      · intro d hd1 hd2
        omega
    · intro habc
      have hp3 : periodHolds (f0 :: rest) 3 := by
        refine ⟨?_, ?_⟩
        · rw [ancestor_eq_drop]
          intro hc
          rw [List.drop_eq_nil_iff] at hc
          simp only [MIN_REPEAT] at hc
          omega
        · intro k hk
          simp only [MIN_REPEAT] at hk
          rw [hpat k (by omega), hpat (k % 3) (by omega), Nat.mod_mod]
      have hp1 : ¬ periodHolds (f0 :: rest) 1 := by
        rintro ⟨_, hp⟩
        have e1 := hp 1 (by simp only [MIN_REPEAT]; omega)
        have e2 := hp 2 (by simp only [MIN_REPEAT]; omega)
        simp only [Nat.mod_one] at e1 e2
        rw [h1, h0] at e1
        rw [h2, h0] at e2
        exact habc ⟨e1.symm, by rw [e1, e2]⟩
      have hp2 : ¬ periodHolds (f0 :: rest) 2 := by
        rintro ⟨_, hp⟩
        have e2 := hp 2 (by simp only [MIN_REPEAT]; omega)
        have e3 := hp 3 (by simp only [MIN_REPEAT]; omega)
        norm_num at e2 e3
        rw [h2, h0] at e2
        rw [h3, h1] at e3
        exact habc ⟨e3, by rw [← e3, e2]⟩
      have hres : (non_terminating_recursion V (f0 :: rest) ce ic).1 = 3 + 1 := by
        rw [part1 3]
        refine ⟨by omega, by omega, hp3, ?_⟩
        intro d hd1 hd2
        have : d = 1 ∨ d = 2 := by omega
        rcases this with h | h
        · subst h; exact hp1
        · subst h; exact hp2
      have hic : (non_terminating_recursion V (f0 :: rest) ce ic).2.2 =
          is_variant_frame V f0 (frameOf (ancestor (f0 :: rest) 3)) := by
        rcases hspec with h | ⟨Q, q1, _, _, _, _, _, q7⟩
        · rw [h.1] at hres; omega
        · have : Q = 3 := by omega
          subst this
          rw [q7, ancestor_eq_drop]
      have hsame : f0.predicate = (frameOf (ancestor (f0 :: rest) 3)).predicate := by
        rw [h3]
        exact h0
      obtain ⟨g, tl, hdrop, hg⟩ : ∃ g tl, (f0 :: rest).drop 3 = g :: tl ∧
          frameOf (ancestor (f0 :: rest) 3) = g := by
        cases hd : (f0 :: rest).drop 3 with
        | nil =>
          rw [List.drop_eq_nil_iff] at hd
          omega
        | cons g tl =>
          refine ⟨g, tl, rfl, ?_⟩
          rw [ancestor_eq_drop, hd]
          rfl
      have e447 : 447 = 446 + 1 := rfl
      rw [hdrop, e447, List.take_succ_cons, List.take_succ_cons, List.zip_cons_cons]
      rw [hg] at hic hsame
      refine ⟨hres, ?_, ?_⟩
      · intro hv
        rw [List.all_cons, Bool.and_eq_true] at hv
        rw [hic]
        unfold is_variant_frame
        rw [if_pos hsame]
        exact hv.1
      · intro hv
        rw [List.all_cons, Bool.and_eq_true] at hv
        rw [hic]
        unfold is_variant_frame
        rw [if_pos hsame]
        obtain ⟨i, hi, hne⟩ := List.any_eq_true.1 hv.1
        cases hall : (List.range f0.predicate.functor.arity).all
            (fun i => V.is_variant_ptr (argFrameP f0 i) (argFrameP g i)) with
        | false => rfl
        | true =>
          rw [List.all_eq_true] at hall
          have := hall i hi
          rw [this] at hne
          exact absurd hne (by decide)

set_option maxRecDepth 1000000 in
/-- The amended C6 on two chains of 450 frames that repeat the pattern
`p, q, r`: both are detected with period 3; the one whose arguments are the
same in every repetition is flagged a cycle, the one whose arguments differ
from repetition to repetition is not. -/
theorem non_terminating_recursion_least_period_witness :
    ((non_terminating_recursion exampleView examplePatternChain emptyEntries false).1 = 3 + 1 ∧
      (non_terminating_recursion exampleView examplePatternChain emptyEntries false).2.2 = true) ∧
    ((non_terminating_recursion exampleView exampleVaryingChain emptyEntries false).1 = 3 + 1 ∧
      (non_terminating_recursion exampleView exampleVaryingChain emptyEntries false).2.2
        = false) :=
  have h1 := ((non_terminating_recursion_least_period exampleView ⟨examplePred, 450, 0⟩
    ((List.range 449).map (fun k =>
      ⟨if (k + 1) % 3 = 0 then examplePred else if (k + 1) % 3 = 1 then examplePredQ
        else examplePredR, 450 - (k + 1), 0⟩))
    emptyEntries false (by decide)).2.2 examplePred examplePredQ examplePredR
    (by decide)).2 (by decide)
  have h2 := ((non_terminating_recursion_least_period exampleView ⟨examplePred, 450, 16⟩
    ((List.range 449).map (fun k =>
      ⟨if (k + 1) % 3 = 0 then examplePred else if (k + 1) % 3 = 1 then examplePredQ
        else examplePredR, 450 - (k + 1), 8 * (k + 1) + 16⟩))
    emptyEntries false (by decide)).2.2 examplePred examplePredQ examplePredR
    (by decide)).2 (by decide)
  ⟨⟨h1.1, h1.2.1 (by decide)⟩, ⟨h2.1, h2.2.2 (by decide)⟩⟩

set_option maxRecDepth 100000 in
/-- C7 fails as stated: on the 101-frame chain of `p/1` a recursion of period 1
is reported and flagged a cycle, because the start frame and its parent hold the
same argument, although the frame one period further up (and every later one)
holds a different argument, so that the arguments are not identical at every
repetition. -/
theorem cycle_classification_counterexample :
    (non_terminating_recursion exampleView exampleChain emptyEntries false).1 = 1 + 1 ∧
    (non_terminating_recursion exampleView exampleChain emptyEntries false).2.2 = true ∧
    ¬ (∀ k, k + 1 < MIN_REPEAT →
        is_variant_frame exampleView (frameOf (ancestor exampleChain (k * 1)))
          (frameOf (ancestor exampleChain ((k + 1) * 1))) = true) := by
  refine ⟨by decide, by decide, ?_⟩
  intro h
  have h1 := h 1 (by decide)
  revert h1
  decide

/-- C7 (amended): when a recursion of period `P` is reported, it is flagged a
cycle exactly when the start frame `fr0` is a variant of the frame one period
below it, its `P`-th ancestor: the two have the same predicate, and the flag is
set if and only if `is_variant_ptr` holds for each pair of corresponding
arguments of these two frames. Later repetitions are compared by predicate
only. -/
theorem cycle_classification (V : TermView) (f0 : Frame) (rest : LocalFrame)
    (ce : CycleEntries) (ic : Bool) (hce : MAX_CYCLE ≤ ce.length) (P : Nat)
    (hP : (non_terminating_recursion V (f0 :: rest) ce ic).1 = P + 1) :
    (non_terminating_recursion V (f0 :: rest) ce ic).2.2
      = is_variant_frame V f0 (frameOf (ancestor (f0 :: rest) P)) ∧
    (frameOf (ancestor (f0 :: rest) P)).predicate = f0.predicate ∧
    ((non_terminating_recursion V (f0 :: rest) ce ic).2.2 = true ↔
      ∀ i, i < f0.predicate.functor.arity →
        V.is_variant_ptr (argFrameP f0 i)
          (argFrameP (frameOf (ancestor (f0 :: rest) P)) i) = true) := by
  rcases (non_terminating_recursion_spec V f0 rest ce ic hce).2 with h | ⟨Q, h1, h2, _, h4, _, _, h7⟩
  · rw [h.1] at hP; omega
  · have : Q = P := by omega
    subst this
    have hpred : (frameOf (ancestor (f0 :: rest) Q)).predicate = f0.predicate := by
      have := h4.2 Q (by simp only [MIN_REPEAT]; omega)
      rw [Nat.mod_self] at this
      simpa [ancestor, frameOf] using this
    have hv : (non_terminating_recursion V (f0 :: rest) ce ic).2.2
        = is_variant_frame V f0 (frameOf (ancestor (f0 :: rest) Q)) := by
      rw [h7, ancestor_eq_drop]
    refine ⟨hv, hpred, ?_⟩
    rw [hv]
    unfold is_variant_frame
    rw [if_pos hpred.symm, List.all_eq_true]
    constructor
    · intro h i hi
      exact h i (List.mem_range.2 hi)
    · intro h i hi
      exact h i (List.mem_range.1 hi)

set_option maxRecDepth 100000 in
/-- Witness for the amended C7 on the 101-frame chain of `p/1`. -/
theorem cycle_classification_witness :
    (non_terminating_recursion exampleView exampleChain emptyEntries false).2.2
      = is_variant_frame exampleView ⟨examplePred, 101, 0⟩ (frameOf (ancestor exampleChain 1)) :=
  (cycle_classification exampleView ⟨examplePred, 101, 0⟩
    ((List.range 100).map (fun k => ⟨examplePred, 101 - (k + 1), 8 * (k + 1)⟩))
    emptyEntries false (by decide) 1 (by decide)).1

/-! ### Lemmas on the memory log and the global-stack writers -/

@[simp] theorem gTop_setGTop (s : PL_local_data) (p : Nat) : gTop (setGTop s p) = p := rfl
@[simp] theorem gMax_setGTop (s : PL_local_data) (p : Nat) : gMax (setGTop s p) = gMax s := rfl
@[simp] theorem mem_setGTop (s : PL_local_data) (p : Nat) : (setGTop s p).mem = s.mem := rfl
@[simp] theorem gTop_poke (s : PL_local_data) (a : Nat) (w : Word) : gTop (poke s a w) = gTop s := rfl
@[simp] theorem gMax_poke (s : PL_local_data) (a : Nat) (w : Word) : gMax (poke s a w) = gMax s := rfl
@[simp] theorem mem_poke (s : PL_local_data) (a : Nat) (w : Word) :
    (poke s a w).mem = (a, w) :: s.mem := rfl

theorem WritesWithin.noWrites (m : Mem) (lo hi : Nat) : WritesWithin m m lo hi :=
  ⟨[], rfl, by intro x hx; cases hx⟩

theorem WritesWithin.andThen {m1 m2 m3 : Mem} {lo hi : Nat}
    (h1 : WritesWithin m1 m2 lo hi) (h2 : WritesWithin m2 m3 lo hi) :
    WritesWithin m1 m3 lo hi := by
  obtain ⟨a1, e1, b1⟩ := h1
  obtain ⟨a2, e2, b2⟩ := h2
  refine ⟨a2 ++ a1, by rw [e2, e1, List.append_assoc], ?_⟩
  intro x hx
  rcases List.mem_append.1 hx with h | h
  · exact b2 x h
  · exact b1 x h

theorem WritesWithin.mono {m1 m2 : Mem} {lo hi lo' hi' : Nat}
    (h : WritesWithin m1 m2 lo hi) (hlo : lo' ≤ lo) (hhi : hi ≤ hi') :
    WritesWithin m1 m2 lo' hi' := by
  obtain ⟨a, e, b⟩ := h
  refine ⟨a, e, ?_⟩
  intro x hx
  have := b x hx
  omega

theorem WritesWithin.write {m1 m2 : Mem} {lo hi : Nat} (h : WritesWithin m1 m2 lo hi)
    (a : Nat) (w : Word) (h1 : lo ≤ a) (h2 : a + sizeofWord ≤ hi) :
    WritesWithin m1 (writeCell m2 a w) lo hi := by
  obtain ⟨ad, e, b⟩ := h
  refine ⟨(a, w) :: ad, by rw [writeCell, e]; rfl, ?_⟩
  intro x hx
  rcases List.mem_cons.1 hx with h | h
  · subst h; exact ⟨h1, h2⟩
  · exact b x h

theorem sameBut.same (s : PL_local_data) : sameBut s s := ⟨s.mem, gTop s, rfl⟩

theorem sameBut.followedBy {s1 s2 s3 : PL_local_data} (h1 : sameBut s1 s2) (h2 : sameBut s2 s3) :
    sameBut s1 s3 := by
  obtain ⟨m, g, e⟩ := h1
  obtain ⟨m', g', e'⟩ := h2
  exact ⟨m', g', by rw [e', e]; rfl⟩

theorem sameBut_poke (s : PL_local_data) (a : Nat) (w : Word) : sameBut s (poke s a w) :=
  ⟨(a, w) :: s.mem, gTop s, rfl⟩

theorem sameBut_setGTop (s : PL_local_data) (p : Nat) : sameBut s (setGTop s p) :=
  ⟨s.mem, p, rfl⟩

theorem sameBut.gMax {s s' : PL_local_data} (h : sameBut s s') : gMax s' = gMax s := by
  obtain ⟨m, g, e⟩ := h
  rw [e]; rfl

theorem pokeSeq_spec : ∀ (ws : List Word) (s : PL_local_data) (p : Nat),
    sameBut s (pokeSeq s p ws) ∧ gTop (pokeSeq s p ws) = gTop s ∧
    WritesWithin s.mem (pokeSeq s p ws).mem p (p + ws.length * sizeofWord)
  | [], s, p => ⟨sameBut.same s, rfl, WritesWithin.noWrites _ _ _⟩
  | w :: ws, s, p => by
    obtain ⟨h1, h2, h3⟩ := pokeSeq_spec ws (poke s p w) (p + sizeofWord)
    simp only [pokeSeq]
    refine ⟨(sameBut_poke s p w).followedBy h1, by rw [h2]; rfl, ?_⟩
    have hw : WritesWithin s.mem (poke s p w).mem p (p + (w :: ws).length * sizeofWord) :=
      (WritesWithin.noWrites s.mem _ _).write p w (le_refl _) (by simp only [List.length_cons]; (simp only [sizeofWord] at *; omega))
    exact hw.andThen (h3.mono (by (simp only [sizeofWord] at *; omega)) (by simp only [List.length_cons]; (simp only [sizeofWord] at *; omega)))

theorem sizeFrameTermLoop_add (V : TermView) (fr : Frame) :
    ∀ (is : List Nat) (size : Nat),
      sizeFrameTermLoop V fr is size = size + sizeFrameTermLoop V fr is 0
  | [], size => by simp [sizeFrameTermLoop]
  | i :: is, size => by
    simp only [sizeFrameTermLoop]
    split
    · rw [sizeFrameTermLoop_add V fr is (size + 3), sizeFrameTermLoop_add V fr is (0 + 3)]
      omega
    · exact sizeFrameTermLoop_add V fr is size

theorem pushGoalArgs_spec (V : TermView) (fr : Frame) :
    ∀ (is : List Nat) (p ad : Nat) (m : Mem),
      (pushGoalArgs V fr is p ad m).1 = p + is.length * sizeofWord ∧
      (pushGoalArgs V fr is p ad m).2.1 = ad + sizeFrameTermLoop V fr is 0 * sizeofWord ∧
      ∃ added : Mem, (pushGoalArgs V fr is p ad m).2.2 = added ++ m ∧
        ∀ x ∈ added,
          (p ≤ x.1 ∧ x.1 + sizeofWord ≤ p + is.length * sizeofWord) ∨
          (ad ≤ x.1 ∧ x.1 + sizeofWord ≤ ad + sizeFrameTermLoop V fr is 0 * sizeofWord) := by
  intro is
  induction is with
  | nil =>
    intro p ad m
    simp only [pushGoalArgs, sizeFrameTermLoop, List.length_nil]
    exact ⟨by (simp only [sizeofWord] at *; omega), by (simp only [sizeofWord] at *; omega), [], rfl, by intro x hx; cases hx⟩
  | cons i is ih =>
    intro p ad m
    have hsz := sizeFrameTermLoop_add V fr is 3
    by_cases h1 : isTerm (V.valueAt (V.deRef (argFrameP fr i))) = true
    · have hsize : sizeFrameTermLoop V fr (i :: is) 0 = 3 + sizeFrameTermLoop V fr is 0 := by
        simp only [sizeFrameTermLoop, if_pos h1]; rw [Nat.zero_add]; exact hsz
      have key : ∀ (w1 w2 w3 : Word),
          (pushGoalArgs V fr is (p + sizeofWord) (ad + 3 * sizeofWord)
            (writeCell (writeCell (writeCell
              (writeCell m p (consPtr ad Storage.STG_GLOBAL Tag.TAG_COMPOUND))
              ad w1) (ad + sizeofWord) w2) (ad + 2 * sizeofWord) w3)).1
            = p + (i :: is).length * sizeofWord ∧
          (pushGoalArgs V fr is (p + sizeofWord) (ad + 3 * sizeofWord)
            (writeCell (writeCell (writeCell
              (writeCell m p (consPtr ad Storage.STG_GLOBAL Tag.TAG_COMPOUND))
              ad w1) (ad + sizeofWord) w2) (ad + 2 * sizeofWord) w3)).2.1
            = ad + sizeFrameTermLoop V fr (i :: is) 0 * sizeofWord ∧
          ∃ added : Mem, (pushGoalArgs V fr is (p + sizeofWord) (ad + 3 * sizeofWord)
            (writeCell (writeCell (writeCell
              (writeCell m p (consPtr ad Storage.STG_GLOBAL Tag.TAG_COMPOUND))
              ad w1) (ad + sizeofWord) w2) (ad + 2 * sizeofWord) w3)).2.2 = added ++ m ∧
            ∀ x ∈ added,
              (p ≤ x.1 ∧ x.1 + sizeofWord ≤ p + (i :: is).length * sizeofWord) ∨
              (ad ≤ x.1 ∧ x.1 + sizeofWord
                ≤ ad + sizeFrameTermLoop V fr (i :: is) 0 * sizeofWord) := by
        intro w1 w2 w3
        obtain ⟨a1, a2, added, a3, a4⟩ := ih (p + sizeofWord) (ad + 3 * sizeofWord)
          (writeCell (writeCell (writeCell
              (writeCell m p (consPtr ad Storage.STG_GLOBAL Tag.TAG_COMPOUND))
              ad w1) (ad + sizeofWord) w2) (ad + 2 * sizeofWord) w3)
        refine ⟨by rw [a1]; simp only [List.length_cons]; (simp only [sizeofWord] at *; omega),
                by rw [a2, hsize]; (simp only [sizeofWord] at *; omega), ?_⟩
        refine ⟨added ++ [(ad + 2 * sizeofWord, w3), (ad + sizeofWord, w2), (ad, w1),
                  (p, consPtr ad Storage.STG_GLOBAL Tag.TAG_COMPOUND)], ?_, ?_⟩
        · rw [a3]; simp [writeCell]
        · intro x hx
          rcases List.mem_append.1 hx with h | h
          · have := a4 x h
            rw [hsize]
            simp only [List.length_cons]
            (simp only [sizeofWord] at *; omega)
          · rw [hsize]
            simp only [List.length_cons]
            simp only [List.mem_cons, List.mem_singleton, List.not_mem_nil, or_false] at h
            rcases h with h | h | h | h <;> subst h <;> simp only <;> (simp only [sizeofWord] at *; omega)
      unfold pushGoalArgs
      simp only [if_pos h1]
      split
      · split
        · exact key _ _ _
        · exact key _ _ _
      · exact key _ _ _
    · have hsize : sizeFrameTermLoop V fr (i :: is) 0 = sizeFrameTermLoop V fr is 0 := by
        simp only [sizeFrameTermLoop, if_neg h1]
      unfold pushGoalArgs
      simp only [if_neg h1]
      obtain ⟨a1, a2, added, a3, a4⟩ := ih (p + sizeofWord) ad
        (writeCell m p (V.valueAt (V.deRef (argFrameP fr i))))
      refine ⟨by rw [a1]; simp only [List.length_cons]; (simp only [sizeofWord] at *; omega), by rw [a2, hsize], ?_⟩
      refine ⟨added ++ [(p, V.valueAt (V.deRef (argFrameP fr i)))], ?_, ?_⟩
      · rw [a3]; simp [writeCell]
      · intro x hx
        rcases List.mem_append.1 hx with h | h
        · have := a4 x h
          rw [hsize]
          simp only [List.length_cons]
          (simp only [sizeofWord] at *; omega)
        · simp only [List.mem_singleton] at h
          subst h
          simp only [List.length_cons]
          left; (simp only [sizeofWord] at *; omega)

theorem sameBut_setMem (s : PL_local_data) (m : Mem) : sameBut s { s with mem := m } :=
  ⟨m, gTop s, rfl⟩

theorem push_goal_spec (V : TermView) (fr : Frame) (s : PL_local_data) :
    sameBut s (push_goal V fr s).2 ∧
    WritesWithin s.mem (push_goal V fr s).2.mem (gTop s) (gTop (push_goal V fr s).2) ∧
    (0 < fr.predicate.functor.arity →
      gTop (push_goal V fr s).2 = gTop s + size_frame_term V fr * sizeofWord) ∧
    (fr.predicate.functor.arity = 0 →
      gTop (push_goal V fr s).2 + sizeofWord = gTop s + size_frame_term V fr * sizeofWord) := by
  have h1 := pokeSeq_spec
    [FUNCTOR_frame3, consInt fr.level,
     consPtr (gTop s + 4 * sizeofWord) Storage.STG_GLOBAL Tag.TAG_COMPOUND, ATOM_nil,
     FUNCTOR_colon2, fr.predicate.module.name] s (gTop s)
  obtain ⟨a1, a2, a3⟩ := h1
  have hsize : size_frame_term V fr =
      8 + fr.predicate.functor.arity +
        sizeFrameTermLoop V fr (List.range fr.predicate.functor.arity) 0 := by
    unfold size_frame_term
    rw [sizeFrameTermLoop_add]
    omega
  unfold push_goal
  simp only
  by_cases har : fr.predicate.functor.arity > 0
  · simp only [if_pos har]
    obtain ⟨b1, b2, b3⟩ := pokeSeq_spec
      [consPtr (gTop s + 4 * sizeofWord + 3 * sizeofWord) Storage.STG_GLOBAL Tag.TAG_COMPOUND,
       fr.predicate.functor.functor]
      (pokeSeq s (gTop s)
        [FUNCTOR_frame3, consInt fr.level,
         consPtr (gTop s + 4 * sizeofWord) Storage.STG_GLOBAL Tag.TAG_COMPOUND, ATOM_nil,
         FUNCTOR_colon2, fr.predicate.module.name])
      (gTop s + 4 * sizeofWord + 2 * sizeofWord)
    obtain ⟨c1, c2, added, c3, c4⟩ := pushGoalArgs_spec V fr
      (List.range fr.predicate.functor.arity)
      (gTop s + 4 * sizeofWord + 4 * sizeofWord)
      (gTop s + 4 * sizeofWord + 4 * sizeofWord + fr.predicate.functor.arity * sizeofWord)
      (pokeSeq (pokeSeq s (gTop s)
        [FUNCTOR_frame3, consInt fr.level,
         consPtr (gTop s + 4 * sizeofWord) Storage.STG_GLOBAL Tag.TAG_COMPOUND, ATOM_nil,
         FUNCTOR_colon2, fr.predicate.module.name])
        (gTop s + 4 * sizeofWord + 2 * sizeofWord)
        [consPtr (gTop s + 4 * sizeofWord + 3 * sizeofWord) Storage.STG_GLOBAL Tag.TAG_COMPOUND,
         fr.predicate.functor.functor]).mem
    rw [List.length_range] at c4
    refine ⟨?_, ?_, ?_, ?_⟩
    · exact ((a1.followedBy b1).followedBy (sameBut_setMem _ _)).followedBy (sameBut_setGTop _ _)
    · simp only [gTop_setGTop, mem_setGTop]
      rw [c2]
      have w1 := a3.mono (le_refl (gTop s))
        (show gTop s + [FUNCTOR_frame3, consInt fr.level,
          consPtr (gTop s + 4 * sizeofWord) Storage.STG_GLOBAL Tag.TAG_COMPOUND, ATOM_nil,
          FUNCTOR_colon2, fr.predicate.module.name].length * sizeofWord ≤
          gTop s + 4 * sizeofWord + 4 * sizeofWord + fr.predicate.functor.arity * sizeofWord +
            sizeFrameTermLoop V fr (List.range fr.predicate.functor.arity) 0 * sizeofWord by
          simp only [List.length_cons, List.length_nil, sizeofWord]; omega)
      have w2 := b3.mono (show gTop s ≤ gTop s + 4 * sizeofWord + 2 * sizeofWord by omega)
        (show gTop s + 4 * sizeofWord + 2 * sizeofWord +
            [consPtr (gTop s + 4 * sizeofWord + 3 * sizeofWord) Storage.STG_GLOBAL
              Tag.TAG_COMPOUND, fr.predicate.functor.functor].length * sizeofWord ≤
          gTop s + 4 * sizeofWord + 4 * sizeofWord + fr.predicate.functor.arity * sizeofWord +
            sizeFrameTermLoop V fr (List.range fr.predicate.functor.arity) 0 * sizeofWord by
          simp only [List.length_cons, List.length_nil, sizeofWord]; omega)
      refine (w1.andThen w2).andThen ⟨added, c3, ?_⟩
      intro x hx
      have := c4 x hx
      simp only [sizeofWord] at *
      omega
    · intro _
      simp only [gTop_setGTop]
      rw [c2, hsize]
      simp only [sizeofWord]
      omega
    · intro h0; omega
  · simp only [if_neg har]
    have h0 : fr.predicate.functor.arity = 0 := by omega
    have hsize0 : size_frame_term V fr = 8 := by
      rw [hsize, h0]; simp [sizeFrameTermLoop]
    refine ⟨?_, ?_, ?_, ?_⟩
    · exact (a1.followedBy (sameBut_poke _ _ _)).followedBy (sameBut_setGTop _ _)
    · simp only [gTop_setGTop, mem_setGTop, mem_poke]
      have w1 := a3.mono (le_refl (gTop s))
        (show gTop s + [FUNCTOR_frame3, consInt fr.level,
          consPtr (gTop s + 4 * sizeofWord) Storage.STG_GLOBAL Tag.TAG_COMPOUND, ATOM_nil,
          FUNCTOR_colon2, fr.predicate.module.name].length * sizeofWord ≤
          gTop s + 4 * sizeofWord + 3 * sizeofWord by
          simp only [List.length_cons, List.length_nil, sizeofWord]; omega)
      exact w1.write _ _ (by simp only [sizeofWord]; omega) (by simp only [sizeofWord]; omega)
    · intro h; omega
    · intro _
      simp only [gTop_setGTop]
      rw [hsize0]
      simp only [sizeofWord]

theorem push_goal_gTop_le (V : TermView) (fr : Frame) (s : PL_local_data) :
    gTop s ≤ gTop (push_goal V fr s).2 ∧
    gTop (push_goal V fr s).2 ≤ gTop s + size_frame_term V fr * sizeofWord := by
  obtain ⟨_, _, h3, h4⟩ := push_goal_spec V fr s
  rcases Nat.eq_zero_or_pos fr.predicate.functor.arity with h | h
  · have := h4 h
    have hs : size_frame_term V fr = 8 := by
      unfold size_frame_term; rw [h]; simp [sizeFrameTermLoop]
    rw [hs] at this ⊢
    simp only [sizeofWord] at *
    omega
  · have := h3 h
    omega

theorem pushCycleSize_add (V : TermView) (ce : CycleEntries) :
    ∀ (is : List Nat) (size : Nat),
      pushCycleSize V ce is size = size + pushCycleSize V ce is 0
  | [], size => by simp [pushCycleSize]
  | i :: is, size => by
    simp only [pushCycleSize]
    rw [pushCycleSize_add V ce is (size + _), pushCycleSize_add V ce is (0 + _)]
    omega

theorem pushCycleLoop_spec (V : TermView) (ce : CycleEntries) (depth : Nat) :
    ∀ (is : List Nat) (p : Nat) (s : PL_local_data) (lo : Nat),
      lo ≤ p → p + is.length * (3 * sizeofWord) ≤ gTop s →
      sameBut s (pushCycleLoop V ce depth is p s) ∧
      WritesWithin s.mem (pushCycleLoop V ce depth is p s).mem lo
        (gTop (pushCycleLoop V ce depth is p s)) ∧
      gTop s ≤ gTop (pushCycleLoop V ce depth is p s) ∧
      gTop (pushCycleLoop V ce depth is p s)
        ≤ gTop s + pushCycleSize V ce is 0 * sizeofWord := by
  intro is
  induction is with
  | nil =>
    intro p s lo _ _
    simp only [pushCycleLoop, pushCycleSize]
    exact ⟨sameBut.same s, WritesWithin.noWrites _ _ _, le_refl _, by omega⟩
  | cons i is ih =>
    intro p s lo hlo hp
    simp only [List.length_cons] at hp
    unfold pushCycleLoop
    obtain ⟨g1, g2, _, _⟩ := push_goal_spec V (frameOf (ce.getD i [])) (poke s p FUNCTOR_dot2)
    obtain ⟨g3, g4⟩ := push_goal_gTop_le V (frameOf (ce.getD i [])) (poke s p FUNCTOR_dot2)
    simp only [gTop_poke, mem_poke] at g2 g3 g4
    have hstep : p + 3 * sizeofWord + is.length * (3 * sizeofWord) ≤
        gTop (poke (poke (push_goal V (frameOf (ce.getD i [])) (poke s p FUNCTOR_dot2)).2
          (p + sizeofWord) (push_goal V (frameOf (ce.getD i [])) (poke s p FUNCTOR_dot2)).1)
          (p + 2 * sizeofWord)
          (if i + 1 < depth then
            consPtr (p + 3 * sizeofWord) Storage.STG_GLOBAL Tag.TAG_COMPOUND
          else ATOM_nil)) := by
      simp only [gTop_poke]
      simp only [sizeofWord] at *
      omega
    obtain ⟨i1, i2, i3, i4⟩ := ih (p + 3 * sizeofWord) _ lo (by omega) hstep
    simp only [gTop_poke, mem_poke] at i2 i3 i4
    refine ⟨?_, ?_, ?_, ?_⟩
    · exact ((((sameBut_poke s p FUNCTOR_dot2).followedBy g1).followedBy (sameBut_poke _ _ _)).followedBy
        (sameBut_poke _ _ _)).followedBy i1
    · have w0 : WritesWithin s.mem (poke s p FUNCTOR_dot2).mem lo
          (gTop (push_goal V (frameOf (ce.getD i [])) (poke s p FUNCTOR_dot2)).2) :=
        (WritesWithin.noWrites s.mem _ _).write p _ hlo (by simp only [sizeofWord] at *; omega)
      have w1 := w0.andThen (g2.mono (by omega) (le_refl _))
      have w2 := (w1.write (p + sizeofWord)
        (push_goal V (frameOf (ce.getD i [])) (poke s p FUNCTOR_dot2)).1 (by omega)
        (by simp only [sizeofWord] at *; omega)).write (p + 2 * sizeofWord)
        (if i + 1 < depth then
            consPtr (p + 3 * sizeofWord) Storage.STG_GLOBAL Tag.TAG_COMPOUND
          else ATOM_nil) (by omega) (by simp only [sizeofWord] at *; omega)
      exact (w2.mono (le_refl _) i3).andThen i2
    · omega
    · simp only [pushCycleSize]
      rw [pushCycleSize_add]
      simp only [sizeofWord] at *
      omega

theorem push_cycle_spec (V : TermView) (ce : CycleEntries) (depth : Nat) (s : PL_local_data) :
    sameBut s (push_cycle V ce depth s).2 ∧
    ((push_cycle V ce depth s).1 = none → (push_cycle V ce depth s).2 = s) ∧
    (∀ w, (push_cycle V ce depth s).1 = some w →
      w = consPtr (gTop s) Storage.STG_GLOBAL Tag.TAG_COMPOUND ∧
      WritesWithin s.mem (push_cycle V ce depth s).2.mem (gTop s)
        (gTop (push_cycle V ce depth s).2) ∧
      gTop s + depth * 3 * sizeofWord ≤ gTop (push_cycle V ce depth s).2 ∧
      gTop (push_cycle V ce depth s).2 < gMax s) := by
  unfold push_cycle
  by_cases hc : gTop s + pushCycleSize V ce (List.range depth) (depth * 3) * sizeofWord < gMax s
  · simp only [if_pos hc]
    obtain ⟨a1, a2, a3, a4⟩ := pushCycleLoop_spec V ce depth (List.range depth) (gTop s)
      (setGTop s (gTop s + depth * 3 * sizeofWord)) (gTop s) (le_refl _)
      (by simp only [List.length_range, gTop_setGTop, sizeofWord]; omega)
    simp only [gTop_setGTop, mem_setGTop] at a2 a3 a4
    refine ⟨(sameBut_setGTop _ _).followedBy a1, ?_, ?_⟩
    · intro h; cases h
    · intro w hw
      rw [pushCycleSize_add] at hc
      refine ⟨by cases hw; rfl, a2, a3, ?_⟩
      simp only [sizeofWord] at *
      omega
  · simp only [if_neg hc]
    refine ⟨sameBut.same s, ?_, ?_⟩
    · intro _; trivial
    · intro w hw; cases hw

theorem push_stack_spec (V : TermView) (ce : CycleEntries) (depth : Nat) (name : Word)
    (p : Nat) (s : PL_local_data) :
    sameBut s (push_stack V ce depth name p s).2 ∧
    (((push_cycle V ce depth (setGTop s (p + 2 * sizeofWord))).1 = none ∧
        (push_stack V ce depth name p s).1 = p ∧
        gTop (push_stack V ce depth name p s).2 = p ∧
        (push_stack V ce depth name p s).2.mem = s.mem) ∨
      ((push_cycle V ce depth (setGTop s (p + 2 * sizeofWord))).1 ≠ none ∧
        (push_stack V ce depth name p s).1 = p + 2 * sizeofWord ∧
        WritesWithin s.mem (push_stack V ce depth name p s).2.mem p
          (gTop (push_stack V ce depth name p s).2) ∧
        p + 2 * sizeofWord + depth * 3 * sizeofWord ≤ gTop (push_stack V ce depth name p s).2 ∧
        gTop (push_stack V ce depth name p s).2 < gMax s)) := by
  obtain ⟨a1, a2, a3⟩ := push_cycle_spec V ce depth (setGTop s (p + 2 * sizeofWord))
  unfold push_stack
  rcases h : push_cycle V ce depth (setGTop s (p + 2 * sizeofWord)) with ⟨o, s1⟩
  rw [h] at a1 a2 a3
  simp only at a1 a2 a3
  cases o with
  | none =>
    simp only
    have hs1 := a2 rfl
    subst hs1
    exact ⟨((sameBut_setGTop s _).followedBy (sameBut_setGTop _ _)), Or.inl ⟨trivial, trivial, rfl, rfl⟩⟩
  | some w =>
    simp only
    obtain ⟨_, b2, b3, b4⟩ := a3 w rfl
    simp only [gTop_setGTop, mem_setGTop, gMax_setGTop] at b2 b3 b4
    refine ⟨(((sameBut_setGTop s _).followedBy a1).followedBy (sameBut_poke _ _ _)).followedBy
      (sameBut_poke _ _ _), Or.inr ⟨by simp, trivial, ?_, ?_, ?_⟩⟩
    · simp only [gTop_poke, mem_poke]
      have w1 := b2.mono (show p ≤ p + 2 * sizeofWord by omega) (le_refl _)
      exact (w1.write p w (le_refl _) (by simp only [sizeofWord] at *; omega)).write
        (p + sizeofWord) name (by omega) (by simp only [sizeofWord] at *; omega)
    · simp only [gTop_poke]; exact b3
    · simp only [gTop_poke]; exact b4

/-- Outcome of the stack part of the context: either nothing is written and
`gTop` stays at `p`, or a key-value pair and a list of frames are written from
`p` on, below `gMax`. -/
theorem contextStack_spec (E : Ext) (p : Nat) (s : PL_local_data) (hp : gTop s = p) :
    sameBut s (contextStack E p s).2 ∧
    (((contextStack E p s).1 = p ∧ gTop (contextStack E p s).2 = p ∧
        (contextStack E p s).2.mem = s.mem) ∨
      ((contextStack E p s).1 = p + 2 * sizeofWord ∧
        WritesWithin s.mem (contextStack E p s).2.mem p (gTop (contextStack E p s).2) ∧
        p + 2 * sizeofWord ≤ gTop (contextStack E p s).2 ∧
        gTop (contextStack E p s).2 < gMax s)) := by
  have key : ∀ (ce : CycleEntries) (depth : Nat) (name : Word),
      sameBut s (push_stack E.view ce depth name p s).2 ∧
      (((push_stack E.view ce depth name p s).1 = p ∧
          gTop (push_stack E.view ce depth name p s).2 = p ∧
          (push_stack E.view ce depth name p s).2.mem = s.mem) ∨
        ((push_stack E.view ce depth name p s).1 = p + 2 * sizeofWord ∧
          WritesWithin s.mem (push_stack E.view ce depth name p s).2.mem p
            (gTop (push_stack E.view ce depth name p s).2) ∧
          p + 2 * sizeofWord ≤ gTop (push_stack E.view ce depth name p s).2 ∧
          gTop (push_stack E.view ce depth name p s).2 < gMax s)) := by
    intro ce depth name
    obtain ⟨a1, a2⟩ := push_stack_spec E.view ce depth name p s
    refine ⟨a1, ?_⟩
    rcases a2 with ⟨_, h1, h2, h3⟩ | ⟨_, h1, h2, h3, h4⟩
    · exact Or.inl ⟨h1, h2, h3⟩
    · exact Or.inr ⟨h1, h2, by omega, h4⟩
  have keep : sameBut s s ∧ ((p = p ∧ gTop s = p ∧ s.mem = s.mem) ∨
      (p = p + 2 * sizeofWord ∧ WritesWithin s.mem s.mem p (gTop s) ∧
        p + 2 * sizeofWord ≤ gTop s ∧ gTop s < gMax s)) :=
    ⟨sameBut.same s, Or.inl ⟨rfl, hp, rfl⟩⟩
  unfold contextStack
  split
  · split
    · exact key _ _ _
    · split
      · exact key _ _ _
      · exact keep
  · split
    · exact key _ _ _
    · exact keep

theorem storePairs_spec (dict : Nat) :
    ∀ (kvs : List (Word × Word)) (s : PL_local_data) (j : Nat),
      sameBut s (storePairs s dict j kvs) ∧
      gTop (storePairs s dict j kvs) = gTop s ∧
      WritesWithin s.mem (storePairs s dict j kvs).mem (dict + (2 + 2 * j) * sizeofWord)
        (dict + (2 + 2 * (j + kvs.length)) * sizeofWord)
  | [], s, j => ⟨sameBut.same s, rfl, WritesWithin.noWrites _ _ _⟩
  | kv :: rest, s, j => by
    obtain ⟨a1, a2, a3⟩ := storePairs_spec dict rest
      (poke (poke s (dict + (2 + 2 * j) * sizeofWord) kv.1)
        (dict + (3 + 2 * j) * sizeofWord) kv.2) (j + 1)
    simp only [storePairs]
    simp only [gTop_poke, mem_poke] at a2 a3
    refine ⟨((sameBut_poke _ _ _).followedBy (sameBut_poke _ _ _)).followedBy a1, a2, ?_⟩
    have w0 : WritesWithin s.mem
        ((dict + (3 + 2 * j) * sizeofWord, kv.2) :: (dict + (2 + 2 * j) * sizeofWord, kv.1) :: s.mem)
        (dict + (2 + 2 * j) * sizeofWord)
        (dict + (2 + 2 * (j + (kv :: rest).length)) * sizeofWord) :=
      ((WritesWithin.noWrites s.mem _ _).write _ kv.1 (le_refl _)
        (by simp only [List.length_cons, sizeofWord]; omega)).write _ kv.2
        (by simp only [sizeofWord]; omega)
        (by simp only [List.length_cons, sizeofWord]; omega)
    exact w0.andThen (a3.mono (by simp only [sizeofWord]; omega)
      (by simp only [List.length_cons, sizeofWord]; omega))

theorem contextFixed_length (s : PL_local_data) (cps : Int) :
    14 ≤ (contextFixed s cps).length ∧ (contextFixed s cps).length ≤ 16 := by
  unfold contextFixed
  cases s.environment_frame with
  | nil => simp
  | cons f rest => simp

theorem push_overflow_context_spec (E : Ext) (stack : Stack) (extra : Nat)
    (s s' : PL_local_data) (ctx : Word) (hextra : 2 ≤ extra)
    (h : push_overflow_context E stack extra s = some (ctx, s')) :
    sameBut s s' ∧
    ((¬ gTop s + (2 * 7 + extra) * sizeofWord < gMax s ∧ s' = s ∧ ctx = Word.atom stack.name) ∨
      (gTop s + (2 * 7 + extra) * sizeofWord < gMax s ∧
        ctx = consPtr (gTop s) Storage.STG_GLOBAL Tag.TAG_COMPOUND ∧
        WritesWithin s.mem s'.mem (gTop s) (gTop s') ∧
        gTop s + 14 * sizeofWord ≤ gTop s' ∧ gTop s' < gMax s)) := by
  unfold push_overflow_context at h
  by_cases hc : gTop s + (2 * 7 + extra) * sizeofWord < gMax s
  · simp only [if_pos hc] at h
    cases hcp : choice_points s.BFR s.query with
    | none => rw [hcp] at h; cases h
    | some cps =>
      rw [hcp] at h
      simp only [Option.some.injEq, Prod.mk.injEq] at h
      obtain ⟨hctx, hs'⟩ := h
      obtain ⟨l1, l2⟩ := contextFixed_length s cps
      obtain ⟨f1, f2, f3⟩ := pokeSeq_spec (contextFixed s cps) s (gTop s)
      obtain ⟨c1, c2⟩ := contextStack_spec E (gTop s + (contextFixed s cps).length * sizeofWord)
        (setGTop (pokeSeq s (gTop s) (contextFixed s cps))
          (gTop s + (contextFixed s cps).length * sizeofWord)) rfl
      simp only [mem_setGTop, gMax_setGTop] at c2
      have hgm : gMax (pokeSeq s (gTop s) (contextFixed s cps)) = gMax s := f1.gMax
      rw [hgm] at c2
      obtain ⟨d1, d2, d3⟩ := storePairs_spec (gTop s)
        ((E.dict_order (dictPairs
          (poke (contextStack E (gTop s + (contextFixed s cps).length * sizeofWord)
            (setGTop (pokeSeq s (gTop s) (contextFixed s cps))
              (gTop s + (contextFixed s cps).length * sizeofWord))).2 (gTop s)
            (dict_functor
              ((((contextStack E (gTop s + (contextFixed s cps).length * sizeofWord)
                (setGTop (pokeSeq s (gTop s) (contextFixed s cps))
                  (gTop s + (contextFixed s cps).length * sizeofWord))).1 - gTop s)
                  / sizeofWord - 2) / 2))).mem (gTop s)
            ((((contextStack E (gTop s + (contextFixed s cps).length * sizeofWord)
                (setGTop (pokeSeq s (gTop s) (contextFixed s cps))
                  (gTop s + (contextFixed s cps).length * sizeofWord))).1 - gTop s)
                  / sizeofWord - 2) / 2))).take
            ((((contextStack E (gTop s + (contextFixed s cps).length * sizeofWord)
                (setGTop (pokeSeq s (gTop s) (contextFixed s cps))
                  (gTop s + (contextFixed s cps).length * sizeofWord))).1 - gTop s)
                  / sizeofWord - 2) / 2))
        (poke (contextStack E (gTop s + (contextFixed s cps).length * sizeofWord)
            (setGTop (pokeSeq s (gTop s) (contextFixed s cps))
              (gTop s + (contextFixed s cps).length * sizeofWord))).2 (gTop s)
            (dict_functor
              ((((contextStack E (gTop s + (contextFixed s cps).length * sizeofWord)
                (setGTop (pokeSeq s (gTop s) (contextFixed s cps))
                  (gTop s + (contextFixed s cps).length * sizeofWord))).1 - gTop s)
                  / sizeofWord - 2) / 2))) 0
      unfold dictOrder at hs'
      rw [hs'] at d1 d2 d3
      simp only [gTop_poke, mem_poke] at d2 d3
      -- abbreviations
      generalize hr : contextStack E (gTop s + (contextFixed s cps).length * sizeofWord)
            (setGTop (pokeSeq s (gTop s) (contextFixed s cps))
              (gTop s + (contextFixed s cps).length * sizeofWord)) = r at *
      have hlen := List.length_take_le
        ((((r.1 - gTop s) / sizeofWord - 2) / 2))
        (E.dict_order (dictPairs ((gTop s, dict_functor (((r.1 - gTop s) / sizeofWord - 2) / 2))
          :: r.2.mem) (gTop s) (((r.1 - gTop s) / sizeofWord - 2) / 2)))
      have hr1 : r.1 ≤ gTop r.2 ∧ gTop s + 14 * sizeofWord ≤ r.1 ∧ gTop r.2 < gMax s ∧
          WritesWithin (pokeSeq s (gTop s) (contextFixed s cps)).mem r.2.mem (gTop s) (gTop r.2) := by
        rcases c2 with ⟨e1, e2, e3⟩ | ⟨e1, e2, e3, e4⟩
        · refine ⟨by omega, by simp only [sizeofWord] at *; omega,
            by simp only [sizeofWord] at *; omega, ?_⟩
          rw [e3]; exact WritesWithin.noWrites _ _ _
        · refine ⟨by omega, by simp only [sizeofWord] at *; omega, e4, ?_⟩
          exact e2.mono (by omega) (le_refl _)
      obtain ⟨r1, r2, r3, r4⟩ := hr1
      refine ⟨?_, Or.inr ⟨hc, hctx.symm, ?_, by omega, by omega⟩⟩
      · exact ((((f1.followedBy (sameBut_setGTop _ _)).followedBy c1).followedBy (sameBut_poke _ _ _)).followedBy d1)
      · rw [d2]
        have w1 : WritesWithin s.mem r.2.mem (gTop s) (gTop r.2) :=
          (f3.mono (le_refl _) (by simp only [sizeofWord] at *; omega)).andThen r4
        have w2 := w1.write (gTop s) (dict_functor (((r.1 - gTop s) / sizeofWord - 2) / 2))
          (le_refl _) (by simp only [sizeofWord] at *; omega)
        refine w2.andThen (d3.mono (by omega) ?_)
        have hdiv : (2 + 2 * (((r.1 - gTop s) / sizeofWord - 2) / 2)) * sizeofWord
            ≤ r.1 - gTop s := by
          simp only [sizeofWord] at *
          omega
        have : (2 + 2 * (0 + (List.take (((r.1 - gTop s) / sizeofWord - 2) / 2)
            (E.dict_order (dictPairs ((gTop s, dict_functor (((r.1 - gTop s) / sizeofWord - 2) / 2))
              :: r.2.mem) (gTop s) (((r.1 - gTop s) / sizeofWord - 2) / 2)))).length))
              * sizeofWord
            ≤ (2 + 2 * (((r.1 - gTop s) / sizeofWord - 2) / 2)) * sizeofWord := by
          apply Nat.mul_le_mul_right
          omega
        omega
  · simp only [if_neg hc, Option.some.injEq, Prod.mk.injEq] at h
    obtain ⟨h1, h2⟩ := h
    subst h2
    exact ⟨sameBut.same s, Or.inl ⟨hc, rfl, h1.symm⟩⟩

@[simp] theorem gTop_emit (s : PL_local_data) (e : Event) : gTop (emit s e) = gTop s := rfl
@[simp] theorem gMax_emit (s : PL_local_data) (e : Event) : gMax (emit s e) = gMax s := rfl
@[simp] theorem mem_emit (s : PL_local_data) (e : Event) : (emit s e).mem = s.mem := rfl
@[simp] theorem gTop_enableSpareStacks (s : PL_local_data) :
    gTop (enableSpareStacks s) = gTop s := by
  unfold enableSpareStacks gTop enableSpareStack
  simp only
  split <;> rfl
@[simp] theorem mem_enableSpareStacks (s : PL_local_data) :
    (enableSpareStacks s).mem = s.mem := rfl

theorem gMax_enableSpareStacks (s : PL_local_data) : gMax s ≤ gMax (enableSpareStacks s) := by
  unfold enableSpareStacks gMax enableSpareStack
  simp only
  split
  · simp
  · exact le_refl _

theorem outOfStackEnter_spec (stack : StackId) (s : PL_local_data) :
    gTop (outOfStackEnter stack s) = gTop s ∧ (outOfStackEnter stack s).mem = s.mem ∧
    gMax s ≤ gMax (outOfStackEnter stack s) := by
  unfold outOfStackEnter
  refine ⟨?_, ?_, ?_⟩
  · show gTop (enableSpareStacks _) = gTop s
    rw [gTop_enableSpareStacks]; split <;> rfl
  · show (enableSpareStacks _).mem = s.mem
    rw [mem_enableSpareStacks]; split <;> rfl
  · show gMax s ≤ gMax (enableSpareStacks _)
    refine le_trans ?_ (gMax_enableSpareStacks _)
    split <;> exact le_refl _

theorem outOfStackTerm_spec (ctx : Word) (s : PL_local_data) :
    gMax (outOfStackTerm ctx s) = gMax s ∧
    ((¬ gTop s + 5 * sizeofWord < gMax s ∧ gTop (outOfStackTerm ctx s) = gTop s ∧
        (outOfStackTerm ctx s).mem = s.mem ∧ (outOfStackTerm ctx s).bin_value = ATOM_aborted) ∨
      (gTop s + 5 * sizeofWord < gMax s ∧
        gTop (outOfStackTerm ctx s) = gTop s + 5 * sizeofWord ∧
        (outOfStackTerm ctx s).bin_value = consPtr (gTop s) Storage.STG_GLOBAL Tag.TAG_COMPOUND ∧
        (outOfStackTerm ctx s).mem =
          (pokeSeq s (gTop s) [FUNCTOR_error2,
             consPtr (gTop s + 3 * sizeofWord) Storage.STG_GLOBAL Tag.TAG_COMPOUND,
             ctx, FUNCTOR_resource_error1, ATOM_stack]).mem)) := by
  unfold outOfStackTerm
  by_cases h5 : gTop s + 5 * sizeofWord < gMax s
  · simp only [if_pos h5]
    obtain ⟨q1, _, _⟩ := pokeSeq_spec [FUNCTOR_error2,
      consPtr (gTop s + 3 * sizeofWord) Storage.STG_GLOBAL Tag.TAG_COMPOUND,
      ctx, FUNCTOR_resource_error1, ATOM_stack] s (gTop s)
    refine ⟨?_, Or.inr ⟨h5, rfl, rfl, rfl⟩⟩
    show gMax (pokeSeq s (gTop s) _) = gMax s
    exact q1.gMax
  · rw [if_neg h5]
    exact ⟨rfl, Or.inl ⟨h5, rfl, rfl, rfl⟩⟩

/-- What a returning (or jumping) `outOfStack` does to the global stack: `gMax`
does not shrink, and either nothing is written and `gTop` stays, or cells from
the old `gTop` up to the new `gTop` are written and the new `gTop` is below
`gMax`. -/
theorem outOfStack_writes (E : Ext) (stack : StackId) (how : stack_overflow_action)
    (s s' : PL_local_data) (h : (outOfStack E stack how s).finalState = some s') :
    gMax s ≤ gMax s' ∧
    ((gTop s' = gTop s ∧ s'.mem = s.mem) ∨
      (WritesWithin s.mem s'.mem (gTop s) (gTop s') ∧ gTop s < gTop s' ∧ gTop s' < gMax s')) := by
  unfold outOfStack at h
  by_cases hm : s.outofstack = some stack
  · simp only [if_pos hm, Outcome.finalState] at h
    cases h
  · simp only [if_neg hm] at h
    obtain ⟨h31, h32, h33⟩ := outOfStackEnter_spec stack s
    generalize outOfStackEnter stack s = s3 at h h31 h32 h33
    cases hp : push_overflow_context E (stackOf s3 stack) 6 s3 with
    | none => rw [hp] at h; simp only [Outcome.finalState] at h; cases h
    | some r =>
      obtain ⟨ctx, s4⟩ := r
      rw [hp] at h
      simp only at h
      obtain ⟨p1, p2⟩ := push_overflow_context_spec E (stackOf s3 stack) 6 s3 s4 ctx (by omega) hp
      have hg4 : gMax s4 = gMax s3 := p1.gMax
      have hfin : (if how = stack_overflow_action.STACK_OVERFLOW_THROW ∧
            (outOfStackTerm ctx s4).throw_environment = true then
            (Outcome.jump (outOfStackTerm ctx s4) : Outcome Bool)
            else Outcome.ret false (outOfStackTerm ctx s4)).finalState
            = some (outOfStackTerm ctx s4) := by
        split <;> rfl
      rw [hfin] at h
      simp only [Option.some.injEq] at h
      subst h
      obtain ⟨t1, t2⟩ := outOfStackTerm_spec ctx s4
      refine ⟨by rw [t1, hg4]; exact h33, ?_⟩
      rw [t1]
      rcases t2 with ⟨_, t3, t4, _⟩ | ⟨h5, t3, _, t4⟩
      · rw [t3, t4]
        rcases p2 with ⟨_, e, _⟩ | ⟨_, _, e2, e3, e4⟩
        · left; rw [e]; exact ⟨h31, h32⟩
        · right
          rw [h32, h31] at e2
          exact ⟨e2, by simp only [sizeofWord] at *; omega, by rw [hg4]; exact e4⟩
      · obtain ⟨q1, q2, q3⟩ := pokeSeq_spec [FUNCTOR_error2,
          consPtr (gTop s4 + 3 * sizeofWord) Storage.STG_GLOBAL Tag.TAG_COMPOUND,
          ctx, FUNCTOR_resource_error1, ATOM_stack] s4 (gTop s4)
        right
        rw [t3, t4]
        have hle : gTop s ≤ gTop s4 := by
          rcases p2 with ⟨_, e, _⟩ | ⟨_, _, _, e, _⟩
          · rw [e, h31]
          · omega
        refine ⟨?_, by simp only [sizeofWord] at *; omega, h5⟩
        have w5 := q3.mono hle
            (show gTop s4 + [FUNCTOR_error2,
              consPtr (gTop s4 + 3 * sizeofWord) Storage.STG_GLOBAL Tag.TAG_COMPOUND,
              ctx, FUNCTOR_resource_error1, ATOM_stack].length * sizeofWord
                ≤ gTop s4 + 5 * sizeofWord by simp)
        rcases p2 with ⟨_, e, _⟩ | ⟨_, _, e2, e3, _⟩
        · subst e; rw [h32] at w5; exact w5
        · rw [h32, h31] at e2
          exact (e2.mono (le_refl _) (by omega)).andThen w5

set_option maxRecDepth 100000 in
/-- C4 fails as stated: a global overflow raised in `exampleOverState`, where
`gTop` is 8 bytes above `gMax`. The room of the global stack is negative, a
large `size_t`, so its spare is not donated; `outOfStack` writes nothing,
installs `aborted` and returns with `gTop` still above `gMax`. -/
theorem overflow_report_counterexample :
    (outOfStack exampleExt StackId.global stack_overflow_action.STACK_OVERFLOW_RAISE
        exampleOverState).finalState.map
      (fun s' => (gTop s', gMax s', s'.mem, s'.bin_value, decide (gTop s' ≤ gMax s')))
      = some (1608, 1600, [], ATOM_aborted, false) := by
  decide

/-- C4 (amended): the overflow report is built inside the global region. When
`outOfStack` comes back (by return or `longjmp`), every cell it wrote, through
`push_overflow_context`, `push_stack`, `push_cycle` and `push_goal`, lies at
or above the old `gTop`, below the new `gTop` and strictly below `gMax`, and
`gTop ≤ gMax` holds afterwards if it held before. The two facts this rests on:
the fixed part of the context with the key-value pair of the stack takes at
most `2*7+6` cells, and `push_goal(fr)` writes between the old and the new
`gTop` only and advances `gTop` by at most `size_frame_term(fr)` cells, by
exactly that many when the arity is positive, so that the one check of
`push_cycle` keeps all it writes below `gMax`. -/
theorem overflow_report_within_capacity (E : Ext) (stack : StackId)
    (how : stack_overflow_action) (s s' : PL_local_data)
    (h : (outOfStack E stack how s).finalState = some s') :
    (∃ added : Mem, s'.mem = added ++ s.mem ∧
      ∀ x ∈ added, gTop s ≤ x.1 ∧ x.1 + sizeofWord ≤ gTop s' ∧ x.1 + sizeofWord < gMax s') ∧
    (gTop s ≤ gMax s → gTop s' ≤ gMax s') ∧
    (∀ cps, (contextFixed s cps).length + 2 ≤ 2 * 7 + 6) ∧
    (∀ (fr : Frame) (t : PL_local_data),
      WritesWithin t.mem (push_goal E.view fr t).2.mem (gTop t)
        (gTop (push_goal E.view fr t).2) ∧
      gTop (push_goal E.view fr t).2 ≤ gTop t + size_frame_term E.view fr * sizeofWord ∧
      (0 < fr.predicate.functor.arity →
        gTop (push_goal E.view fr t).2 = gTop t + size_frame_term E.view fr * sizeofWord)) ∧
    (∀ (ce : CycleEntries) (depth : Nat) (t : PL_local_data) (w : Word),
      (push_cycle E.view ce depth t).1 = some w →
        WritesWithin t.mem (push_cycle E.view ce depth t).2.mem (gTop t)
          (gTop (push_cycle E.view ce depth t).2) ∧
        gTop (push_cycle E.view ce depth t).2 < gMax t) := by
  obtain ⟨h1, h2⟩ := outOfStack_writes E stack how s s' h
  refine ⟨?_, ?_, ?_, ?_, ?_⟩
  · rcases h2 with ⟨_, e⟩ | ⟨⟨added, e1, e2⟩, _, e4⟩
    · exact ⟨[], by rw [e]; rfl, by intro x hx; cases hx⟩
    · refine ⟨added, e1, ?_⟩
      intro x hx
      have := e2 x hx
      exact ⟨this.1, this.2, by omega⟩
  · intro hle
    rcases h2 with ⟨e, _⟩ | ⟨_, _, e4⟩
    · rw [e]; omega
    · omega
  · intro cps
    have := (contextFixed_length s cps).2
    omega
  · intro fr t
    obtain ⟨_, g2, g3, _⟩ := push_goal_spec E.view fr t
    exact ⟨g2, (push_goal_gTop_le E.view fr t).2, g3⟩
  · intro ce depth t w hw
    obtain ⟨_, _, c3⟩ := push_cycle_spec E.view ce depth t
    obtain ⟨_, c4, _, c6⟩ := c3 w hw
    exact ⟨c4, c6⟩

set_option maxRecDepth 100000 in
/-- The amended C4 on the local overflow raised in `exampleState`, which builds
a report, all of it between the old `gTop` and `gMax`. -/
theorem overflow_report_within_capacity_witness :
    exampleOverflowState.mem ≠ [] ∧
    (∃ added : Mem, exampleOverflowState.mem = added ++ exampleState.mem ∧
      ∀ x ∈ added, gTop exampleState ≤ x.1 ∧ x.1 + sizeofWord ≤ gTop exampleOverflowState ∧
        x.1 + sizeofWord < gMax exampleOverflowState) ∧
    (gTop exampleState ≤ gMax exampleState →
      gTop exampleOverflowState ≤ gMax exampleOverflowState) :=
  ⟨by decide,
   (overflow_report_within_capacity exampleExt StackId.local
      stack_overflow_action.STACK_OVERFLOW_RAISE exampleState exampleOverflowState
      (by decide)).1,
   (overflow_report_within_capacity exampleExt StackId.local
      stack_overflow_action.STACK_OVERFLOW_RAISE exampleState exampleOverflowState
      (by decide)).2.1⟩

theorem sameBut.outofstack {s s' : PL_local_data} (h : sameBut s s') :
    s'.outofstack = s.outofstack := by
  obtain ⟨m, g, e⟩ := h
  rw [e]; rfl

theorem outOfStackTerm_outofstack (ctx : Word) (s : PL_local_data) :
    (outOfStackTerm ctx s).outofstack = s.outofstack := by
  unfold outOfStackTerm
  split
  · show (pokeSeq s (gTop s) _).outofstack = s.outofstack
    exact (pokeSeq_spec _ s (gTop s)).1.outofstack
  · rfl

theorem outOfStack_marker (E : Ext) (stack : StackId) (how : stack_overflow_action)
    (s s' : PL_local_data) (h : (outOfStack E stack how s).finalState = some s') :
    s'.outofstack = some stack := by
  unfold outOfStack at h
  by_cases hm : s.outofstack = some stack
  · simp only [if_pos hm, Outcome.finalState] at h
    cases h
  · simp only [if_neg hm] at h
    cases hp : push_overflow_context E (stackOf (outOfStackEnter stack s) stack) 6
        (outOfStackEnter stack s) with
    | none => rw [hp] at h; simp only [Outcome.finalState] at h; cases h
    | some r =>
      obtain ⟨ctx, s4⟩ := r
      rw [hp] at h
      simp only at h
      have p1 := (push_overflow_context_spec E _ 6 _ s4 ctx (by omega) hp).1
      have hfin : (if how = stack_overflow_action.STACK_OVERFLOW_THROW ∧
            (outOfStackTerm ctx s4).throw_environment = true then
            (Outcome.jump (outOfStackTerm ctx s4) : Outcome Bool)
            else Outcome.ret false (outOfStackTerm ctx s4)).finalState
            = some (outOfStackTerm ctx s4) := by
        split <;> rfl
      rw [hfin] at h
      simp only [Option.some.injEq] at h
      subst h
      rw [outOfStackTerm_outofstack, p1.outofstack]
      rfl

theorem outOfStack_isFatal_iff (E : Ext) (stack : StackId) (how : stack_overflow_action)
    (s : PL_local_data) :
    (outOfStack E stack how s).isFatal = true ↔ s.outofstack = some stack := by
  unfold outOfStack
  by_cases hm : s.outofstack = some stack
  · simp only [if_pos hm, Outcome.isFatal, true_iff]
    exact hm
  · simp only [if_neg hm]
    constructor
    · intro h
      exfalso
      revert h
      split
      · simp [Outcome.isFatal]
      · split <;> simp [Outcome.isFatal]
    · intro h; exact absurd h hm

@[simp] theorem output_emit (s : PL_local_data) (e : Event) :
    (emit s e).output = s.output ++ [e] := rfl

theorem outOfStackFatal_spec (stack : StackId) (s : PL_local_data) :
    (outOfStackFatal stack s).mem = s.mem ∧
    gTop (outOfStackFatal stack s) = gTop s ∧
    (outOfStackFatal stack s).output = s.output ++
      [Event.Sdprintf ("failed to recover from " ++ (stackOf s stack).name ++ "-overflow"),
       Event.print_backtrace_named "out-of-stack",
       Event.save_backtrace "crash",
       Event.print_backtrace_named "crash",
       Event.fatalError "Sorry, cannot continue"] := by
  unfold outOfStackFatal
  generalize Event.Sdprintf ("failed to recover from " ++ (stackOf s stack).name ++ "-overflow")
    = e1
  simp only [mem_emit, gTop_emit, output_emit, List.append_assoc, List.cons_append,
    List.nil_append, and_self]

set_option maxRecDepth 100000 in
/-- C10 fails as stated: local, global and again local overflow, with nothing in
between. The third call is on a region that overflowed earlier in the sequence,
and it is not fatal: the marker holds the global region by then. -/
theorem reentrant_overflow_counterexample :
    (outOfStackSeq exampleExt
      [(StackId.local, stack_overflow_action.STACK_OVERFLOW_RAISE),
       (StackId.global, stack_overflow_action.STACK_OVERFLOW_RAISE),
       (StackId.local, stack_overflow_action.STACK_OVERFLOW_RAISE)]
      exampleState).map Outcome.isFatal = [false, false, false] := by
  decide

/-- C10 (amended): the in-flight marker `LD->outofstack` holds one region, the
one of the last `outOfStack` call that came back. A call on the region the
marker holds terminates the process through the fatal path, printing the
diagnostics and crash backtrace and writing no cell; a call is fatal only
then. A call that comes back leaves the marker on its own region, so with no
reset in between the next call is fatal if it is on that same region and not
fatal if it is on another one. -/
theorem reentrant_overflow_fatal (E : Ext) (stack : StackId)
    (how how2 : stack_overflow_action) (s : PL_local_data) :
    (s.outofstack = some stack →
      outOfStack E stack how s = Outcome.fatal (outOfStackFatal stack s) ∧
      (outOfStackFatal stack s).mem = s.mem ∧
      gTop (outOfStackFatal stack s) = gTop s ∧
      (outOfStackFatal stack s).output = s.output ++
        [Event.Sdprintf ("failed to recover from " ++ (stackOf s stack).name ++ "-overflow"),
         Event.print_backtrace_named "out-of-stack",
         Event.save_backtrace "crash",
         Event.print_backtrace_named "crash",
         Event.fatalError "Sorry, cannot continue"]) ∧
    ((outOfStack E stack how s).isFatal = true ↔ s.outofstack = some stack) ∧
    (∀ s', (outOfStack E stack how s).finalState = some s' →
      s'.outofstack = some stack ∧
      (outOfStack E stack how2 s').isFatal = true ∧
      ∀ other, other ≠ stack → (outOfStack E other how2 s').isFatal = false) := by
  refine ⟨?_, outOfStack_isFatal_iff E stack how s, ?_⟩
  · intro hm
    obtain ⟨f1, f2, f3⟩ := outOfStackFatal_spec stack s
    refine ⟨?_, f1, f2, f3⟩
    unfold outOfStack
    rw [if_pos hm]
  · intro s' hs'
    have hmk := outOfStack_marker E stack how s s' hs'
    refine ⟨hmk, (outOfStack_isFatal_iff E stack how2 s').2 hmk, ?_⟩
    intro other hne
    cases hf : (outOfStack E other how2 s').isFatal with
    | false => rfl
    | true =>
      have := (outOfStack_isFatal_iff E other how2 s').1 hf
      rw [hmk] at this
      exact absurd (Option.some.inj this).symm hne

set_option maxRecDepth 100000 in
/-- Witness for the amended C10: after the local overflow raised in
`exampleState` the marker holds the local region and a second local overflow is
fatal. -/
theorem reentrant_overflow_fatal_witness :
    exampleOverflowState.outofstack = some StackId.local ∧
    (outOfStack exampleExt StackId.local stack_overflow_action.STACK_OVERFLOW_THROW
      exampleOverflowState).isFatal = true :=
  ⟨((reentrant_overflow_fatal exampleExt StackId.local
      stack_overflow_action.STACK_OVERFLOW_RAISE stack_overflow_action.STACK_OVERFLOW_THROW
      exampleState).2.2 exampleOverflowState (by decide)).1,
   ((reentrant_overflow_fatal exampleExt StackId.local
      stack_overflow_action.STACK_OVERFLOW_RAISE stack_overflow_action.STACK_OVERFLOW_THROW
      exampleState).2.2 exampleOverflowState (by decide)).2.1⟩

theorem sameBut.localStack {s s' : PL_local_data} (h : sameBut s s') :
    s'.stackset.local = s.stackset.local := by
  obtain ⟨m, g, e⟩ := h
  rw [e]; rfl

theorem sameBut.envFrame {s s' : PL_local_data} (h : sameBut s s') :
    s'.environment_frame = s.environment_frame := by
  obtain ⟨m, g, e⟩ := h
  rw [e]; rfl

theorem readCell_head (m : Mem) (a : Nat) (w : Word) : readCell ((a, w) :: m) a = w := by
  simp [readCell, List.lookup]

theorem readCell_tail (m : Mem) (a b : Nat) (w : Word) (h : a ≠ b) :
    readCell ((b, w) :: m) a = readCell m a := by
  have : (a == b) = false := by simpa using h
  simp [readCell, List.lookup, this]

/-- The cells of the key-value pair written by a `push_stack` that finds room. -/
theorem push_stack_pair (V : TermView) (ce : CycleEntries) (depth : Nat) (name : Word)
    (p : Nat) (s : PL_local_data)
    (h : (push_stack V ce depth name p s).1 = p + 2 * sizeofWord) :
    readCell (push_stack V ce depth name p s).2.mem (p + sizeofWord) = name ∧
    readCell (push_stack V ce depth name p s).2.mem p
      = consPtr (p + 2 * sizeofWord) Storage.STG_GLOBAL Tag.TAG_COMPOUND := by
  obtain ⟨_, _, a3⟩ := push_cycle_spec V ce depth (setGTop s (p + 2 * sizeofWord))
  unfold push_stack at h ⊢
  rcases hc : push_cycle V ce depth (setGTop s (p + 2 * sizeofWord)) with ⟨o, s1⟩
  rw [hc] at h a3
  cases o with
  | none =>
    simp only [sizeofWord] at h
    omega
  | some w =>
    simp only at a3 ⊢
    obtain ⟨b1, _⟩ := a3 w rfl
    simp only [gTop_setGTop] at b1
    subst b1
    simp only [mem_poke]
    refine ⟨readCell_head _ _ _, ?_⟩
    rw [readCell_tail _ _ _ _ (by simp only [sizeofWord]; omega), readCell_head]

set_option maxRecDepth 100000 in
/-- C9 fails as stated: a global overflow raised in `exampleDeepState`, where
the local stack has 20 bytes of room, before and after `enableSpareStacks`,
which is not below a quarter of its default spare of 64 bytes. `outOfStack`
returns, and the context that `push_overflow_context` built for it carries the
key `cycle`, which only the recursion scan produces, and no key `stack` of the
snapshot. -/
theorem deep_diagnostic_counterexample :
    ¬ (roomStackP exampleDeepState.stackset.local
        < ((exampleDeepState.stackset.local.def_spare / 4 : Nat) : Int)) ∧
    ¬ (roomStackP (outOfStackEnter StackId.global exampleDeepState).stackset.local
        < (((outOfStackEnter StackId.global exampleDeepState).stackset.local.def_spare / 4 : Nat)
            : Int)) ∧
    (outOfStack exampleExt StackId.global stack_overflow_action.STACK_OVERFLOW_RAISE
        exampleDeepState).finalState.map
      (fun s' => ((List.range 8).map (fun j =>
        readCell s'.mem (gTop exampleDeepState + (3 + 2 * j) * sizeofWord))))
      = some [ATOM_stack_limit, ATOM_localused, ATOM_globalused, ATOM_trailused, ATOM_depth,
          ATOM_environments, ATOM_choicepoints, ATOM_cycle] := by
  refine ⟨by decide, by decide, by decide⟩

/-- C9 (amended): the stack part of `push_overflow_context`, entered at `p`
behind the fixed part, runs the recursion scan if and only if the free room of
the local stack, taken as a `size_t`, is below its default spare plus
`LOCAL_MARGIN`; with `lTop ≤ lMax` that is the free room `lMax - lTop` itself.
With that much room or more it records the snapshot of `top_of_stack` only.
Short of it, it records what `find_non_terminating_recursion` found, under the
key `cycle` or `non_terminating`, and falls back to the snapshot when the scan
found nothing. So whenever a key is written it is `stack`, unless the room is
short and the scan found a recursion. -/
theorem deep_diagnostic_condition (E : Ext) (s : PL_local_data) (cps : Int) (p : Nat)
    (t : PL_local_data)
    (ht : t = setGTop (pokeSeq s (gTop s) (contextFixed s cps)) p) :
    (¬ toSizeT (roomStackP s.stackset.local)
          < ((s.stackset.local.def_spare + E.LOCAL_MARGIN : Nat) : Int) →
      contextStack E p t =
        if (top_of_stack s.environment_frame (List.replicate (MAX_CYCLE + CYCLE_CTX) []) 5).1 ≠ 0
        then
          push_stack E.view
            (top_of_stack s.environment_frame (List.replicate (MAX_CYCLE + CYCLE_CTX) []) 5).2
            (top_of_stack s.environment_frame (List.replicate (MAX_CYCLE + CYCLE_CTX) []) 5).1
            ATOM_stack p t
        else (p, t)) ∧
    (toSizeT (roomStackP s.stackset.local)
          < ((s.stackset.local.def_spare + E.LOCAL_MARGIN : Nat) : Int) →
      ((find_non_terminating_recursion E.view s.environment_frame
            (List.replicate (MAX_CYCLE + CYCLE_CTX) []) false).1 ≠ 0 →
        contextStack E p t =
          push_stack E.view
            (find_non_terminating_recursion E.view s.environment_frame
              (List.replicate (MAX_CYCLE + CYCLE_CTX) []) false).2.1
            (find_non_terminating_recursion E.view s.environment_frame
              (List.replicate (MAX_CYCLE + CYCLE_CTX) []) false).1
            (if (find_non_terminating_recursion E.view s.environment_frame
                  (List.replicate (MAX_CYCLE + CYCLE_CTX) []) false).2.2 = true
             then ATOM_cycle else ATOM_non_terminating)
            p t) ∧
      ((find_non_terminating_recursion E.view s.environment_frame
            (List.replicate (MAX_CYCLE + CYCLE_CTX) []) false).1 = 0 →
        contextStack E p t =
          if (top_of_stack s.environment_frame
                (find_non_terminating_recursion E.view s.environment_frame
                  (List.replicate (MAX_CYCLE + CYCLE_CTX) []) false).2.1 5).1 ≠ 0
          then
            push_stack E.view
              (top_of_stack s.environment_frame
                (find_non_terminating_recursion E.view s.environment_frame
                  (List.replicate (MAX_CYCLE + CYCLE_CTX) []) false).2.1 5).2
              (top_of_stack s.environment_frame
                (find_non_terminating_recursion E.view s.environment_frame
                  (List.replicate (MAX_CYCLE + CYCLE_CTX) []) false).2.1 5).1
              ATOM_stack p t
          else (p, t))) ∧
    ((contextStack E p t).1 = p + 2 * sizeofWord →
      readCell (contextStack E p t).2.mem (p + sizeofWord) = ATOM_stack ∨
      (toSizeT (roomStackP s.stackset.local)
            < ((s.stackset.local.def_spare + E.LOCAL_MARGIN : Nat) : Int) ∧
        (find_non_terminating_recursion E.view s.environment_frame
            (List.replicate (MAX_CYCLE + CYCLE_CTX) []) false).1 ≠ 0 ∧
        readCell (contextStack E p t).2.mem (p + sizeofWord) =
          if (find_non_terminating_recursion E.view s.environment_frame
                (List.replicate (MAX_CYCLE + CYCLE_CTX) []) false).2.2 = true
          then ATOM_cycle else ATOM_non_terminating)) ∧
    (∀ (stack : Stack) (extra : Nat),
      gTop s + (2 * 7 + extra) * sizeofWord < gMax s →
      choice_points s.BFR s.query = some cps →
      p = gTop s + (contextFixed s cps).length * sizeofWord →
      push_overflow_context E stack extra s =
        some (consPtr (gTop s) Storage.STG_GLOBAL Tag.TAG_COMPOUND,
          dictOrder E (gTop s) ((((contextStack E p t).1 - gTop s) / sizeofWord - 2) / 2)
            (poke (contextStack E p t).2 (gTop s)
              (dict_functor ((((contextStack E p t).1 - gTop s) / sizeofWord - 2) / 2))))) ∧
    (s.stackset.local.top ≤ s.stackset.local.max →
      (toSizeT (roomStackP s.stackset.local)
          < ((s.stackset.local.def_spare + E.LOCAL_MARGIN : Nat) : Int) ↔
        s.stackset.local.max - s.stackset.local.top
          < s.stackset.local.def_spare + E.LOCAL_MARGIN)) := by
  have hsb : sameBut s t := by
    rw [ht]
    exact (pokeSeq_spec (contextFixed s cps) s (gTop s)).1.followedBy (sameBut_setGTop _ _)
  have hl : t.stackset.local = s.stackset.local := hsb.localStack
  have he : t.environment_frame = s.environment_frame := hsb.envFrame
  have hne : ∀ (q : Nat), q = q + 2 * sizeofWord → False := by
    intro q hq; simp only [sizeofWord] at hq; omega
  refine ⟨?_, ?_, ?_, ?_, ?_⟩
  rotate_left 3
  · intro stack extra hc hcp hp
    unfold push_overflow_context
    rw [if_pos hc, hcp, ht, hp]
  · intro hle
    rw [toSizeT_room_of_le _ hle]
    omega
  · intro h
    unfold contextStack
    rw [hl, he, if_neg h]
  · intro h
    refine ⟨?_, ?_⟩
    · intro hf
      unfold contextStack
      rw [hl, he, if_pos h, if_pos hf]
    · intro hf
      have hf' : ¬ (find_non_terminating_recursion E.view s.environment_frame
            (List.replicate (MAX_CYCLE + CYCLE_CTX) []) false).1 ≠ 0 := by
        intro hc; exact hc hf
      unfold contextStack
      rw [hl, he, if_pos h, if_neg hf']
  · intro h1
    unfold contextStack at h1 ⊢
    rw [hl, he] at h1 ⊢
    by_cases h : toSizeT (roomStackP s.stackset.local)
          < ((s.stackset.local.def_spare + E.LOCAL_MARGIN : Nat) : Int)
    · rw [if_pos h] at h1 ⊢
      by_cases hf : (find_non_terminating_recursion E.view s.environment_frame
            (List.replicate (MAX_CYCLE + CYCLE_CTX) []) false).1 ≠ 0
      · rw [if_pos hf] at h1 ⊢
        exact Or.inr ⟨h, hf, (push_stack_pair _ _ _ _ _ _ h1).1⟩
      · rw [if_neg hf] at h1 ⊢
        split at h1
        · rename_i htop
          rw [if_pos htop]
          exact Or.inl (push_stack_pair _ _ _ _ _ _ h1).1
        · exact absurd h1 (hne p)
    · rw [if_neg h] at h1 ⊢
      split at h1
      · rename_i htop
        rw [if_pos htop]
        exact Or.inl (push_stack_pair _ _ _ _ _ _ h1).1
      · exact absurd h1 (hne p)

set_option maxRecDepth 100000 in
/-- The amended C9 on `exampleDeepState`, where the room of 20 bytes is below
the default spare of 64 bytes and the scan finds a recursion. -/
theorem deep_diagnostic_condition_witness :
    contextStack exampleExt (gTop exampleDeepState + 16 * sizeofWord)
        (setGTop (pokeSeq exampleDeepState (gTop exampleDeepState)
          (contextFixed exampleDeepState 2)) (gTop exampleDeepState + 16 * sizeofWord)) =
      push_stack exampleView
        (find_non_terminating_recursion exampleView exampleChain
          (List.replicate (MAX_CYCLE + CYCLE_CTX) []) false).2.1
        (find_non_terminating_recursion exampleView exampleChain
          (List.replicate (MAX_CYCLE + CYCLE_CTX) []) false).1
        (if (find_non_terminating_recursion exampleView exampleChain
              (List.replicate (MAX_CYCLE + CYCLE_CTX) []) false).2.2 = true
         then ATOM_cycle else ATOM_non_terminating)
        (gTop exampleDeepState + 16 * sizeofWord)
        (setGTop (pokeSeq exampleDeepState (gTop exampleDeepState)
          (contextFixed exampleDeepState 2)) (gTop exampleDeepState + 16 * sizeofWord)) :=
  ((deep_diagnostic_condition exampleExt exampleDeepState 2
      (gTop exampleDeepState + 16 * sizeofWord) _ rfl).2.1 (by decide)).1 (by decide)

theorem enableSpareStack_wf (st : Stack) (always : Bool) (h : st.wf) :
    (enableSpareStack st always).1.wf := by
  unfold enableSpareStack
  unfold Stack.wf at h ⊢
  split
  · simp only; omega
  · exact h

/-- Moving `gTop` up to a place at or below `gMax` keeps the regions well
formed. -/
theorem stacksWf_of_stackset (s s' : PL_local_data) (g : Nat)
    (he : s'.stackset = (setGTop s g).stackset) (h : stacksWf s)
    (h1 : gTop s ≤ g) (h2 : g ≤ gMax s) : stacksWf s' := by
  unfold stacksWf at h ⊢
  rw [he]
  unfold Stack.wf gTop gMax at *
  simp only [setGTop]
  omega

theorem sameBut.stackset {s s' : PL_local_data} (h : sameBut s s') :
    s'.stackset = (setGTop s (gTop s')).stackset := by
  obtain ⟨m, g, e⟩ := h
  rw [e]; rfl

theorem stacksWf_setGTop (s : PL_local_data) (g : Nat) (h : stacksWf s)
    (h1 : gTop s ≤ g) (h2 : g ≤ gMax s) : stacksWf (setGTop s g) :=
  stacksWf_of_stackset s _ g rfl h h1 h2

theorem stacksWf_of_sameBut {s s' : PL_local_data} (hs : sameBut s s') (h : stacksWf s)
    (h1 : gTop s ≤ gTop s') (h2 : gTop s' ≤ gMax s) : stacksWf s' :=
  stacksWf_of_stackset s s' (gTop s') hs.stackset h h1 h2

theorem stacksWf_poke (s : PL_local_data) (a : Nat) (w : Word) (h : stacksWf s) :
    stacksWf (poke s a w) := h

theorem stacksWf_emit (s : PL_local_data) (e : Event) (h : stacksWf s) :
    stacksWf (emit s e) := h

theorem stacksWf_pokeSeq (s : PL_local_data) (p : Nat) (ws : List Word) (h : stacksWf s) :
    stacksWf (pokeSeq s p ws) := by
  obtain ⟨a1, a2, _⟩ := pokeSeq_spec ws s p
  exact stacksWf_of_sameBut a1 h (by omega) (by
    rw [a2]
    exact h.2.1.2)

theorem stacksWf_enableSpareStacks (s : PL_local_data) (h : stacksWf s) :
    stacksWf (enableSpareStacks s) := by
  obtain ⟨h1, h2, h3, h4⟩ := h
  exact ⟨enableSpareStack_wf _ _ h1, enableSpareStack_wf _ _ h2, enableSpareStack_wf _ _ h3, h4⟩

theorem stacksWf_congr {s s' : PL_local_data} (he : s'.stackset = s.stackset)
    (h : stacksWf s) : stacksWf s' := by
  unfold stacksWf at h ⊢
  rw [he]; exact h

theorem outOfStackEnter_stackset (stack : StackId) (s : PL_local_data) :
    (outOfStackEnter stack s).stackset = (enableSpareStacks s).stackset := by
  unfold outOfStackEnter
  split
  · rfl
  · rfl

theorem stacksWf_outOfStackEnter (stack : StackId) (s : PL_local_data) (h : stacksWf s) :
    stacksWf (outOfStackEnter stack s) :=
  stacksWf_congr (outOfStackEnter_stackset stack s) (stacksWf_enableSpareStacks s h)

theorem stacksWf_outOfStackTerm (ctx : Word) (s : PL_local_data) (h : stacksWf s) :
    stacksWf (outOfStackTerm ctx s) := by
  obtain ⟨a1, a2, _⟩ := pokeSeq_spec [FUNCTOR_error2,
    consPtr (gTop s + 3 * sizeofWord) Storage.STG_GLOBAL Tag.TAG_COMPOUND,
    ctx, FUNCTOR_resource_error1, ATOM_stack] s (gTop s)
  have hg := a1.gMax
  have hw := stacksWf_pokeSeq s (gTop s) [FUNCTOR_error2,
    consPtr (gTop s + 3 * sizeofWord) Storage.STG_GLOBAL Tag.TAG_COMPOUND,
    ctx, FUNCTOR_resource_error1, ATOM_stack] h
  unfold outOfStackTerm
  generalize pokeSeq s (gTop s) [FUNCTOR_error2,
    consPtr (gTop s + 3 * sizeofWord) Storage.STG_GLOBAL Tag.TAG_COMPOUND,
    ctx, FUNCTOR_resource_error1, ATOM_stack] = s1 at a2 hg hw ⊢
  have key : gTop s + 5 * sizeofWord < gMax s →
      stacksWf (setGTop s1 (gTop s + 5 * sizeofWord)) := by
    intro h5
    exact stacksWf_setGTop s1 (gTop s + 5 * sizeofWord) hw (by omega) (by omega)
  by_cases h5 : gTop s + 5 * sizeofWord < gMax s
  · rw [if_pos h5]
    exact stacksWf_congr rfl (key h5)
  · rw [if_neg h5]
    exact stacksWf_congr rfl h

/-- A call of `outOfStack` that comes back leaves the regions well formed. -/
theorem stacksWf_outOfStack (E : Ext) (stack : StackId) (how : stack_overflow_action)
    (s s' : PL_local_data) (h : (outOfStack E stack how s).finalState = some s')
    (hwf : stacksWf s) : stacksWf s' := by
  unfold outOfStack at h
  by_cases hm : s.outofstack = some stack
  · simp only [if_pos hm, Outcome.finalState] at h
    cases h
  · simp only [if_neg hm] at h
    have h3 := stacksWf_outOfStackEnter stack s hwf
    generalize outOfStackEnter stack s = s3 at h h3
    cases hp : push_overflow_context E (stackOf s3 stack) 6 s3 with
    | none => rw [hp] at h; simp only [Outcome.finalState] at h; cases h
    | some r =>
      obtain ⟨ctx, s4⟩ := r
      rw [hp] at h
      simp only at h
      obtain ⟨p1, p2⟩ := push_overflow_context_spec E (stackOf s3 stack) 6 s3 s4 ctx (by omega) hp
      have hfin : (if how = stack_overflow_action.STACK_OVERFLOW_THROW ∧
            (outOfStackTerm ctx s4).throw_environment = true then
            (Outcome.jump (outOfStackTerm ctx s4) : Outcome Bool)
            else Outcome.ret false (outOfStackTerm ctx s4)).finalState
            = some (outOfStackTerm ctx s4) := by
        split <;> rfl
      rw [hfin] at h
      simp only [Option.some.injEq] at h
      subst h
      apply stacksWf_outOfStackTerm
      rcases p2 with ⟨_, e, _⟩ | ⟨_, _, _, e3, e4⟩
      · rw [e]; exact h3
      · exact stacksWf_of_sameBut p1 h3 (by omega) (by omega)

theorem stacksWf_raiseStackOverflow (E : Ext) (hE : ExtOk E) (overflow : Int)
    (s s' : PL_local_data) (h : (raiseStackOverflow E overflow s).finalState = some s')
    (hwf : stacksWf s) : stacksWf s' := by
  unfold raiseStackOverflow at h
  split at h
  · exact stacksWf_outOfStack E _ _ s s' h hwf
  · split at h
    · exact stacksWf_outOfStack E _ _ s s' h hwf
    · split at h
      · exact stacksWf_outOfStack E _ _ s s' h hwf
      · split at h
        · exact stacksWf_outOfStack E _ _ s s' h hwf
        · split at h
          · exact stacksWf_outOfStack E _ _ s s' h hwf
          · split at h
            · simp only [Outcome.finalState, Option.some.injEq] at h
              rw [← h]
              exact hE.2.2.2 s hwf
            · split at h
              · simp only [Outcome.finalState, Option.some.injEq] at h
                rw [← h]; exact hwf
              · simp only [Outcome.finalState] at h
                cases h

theorem stacksWf_allocGlobal (E : Ext) (hE : ExtOk E) (n : Nat)
    (s s' : PL_local_data) (h : (allocGlobal E n s).finalState = some s')
    (hwf : stacksWf s) : stacksWf s' := by
  unfold allocGlobal at h
  by_cases h1 : E.hasGlobalSpace s n = false
  · rw [if_pos h1] at h
    have hwf1 := hE.2.1 s n ALLOW_GC hwf
    by_cases h2 : (E.ensureGlobalSpace s n ALLOW_GC).1 ≠ TRUE
    · rw [if_pos h2] at h
      cases hr : raiseStackOverflow E (E.ensureGlobalSpace s n ALLOW_GC).1
          (E.ensureGlobalSpace s n ALLOW_GC).2 with
      | ret v s2 =>
        rw [hr] at h
        simp only [Outcome.finalState, Option.some.injEq] at h
        subst h
        exact stacksWf_raiseStackOverflow E hE _ _ _ (by rw [hr]; rfl) hwf1
      | jump s2 =>
        rw [hr] at h
        simp only [Outcome.finalState, Option.some.injEq] at h
        subst h
        exact stacksWf_raiseStackOverflow E hE _ _ _ (by rw [hr]; rfl) hwf1
      | fatal s2 => rw [hr] at h; simp only [Outcome.finalState] at h; cases h
      | abort s2 => rw [hr] at h; simp only [Outcome.finalState] at h; cases h
      | hang => rw [hr] at h; simp only [Outcome.finalState] at h; cases h
    · rw [if_neg h2] at h
      simp only [Outcome.finalState, Option.some.injEq] at h
      subst h
      have hroom := hE.2.2.1 s n ALLOW_GC (by
        by_contra hc; exact h2 hc)
      exact stacksWf_setGTop _ _ hwf1 (by omega) hroom
  · rw [if_neg h1] at h
    simp only [Outcome.finalState, Option.some.injEq] at h
    subst h
    have hroom := hE.1 s n (by
      cases hh : E.hasGlobalSpace s n with
      | true => rfl
      | false => exact absurd hh h1)
    exact stacksWf_setGTop _ _ hwf (by omega) hroom

theorem allocGlobal_cases (E : Ext) (n : Nat) (s : PL_local_data) :
    (∃ p s1, allocGlobal E n s = Outcome.ret (some p) s1) ∨
    (∃ s1, allocGlobal E n s = Outcome.ret none s1) ∨
    (∃ s1, allocGlobal E n s = Outcome.jump s1) ∨
    (∃ s1, allocGlobal E n s = Outcome.fatal s1) ∨
    (∃ s1, allocGlobal E n s = Outcome.abort s1) ∨
    allocGlobal E n s = Outcome.hang := by
  cases h : allocGlobal E n s with
  | ret v s1 =>
    cases v with
    | none => exact Or.inr (Or.inl ⟨s1, rfl⟩)
    | some p => exact Or.inl ⟨p, s1, rfl⟩
  | jump s1 => exact Or.inr (Or.inr (Or.inl ⟨s1, rfl⟩))
  | fatal s1 => exact Or.inr (Or.inr (Or.inr (Or.inl ⟨s1, rfl⟩)))
  | abort s1 => exact Or.inr (Or.inr (Or.inr (Or.inr (Or.inl ⟨s1, rfl⟩))))
  | hang => exact Or.inr (Or.inr (Or.inr (Or.inr (Or.inr rfl))))

theorem stacksWf_allocString (E : Ext) (hE : ExtOk E) (len : Nat)
    (s s' : PL_local_data) (h : (allocString E len s).finalState = some s')
    (hwf : stacksWf s) : stacksWf s' := by
  have ha := stacksWf_allocGlobal E hE (2 + stringWords len) s
  unfold allocString at h
  rcases allocGlobal_cases E (2 + stringWords len) s with
    ⟨p, s1, e⟩ | ⟨s1, e⟩ | ⟨s1, e⟩ | ⟨s1, e⟩ | ⟨s1, e⟩ | e
  all_goals rw [e] at h ha
  all_goals simp only [Outcome.finalState, Option.some.injEq] at h ha
  · subst h
    exact ha s1 rfl hwf
  · subst h
    exact ha s1 rfl hwf
  · subst h
    exact ha s1 rfl hwf
  all_goals cases h

theorem copyFromCode_stackset (code : Nat → Word) :
    ∀ (n pc p : Nat) (s : PL_local_data),
      (copyFromCode code n pc p s).2.stackset = s.stackset
  | 0, _, _, _ => rfl
  | n + 1, pc, p, s => by
    simp only [copyFromCode]
    rw [copyFromCode_stackset code n]
    rfl

theorem stacksWf_globalIndirectFromCode (E : Ext) (hE : ExtOk E) (code : Nat → Word)
    (pc : Nat) (s s' : PL_local_data)
    (h : (globalIndirectFromCode E code pc s).finalState = some s')
    (hwf : stacksWf s) : stacksWf s' := by
  have ha := stacksWf_allocGlobal E hE (wsizeofInd (code pc) + 2) s
  unfold globalIndirectFromCode at h
  rcases allocGlobal_cases E (wsizeofInd (code pc) + 2) s with
    ⟨p, s1, e⟩ | ⟨s1, e⟩ | ⟨s1, e⟩ | ⟨s1, e⟩ | ⟨s1, e⟩ | e
  all_goals rw [e] at h ha
  all_goals simp only [Outcome.finalState, Option.some.injEq] at h ha
  · subst h
    have h1 := ha s1 rfl hwf
    refine stacksWf_congr ?_ h1
    show (copyFromCode code _ _ _ _).2.stackset = s1.stackset
    rw [copyFromCode_stackset]
    rfl
  · subst h
    exact ha s1 rfl hwf
  · subst h
    exact ha s1 rfl hwf
  all_goals cases h

theorem stacksWf_putInt64Boxed (dest : Nat) (l : Int) (s : PL_local_data) (hwf : stacksWf s)
    (hroom : gTop s + 3 * sizeofWord ≤ gMax s) : stacksWf (putInt64Boxed dest l s) := by
  unfold putInt64Boxed
  apply stacksWf_poke
  apply stacksWf_pokeSeq
  exact stacksWf_setGTop _ _ hwf (by omega) hroom

theorem stacksWf_putDoubleBoxed (dest : Nat) (d : Nat) (s : PL_local_data) (hwf : stacksWf s)
    (hroom : gTop s + (2 + WORDS_PER_DOUBLE) * sizeofWord ≤ gMax s) :
    stacksWf (putDoubleBoxed dest d s) := by
  unfold putDoubleBoxed
  apply stacksWf_pokeSeq
  apply stacksWf_poke
  exact stacksWf_setGTop _ _ hwf (by omega) hroom

theorem stacksWf_put_int64 (E : Ext) (hE : ExtOk E) (dest : Nat) (l : Int) (flags : Nat)
    (s : PL_local_data) (hwf : stacksWf s) : stacksWf (put_int64 E dest l flags s).2 := by
  unfold put_int64
  split
  · exact hwf
  · by_cases h1 : E.hasGlobalSpace s 3 = false
    · rw [if_pos h1]
      have hwf1 := hE.2.1 s 3 flags hwf
      by_cases h2 : (E.ensureGlobalSpace s 3 flags).1 ≠ TRUE
      · rw [if_pos h2]; exact hwf1
      · rw [if_neg h2]
        exact stacksWf_putInt64Boxed _ _ _ hwf1 (hE.2.2.1 s 3 flags (by
          by_contra hc; exact h2 hc))
    · rw [if_neg h1]
      exact stacksWf_putInt64Boxed _ _ _ hwf (hE.1 s 3 (by
        cases hh : E.hasGlobalSpace s 3 with
        | true => rfl
        | false => exact absurd hh h1))

theorem stacksWf_put_double (E : Ext) (hE : ExtOk E) (dest : Nat) (d : Nat) (flags : Nat)
    (s : PL_local_data) (hwf : stacksWf s)
    (hchecked : flags = ALLOW_CHECKED → gTop s + (2 + WORDS_PER_DOUBLE) * sizeofWord ≤ gMax s) :
    stacksWf (put_double E dest d flags s).2 := by
  unfold put_double
  by_cases h1 : flags ≠ ALLOW_CHECKED ∧ E.hasGlobalSpace s (2 + WORDS_PER_DOUBLE) = false
  · rw [if_pos h1]
    have hwf1 := hE.2.1 s (2 + WORDS_PER_DOUBLE) flags hwf
    by_cases h2 : (E.ensureGlobalSpace s (2 + WORDS_PER_DOUBLE) flags).1 ≠ TRUE
    · rw [if_pos h2]; exact hwf1
    · rw [if_neg h2]
      exact stacksWf_putDoubleBoxed _ _ _ hwf1 (hE.2.2.1 s _ flags (by
        by_contra hc; exact h2 hc))
  · rw [if_neg h1]
    apply stacksWf_putDoubleBoxed _ _ _ hwf
    by_cases hf : flags = ALLOW_CHECKED
    · exact hchecked hf
    · apply hE.1 s
      cases hh : E.hasGlobalSpace s (2 + WORDS_PER_DOUBLE) with
      | true => rfl
      | false => exact absurd ⟨hf, hh⟩ h1

theorem stacksWf_allocGlobalNoShift (n : Nat) (s : PL_local_data) (hwf : stacksWf s)
    (hn : gTop s + n * sizeofWord < 2 ^ 64) :
    stacksWf (allocGlobalNoShift n s).2 := by
  unfold allocGlobalNoShift
  rw [Nat.mod_eq_of_lt hn]
  by_cases h : gTop s + n * sizeofWord > gMax s
  · rw [if_pos h]; exact hwf
  · rw [if_neg h]
    exact stacksWf_setGTop s _ hwf (by omega) (by omega)

theorem exampleExt_ok : ExtOk exampleExt := by
  refine ⟨?_, ?_, ?_, ?_⟩
  · intro s n h
    simpa [exampleExt] using h
  · intro s n f h
    exact h
  · intro s n f h
    have hne : GLOBAL_OVERFLOW ≠ TRUE := by decide
    exact absurd h hne
  · intro s h
    exact h

set_option maxRecDepth 100000 in
/-- C1 fails as stated, at two places. With the global stack full
(`gTop = gMax`) and the flag `ALLOW_CHECKED`, `put_double` makes no room test,
returns TRUE and leaves `gTop` three cells above `gMax`. And with an empty
global stack at address 1000, `allocGlobalNoShift(2 ^ 61 - 1)` finds the
pointer sum `gTop+n` wrapped around to 992, which is not above `gMax`, returns
the old `gTop` and leaves `gTop` below the base. -/
theorem stack_invariant_counterexample :
    (stacksWf exampleFullState ∧
      (put_double exampleExt 40000 0 ALLOW_CHECKED exampleFullState).1 = TRUE ∧
      gTop (put_double exampleExt 40000 0 ALLOW_CHECKED exampleFullState).2 = 1624 ∧
      gMax (put_double exampleExt 40000 0 ALLOW_CHECKED exampleFullState).2 = 1600 ∧
      ¬ stacksWf (put_double exampleExt 40000 0 ALLOW_CHECKED exampleFullState).2) ∧
    (stacksWf exampleEmptyState ∧
      (allocGlobalNoShift (2 ^ 61 - 1) exampleEmptyState).1 = some 1000 ∧
      gTop (allocGlobalNoShift (2 ^ 61 - 1) exampleEmptyState).2 = 992 ∧
      (allocGlobalNoShift (2 ^ 61 - 1) exampleEmptyState).2.stackset.global.base = 1000 ∧
      ¬ stacksWf (allocGlobalNoShift (2 ^ 61 - 1) exampleEmptyState).2) := by
  refine ⟨⟨by decide, by decide, by decide, by decide, by decide⟩,
    ⟨by decide, by decide, by decide, by decide, by decide⟩⟩

/-- C1 (amended): if `base ≤ top ≤ max` holds for the regions before one of
`enableSpareStack`, `enableSpareStacks`, `allocGlobal`, `put_int64`,
`allocString`, `globalIndirectFromCode` and `outOfStack`, it holds when the
operation comes back; for `allocGlobalNoShift(n)` it holds when the cells end
inside the address space (`gTop + n` cells is below `2 ^ 64`); for
`put_double` it holds under every flags value other than `ALLOW_CHECKED`, and
under `ALLOW_CHECKED` provided the `2 + WORDS_PER_DOUBLE` cells fit below
`gMax`, which that flag asserts the caller has checked. The external
collaborators are assumed to behave as `ExtOk` says. -/
theorem stack_invariant_preserved (E : Ext) (hE : ExtOk E) (s : PL_local_data)
    (hwf : stacksWf s) :
    (∀ (st : Stack) (always : Bool), st.wf → (enableSpareStack st always).1.wf) ∧
    stacksWf (enableSpareStacks s) ∧
    (∀ n, gTop s + n * sizeofWord < 2 ^ 64 → stacksWf (allocGlobalNoShift n s).2) ∧
    (∀ n s', (allocGlobal E n s).finalState = some s' → stacksWf s') ∧
    (∀ dest l flags, stacksWf (put_int64 E dest l flags s).2) ∧
    (∀ dest d flags,
      (flags = ALLOW_CHECKED → gTop s + (2 + WORDS_PER_DOUBLE) * sizeofWord ≤ gMax s) →
      stacksWf (put_double E dest d flags s).2) ∧
    (∀ len s', (allocString E len s).finalState = some s' → stacksWf s') ∧
    (∀ code pc s', (globalIndirectFromCode E code pc s).finalState = some s' → stacksWf s') ∧
    (∀ stack how s', (outOfStack E stack how s).finalState = some s' → stacksWf s') :=
  ⟨fun st always h => enableSpareStack_wf st always h,
   stacksWf_enableSpareStacks s hwf,
   fun n hn => stacksWf_allocGlobalNoShift n s hwf hn,
   fun n s' h => stacksWf_allocGlobal E hE n s s' h hwf,
   fun dest l flags => stacksWf_put_int64 E hE dest l flags s hwf,
   fun dest d flags h => stacksWf_put_double E hE dest d flags s hwf h,
   fun len s' h => stacksWf_allocString E hE len s s' h hwf,
   fun code pc s' h => stacksWf_globalIndirectFromCode E hE code pc s s' h hwf,
   fun stack how s' h => stacksWf_outOfStack E stack how s s' h hwf⟩

set_option maxRecDepth 100000 in
/-- Witness for the amended C1 on `exampleState`: boxing an integer outside the
inline range and writing a double with room keep the regions well formed. -/
theorem stack_invariant_preserved_witness :
    stacksWf (put_int64 exampleExt 40000 (2 ^ 60) ALLOW_GC exampleState).2 ∧
    stacksWf (put_double exampleExt 40000 0 ALLOW_CHECKED exampleState).2 :=
  ⟨(stack_invariant_preserved exampleExt exampleExt_ok exampleState (by decide)).2.2.2.2.1
      40000 (2 ^ 60) ALLOW_GC,
   (stack_invariant_preserved exampleExt exampleExt_ok exampleState (by decide)).2.2.2.2.2.1
      40000 0 ALLOW_CHECKED (fun _ => by decide)⟩

/-! ### Lemmas on the state `outOfStack` leaves -/

theorem sameBut.eqForm {s s' : PL_local_data} (h : sameBut s s') :
    s' = setGTop { s with mem := s'.mem } (gTop s') := by
  obtain ⟨m, g, e⟩ := h
  rw [e]; rfl

theorem sameBut.fields {s s' : PL_local_data} (h : sameBut s s') :
    s'.combined_stack = s.combined_stack ∧ s'.trim_stack_requested = s.trim_stack_requested ∧
    s'.exception_processing = s.exception_processing ∧ s'.exception_bin = s.exception_bin ∧
    s'.exception_term = s.exception_term ∧ s'.bin_value = s.bin_value ∧
    s'.throw_environment = s.throw_environment ∧ s'.frozen_bar = s.frozen_bar ∧
    s'.output = s.output ∧ s'.BFR = s.BFR ∧ s'.query = s.query := by
  obtain ⟨m, g, e⟩ := h
  rw [e]
  exact ⟨rfl, rfl, rfl, rfl, rfl, rfl, rfl, rfl, rfl, rfl, rfl⟩

theorem outOfStackEnter_fields (stack : StackId) (s : PL_local_data) :
    (outOfStackEnter stack s).outofstack = some stack ∧
    (outOfStackEnter stack s).trim_stack_requested = true ∧
    (outOfStackEnter stack s).exception_processing = true ∧
    (outOfStackEnter stack s).exception_bin = s.exception_bin ∧
    (outOfStackEnter stack s).throw_environment = s.throw_environment ∧
    (outOfStackEnter stack s).BFR = s.BFR ∧ (outOfStackEnter stack s).query = s.query ∧
    (outOfStackEnter stack s).combined_stack = s.combined_stack := by
  unfold outOfStackEnter
  split
  · exact ⟨rfl, rfl, rfl, rfl, rfl, rfl, rfl, rfl⟩
  · exact ⟨rfl, rfl, rfl, rfl, rfl, rfl, rfl, rfl⟩

theorem outOfStackTerm_fields (ctx : Word) (s : PL_local_data) :
    (outOfStackTerm ctx s).outofstack = s.outofstack ∧
    (outOfStackTerm ctx s).trim_stack_requested = s.trim_stack_requested ∧
    (outOfStackTerm ctx s).exception_processing = s.exception_processing ∧
    (outOfStackTerm ctx s).exception_bin = s.exception_bin ∧
    (outOfStackTerm ctx s).exception_term = s.exception_bin ∧
    (outOfStackTerm ctx s).throw_environment = s.throw_environment ∧
    (outOfStackTerm ctx s).combined_stack = s.combined_stack ∧
    (outOfStackTerm ctx s).stackset = (setGTop s (gTop (outOfStackTerm ctx s))).stackset := by
  obtain ⟨a1, a2, _⟩ := pokeSeq_spec [FUNCTOR_error2,
    consPtr (gTop s + 3 * sizeofWord) Storage.STG_GLOBAL Tag.TAG_COMPOUND,
    ctx, FUNCTOR_resource_error1, ATOM_stack] s (gTop s)
  have hf := a1.fields
  have ho := a1.outofstack
  have hs := a1.stackset
  unfold outOfStackTerm
  generalize pokeSeq s (gTop s) [FUNCTOR_error2,
    consPtr (gTop s + 3 * sizeofWord) Storage.STG_GLOBAL Tag.TAG_COMPOUND,
    ctx, FUNCTOR_resource_error1, ATOM_stack] = s1 at a2 hf ho hs ⊢
  obtain ⟨f1, f2, f3, f4, f5, f6, f7, f8, f9, f10, f11⟩ := hf
  by_cases h5 : gTop s + 5 * sizeofWord < gMax s
  · rw [if_pos h5]
    refine ⟨ho, f2, f3, f4, rfl, f7, f1, ?_⟩
    show (setGTop s1 (gTop s + 5 * sizeofWord)).stackset
      = (setGTop s (gTop s + 5 * sizeofWord)).stackset
    show ({ s1.stackset with global := { s1.stackset.global with top := _ } } : Stacks) = _
    rw [hs]
    rfl
  · rw [if_neg h5]
    exact ⟨rfl, rfl, rfl, rfl, rfl, rfl, rfl, rfl⟩

/-- The shape of a call of `outOfStack` on a region the marker does not hold:
it comes back exactly when `push_overflow_context` does, in the state
`outOfStackTerm` makes of the context and the state that call left. -/
theorem outOfStack_eq (E : Ext) (stack : StackId) (how : stack_overflow_action)
    (s : PL_local_data) (hm : s.outofstack ≠ some stack) (ctx : Word) (s4 : PL_local_data)
    (hp : push_overflow_context E (stackOf (outOfStackEnter stack s) stack) 6
      (outOfStackEnter stack s) = some (ctx, s4)) :
    outOfStack E stack how s =
      if how = stack_overflow_action.STACK_OVERFLOW_THROW ∧ s.throw_environment = true then
        Outcome.jump (outOfStackTerm ctx s4)
      else Outcome.ret false (outOfStackTerm ctx s4) := by
  have p1 := (push_overflow_context_spec E _ 6 _ s4 ctx (by omega) hp).1
  have ht : (outOfStackTerm ctx s4).throw_environment = s.throw_environment := by
    rw [(outOfStackTerm_fields ctx s4).2.2.2.2.2.1, p1.fields.2.2.2.2.2.2.1,
      (outOfStackEnter_fields stack s).2.2.2.2.1]
  unfold outOfStack
  rw [if_neg hm, hp]
  simp only
  rw [ht]

theorem outOfStack_final_cases (E : Ext) (stack : StackId) (how : stack_overflow_action)
    (s s' : PL_local_data) (h : (outOfStack E stack how s).finalState = some s') :
    s.outofstack ≠ some stack ∧
    ∃ ctx s4, push_overflow_context E (stackOf (outOfStackEnter stack s) stack) 6
        (outOfStackEnter stack s) = some (ctx, s4) ∧ s' = outOfStackTerm ctx s4 := by
  have hm : s.outofstack ≠ some stack := by
    intro hc
    have := (outOfStack_isFatal_iff E stack how s).2 hc
    cases ho : outOfStack E stack how s with
    | fatal t => rw [ho] at h; simp [Outcome.finalState] at h
    | ret v t => rw [ho] at this; simp [Outcome.isFatal] at this
    | jump t => rw [ho] at this; simp [Outcome.isFatal] at this
    | abort t => rw [ho] at this; simp [Outcome.isFatal] at this
    | hang => rw [ho] at this; simp [Outcome.isFatal] at this
  refine ⟨hm, ?_⟩
  cases hp : push_overflow_context E (stackOf (outOfStackEnter stack s) stack) 6
      (outOfStackEnter stack s) with
  | none =>
    unfold outOfStack at h
    rw [if_neg hm, hp] at h
    simp [Outcome.finalState] at h
  | some r =>
    obtain ⟨ctx, s4⟩ := r
    refine ⟨ctx, s4, rfl, ?_⟩
    rw [outOfStack_eq E stack how s hm ctx s4 hp] at h
    split at h
    · simp only [Outcome.finalState, Option.some.injEq] at h; exact h.symm
    · simp only [Outcome.finalState, Option.some.injEq] at h; exact h.symm

/-- The regions after a call of `outOfStack` that comes back: those
`enableSpareStacks` leaves, with `gTop` moved. -/
theorem outOfStack_stackset (E : Ext) (stack : StackId) (how : stack_overflow_action)
    (s s' : PL_local_data) (h : (outOfStack E stack how s).finalState = some s') :
    s'.stackset = (setGTop (enableSpareStacks s) (gTop s')).stackset := by
  obtain ⟨_, ctx, s4, hp, hs'⟩ := outOfStack_final_cases E stack how s s' h
  have p1 := (push_overflow_context_spec E _ 6 _ s4 ctx (by omega) hp).1
  have e1 := (outOfStackTerm_fields ctx s4).2.2.2.2.2.2.2
  have e2 := p1.stackset
  have e3 := outOfStackEnter_stackset stack s
  rw [← hs'] at e1
  rw [e1]
  show ({ s4.stackset with global := { s4.stackset.global with top := _ } } : Stacks) = _
  rw [e2]
  show ({ (outOfStackEnter stack s).stackset with
      global := { (outOfStackEnter stack s).stackset.global with top := _ } } : Stacks) = _
  rw [e3]
  rfl

/-! ### Spare capacity after an overflow report -/

theorem pokeSeq_read5 (s : PL_local_data) (p : Nat) (a b c d e : Word) :
    readCell (pokeSeq s p [a, b, c, d, e]).mem p = a ∧
    readCell (pokeSeq s p [a, b, c, d, e]).mem (p + sizeofWord) = b ∧
    readCell (pokeSeq s p [a, b, c, d, e]).mem (p + 2 * sizeofWord) = c ∧
    readCell (pokeSeq s p [a, b, c, d, e]).mem (p + 3 * sizeofWord) = d ∧
    readCell (pokeSeq s p [a, b, c, d, e]).mem (p + 4 * sizeofWord) = e := by
  simp only [pokeSeq, poke, writeCell, sizeofWord]
  refine ⟨?_, ?_, ?_, ?_, ?_⟩
  · rw [readCell_tail _ _ _ _ (by omega), readCell_tail _ _ _ _ (by omega),
      readCell_tail _ _ _ _ (by omega), readCell_tail _ _ _ _ (by omega), readCell_head]
  · rw [readCell_tail _ _ _ _ (by omega), readCell_tail _ _ _ _ (by omega),
      readCell_tail _ _ _ _ (by omega), readCell_head]
  · rw [readCell_tail _ _ _ _ (by omega), readCell_tail _ _ _ _ (by omega)]
    exact readCell_head _ _ _
  · rw [readCell_tail _ _ _ _ (by omega)]
    exact readCell_head _ _ _
  · exact readCell_head _ _ _

theorem enableSpareStack_cases (st : Stack) :
    (st.spare ≠ 0 ∧ toSizeT (roomStackP st) < (st.def_spare : Int) →
      (enableSpareStack st false).1.spare = 0 ∧
      (enableSpareStack st false).1.max = st.max + st.spare) ∧
    (¬ (st.spare ≠ 0 ∧ toSizeT (roomStackP st) < (st.def_spare : Int)) →
      (enableSpareStack st false).1 = st) := by
  unfold enableSpareStack
  constructor
  · intro h
    rw [if_pos ⟨h.1, Or.inl h.2⟩]
    exact ⟨rfl, rfl⟩
  · intro h
    rw [if_neg]
    rintro ⟨h1, h2 | h2⟩
    · exact h ⟨h1, h2⟩
    · cases h2

/-- C11 (counterexample): on a local overflow raised in `exampleState` the call
of `outOfStack` comes back, and the local region, which had a spare of 64 bytes
and 900 bytes of free room, still has its spare of 64 bytes and its old
`max`: with room of at least the default spare nothing is donated. -/
theorem spare_donation_counterexample :
    (outOfStack exampleExt StackId.local stack_overflow_action.STACK_OVERFLOW_RAISE
      exampleState).finalState = some exampleOverflowState ∧
    0 < exampleState.stackset.local.spare ∧
    roomStackP exampleState.stackset.local = 900 ∧
    exampleOverflowState.stackset.local.spare = 64 ∧
    exampleOverflowState.stackset.local.max = exampleState.stackset.local.max := by
  set_option maxRecDepth 100000 in decide

/-- C11 (amended): after a call of `outOfStack` that comes back, the local and
trail regions are what `enableSpareStack(s, FALSE)` makes of them, the global
region likewise but for its `top`, and the argument region and the combined
stack are untouched. So each of the local, global and trail regions whose spare
is non-zero and whose free room at entry, taken as a `size_t`, is below its
default spare has spare 0 and `max` grown by the spare; every other region
keeps its spare and `max`. For a region with `top ≤ max` the room taken as a
`size_t` is the free room `max - top` itself. -/
theorem outOfStack_spare_donation (E : Ext) (stack : StackId) (how : stack_overflow_action)
    (s s' : PL_local_data) (h : (outOfStack E stack how s).finalState = some s') :
    s'.stackset.local = (enableSpareStack s.stackset.local false).1 ∧
    s'.stackset.trail = (enableSpareStack s.stackset.trail false).1 ∧
    s'.stackset.global = { (enableSpareStack s.stackset.global false).1 with top := gTop s' } ∧
    s'.stackset.argument = s.stackset.argument ∧
    s'.combined_stack = s.combined_stack ∧
    (∀ r ∈ [StackId.local, StackId.global, StackId.trail],
      ((stackOf s r).spare ≠ 0 ∧ toSizeT (roomStackP (stackOf s r)) < ((stackOf s r).def_spare : Int) →
        (stackOf s' r).spare = 0 ∧
        (stackOf s' r).max = (stackOf s r).max + (stackOf s r).spare) ∧
      (¬ ((stackOf s r).spare ≠ 0 ∧ toSizeT (roomStackP (stackOf s r)) < ((stackOf s r).def_spare : Int)) →
        (stackOf s' r).spare = (stackOf s r).spare ∧ (stackOf s' r).max = (stackOf s r).max)) ∧
    (∀ r : StackId, (stackOf s r).top ≤ (stackOf s r).max →
      (toSizeT (roomStackP (stackOf s r)) < ((stackOf s r).def_spare : Int) ↔
        (stackOf s r).max - (stackOf s r).top < (stackOf s r).def_spare)) := by
  have hs := outOfStack_stackset E stack how s s' h
  obtain ⟨_, ctx, s4, hp, hs'⟩ := outOfStack_final_cases E stack how s s' h
  have p1 := (push_overflow_context_spec E _ 6 _ s4 ctx (by omega) hp).1
  have hl : s'.stackset.local = (enableSpareStack s.stackset.local false).1 := by rw [hs]; rfl
  have ht : s'.stackset.trail = (enableSpareStack s.stackset.trail false).1 := by rw [hs]; rfl
  have hg : s'.stackset.global
      = { (enableSpareStack s.stackset.global false).1 with top := gTop s' } := by
    rw [hs]; rfl
  have ha : s'.stackset.argument = s.stackset.argument := by rw [hs]; rfl
  have hc : s'.combined_stack = s.combined_stack := by
    rw [hs', (outOfStackTerm_fields ctx s4).2.2.2.2.2.2.1, p1.fields.1,
      (outOfStackEnter_fields stack s).2.2.2.2.2.2.2]
  refine ⟨hl, ht, hg, ha, hc, ?_, ?_⟩
  rotate_left 1
  · intro r hle
    rw [toSizeT_room_of_le _ hle]
    omega
  intro r hr
  simp only [List.mem_cons, List.mem_singleton, List.not_mem_nil, or_false] at hr
  rcases hr with rfl | rfl | rfl
  · have c := enableSpareStack_cases s.stackset.local
    show (_ → s'.stackset.local.spare = 0 ∧ s'.stackset.local.max = _) ∧
      (_ → s'.stackset.local.spare = _ ∧ s'.stackset.local.max = _)
    rw [hl]
    exact ⟨c.1, fun hn => by rw [c.2 hn]; exact ⟨rfl, rfl⟩⟩
  · have c := enableSpareStack_cases s.stackset.global
    show (_ → s'.stackset.global.spare = 0 ∧ s'.stackset.global.max = _) ∧
      (_ → s'.stackset.global.spare = _ ∧ s'.stackset.global.max = _)
    rw [hg]
    exact ⟨c.1, fun hn => by rw [c.2 hn]; exact ⟨rfl, rfl⟩⟩
  · have c := enableSpareStack_cases s.stackset.trail
    show (_ → s'.stackset.trail.spare = 0 ∧ s'.stackset.trail.max = _) ∧
      (_ → s'.stackset.trail.spare = _ ∧ s'.stackset.trail.max = _)
    rw [ht]
    exact ⟨c.1, fun hn => by rw [c.2 hn]; exact ⟨rfl, rfl⟩⟩

/-- C11 (amended), at a concrete input: the local overflow raised in
`exampleState`. -/
theorem outOfStack_spare_donation_witness :
    exampleOverflowState.stackset.local = (enableSpareStack exampleState.stackset.local false).1 ∧
    exampleOverflowState.stackset.argument = exampleState.stackset.argument :=
  have h := outOfStack_spare_donation exampleExt StackId.local
    stack_overflow_action.STACK_OVERFLOW_RAISE exampleState exampleOverflowState
    (by set_option maxRecDepth 100000 in decide)
  ⟨h.1, h.2.2.2.1⟩

/-! ### The fallbacks that write nothing -/

/-- C12: the fallbacks to a placeholder atom write nothing. When
`gTop + 2*7 + 6` cells reach `gMax`, `push_overflow_context(stack, 6)` returns
the atom naming the region and leaves the state, so `gTop` and the memory, as
they are. When `gTop + 5` cells reach `gMax`, the last steps of `outOfStack`
leave `gTop` and the memory as they are, put the atom `aborted` in the
exception bin and make it the pending exception. And a call of `outOfStack` on
a region the marker does not hold, made when `gTop + 5` cells reach the `gMax`
that the donation of the spare leaves, comes back with `gTop` and the memory
unchanged and `aborted` as the pending exception. -/
theorem overflow_fallbacks_write_nothing (E : Ext) (stack : StackId)
    (how : stack_overflow_action) (s : PL_local_data) (ctx : Word) :
    (gMax s ≤ gTop s + (2 * 7 + 6) * sizeofWord →
      push_overflow_context E (stackOf s stack) 6 s = some (Word.atom (stackOf s stack).name, s)) ∧
    (gMax s ≤ gTop s + 5 * sizeofWord →
      gTop (outOfStackTerm ctx s) = gTop s ∧ (outOfStackTerm ctx s).mem = s.mem ∧
      (outOfStackTerm ctx s).bin_value = ATOM_aborted ∧
      (outOfStackTerm ctx s).exception_term = (outOfStackTerm ctx s).exception_bin) ∧
    (s.outofstack ≠ some stack →
      gMax (outOfStackEnter stack s) ≤ gTop s + 5 * sizeofWord →
      ∃ s', (outOfStack E stack how s).finalState = some s' ∧
        gTop s' = gTop s ∧ s'.mem = s.mem ∧ s'.bin_value = ATOM_aborted ∧
        s'.exception_term = s'.exception_bin) := by
  have part2 : ∀ t : PL_local_data, gMax t ≤ gTop t + 5 * sizeofWord →
      gTop (outOfStackTerm ctx t) = gTop t ∧ (outOfStackTerm ctx t).mem = t.mem ∧
      (outOfStackTerm ctx t).bin_value = ATOM_aborted ∧
      (outOfStackTerm ctx t).exception_term = (outOfStackTerm ctx t).exception_bin := by
    intro t ht
    have hn : ¬ gTop t + 5 * sizeofWord < gMax t := by omega
    unfold outOfStackTerm
    rw [if_neg hn]
    exact ⟨rfl, rfl, rfl, rfl⟩
  refine ⟨?_, part2 s, ?_⟩
  · intro hfull
    have hn : ¬ gTop s + (2 * 7 + 6) * sizeofWord < gMax s := by omega
    unfold push_overflow_context
    rw [if_neg hn]
  · intro hm hfull
    obtain ⟨e1, e2, _⟩ := outOfStackEnter_spec stack s
    have hn : ¬ gTop (outOfStackEnter stack s) + (2 * 7 + 6) * sizeofWord
        < gMax (outOfStackEnter stack s) := by
      rw [e1]; simp only [sizeofWord] at *; omega
    have hp : push_overflow_context E (stackOf (outOfStackEnter stack s) stack) 6
        (outOfStackEnter stack s)
        = some (Word.atom (stackOf (outOfStackEnter stack s) stack).name,
            outOfStackEnter stack s) := by
      unfold push_overflow_context
      rw [if_neg hn]
    have hn5 : ¬ gTop (outOfStackEnter stack s) + 5 * sizeofWord
        < gMax (outOfStackEnter stack s) := by
      rw [e1]; omega
    refine ⟨outOfStackTerm (Word.atom (stackOf (outOfStackEnter stack s) stack).name)
      (outOfStackEnter stack s), ?_, ?_⟩
    · rw [outOfStack_eq E stack how s hm _ _ hp]
      split <;> rfl
    · unfold outOfStackTerm
      rw [if_neg hn5]
      exact ⟨e1, e2, rfl, rfl⟩

/-- C12, at a concrete input: the state `exampleFullState`, whose global stack
is full. -/
theorem overflow_fallbacks_write_nothing_witness :
    gMax exampleFullState ≤ gTop exampleFullState + (2 * 7 + 6) * sizeofWord ∧
    push_overflow_context exampleExt (stackOf exampleFullState StackId.local) 6 exampleFullState
      = some (Word.atom (stackOf exampleFullState StackId.local).name, exampleFullState) :=
  ⟨by decide,
   (overflow_fallbacks_write_nothing exampleExt StackId.local
      stack_overflow_action.STACK_OVERFLOW_RAISE exampleFullState Word.var).1 (by decide)⟩

/-! ### Delivery of the overflow error -/

/-- C13: delivery by `outOfStack(s, how)` on a region the marker does not hold.
Whenever `push_overflow_context` comes back with the context `ctx` in the state
`s4`: the pending-exception slot is the exception bin; when five cells fit
(`gTop + 5 < gMax`), the bin holds a pointer to five fresh cells at the old
`gTop` that read `error(resource_error(stack), ctx)` (the functor `error/2`,
a pointer to the cell of `resource_error/1`, `ctx`, the functor
`resource_error/1`, the atom `stack`) and `gTop` has moved by five cells; the
marker is the region and trimming is requested; in the mode `RAISE` the call
returns `FALSE`; in the mode `THROW` it jumps when the throw environment is
installed and otherwise returns `FALSE` in the same state as in the mode
`RAISE`. And `push_overflow_context` does come back whenever the count of choice
points ends or there is no room for the context. -/
theorem overflow_delivery (E : Ext) (stack : StackId) (s : PL_local_data)
    (hm : s.outofstack ≠ some stack) :
    (∀ ctx s4,
      push_overflow_context E (stackOf (outOfStackEnter stack s) stack) 6
        (outOfStackEnter stack s) = some (ctx, s4) →
      outOfStack E stack stack_overflow_action.STACK_OVERFLOW_RAISE s
        = Outcome.ret false (outOfStackTerm ctx s4) ∧
      outOfStack E stack stack_overflow_action.STACK_OVERFLOW_THROW s
        = (if s.throw_environment = true then Outcome.jump (outOfStackTerm ctx s4)
           else Outcome.ret false (outOfStackTerm ctx s4)) ∧
      (outOfStackTerm ctx s4).exception_term = (outOfStackTerm ctx s4).exception_bin ∧
      (outOfStackTerm ctx s4).exception_bin = s.exception_bin ∧
      (outOfStackTerm ctx s4).outofstack = some stack ∧
      (outOfStackTerm ctx s4).trim_stack_requested = true ∧
      (gTop s4 + 5 * sizeofWord < gMax s4 →
        (outOfStackTerm ctx s4).bin_value
          = consPtr (gTop s4) Storage.STG_GLOBAL Tag.TAG_COMPOUND ∧
        gTop (outOfStackTerm ctx s4) = gTop s4 + 5 * sizeofWord ∧
        readCell (outOfStackTerm ctx s4).mem (gTop s4) = FUNCTOR_error2 ∧
        readCell (outOfStackTerm ctx s4).mem (gTop s4 + sizeofWord)
          = consPtr (gTop s4 + 3 * sizeofWord) Storage.STG_GLOBAL Tag.TAG_COMPOUND ∧
        readCell (outOfStackTerm ctx s4).mem (gTop s4 + 2 * sizeofWord) = ctx ∧
        readCell (outOfStackTerm ctx s4).mem (gTop s4 + 3 * sizeofWord)
          = FUNCTOR_resource_error1 ∧
        readCell (outOfStackTerm ctx s4).mem (gTop s4 + 4 * sizeofWord) = ATOM_stack)) ∧
    ((choice_points s.BFR s.query ≠ none ∨
        gMax (outOfStackEnter stack s) ≤ gTop s + (2 * 7 + 6) * sizeofWord) →
      ∃ r, push_overflow_context E (stackOf (outOfStackEnter stack s) stack) 6
        (outOfStackEnter stack s) = some r) := by
  constructor
  · intro ctx s4 hp
    have p1 := (push_overflow_context_spec E _ 6 _ s4 ctx (by omega) hp).1
    have tf := outOfStackTerm_fields ctx s4
    have ef := outOfStackEnter_fields stack s
    refine ⟨?_, ?_, ?_, ?_, ?_, ?_, ?_⟩
    · rw [outOfStack_eq E stack _ s hm ctx s4 hp]
      rw [if_neg]
      rintro ⟨h, _⟩
      cases h
    · rw [outOfStack_eq E stack _ s hm ctx s4 hp]
      by_cases ht : s.throw_environment = true
      · rw [if_pos ht, if_pos ⟨rfl, ht⟩]
      · rw [if_neg ht, if_neg (fun h => ht h.2)]
    · rw [tf.2.2.2.2.1, tf.2.2.2.1]
    · rw [tf.2.2.2.1, p1.fields.2.2.2.1, ef.2.2.2.1]
    · rw [tf.1, p1.outofstack, ef.1]
    · rw [tf.2.1, p1.fields.2.1, ef.2.1]
    · intro h5
      obtain ⟨_, hc | hc⟩ := outOfStackTerm_spec ctx s4
      · exact absurd h5 hc.1
      · obtain ⟨_, g, b, m⟩ := hc
        have r5 := pokeSeq_read5 s4 (gTop s4) FUNCTOR_error2
          (consPtr (gTop s4 + 3 * sizeofWord) Storage.STG_GLOBAL Tag.TAG_COMPOUND)
          ctx FUNCTOR_resource_error1 ATOM_stack
        rw [m]
        exact ⟨b, g, r5.1, r5.2.1, r5.2.2.1, r5.2.2.2.1, r5.2.2.2.2⟩
  · intro h
    obtain ⟨e1, _, _⟩ := outOfStackEnter_spec stack s
    have ef := outOfStackEnter_fields stack s
    unfold push_overflow_context
    by_cases hc : gTop (outOfStackEnter stack s) + (2 * 7 + 6) * sizeofWord
        < gMax (outOfStackEnter stack s)
    · rw [if_pos hc]
      rcases h with h | h
      · rw [ef.2.2.2.2.2.1, ef.2.2.2.2.2.2.1]
        cases hcp : choice_points s.BFR s.query with
        | none => exact absurd hcp h
        | some cps => exact ⟨_, rfl⟩
      · rw [e1] at hc
        omega
    · rw [if_neg hc]
      exact ⟨_, rfl⟩

/-- C13, at a concrete input: the local overflow raised in `exampleState`, in
the mode `THROW` without a throw environment. -/
theorem overflow_delivery_witness :
    exampleState.outofstack ≠ some StackId.local ∧
    ∃ r, push_overflow_context exampleExt
      (stackOf (outOfStackEnter StackId.local exampleState) StackId.local) 6
      (outOfStackEnter StackId.local exampleState) = some r :=
  ⟨by decide,
   (overflow_delivery exampleExt StackId.local exampleState (by decide)).2
     (Or.inl (by decide))⟩

/-! ### The classification of an overflow -/

theorem readCell_cons (m : Mem) (a b : Nat) (w : Word) :
    readCell ((b, w) :: m) a = if a = b then w else readCell m a := by
  by_cases h : a = b
  · subst h; rw [if_pos rfl]; exact readCell_head m a w
  · rw [if_neg h]; exact readCell_tail m a b w h

theorem readCell_append (added m : Mem) (a : Nat) (h : ∀ x ∈ added, x.1 ≠ a) :
    readCell (added ++ m) a = readCell m a := by
  induction added with
  | nil => rfl
  | cons x rest ih =>
    obtain ⟨b, w⟩ := x
    have hb : a ≠ b := fun e => h (b, w) (List.mem_cons_self _ _) e.symm
    show readCell ((b, w) :: (rest ++ m)) a = readCell m a
    rw [readCell_cons, if_neg hb]
    exact ih (fun x hx => h x (List.mem_cons_of_mem _ hx))

/-- The argument loop of `push_goal` leaves every cell outside the argument
cells and the description cells as it was. -/
theorem pushGoalArgs_frame (V : TermView) (fr : Frame) (is : List Nat) (p ad : Nat) (m : Mem)
    (hle : p + is.length * sizeofWord ≤ ad) (x : Nat)
    (hx : x < p ∨ (p + is.length * sizeofWord ≤ x ∧ x < ad) ∨
      ad + sizeFrameTermLoop V fr is 0 * sizeofWord ≤ x) :
    readCell (pushGoalArgs V fr is p ad m).2.2 x = readCell m x := by
  obtain ⟨_, _, added, e, hadd⟩ := pushGoalArgs_spec V fr is p ad m
  rw [e]
  apply readCell_append
  intro y hy
  have := hadd y hy
  simp only [sizeofWord] at *
  omega

theorem sizeFrameTermLoop_one (V : TermView) (fr : Frame) (i : Nat) (is : List Nat) :
    sizeFrameTermLoop V fr (i :: is) 0
      = sizeFrameTermLoop V fr [i] 0 + sizeFrameTermLoop V fr is 0 := by
  simp only [sizeFrameTermLoop]
  split
  · rw [sizeFrameTermLoop_add V fr is (0 + 3)]
  · rw [Nat.zero_add]

theorem sizeFrameTermLoop_single (V : TermView) (fr : Frame) (i : Nat) :
    sizeFrameTermLoop V fr [i] 0
      = if isTerm (V.valueAt (V.deRef (argFrameP fr i))) = true then 3 else 0 := by
  simp only [sizeFrameTermLoop]

/-- One pass of the argument loop of `push_goal`: the loop goes on behind the
argument cell and the description cells of argument `i`, in a memory that holds
the description of argument `i` and differs from the old one in these cells
only. -/
theorem pushGoalArgs_step (V : TermView) (fr : Frame) (i : Nat) (is : List Nat) (p ad : Nat)
    (m : Mem) (hle : p < ad) :
    ∃ m1 : Mem,
      pushGoalArgs V fr (i :: is) p ad m
        = pushGoalArgs V fr is (p + sizeofWord)
            (ad + sizeFrameTermLoop V fr [i] 0 * sizeofWord) m1 ∧
      DescriptorAt V fr i m1 p ad := by
  by_cases h1 : isTerm (V.valueAt (V.deRef (argFrameP fr i))) = true
  · have hs : sizeFrameTermLoop V fr [i] 0 = 3 := by
      rw [sizeFrameTermLoop_single, if_pos h1]
    have rd : ∀ (w1 w2 w3 : Word),
        readCell (writeCell (writeCell (writeCell
              (writeCell m p (consPtr ad Storage.STG_GLOBAL Tag.TAG_COMPOUND))
              ad w1) (ad + sizeofWord) w2) (ad + 2 * sizeofWord) w3) p
          = consPtr ad Storage.STG_GLOBAL Tag.TAG_COMPOUND ∧
        readCell (writeCell (writeCell (writeCell
              (writeCell m p (consPtr ad Storage.STG_GLOBAL Tag.TAG_COMPOUND))
              ad w1) (ad + sizeofWord) w2) (ad + 2 * sizeofWord) w3) ad = w1 ∧
        readCell (writeCell (writeCell (writeCell
              (writeCell m p (consPtr ad Storage.STG_GLOBAL Tag.TAG_COMPOUND))
              ad w1) (ad + sizeofWord) w2) (ad + 2 * sizeofWord) w3) (ad + sizeofWord) = w2 ∧
        readCell (writeCell (writeCell (writeCell
              (writeCell m p (consPtr ad Storage.STG_GLOBAL Tag.TAG_COMPOUND))
              ad w1) (ad + sizeofWord) w2) (ad + 2 * sizeofWord) w3) (ad + 2 * sizeofWord)
          = w3 := by
      intro w1 w2 w3
      simp only [writeCell, sizeofWord]
      refine ⟨?_, ?_, ?_, ?_⟩
      · rw [readCell_tail _ _ _ _ (by omega), readCell_tail _ _ _ _ (by omega),
          readCell_tail _ _ _ _ (by omega)]
        exact readCell_head _ _ _
      · rw [readCell_tail _ _ _ _ (by omega), readCell_tail _ _ _ _ (by omega)]
        exact readCell_head _ _ _
      · rw [readCell_tail _ _ _ _ (by omega)]
        exact readCell_head _ _ _
      · exact readCell_head _ _ _
    rw [hs]
    by_cases h2 : V.isList (V.valueAt (V.deRef (argFrameP fr i))) = true
    · by_cases h3 : V.isList (V.valueAt (V.deRef (V.skip_list (V.deRef (argFrameP fr i))).2)) = true
      · refine ⟨(writeCell (writeCell (writeCell
          (writeCell m p (consPtr ad Storage.STG_GLOBAL Tag.TAG_COMPOUND))
          ad FUNCTOR_dot2) (ad + sizeofWord) ATOM_cyclic_term) (ad + 2 * sizeofWord) ATOM_nil), ?_, ?_⟩
        · simp only [pushGoalArgs]
          rw [if_pos h1, if_pos h2, if_pos h3]
        · obtain ⟨r1, r2, r3, r4⟩ := rd FUNCTOR_dot2 ATOM_cyclic_term ATOM_nil
          refine ⟨fun hn => ?_, fun _ => ⟨r1, fun _ _ => ⟨r2, r3, r4⟩, fun _ hn => ?_, fun hn => ?_⟩⟩
          · rw [h1] at hn; cases hn
          · rw [h3] at hn; cases hn
          · rw [h2] at hn; cases hn
      · refine ⟨(writeCell (writeCell (writeCell
          (writeCell m p (consPtr ad Storage.STG_GLOBAL Tag.TAG_COMPOUND))
          ad FUNCTOR_dot2) (ad + sizeofWord) (consInt (V.skip_list (V.deRef (argFrameP fr i))).1)) (ad + 2 * sizeofWord) (V.valueAt (V.deRef (V.skip_list (V.deRef (argFrameP fr i))).2))), ?_, ?_⟩
        · simp only [pushGoalArgs]
          rw [if_pos h1, if_pos h2, if_neg h3]
        · obtain ⟨r1, r2, r3, r4⟩ := rd FUNCTOR_dot2
            (consInt (V.skip_list (V.deRef (argFrameP fr i))).1)
            (V.valueAt (V.deRef (V.skip_list (V.deRef (argFrameP fr i))).2))
          refine ⟨fun hn => ?_, fun _ => ⟨r1, fun _ hn => ?_, fun _ _ => ⟨r2, r3, r4⟩, fun hn => ?_⟩⟩
          · rw [h1] at hn; cases hn
          · exact absurd hn h3
          · rw [h2] at hn; cases hn
    · refine ⟨(writeCell (writeCell (writeCell
          (writeCell m p (consPtr ad Storage.STG_GLOBAL Tag.TAG_COMPOUND))
          ad FUNCTOR_divide2) (ad + sizeofWord) (V.functorDef (V.valueAt (V.deRef (argFrameP fr i)))).name) (ad + 2 * sizeofWord) (consInt (V.functorDef (V.valueAt (V.deRef (argFrameP fr i)))).arity)), ?_, ?_⟩
      · simp only [pushGoalArgs]
        rw [if_pos h1, if_neg h2]
      · obtain ⟨r1, r2, r3, r4⟩ := rd FUNCTOR_divide2
          (V.functorDef (V.valueAt (V.deRef (argFrameP fr i)))).name
          (consInt (V.functorDef (V.valueAt (V.deRef (argFrameP fr i)))).arity)
        refine ⟨fun hn => ?_, fun _ => ⟨r1, fun hn => ?_, fun hn => ?_, fun _ => ⟨r2, r3, r4⟩⟩⟩
        · rw [h1] at hn; cases hn
        · exact absurd hn h2
        · exact absurd hn h2
  · have hs : sizeFrameTermLoop V fr [i] 0 = 0 := by
      rw [sizeFrameTermLoop_single, if_neg h1]
    rw [hs]
    refine ⟨writeCell m p (V.valueAt (V.deRef (argFrameP fr i))), ?_, ?_⟩
    · simp only [pushGoalArgs]
      rw [if_neg h1]
      simp
    · exact ⟨fun _ => readCell_head _ _ _, fun hn => absurd hn h1⟩

/-- The description of an argument reads the argument cell and, for a compound
argument, the three description cells only. -/
theorem DescriptorAt.transfer {V : TermView} {fr : Frame} {i : Nat} {M M' : Mem} {cell ad : Nat}
    (h : DescriptorAt V fr i M cell ad) (hc : readCell M' cell = readCell M cell)
    (h0 : isTerm (V.valueAt (V.deRef (argFrameP fr i))) = true →
      readCell M' ad = readCell M ad ∧
      readCell M' (ad + sizeofWord) = readCell M (ad + sizeofWord) ∧
      readCell M' (ad + 2 * sizeofWord) = readCell M (ad + 2 * sizeofWord)) :
    DescriptorAt V fr i M' cell ad := by
  obtain ⟨d1, d2⟩ := h
  refine ⟨fun hn => by rw [hc]; exact d1 hn, fun ht => ?_⟩
  obtain ⟨e0, e1, e2⟩ := h0 ht
  obtain ⟨c, l1, l2, l3⟩ := d2 ht
  rw [hc, e0, e1, e2]
  exact ⟨c, l1, l2, l3⟩

/-- The argument loop of `push_goal` leaves, for each argument index of the
list, the description of that argument: the argument cells follow each other
from `p`, the description cells from `ad`, three for each compound argument
before it. -/
theorem pushGoalArgs_read (V : TermView) (fr : Frame) :
    ∀ (pre : List Nat) (i : Nat) (post : List Nat) (p ad : Nat) (m : Mem),
      p + (pre ++ i :: post).length * sizeofWord ≤ ad →
      DescriptorAt V fr i (pushGoalArgs V fr (pre ++ i :: post) p ad m).2.2
        (p + pre.length * sizeofWord) (ad + sizeFrameTermLoop V fr pre 0 * sizeofWord) := by
  intro pre
  induction pre with
  | nil =>
    intro i post p ad m hle
    simp only [List.nil_append, List.length_cons] at hle
    obtain ⟨m1, e, d⟩ := pushGoalArgs_step V fr i post p ad m (by simp only [sizeofWord] at *; omega)
    simp only [List.nil_append, List.length_nil, sizeFrameTermLoop, Nat.zero_mul, Nat.add_zero]
    rw [e]
    have hsz := sizeFrameTermLoop_single V fr i
    apply d.transfer
    · apply pushGoalArgs_frame
      · simp only [sizeofWord] at *; omega
      · left; simp only [sizeofWord]; omega
    · intro ht
      rw [if_pos ht] at hsz
      rw [hsz]
      refine ⟨?_, ?_, ?_⟩ <;>
      · apply pushGoalArgs_frame
        · simp only [sizeofWord] at *; omega
        · right; left; simp only [sizeofWord] at *; omega
  | cons j pre ih =>
    intro i post p ad m hle
    simp only [List.cons_append, List.length_cons, List.length_append] at hle
    obtain ⟨m1, e, _⟩ := pushGoalArgs_step V fr j (pre ++ i :: post) p ad m
      (by simp only [sizeofWord] at *; omega)
    have hsz := sizeFrameTermLoop_single V fr j
    have h1 := sizeFrameTermLoop_one V fr j pre
    rw [List.cons_append, e]
    have := ih i post (p + sizeofWord) (ad + sizeFrameTermLoop V fr [j] 0 * sizeofWord) m1
      (by simp only [List.length_append, List.length_cons, sizeofWord] at *; omega)
    have e1 : p + (j :: pre).length * sizeofWord = p + sizeofWord + pre.length * sizeofWord := by
      simp only [List.length_cons, sizeofWord]; omega
    have e2 : ad + sizeFrameTermLoop V fr (j :: pre) 0 * sizeofWord
        = ad + sizeFrameTermLoop V fr [j] 0 * sizeofWord
          + sizeFrameTermLoop V fr pre 0 * sizeofWord := by
      rw [h1]; simp only [sizeofWord]; omega
    rw [e1, e2]
    exact this

theorem range_split (n i : Nat) (h : i < n) :
    List.range n = List.range i ++ i :: List.range' (i + 1) (n - i - 1) := by
  have e : n = ((n - i - 1) + 1) + i := by omega
  conv_lhs => rw [e]
  rw [List.range_eq_range', List.range_eq_range', ← List.range'_append 0 i ((n - i - 1) + 1) 1,
    List.range'_succ]
  simp

theorem pokeSeq_mem6 (s : PL_local_data) (p : Nat) (a b c d e f : Word) :
    (pokeSeq s p [a, b, c, d, e, f]).mem
      = (p + 5 * sizeofWord, f) :: (p + 4 * sizeofWord, e) :: (p + 3 * sizeofWord, d) ::
        (p + 2 * sizeofWord, c) :: (p + sizeofWord, b) :: (p, a) :: s.mem := by
  simp only [pokeSeq, poke, writeCell, sizeofWord, Nat.add_assoc]

theorem pokeSeq_mem2 (s : PL_local_data) (p : Nat) (a b : Word) :
    (pokeSeq s p [a, b]).mem = (p + sizeofWord, b) :: (p, a) :: s.mem := by
  simp only [pokeSeq, poke, writeCell]

/-- C15 (counterexample): for the frame of `user:p/1` whose argument is the
partial list `[a, b | foo(x)]`, the description that `push_goal` writes at
`gTop + 9` cells is `'[|]'(2, End)` where `End` is the pointer to the compound
`foo(x)` at address 700, a part of the argument: it is not the one-element list
`[2]`, whose last cell would be `[]`. -/
theorem push_goal_partial_list_counterexample :
    partialListView.isList (partialListView.valueAt
      (partialListView.deRef (argFrameP partialListFrame 0))) = true ∧
    readCell (push_goal partialListView partialListFrame exampleState).2.mem
      (gTop exampleState + 8 * sizeofWord)
      = consPtr (gTop exampleState + 9 * sizeofWord) Storage.STG_GLOBAL Tag.TAG_COMPOUND ∧
    readCell (push_goal partialListView partialListFrame exampleState).2.mem
      (gTop exampleState + 9 * sizeofWord) = FUNCTOR_dot2 ∧
    readCell (push_goal partialListView partialListFrame exampleState).2.mem
      (gTop exampleState + 10 * sizeofWord) = consInt 2 ∧
    readCell (push_goal partialListView partialListFrame exampleState).2.mem
      (gTop exampleState + 11 * sizeofWord)
      = Word.ptr 700 Storage.STG_GLOBAL Tag.TAG_COMPOUND ∧
    readCell (push_goal partialListView partialListFrame exampleState).2.mem
      (gTop exampleState + 11 * sizeofWord) ≠ ATOM_nil := by
  set_option maxRecDepth 100000 in decide

/-- C15 (amended): `push_goal(fr)` returns a pointer to the old `gTop`, where
it leaves `frame(Level, Module:Head, [])`: the functor `frame/3`, the level, a
pointer to the cell of `:/2` four cells up, `[]`, the functor `:/2` and the
module name. For arity 0 the next cell is the name of the predicate. Otherwise
it is a pointer to the cell behind it, which holds the functor of the
predicate, followed by one cell for each argument; argument `i` is described
as `DescriptorAt` says, its three description cells lying behind the argument
cells and the description cells of the compound arguments before it: the
dereferenced argument cell itself when that is not compound;
`'[|]'(cyclic_term, [])` for a list that ends in a list cell; `'[|]'(Len, End)`
for any other list, where `End` is a copy of the cell at which the list ends,
so `[Len]` for a proper list and `[Len|End]` for a partial list; `Name/Arity`
for any other compound. -/
theorem push_goal_renders (V : TermView) (fr : Frame) (s : PL_local_data) :
    (push_goal V fr s).1 = consPtr (gTop s) Storage.STG_GLOBAL Tag.TAG_COMPOUND ∧
    readCell (push_goal V fr s).2.mem (gTop s) = FUNCTOR_frame3 ∧
    readCell (push_goal V fr s).2.mem (gTop s + sizeofWord) = consInt fr.level ∧
    readCell (push_goal V fr s).2.mem (gTop s + 2 * sizeofWord)
      = consPtr (gTop s + 4 * sizeofWord) Storage.STG_GLOBAL Tag.TAG_COMPOUND ∧
    readCell (push_goal V fr s).2.mem (gTop s + 3 * sizeofWord) = ATOM_nil ∧
    readCell (push_goal V fr s).2.mem (gTop s + 4 * sizeofWord) = FUNCTOR_colon2 ∧
    readCell (push_goal V fr s).2.mem (gTop s + 5 * sizeofWord) = fr.predicate.module.name ∧
    (fr.predicate.functor.arity = 0 →
      readCell (push_goal V fr s).2.mem (gTop s + 6 * sizeofWord) = fr.predicate.functor.name) ∧
    (0 < fr.predicate.functor.arity →
      readCell (push_goal V fr s).2.mem (gTop s + 6 * sizeofWord)
        = consPtr (gTop s + 7 * sizeofWord) Storage.STG_GLOBAL Tag.TAG_COMPOUND ∧
      readCell (push_goal V fr s).2.mem (gTop s + 7 * sizeofWord)
        = fr.predicate.functor.functor ∧
      ∀ i, i < fr.predicate.functor.arity →
        DescriptorAt V fr i (push_goal V fr s).2.mem
          (gTop s + (8 + i) * sizeofWord)
          (gTop s + (8 + fr.predicate.functor.arity
            + sizeFrameTermLoop V fr (List.range i) 0) * sizeofWord) ∧
        (V.isList (V.valueAt (V.deRef (argFrameP fr i))) = true →
          V.valueAt (V.deRef (V.skip_list (V.deRef (argFrameP fr i))).2) = ATOM_nil →
          V.isList ATOM_nil = false →
          isTerm (V.valueAt (V.deRef (argFrameP fr i))) = true →
          readCell (push_goal V fr s).2.mem
            (gTop s + (8 + fr.predicate.functor.arity
              + sizeFrameTermLoop V fr (List.range i) 0) * sizeofWord + 2 * sizeofWord)
            = ATOM_nil)) := by
  have m6 := pokeSeq_mem6 s (gTop s) FUNCTOR_frame3 (consInt fr.level)
    (consPtr (gTop s + 4 * sizeofWord) Storage.STG_GLOBAL Tag.TAG_COMPOUND) ATOM_nil
    FUNCTOR_colon2 fr.predicate.module.name
  by_cases har : fr.predicate.functor.arity > 0
  · have m2 := pokeSeq_mem2
      (pokeSeq s (gTop s) [FUNCTOR_frame3, consInt fr.level,
        consPtr (gTop s + 4 * sizeofWord) Storage.STG_GLOBAL Tag.TAG_COMPOUND, ATOM_nil,
        FUNCTOR_colon2, fr.predicate.module.name])
      (gTop s + 4 * sizeofWord + 2 * sizeofWord)
      (consPtr (gTop s + 4 * sizeofWord + 3 * sizeofWord) Storage.STG_GLOBAL Tag.TAG_COMPOUND)
      fr.predicate.functor.functor
    rw [m6] at m2
    have hmem : (push_goal V fr s).2.mem
        = (pushGoalArgs V fr (List.range fr.predicate.functor.arity)
            (gTop s + 4 * sizeofWord + 4 * sizeofWord)
            (gTop s + 4 * sizeofWord + 4 * sizeofWord + fr.predicate.functor.arity * sizeofWord)
            ((gTop s + 4 * sizeofWord + 2 * sizeofWord + sizeofWord,
                fr.predicate.functor.functor) ::
              (gTop s + 4 * sizeofWord + 2 * sizeofWord,
                consPtr (gTop s + 4 * sizeofWord + 3 * sizeofWord)
                  Storage.STG_GLOBAL Tag.TAG_COMPOUND) ::
              (gTop s + 5 * sizeofWord, fr.predicate.module.name) ::
              (gTop s + 4 * sizeofWord, FUNCTOR_colon2) ::
              (gTop s + 3 * sizeofWord, ATOM_nil) ::
              (gTop s + 2 * sizeofWord,
                consPtr (gTop s + 4 * sizeofWord) Storage.STG_GLOBAL Tag.TAG_COMPOUND) ::
              (gTop s + sizeofWord, consInt fr.level) ::
              (gTop s, FUNCTOR_frame3) :: s.mem)).2.2 := by
      rw [← m2]
      unfold push_goal
      simp only
      rw [if_pos har]
      rfl
    have hfst : (push_goal V fr s).1 = consPtr (gTop s) Storage.STG_GLOBAL Tag.TAG_COMPOUND := by
      unfold push_goal
      simp only
      rw [if_pos har]
    have low : ∀ x, x < gTop s + 8 * sizeofWord →
        readCell (push_goal V fr s).2.mem x
          = readCell ((gTop s + 4 * sizeofWord + 2 * sizeofWord + sizeofWord,
                fr.predicate.functor.functor) ::
              (gTop s + 4 * sizeofWord + 2 * sizeofWord,
                consPtr (gTop s + 4 * sizeofWord + 3 * sizeofWord)
                  Storage.STG_GLOBAL Tag.TAG_COMPOUND) ::
              (gTop s + 5 * sizeofWord, fr.predicate.module.name) ::
              (gTop s + 4 * sizeofWord, FUNCTOR_colon2) ::
              (gTop s + 3 * sizeofWord, ATOM_nil) ::
              (gTop s + 2 * sizeofWord,
                consPtr (gTop s + 4 * sizeofWord) Storage.STG_GLOBAL Tag.TAG_COMPOUND) ::
              (gTop s + sizeofWord, consInt fr.level) ::
              (gTop s, FUNCTOR_frame3) :: s.mem) x := by
      intro x hx
      rw [hmem]
      apply pushGoalArgs_frame
      · simp only [List.length_range, sizeofWord]; omega
      · left; simp only [sizeofWord] at *; omega
    have e73 : gTop s + 4 * sizeofWord + 3 * sizeofWord = gTop s + 7 * sizeofWord := by
      simp only [sizeofWord]
    refine ⟨hfst, ?_, ?_, ?_, ?_, ?_, ?_, fun h0 => absurd h0 (by omega), fun _ => ⟨?_, ?_, ?_⟩⟩
    · rw [low _ (by simp only [sizeofWord]; omega)]
      simp only [readCell_cons, sizeofWord]
      split_ifs <;> first | rfl | (exfalso; omega)
    · rw [low _ (by simp only [sizeofWord]; omega)]
      simp only [readCell_cons, sizeofWord]
      split_ifs <;> first | rfl | (exfalso; omega)
    · rw [low _ (by simp only [sizeofWord]; omega)]
      simp only [readCell_cons, sizeofWord]
      split_ifs <;> first | rfl | (exfalso; omega)
    · rw [low _ (by simp only [sizeofWord]; omega)]
      simp only [readCell_cons, sizeofWord]
      split_ifs <;> first | rfl | (exfalso; omega)
    · rw [low _ (by simp only [sizeofWord]; omega)]
      simp only [readCell_cons, sizeofWord]
      split_ifs <;> first | rfl | (exfalso; omega)
    · rw [low _ (by simp only [sizeofWord]; omega)]
      simp only [readCell_cons, sizeofWord]
      split_ifs <;> first | rfl | (exfalso; omega)
    · rw [low _ (by simp only [sizeofWord]; omega)]
      simp only [readCell_cons, sizeofWord]
      split_ifs <;> first | rfl | (exfalso; omega)
    · rw [low _ (by simp only [sizeofWord]; omega)]
      simp only [readCell_cons, sizeofWord]
      split_ifs <;> rfl
    · intro i hi
      have d := pushGoalArgs_read V fr (List.range i) i
        (List.range' (i + 1) (fr.predicate.functor.arity - i - 1))
        (gTop s + 4 * sizeofWord + 4 * sizeofWord)
        (gTop s + 4 * sizeofWord + 4 * sizeofWord + fr.predicate.functor.arity * sizeofWord)
        ((gTop s + 4 * sizeofWord + 2 * sizeofWord + sizeofWord,
                fr.predicate.functor.functor) ::
              (gTop s + 4 * sizeofWord + 2 * sizeofWord,
                consPtr (gTop s + 4 * sizeofWord + 3 * sizeofWord)
                  Storage.STG_GLOBAL Tag.TAG_COMPOUND) ::
              (gTop s + 5 * sizeofWord, fr.predicate.module.name) ::
              (gTop s + 4 * sizeofWord, FUNCTOR_colon2) ::
              (gTop s + 3 * sizeofWord, ATOM_nil) ::
              (gTop s + 2 * sizeofWord,
                consPtr (gTop s + 4 * sizeofWord) Storage.STG_GLOBAL Tag.TAG_COMPOUND) ::
              (gTop s + sizeofWord, consInt fr.level) ::
              (gTop s, FUNCTOR_frame3) :: s.mem)
        (by rw [← range_split _ _ hi]; simp only [List.length_range, sizeofWord]; omega)
      rw [← range_split _ _ hi, ← hmem, List.length_range] at d
      have e1 : gTop s + 4 * sizeofWord + 4 * sizeofWord + i * sizeofWord
          = gTop s + (8 + i) * sizeofWord := by simp only [sizeofWord]; omega
      have e2 : gTop s + 4 * sizeofWord + 4 * sizeofWord
            + fr.predicate.functor.arity * sizeofWord
            + sizeFrameTermLoop V fr (List.range i) 0 * sizeofWord
          = gTop s + (8 + fr.predicate.functor.arity
            + sizeFrameTermLoop V fr (List.range i) 0) * sizeofWord := by
        simp only [sizeofWord]; omega
      rw [e1, e2] at d
      refine ⟨d, fun hl ht hn hterm => ?_⟩
      have := (d.2 hterm).2.2.1 hl (by rw [ht]; exact hn)
      rw [this.2.2, ht]
  · have h0 : fr.predicate.functor.arity = 0 := by omega
    have hmem : (push_goal V fr s).2.mem
        = (gTop s + 4 * sizeofWord + 2 * sizeofWord, fr.predicate.functor.name) ::
              (gTop s + 5 * sizeofWord, fr.predicate.module.name) ::
              (gTop s + 4 * sizeofWord, FUNCTOR_colon2) ::
              (gTop s + 3 * sizeofWord, ATOM_nil) ::
              (gTop s + 2 * sizeofWord,
                consPtr (gTop s + 4 * sizeofWord) Storage.STG_GLOBAL Tag.TAG_COMPOUND) ::
              (gTop s + sizeofWord, consInt fr.level) ::
              (gTop s, FUNCTOR_frame3) :: s.mem := by
      rw [← m6]
      unfold push_goal
      simp only
      rw [if_neg har]
      rfl
    have hfst : (push_goal V fr s).1 = consPtr (gTop s) Storage.STG_GLOBAL Tag.TAG_COMPOUND := by
      unfold push_goal
      simp only
      rw [if_neg har]
    refine ⟨hfst, ?_, ?_, ?_, ?_, ?_, ?_, fun _ => ?_, fun h => absurd h har⟩
    · rw [hmem]
      simp only [readCell_cons, sizeofWord]
      split_ifs <;> first | rfl | (exfalso; omega)
    · rw [hmem]
      simp only [readCell_cons, sizeofWord]
      split_ifs <;> first | rfl | (exfalso; omega)
    · rw [hmem]
      simp only [readCell_cons, sizeofWord]
      split_ifs <;> first | rfl | (exfalso; omega)
    · rw [hmem]
      simp only [readCell_cons, sizeofWord]
      split_ifs <;> first | rfl | (exfalso; omega)
    · rw [hmem]
      simp only [readCell_cons, sizeofWord]
      split_ifs <;> first | rfl | (exfalso; omega)
    · rw [hmem]
      simp only [readCell_cons, sizeofWord]
      split_ifs <;> first | rfl | (exfalso; omega)
    · rw [hmem]
      have e : gTop s + 6 * sizeofWord = gTop s + 4 * sizeofWord + 2 * sizeofWord := by
        simp only [sizeofWord]
      rw [e]
      exact readCell_head _ _ _

/-! ### Lemmas on the linger list -/

theorem LingerChain.congr {h h' : LingerHeap} :
    ∀ (l : List LingerCall) (a : Nat),
      (∀ x ∈ l, h'.recs x.block = h.recs x.block) → LingerChain h a l → LingerChain h' a l
  | [], _, _, hc => hc
  | x :: rest, a, hr, hc => by
    obtain ⟨e, hne, r, hrec, g1, g2, g3, hrest⟩ := hc
    refine ⟨e, hne, r, ?_, g1, g2, g3, ?_⟩
    · rw [e, hr x (List.mem_cons_self _ _)]; rw [← e]; exact hrec
    · exact LingerChain.congr rest r.next (fun y hy => hr y (List.mem_cons_of_mem _ hy)) hrest

/-- Without interference the first compare-and-swap of the unlink loop finds
`*p = c` and succeeds. -/
theorem unlinkLoop_first (fuel : Nat) (h : LingerHeap) (p : LingerPtr) (c : Nat) (r : linger_list)
    (hr : h.recs c = some r) (hp : h.load p = some c) :
    unlinkLoop (fuel + 1) h p c = some (h.store p r.next, p) := by
  simp only [unlinkLoop, hr, COMPARE_AND_SWAP, hp, if_true]

theorem lingerLoop_first (fuel : Nat) (h : LingerHeap) (c : Nat) :
    lingerLoop (fuel + 1) h c
      = some ((h.store (LingerPtr.nextOf c) h.head).store LingerPtr.list c) := by
  simp only [lingerLoop, COMPARE_AND_SWAP, LingerHeap.load, LingerHeap.store, if_true]

/-- One call of `linger` with a fresh block puts the record in front of the
list. -/
theorem linger_spec (fuel : Nat) (x : LingerCall) (h : LingerHeap) (l : List LingerCall)
    (hc : LingerChain h h.head l) (h0 : x.block ≠ 0) (hfresh : ∀ y ∈ l, y.block ≠ x.block) :
    ∃ h', linger (fuel + 1) x.block x.generation x.unalloc x.object h = some h' ∧
      LingerChain h' h'.head (x :: l) ∧ h'.calls = h.calls ∧ h'.freed = h.freed := by
  unfold linger
  rw [lingerLoop_first]
  refine ⟨_, rfl, ?_, rfl, rfl⟩
  refine ⟨rfl, h0, ⟨h.head, x.generation, x.object, x.unalloc⟩, ?_, rfl, rfl, rfl, ?_⟩
  · simp [LingerHeap.store]
  · apply LingerChain.congr l h.head _ hc
    intro y hy
    simp [LingerHeap.store, hfresh y hy]

theorem lingerAll_spec (fuel : Nat) :
    ∀ (calls : List LingerCall) (h : LingerHeap) (l : List LingerCall),
      LingerChain h h.head l → (∀ x ∈ calls, x.block ≠ 0) →
      (calls.map (fun x => x.block)).Nodup →
      (∀ x ∈ calls, ∀ y ∈ l, y.block ≠ x.block) →
      ∃ h', lingerAll (fuel + 1) calls h = some h' ∧
        LingerChain h' h'.head (calls.reverse ++ l) ∧ h'.calls = h.calls ∧ h'.freed = h.freed
  | [], h, l, hc, _, _, _ => ⟨h, rfl, by simpa using hc, rfl, rfl⟩
  | x :: rest, h, l, hc, h0, hnd, hfresh => by
    obtain ⟨h1, e1, c1, k1, f1⟩ := linger_spec fuel x h l hc (h0 x (List.mem_cons_self _ _))
      (hfresh x (List.mem_cons_self _ _))
    rw [List.map_cons, List.nodup_cons] at hnd
    obtain ⟨h2, e2, c2, k2, f2⟩ := lingerAll_spec fuel rest h1 (x :: l) c1
      (fun y hy => h0 y (List.mem_cons_of_mem _ hy)) hnd.2
      (by
        intro y hy z hz
        rcases List.mem_cons.1 hz with rfl | hz
        · intro e
          exact hnd.1 (List.mem_map.2 ⟨y, hy, e.symm⟩)
        · exact hfresh y (List.mem_cons_of_mem _ hy) z hz)
    refine ⟨h2, ?_, ?_, by rw [k2, k1], by rw [f2, f1]⟩
    · simp only [lingerAll, e1]; exact e2
    · simpa using c2

/-- The loop of `free_lingering`, started with `p` pointing to the cell that
holds `c`, at the start of a list of distinct records `l` that `p` does not lie
in: with more passes allowed than the list has records it ends; the cell `p`
then leads to the records of `l` whose generation is not below the threshold,
in order; the deallocator calls and the blocks freed are those of the other
records of `l`, in order; the list head is as it was unless `p` is the head;
and records outside `l` are as they were, but for the `next` field of the
record `p` lies in. -/
theorem freeLingeringLoop_spec (g : Nat) :
    ∀ (l : List LingerCall) (fuel : Nat) (h : LingerHeap) (p : LingerPtr) (c : Nat),
      l.length < fuel → h.load p = some c → LingerChain h c l →
      (l.map (fun x => x.block)).Nodup →
      (∀ q, p = LingerPtr.nextOf q → ∀ x ∈ l, x.block ≠ q) →
      ∃ h' c', freeLingeringLoop g fuel h p c = some h' ∧
        h'.load p = some c' ∧
        LingerChain h' c' (l.filter (fun x => decide (g ≤ x.generation))) ∧
        h'.calls = h.calls ++
          (l.filter (fun x => decide (x.generation < g))).map (fun x => (x.unalloc, x.object)) ∧
        h'.freed = h.freed ++
          (l.filter (fun x => decide (x.generation < g))).map (fun x => x.block) ∧
        (p ≠ LingerPtr.list → h'.head = h.head) ∧
        (∀ a, (∀ x ∈ l, x.block ≠ a) → p ≠ LingerPtr.nextOf a → h'.recs a = h.recs a) ∧
        (∀ q, p = LingerPtr.nextOf q → ∃ r r', h.recs q = some r ∧ h'.recs q = some r' ∧
          r'.generation = r.generation ∧ r'.unalloc = r.unalloc ∧ r'.object = r.object) := by
  intro l
  induction l with
  | nil =>
    intro fuel h p c hf hp hc _ _
    obtain ⟨fuel, rfl⟩ : ∃ k, fuel = k + 1 := ⟨fuel - 1, by simp at hf; omega⟩
    have hc0 : c = 0 := hc
    refine ⟨h, c, ?_, hp, ?_, by simp, by simp, fun _ => rfl, fun _ _ _ => rfl, ?_⟩
    · simp [freeLingeringLoop, hc0]
    · simpa using hc
    · intro q hq
      subst hq
      simp only [LingerHeap.load, Option.map_eq_some'] at hp
      obtain ⟨r, hr, _⟩ := hp
      exact ⟨r, r, hr, hr, rfl, rfl, rfl⟩
  | cons x rest ih =>
    intro fuel h p c hf hp hc hnd hpl
    obtain ⟨fuel, rfl⟩ : ∃ k, fuel = k + 1 := ⟨fuel - 1, by simp at hf; omega⟩
    simp only [List.length_cons] at hf
    obtain ⟨e, hne, r, hrec, g1, g2, g3, hrest⟩ := hc
    rw [List.map_cons, List.nodup_cons] at hnd
    have hxr : ∀ y ∈ rest, y.block ≠ c := by
      intro y hy e2
      exact hnd.1 (List.mem_map.2 ⟨y, hy, by rw [e2, e]⟩)
    by_cases hg : r.generation < g
    · -- the record is unlinked and freed
      have hul := unlinkLoop_first fuel h p c r hrec hp
      have hpc : ∀ q, p = LingerPtr.nextOf q → q ≠ c := by
        intro q hq e2
        exact hpl q hq x (List.mem_cons_self _ _) (by rw [← e, e2])
      have hrec1 : (h.store p r.next).recs c = some r := by
        cases p with
        | list => exact hrec
        | nextOf q =>
          have := hpc q rfl
          simp only [LingerHeap.store]
          rw [if_neg (Ne.symm this)]
          exact hrec
      -- the state after the deallocator call and `freeHeap`
      have hload : ∀ (k : List (Nat × Nat)) (f : List Nat),
          LingerHeap.load
            { h.store p r.next with
              calls := k
              recs := fun a => if a = c then none else (h.store p r.next).recs a
              freed := f } p = some r.next := by
        intro k f
        cases p with
        | list => rfl
        | nextOf q =>
          have hq := hpc q rfl
          simp only [LingerHeap.load, Option.map_eq_some'] at hp
          obtain ⟨rq, hrq, _⟩ := hp
          simp only [LingerHeap.load, LingerHeap.store, if_neg hq, if_true, hrq, Option.map_some']
      have hchain : ∀ (k : List (Nat × Nat)) (f : List Nat),
          LingerChain
            { h.store p r.next with
              calls := k
              recs := fun a => if a = c then none else (h.store p r.next).recs a
              freed := f } r.next rest := by
        intro k f
        apply LingerChain.congr rest r.next _ hrest
        intro y hy
        have h1 : y.block ≠ c := hxr y hy
        show (if y.block = c then none else (h.store p r.next).recs y.block) = h.recs y.block
        rw [if_neg h1]
        cases p with
        | list => rfl
        | nextOf q =>
          have : y.block ≠ q := hpl q rfl y (List.mem_cons_of_mem _ hy)
          simp only [LingerHeap.store, if_neg this]
      obtain ⟨h', c', e', l', ch', k', f', hd', fr', pq'⟩ :=
        ih fuel
          { h.store p r.next with
            calls := (h.store p r.next).calls ++ [(r.unalloc, r.object)]
            recs := fun a => if a = c then none else (h.store p r.next).recs a
            freed := (h.store p r.next).freed ++ [c] } p r.next (by omega)
          (hload _ _) (hchain _ _) hnd.2
          (fun q hq y hy => hpl q hq y (List.mem_cons_of_mem _ hy))
      have hcalls : (h.store p r.next).calls = h.calls := by cases p <;> rfl
      have hfreed : (h.store p r.next).freed = h.freed := by cases p <;> rfl
      have hdec1 : decide (g ≤ x.generation) = false := by
        rw [decide_eq_false_iff_not, ← g1]; omega
      have hdec2 : decide (x.generation < g) = true := by
        rw [decide_eq_true_iff, ← g1]; exact hg
      refine ⟨h', c', ?_, l', ?_, ?_, ?_, ?_, ?_, ?_⟩
      · simp only [freeLingeringLoop, if_neg hne, hrec, if_pos hg, hul, hrec1, hload]
        exact e'
      · rw [List.filter_cons, hdec1]
        exact ch'
      · rw [k', hcalls, List.filter_cons, hdec2]
        simp only [Bool.false_eq_true, if_false, if_true, List.map_cons, List.append_assoc,
          List.singleton_append, g2, g3]
      · rw [f', hfreed, List.filter_cons, hdec2]
        simp only [Bool.false_eq_true, if_false, if_true, List.map_cons, List.append_assoc,
          List.singleton_append, e]
      · intro hp'
        rw [hd' hp']
        cases p with
        | list => exact absurd rfl hp'
        | nextOf q => rfl
      · intro a ha hpa
        rw [fr' a (fun y hy => ha y (List.mem_cons_of_mem _ hy)) hpa]
        have hac : a ≠ c := by
          intro e2
          exact ha x (List.mem_cons_self _ _) (by rw [← e, e2])
        show (if a = c then none else (h.store p r.next).recs a) = h.recs a
        rw [if_neg hac]
        cases p with
        | list => rfl
        | nextOf q =>
          have : a ≠ q := fun e2 => hpa (by rw [e2])
          simp only [LingerHeap.store, if_neg this]
      · intro q hq
        obtain ⟨r1, r2, a1, a2, a3, a4, a5⟩ := pq' q hq
        subst hq
        have hqc := hpc q rfl
        simp only [LingerHeap.load, Option.map_eq_some'] at hp
        obtain ⟨rq, hrq, _⟩ := hp
        have : r1 = { rq with next := r.next } := by
          have h2 : (if q = c then none
              else (LingerHeap.store h (LingerPtr.nextOf q) r.next).recs q) = some r1 := a1
          rw [if_neg hqc] at h2
          simp only [LingerHeap.store, if_true, hrq, Option.map_some', Option.some.injEq] at h2
          exact h2.symm
        subst this
        exact ⟨rq, r2, hrq, a2, a3, a4, a5⟩
    · -- the record stays and `p` moves to its `next` field
      have hloadc : h.load (LingerPtr.nextOf c) = some r.next := by
        simp only [LingerHeap.load, hrec, Option.map_some']
      obtain ⟨h', c', e', l', ch', k', f', hd', fr', pq'⟩ :=
        ih fuel h (LingerPtr.nextOf c) r.next (by omega) hloadc hrest hnd.2
          (fun q hq y hy => by
            cases hq
            exact hxr y hy)
      obtain ⟨r1, r2, a1, a2, a3, a4, a5⟩ := pq' c rfl
      have hr1 : r1 = r := by rw [hrec] at a1; exact (Option.some.inj a1).symm
      subst hr1
      have hdec1 : decide (g ≤ x.generation) = true := by
        rw [decide_eq_true_iff, ← g1]; omega
      have hdec2 : decide (x.generation < g) = false := by
        rw [decide_eq_false_iff_not, ← g1]; exact hg
      have hnext : r2.next = c' := by
        simp only [LingerHeap.load, a2, Option.map_some', Option.some.injEq] at l'
        exact l'
      have hpne : ∀ q, p = LingerPtr.nextOf q → q ≠ c := by
        intro q hq e2
        exact hpl q hq x (List.mem_cons_self _ _) (by rw [← e, e2])
      refine ⟨h', c, ?_, ?_, ?_, ?_, ?_, ?_, ?_, ?_⟩
      · simp only [freeLingeringLoop, if_neg hne, hrec, if_neg hg, hp, hloadc]
        exact e'
      · cases p with
        | list =>
          show some h'.head = some c
          rw [hd' (by intro e2; cases e2)]
          exact hp
        | nextOf q =>
          have hq := hpne q rfl
          have := fr' q (fun y hy => hpl q rfl y (List.mem_cons_of_mem _ hy))
            (by intro e2; cases e2; exact hq rfl)
          simp only [LingerHeap.load] at hp ⊢
          rw [this]
          exact hp
      · rw [List.filter_cons, hdec1]
        simp only [if_true]
        exact ⟨e, hne, r2, a2, by rw [a3, g1], by rw [a4, g2], by rw [a5, g3],
          by rw [hnext]; exact ch'⟩
      · rw [k', List.filter_cons, hdec2]
        simp only [Bool.false_eq_true, if_false]
      · rw [f', List.filter_cons, hdec2]
        simp only [Bool.false_eq_true, if_false]
      · intro _
        exact hd' (by intro e2; cases e2)
      · intro a ha hpa
        have hac : a ≠ c := by
          intro e2
          exact ha x (List.mem_cons_self _ _) (by rw [← e, e2])
        exact fr' a (fun y hy => ha y (List.mem_cons_of_mem _ hy))
          (by intro e2; cases e2; exact hac rfl)
      · intro q hq
        subst hq
        have hq := hpne q rfl
        have := fr' q (fun y hy => hpl q rfl y (List.mem_cons_of_mem _ hy))
          (by intro e2; cases e2; exact hq rfl)
        simp only [LingerHeap.load, Option.map_eq_some'] at hp
        obtain ⟨rq, hrq, _⟩ := hp
        exact ⟨rq, rq, hrq, by rw [this]; exact hrq, rfl, rfl, rfl⟩

/-- C16: for every sequence of `linger` calls on an empty list, each with a
fresh block that is not `NULL`, and every threshold `g`: the calls build the
list of their records, last call first; `free_lingering(list, g)`, run without
interference with more passes allowed than the list has records, ends; it
leaves in the list exactly the records with generation at least `g`, with
their generation, deallocator and object as stamped and in their original
order; it calls the deallocator on the object of each record with generation
below `g` once, in list order, and makes no other call; it frees the blocks of
exactly these records; and when `g` is above all generations stamped the list
ends empty. -/
theorem free_lingering_sweep (calls : List LingerCall) (g fuel : Nat)
    (h0 : ∀ x ∈ calls, x.block ≠ 0) (hnd : (calls.map (fun x => x.block)).Nodup)
    (hfuel : calls.length < fuel) :
    ∃ h h', lingerAll 1 calls emptyLingerHeap = some h ∧
      LingerChain h h.head calls.reverse ∧
      free_lingering fuel g h = some h' ∧
      LingerChain h' h'.head (calls.reverse.filter (fun x => decide (g ≤ x.generation))) ∧
      h'.calls = (calls.reverse.filter (fun x => decide (x.generation < g))).map
        (fun x => (x.unalloc, x.object)) ∧
      h'.freed = (calls.reverse.filter (fun x => decide (x.generation < g))).map
        (fun x => x.block) ∧
      ((∀ x ∈ calls, x.generation < g) → h'.head = 0) := by
  obtain ⟨h, e1, c1, k1, f1⟩ := lingerAll_spec 0 calls emptyLingerHeap [] rfl h0 hnd
    (fun _ _ _ hy => by cases hy)
  rw [List.append_nil] at c1
  obtain ⟨h', c', e2, l2, c2, k2, f2, _, _, _⟩ :=
    freeLingeringLoop_spec g calls.reverse fuel h LingerPtr.list h.head
      (by rw [List.length_reverse]; exact hfuel) rfl c1
      (by rw [List.map_reverse]; exact List.nodup_reverse.2 hnd)
      (fun q hq => by cases hq)
  have hc' : c' = h'.head := by
    simp only [LingerHeap.load, Option.some.injEq] at l2
    exact l2.symm
  subst hc'
  refine ⟨h, h', e1, c1, ?_, c2, ?_, ?_, ?_⟩
  · simp only [free_lingering, LingerHeap.load]
    exact e2
  · rw [k2, k1]; rfl
  · rw [f2, f1]; rfl
  · intro hall
    have hnil : calls.reverse.filter (fun x => decide (g ≤ x.generation)) = [] := by
      rw [List.filter_eq_nil_iff]
      intro x hx
      have := hall x (List.mem_reverse.1 hx)
      simp only [decide_eq_true_eq]
      omega
    rw [hnil] at c2
    exact c2

/-- C16, at a concrete input: three records with generations 5, 9 and 6 and
the threshold 7. -/
theorem free_lingering_sweep_witness :
    ∃ h h', lingerAll 1 [⟨8, 5, 1, 100⟩, ⟨16, 9, 1, 200⟩, ⟨24, 6, 2, 300⟩] emptyLingerHeap
        = some h ∧
      LingerChain h h.head [⟨24, 6, 2, 300⟩, ⟨16, 9, 1, 200⟩, ⟨8, 5, 1, 100⟩] ∧
      free_lingering 4 7 h = some h' ∧
      LingerChain h' h'.head [⟨16, 9, 1, 200⟩] ∧
      h'.calls = [(2, 300), (1, 100)] ∧
      h'.freed = [24, 8] ∧
      ((∀ x ∈ ([⟨8, 5, 1, 100⟩, ⟨16, 9, 1, 200⟩, ⟨24, 6, 2, 300⟩] : List LingerCall),
        x.generation < 7) → h'.head = 0) :=
  free_lingering_sweep [⟨8, 5, 1, 100⟩, ⟨16, 9, 1, 200⟩, ⟨24, 6, 2, 300⟩] 7 4
    (by decide) (by decide) (by decide)

/-! ### The integer round trip -/

theorem valInt_consInt_iff (l : Int) :
    valInt (consInt l) = l ↔ PLMINTAGGEDINT ≤ l ∧ l ≤ PLMAXTAGGEDINT := by
  simp only [valInt, consInt, PLMINTAGGEDINT, PLMAXTAGGEDINT]
  norm_num
  omega

theorem valInt_consInt32_iff (l : Int) :
    valInt (consInt32 l) = l ↔ -(2 ^ 24) ≤ l ∧ l ≤ 2 ^ 24 - 1 := by
  simp only [valInt, consInt32]
  norm_num
  omega

theorem consInt_of_fits (l : Int) (h : valInt (consInt l) = l) : consInt l = Word.int l := by
  have : consInt l = Word.int (valInt (consInt l)) := rfl
  rw [this, h]

theorem consInt32_of_fits (l : Int) (h : valInt (consInt32 l) = l) :
    consInt32 l = Word.int l := by
  have : consInt32 l = Word.int (valInt (consInt32 l)) := rfl
  rw [this, h]

theorem toInt64_bits (l : Int) (h1 : -(2 ^ 63) ≤ l) (h2 : l < 2 ^ 63) :
    toInt64 (l % 2 ^ 64).toNat = l := by
  unfold toInt64
  have e : ((l % 2 ^ 64).toNat : Int) = l % 2 ^ 64 :=
    Int.toNat_of_nonneg (Int.emod_nonneg _ (by norm_num))
  norm_num at h1 h2 e ⊢
  split_ifs with hc <;> omega

theorem toInt64_halves (l : Int) (h1 : -(2 ^ 63) ≤ l) (h2 : l < 2 ^ 63) :
    toInt64 (toWord32 l + toWord32 (l / 2 ^ 32) * 2 ^ 32) = l := by
  unfold toInt64 toWord32
  have e1 : ((l % 2 ^ 32).toNat : Int) = l % 2 ^ 32 :=
    Int.toNat_of_nonneg (Int.emod_nonneg _ (by norm_num))
  have e2 : (((l / 2 ^ 32) % 2 ^ 32).toNat : Int) = (l / 2 ^ 32) % 2 ^ 32 :=
    Int.toNat_of_nonneg (Int.emod_nonneg _ (by norm_num))
  norm_num at h1 h2 e1 e2 ⊢
  split_ifs with hc <;> omega

theorem put_int64_cases (E : Ext) (dest : Nat) (l : Int) (flags : Nat) (s : PL_local_data) :
    (valInt (consInt l) = l → put_int64 E dest l flags s = (TRUE, poke s dest (consInt l))) ∧
    (¬ valInt (consInt l) = l → (put_int64 E dest l flags s).1 = TRUE →
      (put_int64 E dest l flags s).2 = putInt64Boxed dest l (putInt64Base E 3 flags s)) := by
  unfold put_int64 putInt64Base
  refine ⟨fun h => by rw [if_pos h], fun h ht => ?_⟩
  rw [if_neg h] at ht ⊢
  by_cases hs : E.hasGlobalSpace s 3 = false
  · rw [if_pos hs] at ht ⊢
    rw [if_pos hs]
    by_cases hr : (E.ensureGlobalSpace s 3 flags).1 ≠ TRUE
    · rw [if_pos hr] at ht
      exact absurd ht hr
    · rw [if_neg hr]
  · rw [if_neg hs, if_neg hs]

theorem put_int64_32_cases (bigEndian : Bool) (E : Ext) (dest : Nat) (l : Int) (flags : Nat)
    (s : PL_local_data) :
    (valInt (consInt32 l) = l →
      put_int64_32 bigEndian E dest l flags s = (TRUE, poke s dest (consInt32 l))) ∧
    (¬ valInt (consInt32 l) = l → (put_int64_32 bigEndian E dest l flags s).1 = TRUE →
      (put_int64_32 bigEndian E dest l flags s).2
        = putInt64Boxed32 bigEndian dest l (putInt64Base E 4 flags s)) := by
  unfold put_int64_32 putInt64Base
  refine ⟨fun h => by rw [if_pos h], fun h ht => ?_⟩
  rw [if_neg h] at ht ⊢
  by_cases hs : E.hasGlobalSpace s 4 = false
  · rw [if_pos hs] at ht ⊢
    rw [if_pos hs]
    by_cases hr : (E.ensureGlobalSpace s 4 flags).1 ≠ TRUE
    · rw [if_pos hr] at ht
      exact absurd ht hr
    · rw [if_neg hr]
  · rw [if_neg hs, if_neg hs]

theorem putInt64Boxed_mem (dest : Nat) (l : Int) (s : PL_local_data) :
    (putInt64Boxed dest l s).mem
      = (dest, consPtr (gTop s) Storage.STG_GLOBAL Tag.TAG_INTEGER) ::
        (gTop s + 2 * sizeofWord, mkIndHdr 1 Tag.TAG_INTEGER) ::
        (gTop s + sizeofWord, Word.bits (l % 2 ^ 64).toNat) ::
        (gTop s, mkIndHdr 1 Tag.TAG_INTEGER) :: s.mem ∧
    gTop (putInt64Boxed dest l s) = gTop s + 3 * sizeofWord := by
  constructor
  · simp only [putInt64Boxed, pokeSeq, poke, writeCell, sizeofWord, Nat.add_assoc]
    rfl
  · obtain ⟨_, h, _⟩ := pokeSeq_spec [mkIndHdr 1 Tag.TAG_INTEGER, Word.bits (l % 2 ^ 64).toNat,
      mkIndHdr 1 Tag.TAG_INTEGER] (setGTop s (gTop s + 3 * sizeofWord)) (gTop s)
    show gTop (pokeSeq _ _ _) = _
    rw [h]
    rfl

theorem putInt64Boxed32_mem (bigEndian : Bool) (dest : Nat) (l : Int) (s : PL_local_data) :
    (putInt64Boxed32 bigEndian dest l s).mem
      = (dest, consPtr (gTop s) Storage.STG_GLOBAL Tag.TAG_INTEGER) ::
        (gTop s + 3 * 4, mkIndHdr 2 Tag.TAG_INTEGER) ::
        (gTop s + 2 * 4,
          Word.bits (if bigEndian = true then toWord32 l else toWord32 (l / 2 ^ 32))) ::
        (gTop s + 4,
          Word.bits (if bigEndian = true then toWord32 (l / 2 ^ 32) else toWord32 l)) ::
        (gTop s, mkIndHdr 2 Tag.TAG_INTEGER) :: s.mem ∧
    gTop (putInt64Boxed32 bigEndian dest l s) = gTop s + 4 * 4 :=
  ⟨rfl, rfl⟩

/-- C18: the integer round trip. For every 64-bit integer `l`, whenever
`put_int64(at, l, flags)` returns `TRUE`: if `l` lies in the tagged range the
state differs only in `*at`, which holds the inline integer `l`, and `gTop` is
as it was; otherwise `*at` holds a pointer to the `gTop` at which the cells
were taken, `gTop` has moved by 3 cells, and, `at` not being one of these
cells, they read header, the 64 bits of `l`, header; in both cases the cell in
`*at` decodes to `l`. Where a cell has 32 bits, for both byte orders: the
same with the tagged range of 25 bits and 4 cells of four bytes, header, the
two halves of `l` in the order of the platform, header; read back as
`valBignum__LD` reads them the halves recombine to `l`. -/
theorem put_int64_round_trip (E : Ext) (dest : Nat) (l : Int) (flags : Nat) (s : PL_local_data)
    (hmin : -(2 ^ 63) ≤ l) (hmax : l < 2 ^ 63) :
    ((put_int64 E dest l flags s).1 = TRUE →
      ((PLMINTAGGEDINT ≤ l ∧ l ≤ PLMAXTAGGEDINT) →
        (put_int64 E dest l flags s).2 = poke s dest (consInt l) ∧
        readCell (put_int64 E dest l flags s).2.mem dest = Word.int l ∧
        gTop (put_int64 E dest l flags s).2 = gTop s ∧
        valInteger (put_int64 E dest l flags s).2.mem
          (readCell (put_int64 E dest l flags s).2.mem dest) = l) ∧
      (¬ (PLMINTAGGEDINT ≤ l ∧ l ≤ PLMAXTAGGEDINT) →
        readCell (put_int64 E dest l flags s).2.mem dest
          = consPtr (gTop (putInt64Base E 3 flags s)) Storage.STG_GLOBAL Tag.TAG_INTEGER ∧
        gTop (put_int64 E dest l flags s).2
          = gTop (putInt64Base E 3 flags s) + 3 * sizeofWord ∧
        (dest + sizeofWord ≤ gTop (putInt64Base E 3 flags s) ∨
            gTop (putInt64Base E 3 flags s) + 3 * sizeofWord ≤ dest →
          readCell (put_int64 E dest l flags s).2.mem (gTop (putInt64Base E 3 flags s))
            = mkIndHdr 1 Tag.TAG_INTEGER ∧
          readCell (put_int64 E dest l flags s).2.mem
            (gTop (putInt64Base E 3 flags s) + sizeofWord) = Word.bits (l % 2 ^ 64).toNat ∧
          readCell (put_int64 E dest l flags s).2.mem
            (gTop (putInt64Base E 3 flags s) + 2 * sizeofWord) = mkIndHdr 1 Tag.TAG_INTEGER ∧
          valInteger (put_int64 E dest l flags s).2.mem
            (readCell (put_int64 E dest l flags s).2.mem dest) = l))) ∧
    (∀ bigEndian : Bool, (put_int64_32 bigEndian E dest l flags s).1 = TRUE →
      ((-(2 ^ 24) ≤ l ∧ l ≤ 2 ^ 24 - 1) →
        (put_int64_32 bigEndian E dest l flags s).2 = poke s dest (consInt32 l) ∧
        readCell (put_int64_32 bigEndian E dest l flags s).2.mem dest = Word.int l ∧
        gTop (put_int64_32 bigEndian E dest l flags s).2 = gTop s ∧
        valInteger32 bigEndian (put_int64_32 bigEndian E dest l flags s).2.mem
          (readCell (put_int64_32 bigEndian E dest l flags s).2.mem dest) = l) ∧
      (¬ (-(2 ^ 24) ≤ l ∧ l ≤ 2 ^ 24 - 1) →
        readCell (put_int64_32 bigEndian E dest l flags s).2.mem dest
          = consPtr (gTop (putInt64Base E 4 flags s)) Storage.STG_GLOBAL Tag.TAG_INTEGER ∧
        gTop (put_int64_32 bigEndian E dest l flags s).2
          = gTop (putInt64Base E 4 flags s) + 4 * 4 ∧
        (dest + 4 ≤ gTop (putInt64Base E 4 flags s) ∨
            gTop (putInt64Base E 4 flags s) + 4 * 4 ≤ dest →
          readCell (put_int64_32 bigEndian E dest l flags s).2.mem
            (gTop (putInt64Base E 4 flags s)) = mkIndHdr 2 Tag.TAG_INTEGER ∧
          readCell (put_int64_32 bigEndian E dest l flags s).2.mem
            (gTop (putInt64Base E 4 flags s) + 4)
            = Word.bits (if bigEndian = true then toWord32 (l / 2 ^ 32) else toWord32 l) ∧
          readCell (put_int64_32 bigEndian E dest l flags s).2.mem
            (gTop (putInt64Base E 4 flags s) + 2 * 4)
            = Word.bits (if bigEndian = true then toWord32 l else toWord32 (l / 2 ^ 32)) ∧
          readCell (put_int64_32 bigEndian E dest l flags s).2.mem
            (gTop (putInt64Base E 4 flags s) + 3 * 4) = mkIndHdr 2 Tag.TAG_INTEGER ∧
          valInteger32 bigEndian (put_int64_32 bigEndian E dest l flags s).2.mem
            (readCell (put_int64_32 bigEndian E dest l flags s).2.mem dest) = l))) := by
  constructor
  · intro ht
    obtain ⟨c1, c2⟩ := put_int64_cases E dest l flags s
    constructor
    · intro hr
      have hf := (valInt_consInt_iff l).2 hr
      rw [c1 hf, consInt_of_fits l hf]
      refine ⟨rfl, readCell_head _ _ _, rfl, ?_⟩
      show valInteger _ (readCell ((dest, Word.int l) :: s.mem) dest) = l
      rw [readCell_head]
      rfl
    · intro hr
      have hf : ¬ valInt (consInt l) = l := fun h => hr ((valInt_consInt_iff l).1 h)
      obtain ⟨hm, hg⟩ := putInt64Boxed_mem dest l (putInt64Base E 3 flags s)
      rw [c2 hf ht, hm, hg]
      refine ⟨readCell_head _ _ _, rfl, fun hd => ?_⟩
      have r0 : readCell ((dest, consPtr (gTop (putInt64Base E 3 flags s))
            Storage.STG_GLOBAL Tag.TAG_INTEGER) ::
          (gTop (putInt64Base E 3 flags s) + 2 * sizeofWord, mkIndHdr 1 Tag.TAG_INTEGER) ::
          (gTop (putInt64Base E 3 flags s) + sizeofWord, Word.bits (l % 2 ^ 64).toNat) ::
          (gTop (putInt64Base E 3 flags s), mkIndHdr 1 Tag.TAG_INTEGER) ::
          (putInt64Base E 3 flags s).mem)
          (gTop (putInt64Base E 3 flags s) + sizeofWord) = Word.bits (l % 2 ^ 64).toNat := by
        simp only [readCell_cons, sizeofWord] at hd ⊢
        split_ifs <;> first | rfl | (exfalso; omega)
      refine ⟨?_, r0, ?_, ?_⟩
      · simp only [readCell_cons, sizeofWord] at hd ⊢
        split_ifs <;> first | rfl | (exfalso; omega)
      · simp only [readCell_cons, sizeofWord] at hd ⊢
        split_ifs <;> first | rfl | (exfalso; omega)
      · rw [readCell_head]
        show toInt64 (wordBits (readCell _ (gTop (putInt64Base E 3 flags s) + sizeofWord))) = l
        rw [r0]
        exact toInt64_bits l hmin hmax
  · intro bigEndian ht
    obtain ⟨c1, c2⟩ := put_int64_32_cases bigEndian E dest l flags s
    constructor
    · intro hr
      have hf := (valInt_consInt32_iff l).2 hr
      rw [c1 hf, consInt32_of_fits l hf]
      refine ⟨rfl, readCell_head _ _ _, rfl, ?_⟩
      show valInteger32 _ _ (readCell ((dest, Word.int l) :: s.mem) dest) = l
      rw [readCell_head]
      rfl
    · intro hr
      have hf : ¬ valInt (consInt32 l) = l := fun h => hr ((valInt_consInt32_iff l).1 h)
      obtain ⟨hm, hg⟩ := putInt64Boxed32_mem bigEndian dest l (putInt64Base E 4 flags s)
      rw [c2 hf ht, hm, hg]
      refine ⟨readCell_head _ _ _, rfl, fun hd => ?_⟩
      have r1 : readCell ((dest, consPtr (gTop (putInt64Base E 4 flags s))
            Storage.STG_GLOBAL Tag.TAG_INTEGER) ::
          (gTop (putInt64Base E 4 flags s) + 3 * 4, mkIndHdr 2 Tag.TAG_INTEGER) ::
          (gTop (putInt64Base E 4 flags s) + 2 * 4,
            Word.bits (if bigEndian = true then toWord32 l else toWord32 (l / 2 ^ 32))) ::
          (gTop (putInt64Base E 4 flags s) + 4,
            Word.bits (if bigEndian = true then toWord32 (l / 2 ^ 32) else toWord32 l)) ::
          (gTop (putInt64Base E 4 flags s), mkIndHdr 2 Tag.TAG_INTEGER) ::
          (putInt64Base E 4 flags s).mem)
          (gTop (putInt64Base E 4 flags s) + 4)
          = Word.bits (if bigEndian = true then toWord32 (l / 2 ^ 32) else toWord32 l) := by
        simp only [readCell_cons]
        split_ifs <;> first | rfl | (exfalso; omega)
      have r2 : readCell ((dest, consPtr (gTop (putInt64Base E 4 flags s))
            Storage.STG_GLOBAL Tag.TAG_INTEGER) ::
          (gTop (putInt64Base E 4 flags s) + 3 * 4, mkIndHdr 2 Tag.TAG_INTEGER) ::
          (gTop (putInt64Base E 4 flags s) + 2 * 4,
            Word.bits (if bigEndian = true then toWord32 l else toWord32 (l / 2 ^ 32))) ::
          (gTop (putInt64Base E 4 flags s) + 4,
            Word.bits (if bigEndian = true then toWord32 (l / 2 ^ 32) else toWord32 l)) ::
          (gTop (putInt64Base E 4 flags s), mkIndHdr 2 Tag.TAG_INTEGER) ::
          (putInt64Base E 4 flags s).mem)
          (gTop (putInt64Base E 4 flags s) + 2 * 4)
          = Word.bits (if bigEndian = true then toWord32 l else toWord32 (l / 2 ^ 32)) := by
        simp only [readCell_cons]
        split_ifs <;> first | rfl | (exfalso; omega)
      refine ⟨?_, r1, r2, ?_, ?_⟩
      · simp only [readCell_cons]
        split_ifs <;> first | rfl | (exfalso; omega)
      · simp only [readCell_cons]
        split_ifs <;> first | rfl | (exfalso; omega)
      · rw [readCell_head]
        show toInt64 (if bigEndian = true then
            wordBits (readCell _ (gTop (putInt64Base E 4 flags s) + 4)) * 2 ^ 32
              + wordBits (readCell _ (gTop (putInt64Base E 4 flags s) + 4 + 4))
          else
            wordBits (readCell _ (gTop (putInt64Base E 4 flags s) + 4))
              + wordBits (readCell _ (gTop (putInt64Base E 4 flags s) + 4 + 4)) * 2 ^ 32) = l
        have e44 : gTop (putInt64Base E 4 flags s) + 4 + 4
            = gTop (putInt64Base E 4 flags s) + 2 * 4 := by omega
        rw [e44, r1, r2]
        have key := toInt64_halves l hmin hmax
        cases bigEndian with
        | true =>
          simp only [if_true, wordBits]
          rw [Nat.add_comm]
          exact key
        | false =>
          simp only [Bool.false_eq_true, if_false, wordBits]
          exact key

/-- C18, at a concrete input: the integer `2^60`, which is outside the tagged
range of both cell sizes, put in `exampleState`, where there is room. -/
theorem put_int64_round_trip_witness :
    valInteger (put_int64 exampleExt 4000 1152921504606846976 ALLOW_GC exampleState).2.mem
      (readCell (put_int64 exampleExt 4000 1152921504606846976 ALLOW_GC exampleState).2.mem 4000)
      = 1152921504606846976 ∧
    ∀ bigEndian : Bool,
      valInteger32 bigEndian
        (put_int64_32 bigEndian exampleExt 4000 1152921504606846976 ALLOW_GC exampleState).2.mem
        (readCell
          (put_int64_32 bigEndian exampleExt 4000 1152921504606846976 ALLOW_GC
            exampleState).2.mem 4000)
        = 1152921504606846976 :=
  have h := put_int64_round_trip exampleExt 4000 1152921504606846976 ALLOW_GC exampleState
    (by norm_num) (by norm_num)
  ⟨((h.1 (by decide)).2 (by decide)).2.2 (by decide) |>.2.2.2,
   fun b => (((h.2 b (by cases b <;> decide)).2 (by decide)).2.2
     (by cases b <;> decide)).2.2.2.2⟩

/-! ### Lemmas on bytes in cells -/

theorem byteOf_setByte_self (n k b : Nat) (hk : k < 8) :
    byteOf (setByte n k b) k = b % 256 := by
  unfold byteOf setByte
  interval_cases k <;> norm_num <;> omega

theorem byteOf_setByte_other (n k j b : Nat) (hk : k < 8) (hj : j < 8) (hjk : j ≠ k) :
    byteOf (setByte n k b) j = byteOf n j := by
  unfold byteOf setByte
  interval_cases k <;> interval_cases j <;> first | (exfalso; exact hjk rfl) | (norm_num; omega)

theorem byteOf_zero (k : Nat) : byteOf 0 k = 0 := by
  unfold byteOf
  simp

theorem readByte_writeByte_self (m : Mem) (a b : Nat) :
    readByte (writeByte m a b) a = b % 256 := by
  unfold readByte writeByte writeCell
  rw [readCell_head]
  exact byteOf_setByte_self _ _ _ (Nat.mod_lt _ (by norm_num))

theorem readByte_writeByte_other (m : Mem) (a a' b : Nat) (h : a' ≠ a) :
    readByte (writeByte m a b) a' = readByte m a' := by
  unfold readByte writeByte writeCell
  by_cases hw : a' - a' % sizeofWord = a - a % sizeofWord
  · rw [hw, readCell_head]
    have hoff : a' % sizeofWord ≠ a % sizeofWord := by
      intro e
      have h1 := Nat.mod_le a' sizeofWord
      have h2 := Nat.mod_le a sizeofWord
      omega
    exact byteOf_setByte_other _ _ _ _ (Nat.mod_lt _ (by norm_num)) (Nat.mod_lt _ (by norm_num)) hoff
  · rw [readCell_tail _ _ _ _ hw]

theorem readCell_writeByte (m : Mem) (a b x : Nat) (h : x ≠ a - a % sizeofWord) :
    readCell (writeByte m a b) x = readCell m x := by
  unfold writeByte writeCell
  exact readCell_tail _ _ _ _ h

theorem memcpy_append (m : Mem) (dst : Nat) (l1 l2 : List Nat) :
    memcpy m dst (l1 ++ l2) = memcpy (memcpy m dst l1) (dst + l1.length) l2 := by
  induction l1 generalizing m dst with
  | nil => rfl
  | cons b bs ih =>
    show memcpy (writeByte m dst b) (dst + 1) (bs ++ l2)
      = memcpy (memcpy (writeByte m dst b) (dst + 1) bs) (dst + (bs.length + 1)) l2
    rw [ih]
    congr 1
    omega

theorem memcpy_readByte_outside (bs : List Nat) :
    ∀ (dst : Nat) (m : Mem) (a : Nat), (a < dst ∨ dst + bs.length ≤ a) →
      readByte (memcpy m dst bs) a = readByte m a := by
  induction bs with
  | nil => intro dst m a _; rfl
  | cons b bs ih =>
    intro dst m a h
    simp only [memcpy]
    simp only [List.length_cons] at h
    rw [ih (dst + 1) _ a (by omega), readByte_writeByte_other _ _ _ _ (by omega)]

theorem memcpy_readByte_inside (bs : List Nat) :
    ∀ (dst : Nat) (m : Mem) (i : Nat), i < bs.length →
      readByte (memcpy m dst bs) (dst + i) = bs.getD i 0 % 256 := by
  induction bs with
  | nil => intro dst m i h; simp at h
  | cons b bs ih =>
    intro dst m i h
    simp only [memcpy]
    cases i with
    | zero =>
      rw [memcpy_readByte_outside bs (dst + 1) _ (dst + 0) (by omega)]
      exact readByte_writeByte_self _ _ _
    | succ i =>
      simp only [List.length_cons] at h
      have := ih (dst + 1) (writeByte m dst b) i (by omega)
      have e : dst + (i + 1) = dst + 1 + i := by omega
      rw [e, this]
      rfl

theorem memcpy_readCell (bs : List Nat) :
    ∀ (dst : Nat) (m : Mem) (x : Nat),
      (∀ a, dst ≤ a → a < dst + bs.length → x ≠ a - a % sizeofWord) →
      readCell (memcpy m dst bs) x = readCell m x := by
  induction bs with
  | nil => intro dst m x _; rfl
  | cons b bs ih =>
    intro dst m x h
    simp only [memcpy]
    simp only [List.length_cons] at h
    rw [ih (dst + 1) _ x (fun a h1 h2 => h a (by omega) (by omega)),
      readCell_writeByte _ _ _ _ (h dst (le_refl _) (by omega))]

/-- A byte behind an aligned address lies in a cell behind that address. -/
theorem cell_of_byte_ge (p a : Nat) (hp : p % sizeofWord = 0) (h : p ≤ a) :
    p ≤ a - a % sizeofWord := by
  simp only [sizeofWord] at *
  omega

/-- What a successful `allocString(len)` leaves: the block of `2 + lw` cells
at `p` has the header in its first and last cell and zero in the last payload
cell. -/
theorem stringWords_small (n : Nat) (hn : n + sizeofWord < 2 ^ 64) :
    stringWords n = (n + sizeofWord) / sizeofWord ∧
    stringPad n = (n + sizeofWord) / sizeofWord * sizeofWord - n := by
  unfold stringPad stringWords
  rw [Nat.mod_eq_of_lt hn]
  refine ⟨rfl, ?_⟩
  simp only [sizeofWord] at *
  omega

/-- Bytes fit the payload that `allocString` computes for their number only
when neither that number nor the cell count wrapped around. -/
theorem string_fit_bound (n : Nat) (h : n ≤ stringWords (n % 2 ^ 64) * sizeofWord) :
    n + sizeofWord < 2 ^ 64 := by
  unfold stringWords at h
  simp only [sizeofWord] at *
  omega

theorem allocString_ret (E : Ext) (n : Nat) (s s' : PL_local_data) (p : Nat)
    (hn : n + sizeofWord < 2 ^ 64)
    (h : allocString E n s = Outcome.ret (some p) s') :
    ∃ s1, allocGlobal E (2 + (n + sizeofWord) / sizeofWord) s = Outcome.ret (some p) s1 ∧
      s'.mem =
        (p + ((n + sizeofWord) / sizeofWord + 1) * sizeofWord,
          mkStrHdr ((n + sizeofWord) / sizeofWord) ((n + sizeofWord) / sizeofWord * sizeofWord - n)) ::
        (p + (n + sizeofWord) / sizeofWord * sizeofWord, Word.bits 0) ::
        (p, mkStrHdr ((n + sizeofWord) / sizeofWord)
          ((n + sizeofWord) / sizeofWord * sizeofWord - n)) :: s1.mem ∧
      gTop s' = gTop s1 ∧ gMax s' = gMax s1 := by
  unfold allocString at h
  rw [(stringWords_small n hn).2, (stringWords_small n hn).1] at h
  cases hg : allocGlobal E (2 + (n + sizeofWord) / sizeofWord) s with
  | ret v s1 =>
    rw [hg] at h
    cases v with
    | none => simp at h
    | some q =>
      simp only [Outcome.ret.injEq, Option.some.injEq] at h
      obtain ⟨hq, hs⟩ := h
      subst hq
      refine ⟨s1, rfl, ?_, ?_, ?_⟩ <;> rw [← hs] <;> rfl
  | jump s1 => rw [hg] at h; simp at h
  | fatal s1 => rw [hg] at h; simp at h
  | abort s1 => rw [hg] at h; simp at h
  | hang => rw [hg] at h; simp at h

/-! ### The string round trips -/

/-- The memory a narrow string is left in: the block of `allocString(len + 1)`
at the aligned address `p` in the memory `m1`, then the marker `B` and the
bytes `bs`. The header stays in the first cell, the marker is the first payload
byte, the bytes follow it, and the header gives back the length. -/
theorem narrow_string_read (m1 : Mem) (p len : Nat) (bs : List Nat) (hlen : bs.length = len)
    (hal : p % sizeofWord = 0) :
    readCell
      (memcpy (writeByte
        ((p + ((len + 1 + sizeofWord) / sizeofWord + 1) * sizeofWord,
          mkStrHdr ((len + 1 + sizeofWord) / sizeofWord)
            ((len + 1 + sizeofWord) / sizeofWord * sizeofWord - (len + 1))) ::
        (p + (len + 1 + sizeofWord) / sizeofWord * sizeofWord, Word.bits 0) ::
        (p, mkStrHdr ((len + 1 + sizeofWord) / sizeofWord)
          ((len + 1 + sizeofWord) / sizeofWord * sizeofWord - (len + 1))) :: m1)
        (p + sizeofWord) 66) (p + sizeofWord + 1) bs) p
      = mkStrHdr ((len + 1 + sizeofWord) / sizeofWord)
          ((len + 1 + sizeofWord) / sizeofWord * sizeofWord - (len + 1)) ∧
    readByte
      (memcpy (writeByte
        ((p + ((len + 1 + sizeofWord) / sizeofWord + 1) * sizeofWord,
          mkStrHdr ((len + 1 + sizeofWord) / sizeofWord)
            ((len + 1 + sizeofWord) / sizeofWord * sizeofWord - (len + 1))) ::
        (p + (len + 1 + sizeofWord) / sizeofWord * sizeofWord, Word.bits 0) ::
        (p, mkStrHdr ((len + 1 + sizeofWord) / sizeofWord)
          ((len + 1 + sizeofWord) / sizeofWord * sizeofWord - (len + 1))) :: m1)
        (p + sizeofWord) 66) (p + sizeofWord + 1) bs) (p + sizeofWord) = 66 ∧
    (∀ i, i < len →
      readByte
        (memcpy (writeByte
          ((p + ((len + 1 + sizeofWord) / sizeofWord + 1) * sizeofWord,
            mkStrHdr ((len + 1 + sizeofWord) / sizeofWord)
              ((len + 1 + sizeofWord) / sizeofWord * sizeofWord - (len + 1))) ::
          (p + (len + 1 + sizeofWord) / sizeofWord * sizeofWord, Word.bits 0) ::
          (p, mkStrHdr ((len + 1 + sizeofWord) / sizeofWord)
            ((len + 1 + sizeofWord) / sizeofWord * sizeofWord - (len + 1))) :: m1)
          (p + sizeofWord) 66) (p + sizeofWord + 1) bs) (p + sizeofWord + 1 + i)
        = bs.getD i 0 % 256) ∧
    (len + 1 + sizeofWord) / sizeofWord * sizeofWord
      - ((len + 1 + sizeofWord) / sizeofWord * sizeofWord - (len + 1)) - 1 = len := by
  refine ⟨?_, ?_, ?_, ?_⟩
  · rw [memcpy_readCell, readCell_writeByte]
    · simp only [readCell_cons, sizeofWord]
      split_ifs <;> first | rfl | (exfalso; omega)
    · simp only [sizeofWord] at *; omega
    · intro a h1 _
      have := cell_of_byte_ge (p + sizeofWord) a (by simp only [sizeofWord] at *; omega)
        (by omega)
      simp only [sizeofWord] at *; omega
  · rw [memcpy_readByte_outside _ _ _ _ (Or.inl (by omega))]
    exact readByte_writeByte_self _ _ _
  · intro i hi
    exact memcpy_readByte_inside bs _ _ i (by omega)
  · simp only [sizeofWord]
    omega

theorem globalString_ret (E : Ext) (len : Nat) (s : Nat → Nat) (st st' : PL_local_data)
    (w : Word) (h : globalString E len s st = Outcome.ret (some w) st') :
    ∃ p s1, w = consPtr p Storage.STG_GLOBAL Tag.TAG_STRING ∧
      allocString E (len + 1) st = Outcome.ret (some p) s1 ∧
      st'.mem = memcpy (writeByte s1.mem (p + sizeofWord) 66) (p + sizeofWord + 1)
        ((List.range len).map s) ∧
      gTop st' = gTop s1 ∧ len + 1 + sizeofWord < 2 ^ 64 := by
  unfold globalString at h
  cases hg : allocString E ((len + 1) % 2 ^ 64) st with
  | ret v s1 =>
    rw [hg] at h
    cases v with
    | none => simp at h
    | some q =>
      simp only at h
      by_cases hfit : len + 1 ≤ stringWords ((len + 1) % 2 ^ 64) * sizeofWord
      · rw [if_pos hfit] at h
        simp only [Outcome.ret.injEq, Option.some.injEq] at h
        obtain ⟨hq, hs⟩ := h
        have hb := string_fit_bound (len + 1) hfit
        have hmod : (len + 1) % 2 ^ 64 = len + 1 := Nat.mod_eq_of_lt (by omega)
        rw [hmod] at hg
        exact ⟨q, s1, hq.symm, hg, by rw [← hs], by rw [← hs]; rfl, hb⟩
      · rw [if_neg hfit] at h
        cases h
  | jump s1 => rw [hg] at h; simp at h
  | fatal s1 => rw [hg] at h; simp at h
  | abort s1 => rw [hg] at h; simp at h
  | hang => rw [hg] at h; simp at h

/-- C19: the narrow string round trip. For every length `len` and bytes
`s[0..len-1]`, when `globalString(len, s)` succeeds with a pointer to the
(cell-aligned) block `p`: `getCharsString` on the result returns the pointer
to the byte behind the marker and stores the length `len`, which is word count
times bytes per word minus pad count minus 1 of the header; and the `len`
bytes at that pointer are the bytes of `s`. -/
theorem globalString_round_trip (E : Ext) (len : Nat) (s : Nat → Nat)
    (st st' : PL_local_data) (p : Nat)
    (hbytes : ∀ i, i < len → s i < 256) (hal : p % sizeofWord = 0)
    (h : globalString E len s st
      = Outcome.ret (some (consPtr p Storage.STG_GLOBAL Tag.TAG_STRING)) st') :
    getCharsString__LD st'.mem (consPtr p Storage.STG_GLOBAL Tag.TAG_STRING)
      = some (some (p + sizeofWord + 1), len) ∧
    (∀ i, i < len → readByte st'.mem (p + sizeofWord + 1 + i) = s i) ∧
    len = wsizeofInd (readCell st'.mem p) * sizeofWord - padHdr (readCell st'.mem p) - 1 ∧
    wsizeofInd (readCell st'.mem p) = (len + 1) / sizeofWord + 1 ∧
    readByte st'.mem (p + sizeofWord) = 66 := by
  obtain ⟨q, s1, hw, ha, hm, _, hb⟩ := globalString_ret E len s st st' _ h
  have hq : q = p := by
    simp only [consPtr, Word.ptr.injEq] at hw
    exact hw.1.symm
  subst hq
  obtain ⟨s0, _, hm1, _, _⟩ := allocString_ret E (len + 1) st s1 q hb ha
  obtain ⟨r1, r2, r3, r4⟩ := narrow_string_read s0.mem q len ((List.range len).map s)
    (by simp) hal
  rw [← hm1, ← hm] at r1 r2 r3
  have hlen : wsizeofInd (readCell st'.mem q) * sizeofWord - padHdr (readCell st'.mem q) - 1
      = len := by
    rw [r1]
    exact r4
  refine ⟨?_, ?_, hlen.symm, ?_, r2⟩
  · unfold getCharsString__LD
    show (if readByte st'.mem (q + sizeofWord) = 66 then _ else _) = _
    rw [if_pos r2]
    show some (some (q + sizeofWord + 1),
      wsizeofInd (readCell st'.mem q) * sizeofWord - padHdr (readCell st'.mem q) - 1) = _
    rw [hlen]
  · intro i hi
    rw [r3 i hi, List.getD_eq_getElem _ _ (by simpa using hi)]
    simp only [List.getElem_map, List.getElem_range]
    exact Nat.mod_eq_of_lt (hbytes i hi)
  · rw [r1]
    show (len + 1 + sizeofWord) / sizeofWord = (len + 1) / sizeofWord + 1
    simp only [sizeofWord]
    omega

/-- C19, at a concrete input: the three bytes `abc` stored in `exampleState`,
where the block is taken at address 800. -/
theorem globalString_round_trip_witness :
    ∃ st', globalString exampleExt 3 (fun i => 97 + i) exampleState
        = Outcome.ret (some (consPtr 800 Storage.STG_GLOBAL Tag.TAG_STRING)) st' ∧
      getCharsString__LD st'.mem (consPtr 800 Storage.STG_GLOBAL Tag.TAG_STRING)
        = some (some (800 + sizeofWord + 1), 3) ∧
      readByte st'.mem (800 + sizeofWord + 1 + 2) = 99 :=
  ⟨_, rfl,
    (globalString_round_trip exampleExt 3 (fun i => 97 + i) exampleState _ 800
      (by decide) (by decide) rfl).1,
    (globalString_round_trip exampleExt 3 (fun i => 97 + i) exampleState _ 800
      (by decide) (by decide) rfl).2.1 2 (by decide)⟩

theorem wcharVal_of_lt (c : Nat) (h : c < 2 ^ 31) : wcharVal c = (c : Int) := by
  unfold wcharVal
  have e : c % 2 ^ 32 = c := Nat.mod_eq_of_lt (by omega)
  rw [e, if_pos h]

theorem wideScan_spec (s : Nat → Nat) :
    ∀ (n i : Nat), i ≤ wideScan s n i ∧ wideScan s n i ≤ i + n ∧
      (wideScan s n i = i + n ↔ ∀ j, j < n → wcharVal (s (i + j)) ≤ 0xff) := by
  intro n
  induction n with
  | zero =>
    intro i
    simp [wideScan]
  | succ n ih =>
    intro i
    simp only [wideScan]
    by_cases h : wcharVal (s i) > 0xff
    · rw [if_pos h]
      refine ⟨le_refl _, by omega, ⟨fun e => by omega, fun hall => ?_⟩⟩
      have := hall 0 (by omega)
      rw [Nat.add_zero] at this
      omega
    · rw [if_neg h]
      obtain ⟨h1, h2, h3⟩ := ih (i + 1)
      refine ⟨by omega, by omega, ?_⟩
      have e : i + (n + 1) = i + 1 + n := by omega
      rw [e, h3]
      constructor
      · intro hall j hj
        cases j with
        | zero => rw [Nat.add_zero]; omega
        | succ j =>
          have := hall j (by omega)
          have e2 : i + (j + 1) = i + 1 + j := by omega
          rw [e2]; exact this
      · intro hall j hj
        have := hall (j + 1) (by omega)
        have e2 : i + (j + 1) = i + 1 + j := by omega
        rw [← e2]; exact this

/-- The scan of `globalWString` runs to the end exactly when no element is
above `0xFF` as a `pl_wchar_t`; for elements that are not negative, that is
when none is above `0xFF`. -/
theorem wideScan_eq_len_iff (s : Nat → Nat) (len : Nat) :
    (wideScan s len 0 = len ↔ ∀ j, j < len → wcharVal (s j) ≤ 0xff) ∧
    ((∀ j, j < len → s j < 2 ^ 31) →
      (wideScan s len 0 = len ↔ ∀ j, j < len → s j ≤ 0xff)) := by
  have hscan := (wideScan_spec s len 0).2.2
  rw [Nat.zero_add] at hscan
  have h1 : wideScan s len 0 = len ↔ ∀ j, j < len → wcharVal (s j) ≤ 0xff := by
    rw [hscan]
    constructor
    · intro hall j hj
      have := hall j hj
      rw [Nat.zero_add] at this
      exact this
    · intro hall j hj
      rw [Nat.zero_add]
      exact hall j hj
  refine ⟨h1, ?_⟩
  intro hcp
  rw [h1]
  constructor
  · intro hall j hj
    have := hall j hj
    rw [wcharVal_of_lt _ (hcp j hj)] at this
    omega
  · intro hall j hj
    rw [wcharVal_of_lt _ (hcp j hj)]
    have := hall j hj
    omega

theorem readWChar_memcpy_self (m : Mem) (dst c : Nat) :
    readWChar (memcpy m dst (wcharBytes c)) dst = c % 2 ^ 32 := by
  have h0 := memcpy_readByte_inside (wcharBytes c) dst m 0 (by simp [wcharBytes])
  have h1 := memcpy_readByte_inside (wcharBytes c) dst m 1 (by simp [wcharBytes])
  have h2 := memcpy_readByte_inside (wcharBytes c) dst m 2 (by simp [wcharBytes])
  have h3 := memcpy_readByte_inside (wcharBytes c) dst m 3 (by simp [wcharBytes])
  unfold readWChar
  rw [Nat.add_zero] at h0
  rw [h0, h1, h2, h3]
  simp only [wcharBytes, List.getD_cons_zero, List.getD_cons_succ]
  norm_num
  omega

theorem readWChar_outside (bs : List Nat) (dst : Nat) (m : Mem) (a : Nat)
    (h : a + 4 ≤ dst ∨ dst + bs.length ≤ a) :
    readWChar (memcpy m dst bs) a = readWChar m a := by
  unfold readWChar
  rw [memcpy_readByte_outside bs dst m a (by omega),
    memcpy_readByte_outside bs dst m (a + 1) (by omega),
    memcpy_readByte_outside bs dst m (a + 2) (by omega),
    memcpy_readByte_outside bs dst m (a + 3) (by omega)]

theorem wcharBytes_length (c : Nat) : (wcharBytes c).length = 4 := rfl

theorem flatten_wcharBytes_length (cs : List Nat) :
    ((cs.map wcharBytes).flatten).length = 4 * cs.length := by
  induction cs with
  | nil => rfl
  | cons c cs ih =>
    simp only [List.map_cons, List.flatten_cons, List.length_append, wcharBytes_length, ih,
      List.length_cons]
    omega

/-- An array of wide characters copied byte by byte reads back element by
element. -/
theorem readWChar_memcpy_array (cs : List Nat) :
    ∀ (dst : Nat) (m : Mem) (i : Nat), i < cs.length →
      readWChar (memcpy m dst ((cs.map wcharBytes).flatten)) (dst + 4 * i)
        = cs.getD i 0 % 2 ^ 32 := by
  induction cs with
  | nil => intro dst m i h; simp at h
  | cons c cs ih =>
    intro dst m i h
    simp only [List.map_cons, List.flatten_cons]
    rw [memcpy_append, wcharBytes_length]
    cases i with
    | zero =>
      rw [Nat.mul_zero, Nat.add_zero, readWChar_outside _ _ _ _ (Or.inl (by omega))]
      exact readWChar_memcpy_self m dst c
    | succ i =>
      simp only [List.length_cons] at h
      have := ih (dst + 4) (memcpy m dst (wcharBytes c)) i (by omega)
      have e : dst + 4 * (i + 1) = dst + 4 + 4 * i := by omega
      rw [e, this]
      rfl

theorem globalWString_ret (E : Ext) (len : Nat) (s : Nat → Nat) (st st' : PL_local_data)
    (w : Word) (hsz : len * sizeofWChar < 2 ^ 64)
    (h : globalWString E len s st = Outcome.ret (some w) st') :
    ∃ p s1, w = consPtr p Storage.STG_GLOBAL Tag.TAG_STRING ∧
      ((wideScan s len 0 = len ∧
        allocString E (len + 1) st = Outcome.ret (some p) s1 ∧
        st'.mem = memcpy (writeByte s1.mem (p + sizeofWord) 66) (p + sizeofWord + 1)
          ((List.range len).map (fun i => s i % 256)) ∧
        len + 1 + sizeofWord < 2 ^ 64) ∨
       (wideScan s len 0 ≠ len ∧
        allocString E ((len + 1) * sizeofWChar) st = Outcome.ret (some p) s1 ∧
        st'.mem = memcpy
          (writeByte (memcpy s1.mem (p + sizeofWord) (wcharBytes 0)) (p + sizeofWord) 87)
          (p + sizeofWord + sizeofWChar)
          (((List.range len).map (fun i => wcharBytes (s i))).flatten) ∧
        (len + 1) * sizeofWChar + sizeofWord < 2 ^ 64)) := by
  unfold globalWString at h
  by_cases hn : wideScan s len 0 = len
  · rw [if_pos hn] at h
    cases hg : allocString E ((len + 1) % 2 ^ 64) st with
    | ret v s1 =>
      rw [hg] at h
      cases v with
      | none => simp at h
      | some q =>
        simp only at h
        by_cases hfit : len + 1 ≤ stringWords ((len + 1) % 2 ^ 64) * sizeofWord
        · rw [if_pos hfit] at h
          simp only [Outcome.ret.injEq, Option.some.injEq] at h
          obtain ⟨hq, hs⟩ := h
          have hb := string_fit_bound (len + 1) hfit
          have hmod : (len + 1) % 2 ^ 64 = len + 1 := Nat.mod_eq_of_lt (by omega)
          rw [hmod] at hg
          exact ⟨q, s1, hq.symm, Or.inl ⟨hn, hg, by rw [← hs], hb⟩⟩
        · rw [if_neg hfit] at h
          cases h
    | jump s1 => rw [hg] at h; simp at h
    | fatal s1 => rw [hg] at h; simp at h
    | abort s1 => rw [hg] at h; simp at h
    | hang => rw [hg] at h; simp at h
  · rw [if_neg hn] at h
    cases hg : allocString E ((len + 1) * sizeofWChar % 2 ^ 64) st with
    | ret v s1 =>
      rw [hg] at h
      cases v with
      | none => simp at h
      | some q =>
        simp only at h
        by_cases hfit : sizeofWChar + len * sizeofWChar % 2 ^ 64
            ≤ stringWords ((len + 1) * sizeofWChar % 2 ^ 64) * sizeofWord
        · rw [if_pos hfit] at h
          simp only [Outcome.ret.injEq, Option.some.injEq] at h
          obtain ⟨hq, hs⟩ := h
          have hcopy : len * sizeofWChar % 2 ^ 64 = len * sizeofWChar := Nat.mod_eq_of_lt hsz
          have hb : (len + 1) * sizeofWChar + sizeofWord < 2 ^ 64 := by
            apply string_fit_bound
            rw [hcopy] at hfit
            simp only [sizeofWChar, sizeofWord] at *
            omega
          have hmod : (len + 1) * sizeofWChar % 2 ^ 64 = (len + 1) * sizeofWChar :=
            Nat.mod_eq_of_lt (by omega)
          rw [hmod] at hg
          have hflen : ((List.map (fun i => wcharBytes (s i)) (List.range len)).flatten).length
              = 4 * len := by
            have := flatten_wcharBytes_length ((List.range len).map s)
            rw [List.map_map, List.length_map, List.length_range] at this
            exact this
          have htake : (((List.range len).map (fun i => wcharBytes (s i))).flatten).take
              (len * sizeofWChar % 2 ^ 64)
              = ((List.range len).map (fun i => wcharBytes (s i))).flatten := by
            apply List.take_of_length_le
            rw [hflen, hcopy]
            simp only [sizeofWChar]
            omega
          rw [htake] at hs
          exact ⟨q, s1, hq.symm, Or.inr ⟨hn, hg, by rw [← hs], hb⟩⟩
        · rw [if_neg hfit] at h
          cases h
    | jump s1 => rw [hg] at h; simp at h
    | fatal s1 => rw [hg] at h; simp at h
    | abort s1 => rw [hg] at h; simp at h
    | hang => rw [hg] at h; simp at h

/-- The memory a wide string is left in: the block of
`allocString((len + 1) * sizeof(pl_wchar_t))` at the aligned address `p` in
the memory `m1`, then `w[0] = 0`, the marker `W` and the code points `cs`. The
header stays in the first cell, the marker is the first payload byte, the
code points follow from the second wide character on, and the header gives
back the length. -/
theorem wide_string_read (m1 : Mem) (p len : Nat) (cs : List Nat) (hlen : cs.length = len)
    (hal : p % sizeofWord = 0) :
    readCell
      (memcpy (writeByte (memcpy
        ((p + (((len + 1) * sizeofWChar + sizeofWord) / sizeofWord + 1) * sizeofWord,
          mkStrHdr (((len + 1) * sizeofWChar + sizeofWord) / sizeofWord)
            (((len + 1) * sizeofWChar + sizeofWord) / sizeofWord * sizeofWord
              - (len + 1) * sizeofWChar)) ::
        (p + ((len + 1) * sizeofWChar + sizeofWord) / sizeofWord * sizeofWord, Word.bits 0) ::
        (p, mkStrHdr (((len + 1) * sizeofWChar + sizeofWord) / sizeofWord)
          (((len + 1) * sizeofWChar + sizeofWord) / sizeofWord * sizeofWord
            - (len + 1) * sizeofWChar)) :: m1)
        (p + sizeofWord) (wcharBytes 0)) (p + sizeofWord) 87)
        (p + sizeofWord + sizeofWChar) ((cs.map wcharBytes).flatten)) p
      = mkStrHdr (((len + 1) * sizeofWChar + sizeofWord) / sizeofWord)
          (((len + 1) * sizeofWChar + sizeofWord) / sizeofWord * sizeofWord
            - (len + 1) * sizeofWChar) ∧
    readByte
      (memcpy (writeByte (memcpy
        ((p + (((len + 1) * sizeofWChar + sizeofWord) / sizeofWord + 1) * sizeofWord,
          mkStrHdr (((len + 1) * sizeofWChar + sizeofWord) / sizeofWord)
            (((len + 1) * sizeofWChar + sizeofWord) / sizeofWord * sizeofWord
              - (len + 1) * sizeofWChar)) ::
        (p + ((len + 1) * sizeofWChar + sizeofWord) / sizeofWord * sizeofWord, Word.bits 0) ::
        (p, mkStrHdr (((len + 1) * sizeofWChar + sizeofWord) / sizeofWord)
          (((len + 1) * sizeofWChar + sizeofWord) / sizeofWord * sizeofWord
            - (len + 1) * sizeofWChar)) :: m1)
        (p + sizeofWord) (wcharBytes 0)) (p + sizeofWord) 87)
        (p + sizeofWord + sizeofWChar) ((cs.map wcharBytes).flatten)) (p + sizeofWord) = 87 ∧
    (∀ i, i < len →
      readWChar
        (memcpy (writeByte (memcpy
          ((p + (((len + 1) * sizeofWChar + sizeofWord) / sizeofWord + 1) * sizeofWord,
            mkStrHdr (((len + 1) * sizeofWChar + sizeofWord) / sizeofWord)
              (((len + 1) * sizeofWChar + sizeofWord) / sizeofWord * sizeofWord
                - (len + 1) * sizeofWChar)) ::
          (p + ((len + 1) * sizeofWChar + sizeofWord) / sizeofWord * sizeofWord, Word.bits 0) ::
          (p, mkStrHdr (((len + 1) * sizeofWChar + sizeofWord) / sizeofWord)
            (((len + 1) * sizeofWChar + sizeofWord) / sizeofWord * sizeofWord
              - (len + 1) * sizeofWChar)) :: m1)
          (p + sizeofWord) (wcharBytes 0)) (p + sizeofWord) 87)
          (p + sizeofWord + sizeofWChar) ((cs.map wcharBytes).flatten))
        (p + sizeofWord + sizeofWChar + 4 * i)
        = cs.getD i 0 % 2 ^ 32) ∧
    (((len + 1) * sizeofWChar + sizeofWord) / sizeofWord * sizeofWord
      - (((len + 1) * sizeofWChar + sizeofWord) / sizeofWord * sizeofWord
          - (len + 1) * sizeofWChar)) / sizeofWChar - 1 = len ∧
    ((len + 1) * sizeofWChar + sizeofWord) / sizeofWord * sizeofWord
      - (((len + 1) * sizeofWChar + sizeofWord) / sizeofWord * sizeofWord
          - (len + 1) * sizeofWChar) - 1 = (len + 1) * sizeofWChar - 1 := by
  refine ⟨?_, ?_, ?_, ?_, ?_⟩
  · rw [memcpy_readCell, readCell_writeByte, memcpy_readCell]
    · simp only [readCell_cons, sizeofWord, sizeofWChar]
      split_ifs <;> first | rfl | (exfalso; omega)
    · intro a h1 _
      have := cell_of_byte_ge (p + sizeofWord) a (by simp only [sizeofWord] at *; omega)
        (by omega)
      simp only [sizeofWord] at *; omega
    · simp only [sizeofWord] at *; omega
    · intro a h1 _
      have := cell_of_byte_ge (p + sizeofWord) a (by simp only [sizeofWord] at *; omega)
        (by simp only [sizeofWord, sizeofWChar] at *; omega)
      simp only [sizeofWord] at *; omega
  · rw [memcpy_readByte_outside _ _ _ _ (Or.inl (by simp only [sizeofWChar]; omega))]
    exact readByte_writeByte_self _ _ _
  · intro i hi
    exact readWChar_memcpy_array cs _ _ i (by omega)
  · simp only [sizeofWord, sizeofWChar]
    omega
  · simp only [sizeofWord, sizeofWChar]
    omega

/-- C20: the selection between the narrow and the wide form. For every length
`len` and code points `s[0..len-1]` (values of `pl_wchar_t` that are not
negative, in an array of `len * sizeof(pl_wchar_t)` bytes), when
`globalWString(len, s)` succeeds with a pointer to the (cell-aligned) block
`p`: if every code point is at most `0xFF` the payload starts with the marker
`B`, `getCharsString` returns the pointer behind the marker with length `len`,
the `len` bytes there are the code points, and `getCharsWString` returns
`NULL`; if some code point is above `0xFF` the payload starts with the marker
`W`, `getCharsWString` returns the pointer to the second wide character with
length `len`, the `len` wide characters there are the code points, and
`getCharsString` returns `NULL`. So the marker is `B` if and only if every
code point is at most `0xFF`, and `W` if and only if one is above. -/
theorem globalWString_selection (E : Ext) (len : Nat) (s : Nat → Nat)
    (st st' : PL_local_data) (p : Nat)
    (hcp : ∀ i, i < len → s i < 2 ^ 31) (hsz : len * sizeofWChar < 2 ^ 64)
    (hal : p % sizeofWord = 0)
    (h : globalWString E len s st
      = Outcome.ret (some (consPtr p Storage.STG_GLOBAL Tag.TAG_STRING)) st') :
    ((∀ i, i < len → s i ≤ 0xff) →
      readByte st'.mem (p + sizeofWord) = 66 ∧
      getCharsString__LD st'.mem (consPtr p Storage.STG_GLOBAL Tag.TAG_STRING)
        = some (some (p + sizeofWord + 1), len) ∧
      (∀ i, i < len → readByte st'.mem (p + sizeofWord + 1 + i) = s i) ∧
      getCharsWString__LD st'.mem (consPtr p Storage.STG_GLOBAL Tag.TAG_STRING)
        = (none, none)) ∧
    ((∃ i, i < len ∧ s i > 0xff) →
      readByte st'.mem (p + sizeofWord) = 87 ∧
      getCharsWString__LD st'.mem (consPtr p Storage.STG_GLOBAL Tag.TAG_STRING)
        = (some (p + sizeofWord + sizeofWChar), some len) ∧
      (∀ i, i < len →
        readWChar st'.mem (p + sizeofWord + sizeofWChar + sizeofWChar * i) = s i) ∧
      getCharsString__LD st'.mem (consPtr p Storage.STG_GLOBAL Tag.TAG_STRING)
        = some (none, (len + 1) * sizeofWChar - 1)) ∧
    (readByte st'.mem (p + sizeofWord) = 66 ↔ ∀ i, i < len → s i ≤ 0xff) ∧
    (readByte st'.mem (p + sizeofWord) = 87 ↔ ∃ i, i < len ∧ s i > 0xff) := by
  have main :
      ((∀ i, i < len → s i ≤ 0xff) →
        readByte st'.mem (p + sizeofWord) = 66 ∧
        getCharsString__LD st'.mem (consPtr p Storage.STG_GLOBAL Tag.TAG_STRING)
          = some (some (p + sizeofWord + 1), len) ∧
        (∀ i, i < len → readByte st'.mem (p + sizeofWord + 1 + i) = s i) ∧
        getCharsWString__LD st'.mem (consPtr p Storage.STG_GLOBAL Tag.TAG_STRING)
          = (none, none)) ∧
      ((∃ i, i < len ∧ s i > 0xff) →
        readByte st'.mem (p + sizeofWord) = 87 ∧
        getCharsWString__LD st'.mem (consPtr p Storage.STG_GLOBAL Tag.TAG_STRING)
          = (some (p + sizeofWord + sizeofWChar), some len) ∧
        (∀ i, i < len →
          readWChar st'.mem (p + sizeofWord + sizeofWChar + sizeofWChar * i) = s i) ∧
        getCharsString__LD st'.mem (consPtr p Storage.STG_GLOBAL Tag.TAG_STRING)
          = some (none, (len + 1) * sizeofWChar - 1)) := by
    obtain ⟨q, s1, hw, hcase⟩ := globalWString_ret E len s st st' _ hsz h
    have hq : q = p := by
      simp only [consPtr, Word.ptr.injEq] at hw
      exact hw.1.symm
    subst hq
    have hscan' := (wideScan_eq_len_iff s len).2 hcp
    rcases hcase with ⟨hn, ha, hm, hb⟩ | ⟨hn, ha, hm, hb⟩
    · -- the narrow form
      have hall := hscan'.1 hn
      obtain ⟨s0, _, hm1, _, _⟩ := allocString_ret E (len + 1) st s1 q hb ha
      obtain ⟨r1, r2, r3, r4⟩ := narrow_string_read s0.mem q len
        ((List.range len).map (fun i => s i % 256)) (by simp) hal
      rw [← hm1, ← hm] at r1 r2 r3
      have hlen : wsizeofInd (readCell st'.mem q) * sizeofWord - padHdr (readCell st'.mem q) - 1
          = len := by
        rw [r1]
        exact r4
      constructor
      · intro _
        refine ⟨r2, ?_, ?_, ?_⟩
        · unfold getCharsString__LD
          show (if readByte st'.mem (q + sizeofWord) = 66 then _ else _) = _
          rw [if_pos r2]
          show some (some (q + sizeofWord + 1),
            wsizeofInd (readCell st'.mem q) * sizeofWord - padHdr (readCell st'.mem q) - 1) = _
          rw [hlen]
        · intro i hi
          rw [r3 i hi, List.getD_eq_getElem _ _ (by simpa using hi)]
          simp only [List.getElem_map, List.getElem_range]
          have := hall i hi
          omega
        · unfold getCharsWString__LD
          show (if readByte st'.mem (q + sizeofWord) ≠ 87 then _ else _) = _
          rw [if_pos (by rw [r2]; decide)]
      · rintro ⟨i, hi, hbig⟩
        have := hall i hi
        omega
    · -- the wide form
      obtain ⟨s0, _, hm1, _, _⟩ := allocString_ret E ((len + 1) * sizeofWChar) st s1 q hb ha
      obtain ⟨r1, r2, r3, r4, r5⟩ := wide_string_read s0.mem q len ((List.range len).map s)
        (by simp) hal
      have hmap : ((List.range len).map (fun i => wcharBytes (s i)))
          = ((List.range len).map s).map wcharBytes := by
        rw [List.map_map]
        rfl
      rw [hmap] at hm
      rw [← hm1, ← hm] at r1 r2 r3
      constructor
      · intro hall
        exact absurd (hscan'.2 hall) hn
      · intro _
        refine ⟨r2, ?_, ?_, ?_⟩
        · unfold getCharsWString__LD
          show (if readByte st'.mem (q + sizeofWord) ≠ 87 then _ else _) = _
          rw [if_neg (by rw [r2]; decide)]
          show (some (q + sizeofWord + sizeofWChar),
            some ((wsizeofInd (readCell st'.mem q) * sizeofWord - padHdr (readCell st'.mem q))
              / sizeofWChar - 1)) = _
          rw [r1]
          show (some (q + sizeofWord + sizeofWChar),
            some ((((len + 1) * sizeofWChar + sizeofWord) / sizeofWord * sizeofWord
              - (((len + 1) * sizeofWChar + sizeofWord) / sizeofWord * sizeofWord
                - (len + 1) * sizeofWChar)) / sizeofWChar - 1)) = _
          rw [r4]
        · intro i hi
          rw [r3 i hi, List.getD_eq_getElem _ _ (by simpa using hi)]
          simp only [List.getElem_map, List.getElem_range]
          exact Nat.mod_eq_of_lt (by have := hcp i hi; omega)
        · unfold getCharsString__LD
          show (if readByte st'.mem (q + sizeofWord) = 66 then _
            else if readByte st'.mem (q + sizeofWord) = 87 then _ else _) = _
          rw [if_neg (by rw [r2]; decide), if_pos r2]
          show some (none,
            wsizeofInd (readCell st'.mem q) * sizeofWord - padHdr (readCell st'.mem q) - 1) = _
          rw [r1]
          show some (none,
            ((len + 1) * sizeofWChar + sizeofWord) / sizeofWord * sizeofWord
              - (((len + 1) * sizeofWChar + sizeofWord) / sizeofWord * sizeofWord
                - (len + 1) * sizeofWChar) - 1) = _
          rw [r5]
  refine ⟨main.1, main.2, ⟨?_, fun hall => (main.1 hall).1⟩, ⟨?_, fun hex => (main.2 hex).1⟩⟩
  · intro h66
    by_contra hc
    have hex : ∃ i, i < len ∧ s i > 0xff := by
      by_contra hne
      apply hc
      intro i hi
      by_contra hgt
      exact hne ⟨i, hi, by omega⟩
    have := (main.2 hex).1
    rw [h66] at this
    exact absurd this (by decide)
  · intro h87
    by_contra hc
    have hall : ∀ i, i < len → s i ≤ 0xff := by
      intro i hi
      by_contra hgt
      exact hc ⟨i, hi, by omega⟩
    have := (main.1 hall).1
    rw [h87] at this
    exact absurd this (by decide)

/-- C20, at a concrete input: the two code points `0x41` and `0x3B1` stored in
`exampleState`, where the block is taken at address 800; one code point is
above `0xFF`, so the form is the wide one. -/
theorem globalWString_selection_witness :
    ∃ st', globalWString exampleExt 2 (fun i => if i = 0 then 65 else 945) exampleState
        = Outcome.ret (some (consPtr 800 Storage.STG_GLOBAL Tag.TAG_STRING)) st' ∧
      readByte st'.mem (800 + sizeofWord) = 87 ∧
      getCharsWString__LD st'.mem (consPtr 800 Storage.STG_GLOBAL Tag.TAG_STRING)
        = (some (800 + sizeofWord + sizeofWChar), some 2) ∧
      readWChar st'.mem (800 + sizeofWord + sizeofWChar + sizeofWChar * 1) = 945 :=
  have h := (globalWString_selection exampleExt 2 (fun i => if i = 0 then 65 else 945)
    exampleState _ 800 (by decide) (by decide) (by decide) rfl).2.1 ⟨1, by decide, by decide⟩
  ⟨_, rfl, h.1, h.2.1, h.2.2.1 1 (by decide)⟩

/-- An element with the top bit set is a negative `pl_wchar_t`, so not above
`0xFF`: `globalWString` stores the one element `0x80000041` in the narrow
form, as the byte `0x41` behind the marker `B`. -/
theorem globalWString_negative_element :
    ∃ st', globalWString exampleExt 1 (fun _ => 0x80000041) exampleState
        = Outcome.ret (some (consPtr 800 Storage.STG_GLOBAL Tag.TAG_STRING)) st' ∧
      readByte st'.mem (800 + sizeofWord) = 66 ∧
      readByte st'.mem (800 + sizeofWord + 1) = 0x41 :=
  ⟨_, rfl, by decide, by decide⟩

/-! ### The layout of a string block -/

theorem allocGlobal_ret (E : Ext) (n : Nat) (s s1 : PL_local_data) (p : Nat)
    (h : allocGlobal E n s = Outcome.ret (some p) s1) :
    gTop s1 = p + n * sizeofWord := by
  unfold allocGlobal at h
  by_cases hs : E.hasGlobalSpace s n = false
  · rw [if_pos hs] at h
    by_cases hr : (E.ensureGlobalSpace s n ALLOW_GC).1 ≠ TRUE
    · rw [if_pos hr] at h
      cases hro : raiseStackOverflow E (E.ensureGlobalSpace s n ALLOW_GC).1
          (E.ensureGlobalSpace s n ALLOW_GC).2 <;> rw [hro] at h <;> simp at h
    · rw [if_neg hr] at h
      simp only [Outcome.ret.injEq, Option.some.injEq] at h
      rw [← h.2, ← h.1]
      rfl
  · rw [if_neg hs] at h
    simp only [Outcome.ret.injEq, Option.some.injEq] at h
    rw [← h.2, ← h.1]
    rfl

/-- A byte of a zeroed cell that no byte store reaches reads zero. -/
theorem readByte_zero_cell (m : Mem) (a : Nat)
    (h : readCell m (a - a % sizeofWord) = Word.bits 0) : readByte m a = 0 := by
  unfold readByte
  rw [h]
  exact byteOf_zero _

theorem readByte_cons_other (m : Mem) (x a : Nat) (w : Word) (h : a - a % sizeofWord ≠ x) :
    readByte ((x, w) :: m) a = readByte m a := by
  unfold readByte
  rw [readCell_tail _ _ _ _ h]

theorem copyFromCode_spec (code : Nat → Word) :
    ∀ (n pc p : Nat) (s : PL_local_data),
      (copyFromCode code n pc p s).1 = pc + n * sizeofWord ∧
      gTop (copyFromCode code n pc p s).2 = gTop s ∧
      (∀ i, i < n →
        readCell (copyFromCode code n pc p s).2.mem (p + i * sizeofWord)
          = code (pc + i * sizeofWord)) ∧
      (∀ x, (x < p ∨ p + n * sizeofWord ≤ x) →
        readCell (copyFromCode code n pc p s).2.mem x = readCell s.mem x)
  | 0, pc, p, s => by
    refine ⟨?_, rfl, fun i hi => absurd hi (Nat.not_lt_zero _), fun _ _ => rfl⟩
    show pc = pc + 0 * sizeofWord
    omega
  | n + 1, pc, p, s => by
    obtain ⟨h1, h2, h3, h4⟩ :=
      copyFromCode_spec code n (pc + sizeofWord) (p + sizeofWord) (poke s p (code pc))
    simp only [copyFromCode]
    refine ⟨by rw [h1]; simp only [sizeofWord]; omega, by rw [h2]; rfl, ?_, ?_⟩
    · intro i hi
      cases i with
      | zero =>
        rw [Nat.zero_mul, Nat.add_zero, Nat.add_zero, h4 p (Or.inl (by simp only [sizeofWord]; omega))]
        exact readCell_head _ _ _
      | succ i =>
        have := h3 i (by omega)
        have e1 : p + (i + 1) * sizeofWord = p + sizeofWord + i * sizeofWord := by
          simp only [sizeofWord]; omega
        have e2 : pc + (i + 1) * sizeofWord = pc + sizeofWord + i * sizeofWord := by
          simp only [sizeofWord]; omega
        rw [e1, e2]
        exact this
    · intro x hx
      rw [h4 x (by simp only [sizeofWord] at *; omega)]
      exact readCell_tail _ _ _ _ (by simp only [sizeofWord] at *; omega)

theorem globalIndirectFromCode_ret (E : Ext) (code : Nat → Word) (pc : Nat)
    (s s' : PL_local_data) (w : Word) (pc' : Nat)
    (h : globalIndirectFromCode E code pc s = Outcome.ret (some w, pc') s') :
    ∃ p s1, allocGlobal E (wsizeofInd (code pc) + 2) s = Outcome.ret (some p) s1 ∧
      w = consPtr p Storage.STG_GLOBAL (tagOf (code pc)) ∧
      pc' = pc + (wsizeofInd (code pc) + 1) * sizeofWord ∧
      gTop s' = p + (wsizeofInd (code pc) + 2) * sizeofWord ∧
      readCell s'.mem p = code pc ∧
      readCell s'.mem (p + (wsizeofInd (code pc) + 1) * sizeofWord) = code pc ∧
      (∀ i, i < wsizeofInd (code pc) →
        readCell s'.mem (p + (i + 1) * sizeofWord) = code (pc + (i + 1) * sizeofWord)) := by
  unfold globalIndirectFromCode at h
  cases hg : allocGlobal E (wsizeofInd (code pc) + 2) s with
  | ret v s1 =>
    rw [hg] at h
    cases v with
    | none => simp at h
    | some p =>
      simp only [Outcome.ret.injEq, Prod.mk.injEq, Option.some.injEq] at h
      obtain ⟨⟨hw, hpc⟩, hs⟩ := h
      obtain ⟨c1, c2, c3, c4⟩ := copyFromCode_spec code (wsizeofInd (code pc))
        (pc + sizeofWord) (p + sizeofWord) (poke s1 p (code pc))
      have hgt := allocGlobal_ret E _ s s1 p hg
      refine ⟨p, s1, rfl, hw.symm, ?_, ?_, ?_, ?_, ?_⟩
      · rw [← hpc, c1]; simp only [sizeofWord]; omega
      · rw [← hs]
        show gTop (copyFromCode code _ _ _ _).2 = _
        rw [c2]
        exact hgt
      · rw [← hs]
        show readCell ((_, _) :: (copyFromCode code _ _ _ _).2.mem) p = _
        rw [readCell_tail _ _ _ _ (by simp only [sizeofWord]; omega),
          c4 p (Or.inl (by simp only [sizeofWord]; omega))]
        exact readCell_head _ _ _
      · rw [← hs]
        exact readCell_head _ _ _
      · intro i hi
        rw [← hs]
        show readCell ((_, _) :: (copyFromCode code _ _ _ _).2.mem) _ = _
        rw [readCell_tail _ _ _ _ (by simp only [sizeofWord]; omega)]
        have := c3 i hi
        have e1 : p + (i + 1) * sizeofWord = p + sizeofWord + i * sizeofWord := by
          simp only [sizeofWord]; omega
        have e2 : pc + (i + 1) * sizeofWord = pc + sizeofWord + i * sizeofWord := by
          simp only [sizeofWord]; omega
        rw [e1, e2]
        exact this
  | jump s1 => rw [hg] at h; simp at h
  | fatal s1 => rw [hg] at h; simp at h
  | abort s1 => rw [hg] at h; simp at h
  | hang => rw [hg] at h; simp at h

theorem equalIndirectLoop_iff (m : Mem) :
    ∀ (n p1 p2 : Nat),
      equalIndirectLoop m n p1 p2 = true ↔
        ∀ i, 1 ≤ i → i ≤ n → readCell m (p1 + i * sizeofWord) = readCell m (p2 + i * sizeofWord)
  | 0, p1, p2 => by
    simp only [equalIndirectLoop, true_iff]
    intro i h1 h2
    omega
  | n + 1, p1, p2 => by
    simp only [equalIndirectLoop]
    by_cases h : readCell m (p1 + sizeofWord) = readCell m (p2 + sizeofWord)
    · rw [if_neg (not_not.2 h), equalIndirectLoop_iff m n]
      constructor
      · intro hall i h1 h2
        by_cases hi : i = 1
        · subst hi
          rw [Nat.one_mul]
          exact h
        · have := hall (i - 1) (by omega) (by omega)
          have e1 : p1 + sizeofWord + (i - 1) * sizeofWord = p1 + i * sizeofWord := by
            simp only [sizeofWord]; omega
          have e2 : p2 + sizeofWord + (i - 1) * sizeofWord = p2 + i * sizeofWord := by
            simp only [sizeofWord]; omega
          rw [e1, e2] at this
          exact this
      · intro hall i h1 h2
        have := hall (i + 1) (by omega) (by omega)
        have e1 : p1 + sizeofWord + i * sizeofWord = p1 + (i + 1) * sizeofWord := by
          simp only [sizeofWord]; omega
        have e2 : p2 + sizeofWord + i * sizeofWord = p2 + (i + 1) * sizeofWord := by
          simp only [sizeofWord]; omega
        rw [e1, e2]
        exact this
    · rw [if_pos h]
      constructor
      · intro hf
        cases hf
      · intro hall
        have := hall 1 (le_refl _) (by omega)
        rw [Nat.one_mul] at this
        exact absurd this h

theorem equalIndirect_iff (m : Mem) (w1 w2 : Word) :
    equalIndirect m w1 w2 = true ↔
      readCell m (addressIndirect w1) = readCell m (addressIndirect w2) ∧
      ∀ i, 1 ≤ i → i ≤ wsizeofInd (readCell m (addressIndirect w1)) →
        readCell m (addressIndirect w1 + i * sizeofWord)
          = readCell m (addressIndirect w2 + i * sizeofWord) := by
  unfold equalIndirect
  by_cases h : readCell m (addressIndirect w1) = readCell m (addressIndirect w2)
  · rw [if_pos h, equalIndirectLoop_iff]
    exact ⟨fun hall => ⟨h, hall⟩, fun hall => hall.2⟩
  · rw [if_neg h]
    constructor
    · intro hf
      cases hf
    · intro hall
      exact absurd hall.1 h

theorem equalIndirectFromCodeLoop_spec (code : Nat → Word) (m : Mem) :
    ∀ (n pc pa : Nat),
      ((∀ i, 1 ≤ i → i ≤ n → code (pc + i * sizeofWord) = readCell m (pa + i * sizeofWord)) →
        equalIndirectFromCodeLoop code m n pc pa = some (pc + n * sizeofWord)) ∧
      (¬ (∀ i, 1 ≤ i → i ≤ n → code (pc + i * sizeofWord) = readCell m (pa + i * sizeofWord)) →
        equalIndirectFromCodeLoop code m n pc pa = none)
  | 0, pc, pa => by
    simp only [equalIndirectFromCodeLoop]
    refine ⟨fun _ => by rw [Nat.zero_mul, Nat.add_zero], fun h => ?_⟩
    exact absurd (fun i h1 h2 => by omega) h
  | n + 1, pc, pa => by
    obtain ⟨ih1, ih2⟩ := equalIndirectFromCodeLoop_spec code m n (pc + sizeofWord) (pa + sizeofWord)
    simp only [equalIndirectFromCodeLoop]
    have shift : (∀ i, 1 ≤ i → i ≤ n →
          code (pc + sizeofWord + i * sizeofWord) = readCell m (pa + sizeofWord + i * sizeofWord)) ↔
        (∀ i, 2 ≤ i → i ≤ n + 1 →
          code (pc + i * sizeofWord) = readCell m (pa + i * sizeofWord)) := by
      constructor
      · intro hall i h1 h2
        have := hall (i - 1) (by omega) (by omega)
        have e1 : pc + sizeofWord + (i - 1) * sizeofWord = pc + i * sizeofWord := by
          simp only [sizeofWord]; omega
        have e2 : pa + sizeofWord + (i - 1) * sizeofWord = pa + i * sizeofWord := by
          simp only [sizeofWord]; omega
        rw [e1, e2] at this
        exact this
      · intro hall i h1 h2
        have := hall (i + 1) (by omega) (by omega)
        have e1 : pc + sizeofWord + i * sizeofWord = pc + (i + 1) * sizeofWord := by
          simp only [sizeofWord]; omega
        have e2 : pa + sizeofWord + i * sizeofWord = pa + (i + 1) * sizeofWord := by
          simp only [sizeofWord]; omega
        rw [e1, e2]
        exact this
    by_cases h : code (pc + sizeofWord) = readCell m (pa + sizeofWord)
    · rw [if_neg (not_not.2 h)]
      constructor
      · intro hall
        rw [ih1 (shift.2 (fun i h1 h2 => hall i (by omega) h2))]
        congr 1
        simp only [sizeofWord]; omega
      · intro hn
        apply ih2
        intro hall
        apply hn
        intro i h1 h2
        by_cases hi : i = 1
        · subst hi
          rw [Nat.one_mul]
          exact h
        · exact shift.1 hall i (by omega) h2
    · rw [if_pos h]
      constructor
      · intro hall
        have := hall 1 (le_refl _) (by omega)
        rw [Nat.one_mul] at this
        exact absurd this h
      · intro _
        rfl

/-- C23: equality of indirect blocks is equality of header and payload cells.
`equalIndirect(w1, w2)` succeeds exactly when the header cells are equal and
the `wsizeofInd(header)` payload cells are equal one by one; so it is
reflexive, symmetric and transitive. `equalIndirectFromCode(a, &PC)` succeeds
under the same condition against the block at `PC` in code; when it succeeds
`PC` ends behind header and payload, which is where a successful
`globalIndirectFromCode(&PC)` leaves it, and when it fails `PC` is as it
was. -/
theorem equalIndirect_spec (m : Mem) (code : Nat → Word) (w1 w2 w3 : Word) (PC : Nat) :
    (equalIndirect m w1 w2 = true ↔
      readCell m (addressIndirect w1) = readCell m (addressIndirect w2) ∧
      ∀ i, 1 ≤ i → i ≤ wsizeofInd (readCell m (addressIndirect w1)) →
        readCell m (addressIndirect w1 + i * sizeofWord)
          = readCell m (addressIndirect w2 + i * sizeofWord)) ∧
    equalIndirect m w1 w1 = true ∧
    (equalIndirect m w1 w2 = true → equalIndirect m w2 w1 = true) ∧
    (equalIndirect m w1 w2 = true → equalIndirect m w2 w3 = true →
      equalIndirect m w1 w3 = true) ∧
    ((equalIndirectFromCode code m w1 PC).1 = true ↔
      code PC = readCell m (addressIndirect w1) ∧
      ∀ i, 1 ≤ i → i ≤ wsizeofInd (code PC) →
        code (PC + i * sizeofWord) = readCell m (addressIndirect w1 + i * sizeofWord)) ∧
    ((equalIndirectFromCode code m w1 PC).1 = true →
      (equalIndirectFromCode code m w1 PC).2 = PC + (wsizeofInd (code PC) + 1) * sizeofWord) ∧
    ((equalIndirectFromCode code m w1 PC).1 = false →
      (equalIndirectFromCode code m w1 PC).2 = PC) ∧
    (∀ (E : Ext) (s s' : PL_local_data) (w : Word) (pc' : Nat),
      globalIndirectFromCode E code PC s = Outcome.ret (some w, pc') s' →
      pc' = PC + (wsizeofInd (code PC) + 1) * sizeofWord) := by
  have hcode : ((equalIndirectFromCode code m w1 PC).1 = true ↔
      code PC = readCell m (addressIndirect w1) ∧
      ∀ i, 1 ≤ i → i ≤ wsizeofInd (code PC) →
        code (PC + i * sizeofWord) = readCell m (addressIndirect w1 + i * sizeofWord)) ∧
      ((equalIndirectFromCode code m w1 PC).1 = true →
        (equalIndirectFromCode code m w1 PC).2 = PC + (wsizeofInd (code PC) + 1) * sizeofWord) ∧
      ((equalIndirectFromCode code m w1 PC).1 = false →
        (equalIndirectFromCode code m w1 PC).2 = PC) := by
    obtain ⟨l1, l2⟩ := equalIndirectFromCodeLoop_spec code m (wsizeofInd (code PC)) PC
      (addressIndirect w1)
    unfold equalIndirectFromCode
    by_cases h : code PC = readCell m (addressIndirect w1)
    · rw [if_pos h]
      by_cases hall : ∀ i, 1 ≤ i → i ≤ wsizeofInd (code PC) →
          code (PC + i * sizeofWord) = readCell m (addressIndirect w1 + i * sizeofWord)
      · rw [l1 hall]
        refine ⟨⟨fun _ => ⟨h, hall⟩, fun _ => rfl⟩, fun _ => ?_, fun hf => by cases hf⟩
        show PC + wsizeofInd (code PC) * sizeofWord + sizeofWord = _
        simp only [sizeofWord]; omega
      · rw [l2 hall]
        exact ⟨⟨fun hf => (by cases hf), fun hc => absurd hc.2 hall⟩, fun hf => (by cases hf),
          fun _ => rfl⟩
    · rw [if_neg h]
      exact ⟨⟨fun hf => (by cases hf), fun hc => absurd hc.1 h⟩, fun hf => (by cases hf),
        fun _ => rfl⟩
  refine ⟨equalIndirect_iff m w1 w2, ?_, ?_, ?_, hcode.1, hcode.2.1, hcode.2.2, ?_⟩
  · rw [equalIndirect_iff]
    exact ⟨rfl, fun _ _ _ => rfl⟩
  · intro h
    rw [equalIndirect_iff] at h ⊢
    refine ⟨h.1.symm, fun i h1 h2 => (h.2 i h1 (by rw [h.1]; exact h2)).symm⟩
  · intro h12 h23
    rw [equalIndirect_iff] at h12 h23 ⊢
    refine ⟨h12.1.trans h23.1, fun i h1 h2 => ?_⟩
    exact (h12.2 i h1 h2).trans (h23.2 i h1 (by rw [← h12.1]; exact h2))
  · intro E s s' w pc' h
    obtain ⟨_, _, _, _, hpc, _⟩ := globalIndirectFromCode_ret E code PC s s' w pc' h
    exact hpc

/-- C23, at a concrete input: two boxed integers with the payload 5 at the
addresses 0 and 100; equality holds in one order, so in the other. -/
theorem equalIndirect_spec_witness :
    equalIndirect
      [(116, mkIndHdr 1 Tag.TAG_INTEGER), (108, Word.bits 5), (100, mkIndHdr 1 Tag.TAG_INTEGER),
       (16, mkIndHdr 1 Tag.TAG_INTEGER), (8, Word.bits 5), (0, mkIndHdr 1 Tag.TAG_INTEGER)]
      (consPtr 100 Storage.STG_GLOBAL Tag.TAG_INTEGER)
      (consPtr 0 Storage.STG_GLOBAL Tag.TAG_INTEGER) = true :=
  (equalIndirect_spec
    [(116, mkIndHdr 1 Tag.TAG_INTEGER), (108, Word.bits 5), (100, mkIndHdr 1 Tag.TAG_INTEGER),
     (16, mkIndHdr 1 Tag.TAG_INTEGER), (8, Word.bits 5), (0, mkIndHdr 1 Tag.TAG_INTEGER)]
    (fun _ => Word.var)
    (consPtr 0 Storage.STG_GLOBAL Tag.TAG_INTEGER)
    (consPtr 100 Storage.STG_GLOBAL Tag.TAG_INTEGER)
    (consPtr 0 Storage.STG_GLOBAL Tag.TAG_INTEGER) 0).2.2.1 (by decide)

/-! ### Growing the argument stack -/

theorem finalState_discard {α : Type} (o : Outcome α) : o.discard.finalState = o.finalState := by
  cases o <;> rfl

theorem outOfStackTerm_query (ctx : Word) (s : PL_local_data) :
    (outOfStackTerm ctx s).query = s.query := by
  obtain ⟨a1, _, _⟩ := pokeSeq_spec [FUNCTOR_error2,
    consPtr (gTop s + 3 * sizeofWord) Storage.STG_GLOBAL Tag.TAG_COMPOUND,
    ctx, FUNCTOR_resource_error1, ATOM_stack] s (gTop s)
  have hf := a1.fields.2.2.2.2.2.2.2.2.2.2
  unfold outOfStackTerm
  split
  · exact hf
  · rfl

theorem outOfStack_query (E : Ext) (stack : StackId) (how : stack_overflow_action)
    (s s' : PL_local_data) (h : (outOfStack E stack how s).finalState = some s') :
    s'.query = s.query := by
  obtain ⟨_, ctx, s4, hp, hs'⟩ := outOfStack_final_cases E stack how s s' h
  have p1 := (push_overflow_context_spec E _ 6 _ s4 ctx (by omega) hp).1
  rw [hs', outOfStackTerm_query, p1.fields.2.2.2.2.2.2.2.2.2.2,
    (outOfStackEnter_fields stack s).2.2.2.2.2.2.1]

theorem shiftPtr_of_le (a base newbase : Nat) (h : base ≤ a) :
    shiftPtr a ((newbase : Int) - (base : Int)) = newbase + (a - base) := by
  unfold shiftPtr
  omega

/-- C24: `pushArgumentStack(p)` on an argument stack with `base ≤ top` whose
query frames have their `aSave` at or above the base. When growth succeeds
(`nextStackSize` returns a size that is not 0 and `stack_realloc` returns a
block, both blocks being cell-aligned and the new one holding the old entries):
the call returns; base, top and the `aSave` of every query frame have moved by
the displacement of the block, so their offsets from the base are as they were;
`max` is the new base plus the new size; `p` is stored at the old top offset
and the top offset has grown by one cell; the old entries are unchanged; the
other regions are untouched; and `base ≤ top ≤ max` holds when the new size
exceeds the bytes in use by at least one cell. When growth fails the call is
`outOfStack` on the argument stack in the mode `THROW`, and if that comes back
the argument stack and the query frames are as they were. -/
theorem pushArgumentStack_spec (E : Ext) (X : StackExt) (p : Nat) (s : PL_local_data)
    (hwf : s.stackset.argument.base ≤ s.stackset.argument.top)
    (hq : ∀ qf ∈ s.query, s.stackset.argument.base ≤ qf.aSave) :
    (∀ (newbase : Nat) (m : Mem),
      X.nextStackSize s.stackset.argument 1 ≠ 0 →
      X.stack_realloc s s.stackset.argument.base (X.nextStackSize s.stackset.argument 1)
        = some (newbase, m) →
      s.stackset.argument.base % sizeofWord = 0 → newbase % sizeofWord = 0 →
      (∀ i, i * sizeofWord < s.stackset.argument.top - s.stackset.argument.base →
        readCell m (newbase + i * sizeofWord)
          = readCell s.mem (s.stackset.argument.base + i * sizeofWord)) →
      ∃ s', pushArgumentStack__LD E X p s = Outcome.ret () s' ∧
        s'.stackset.argument.base = newbase ∧
        s'.stackset.argument.top
          = newbase + (s.stackset.argument.top - s.stackset.argument.base) + sizeofWord ∧
        s'.stackset.argument.max = newbase + X.nextStackSize s.stackset.argument 1 ∧
        s'.query = s.query.map
          (fun qf => { qf with aSave := newbase + (qf.aSave - s.stackset.argument.base) }) ∧
        readCell s'.mem (newbase + (s.stackset.argument.top - s.stackset.argument.base))
          = Word.bits p ∧
        (∀ i, i * sizeofWord < s.stackset.argument.top - s.stackset.argument.base →
          readCell s'.mem (newbase + i * sizeofWord)
            = readCell s.mem (s.stackset.argument.base + i * sizeofWord)) ∧
        s'.stackset.local = s.stackset.local ∧ s'.stackset.global = s.stackset.global ∧
        s'.stackset.trail = s.stackset.trail ∧
        (s.stackset.argument.top - s.stackset.argument.base + sizeofWord
            ≤ X.nextStackSize s.stackset.argument 1 →
          s'.stackset.argument.wf)) ∧
    ((X.nextStackSize s.stackset.argument 1 = 0 ∨
        X.stack_realloc s s.stackset.argument.base (X.nextStackSize s.stackset.argument 1)
          = none) →
      pushArgumentStack__LD E X p s
        = (outOfStack E StackId.argument stack_overflow_action.STACK_OVERFLOW_THROW s).discard ∧
      ∀ s', (pushArgumentStack__LD E X p s).finalState = some s' →
        s'.stackset.argument = s.stackset.argument ∧ s'.query = s.query) := by
  constructor
  · intro newbase m hsz hre hab hnb hkeep
    have hdiv : ((newbase : Int) - (s.stackset.argument.base : Int)) / sizeofWord * sizeofWord
        = (newbase : Int) - (s.stackset.argument.base : Int) := by
      simp only [sizeofWord] at *
      omega
    have hread : ∀ (m0 : Mem) (t : Nat),
        t = newbase + (s.stackset.argument.top - s.stackset.argument.base) →
        (∀ i, i * sizeofWord < s.stackset.argument.top - s.stackset.argument.base →
          readCell ((t, Word.bits p) :: m) (newbase + i * sizeofWord)
            = readCell s.mem (s.stackset.argument.base + i * sizeofWord)) := by
      intro _ t ht i hi
      rw [readCell_tail _ _ _ _ (by rw [ht]; simp only [sizeofWord] at *; omega)]
      exact hkeep i hi
    unfold pushArgumentStack__LD
    rw [if_pos hsz, hre]
    by_cases has : ((newbase : Int) - (s.stackset.argument.base : Int)) / sizeofWord ≠ 0
    · simp only [if_pos has]
      have htop : shiftPtr s.stackset.argument.top
          (((newbase : Int) - (s.stackset.argument.base : Int)) / sizeofWord * sizeofWord)
          = newbase + (s.stackset.argument.top - s.stackset.argument.base) := by
        rw [hdiv]
        exact shiftPtr_of_le _ _ _ hwf
      refine ⟨_, rfl, rfl, ?_, rfl, ?_, ?_, ?_, rfl, rfl, rfl, ?_⟩
      · show shiftPtr s.stackset.argument.top _ + sizeofWord = _
        rw [htop]
      · show List.map _ s.query = List.map _ s.query
        apply List.map_congr_left
        intro qf hqf
        show ({ qf with aSave := shiftPtr qf.aSave _ } : QueryFrameData) = _
        rw [hdiv, shiftPtr_of_le _ _ _ (hq qf hqf)]
      · show readCell ((shiftPtr s.stackset.argument.top _, Word.bits p) :: m) _ = _
        rw [htop]
        exact readCell_head _ _ _
      · show ∀ i, _ → readCell ((shiftPtr s.stackset.argument.top _, Word.bits p) :: m) _ = _
        exact hread m _ htop
      · intro hroom
        show newbase ≤ shiftPtr s.stackset.argument.top _ + sizeofWord ∧
          shiftPtr s.stackset.argument.top _ + sizeofWord
            ≤ newbase + X.nextStackSize s.stackset.argument 1
        rw [htop]
        simp only [sizeofWord] at *
        omega
    · simp only [if_neg has]
      have hz : ((newbase : Int) - (s.stackset.argument.base : Int)) / sizeofWord = 0 :=
        not_not.1 has
      have hnb2 : newbase = s.stackset.argument.base := by
        rw [hz] at hdiv
        omega
      have htop : s.stackset.argument.top
          = newbase + (s.stackset.argument.top - s.stackset.argument.base) := by
        rw [hnb2]; omega
      refine ⟨_, rfl, hnb2.symm, ?_, rfl, ?_, ?_, ?_, rfl, rfl, rfl, ?_⟩
      · show s.stackset.argument.top + sizeofWord = _
        rw [← htop]
      · show s.query = List.map _ s.query
        conv_lhs => rw [← List.map_id s.query]
        apply List.map_congr_left
        intro qf hqf
        have := hq qf hqf
        show qf = ({ qf with aSave := _ } : QueryFrameData)
        have e : newbase + (qf.aSave - s.stackset.argument.base) = qf.aSave := by
          rw [hnb2]; omega
        rw [e]
      · show readCell ((s.stackset.argument.top, Word.bits p) :: m) _ = _
        rw [← htop]
        exact readCell_head _ _ _
      · show ∀ i, _ → readCell ((s.stackset.argument.top, Word.bits p) :: m) _ = _
        exact hread m _ htop
      · intro hroom
        show s.stackset.argument.base ≤ s.stackset.argument.top + sizeofWord ∧
          s.stackset.argument.top + sizeofWord
            ≤ newbase + X.nextStackSize s.stackset.argument 1
        simp only [sizeofWord] at *
        omega
  · intro hfail
    have heq : pushArgumentStack__LD E X p s
        = (outOfStack E StackId.argument
            stack_overflow_action.STACK_OVERFLOW_THROW s).discard := by
      unfold pushArgumentStack__LD
      rcases hfail with h0 | hn
      · rw [if_neg (not_not.2 h0)]
      · rw [hn]
        split <;> rfl
    refine ⟨heq, fun s' hs' => ?_⟩
    rw [heq, finalState_discard] at hs'
    refine ⟨?_, outOfStack_query E _ _ s s' hs'⟩
    rw [outOfStack_stackset E _ _ s s' hs']
    rfl

/-- C24, at a concrete input: a push on the full argument stack of
`exampleState`, which grows to 2000 bytes at address 40000; the saved argument
pointer of the query frame moves with the base. -/
theorem pushArgumentStack_spec_witness :
    ∃ s', pushArgumentStack__LD exampleExt exampleStackExt 4000 exampleState
        = Outcome.ret () s' ∧
      s'.stackset.argument.base = 40000 ∧
      s'.stackset.argument.top = 40000 + (30000 - 30000) + sizeofWord ∧
      s'.stackset.argument.max = 40000 + 2000 ∧
      s'.query = [⟨[], 40000⟩] ∧
      readCell s'.mem 40000 = Word.bits 4000 :=
  have h := (pushArgumentStack_spec exampleExt exampleStackExt 4000 exampleState
    (by decide) (by decide)).1 40000 [] (by decide) rfl (by decide) (by decide)
    (fun i hi => absurd hi (Nat.not_lt_zero (i * sizeofWord)))
  match h with
  | ⟨s', h1, h2, h3, h4, h5, h6, _⟩ => ⟨s', h1, h2, h3, h4, h5, h6⟩

/-! ### Heap allocation -/

/-- C25: a required allocation never yields `NULL`. In both allocator
strategies, for every `n > 0` and whatever the underlying allocator returns,
`allocHeapOrHalt(n)` returns the block when it is not `NULL` and otherwise
terminates the process through `outOfCore`, whose `fatalError` message is
"Could not allocate memory". `PL_malloc`, `PL_malloc_atomic`,
`PL_malloc_uncollectable`, `PL_malloc_atomic_uncollectable`,
`PL_malloc_unmanaged`, `PL_malloc_atomic_unmanaged` and `PL_realloc` do so for
every size: they return a block that is not `NULL` exactly when the underlying
allocator returned one, and otherwise terminate through `outOfCore`. -/
theorem required_allocation_never_null (debug flag : Bool) (r n mem : Nat) :
    (0 < n →
      ((BoehmGC.allocHeapOrHalt debug r n).returnsBlock = true ↔ r ≠ 0) ∧
      ((BoehmGC.allocHeapOrHalt debug r n).haltsOutOfCore = true ↔ r = 0) ∧
      (∀ ev, BoehmGC.allocHeapOrHalt debug r n ≠ HeapOutcome.ret 0 ev) ∧
      ((SystemMalloc.allocHeapOrHalt debug r n).returnsBlock = true ↔ r ≠ 0) ∧
      ((SystemMalloc.allocHeapOrHalt debug r n).haltsOutOfCore = true ↔ r = 0) ∧
      (∀ ev, SystemMalloc.allocHeapOrHalt debug r n ≠ HeapOutcome.ret 0 ev)) ∧
    (((PL_malloc r n).returnsBlock = true ↔ r ≠ 0) ∧
      ((PL_malloc r n).haltsOutOfCore = true ↔ r = 0)) ∧
    (((PL_malloc_atomic r n).returnsBlock = true ↔ r ≠ 0) ∧
      ((PL_malloc_atomic r n).haltsOutOfCore = true ↔ r = 0)) ∧
    (((PL_malloc_uncollectable r n).returnsBlock = true ↔ r ≠ 0) ∧
      ((PL_malloc_uncollectable r n).haltsOutOfCore = true ↔ r = 0)) ∧
    (((PL_malloc_atomic_uncollectable r n).returnsBlock = true ↔ r ≠ 0) ∧
      ((PL_malloc_atomic_uncollectable r n).haltsOutOfCore = true ↔ r = 0)) ∧
    (((PL_malloc_unmanaged flag r n).returnsBlock = true ↔ r ≠ 0) ∧
      ((PL_malloc_unmanaged flag r n).haltsOutOfCore = true ↔ r = 0)) ∧
    (((PL_malloc_atomic_unmanaged flag r n).returnsBlock = true ↔ r ≠ 0) ∧
      ((PL_malloc_atomic_unmanaged flag r n).haltsOutOfCore = true ↔ r = 0)) ∧
    (((PL_realloc r mem n).returnsBlock = true ↔ r ≠ 0) ∧
      ((PL_realloc r mem n).haltsOutOfCore = true ↔ r = 0)) := by
  have hlast : ∀ l : List HeapEvent,
      (l ++ outOfCore).getLast? = some (HeapEvent.fatalError "Could not allocate memory: %s") := by
    intro l
    simp [outOfCore]
  refine ⟨?_, ?_, ?_, ?_, ?_, ?_, ?_, ?_⟩
  · intro hn
    have hn0 : n ≠ 0 := by omega
    by_cases hr : r = 0
    · subst hr
      refine ⟨?_, ?_, ?_, ?_, ?_, ?_⟩
      · simp [BoehmGC.allocHeapOrHalt, BoehmGC.allocHeap, HeapOutcome.returnsBlock]
      · simp only [BoehmGC.allocHeapOrHalt, BoehmGC.allocHeap, if_true,
          HeapOutcome.haltsOutOfCore, hlast, decide_True]
      · intro ev
        simp [BoehmGC.allocHeapOrHalt, BoehmGC.allocHeap]
      · simp [SystemMalloc.allocHeapOrHalt, SystemMalloc.allocHeap, HeapOutcome.returnsBlock, hn0]
      · simp only [SystemMalloc.allocHeapOrHalt, SystemMalloc.allocHeap, if_true, if_pos hn0,
          HeapOutcome.haltsOutOfCore, hlast, decide_True]
      · intro ev
        simp [SystemMalloc.allocHeapOrHalt, SystemMalloc.allocHeap, hn0]
    · refine ⟨?_, ?_, ?_, ?_, ?_, ?_⟩
      · simp [BoehmGC.allocHeapOrHalt, BoehmGC.allocHeap, HeapOutcome.returnsBlock, hr]
      · simp [BoehmGC.allocHeapOrHalt, BoehmGC.allocHeap, HeapOutcome.haltsOutOfCore, hr]
      · intro ev
        simp [BoehmGC.allocHeapOrHalt, BoehmGC.allocHeap, hr]
      · simp [SystemMalloc.allocHeapOrHalt, SystemMalloc.allocHeap, HeapOutcome.returnsBlock,
          hr, hn0]
      · simp [SystemMalloc.allocHeapOrHalt, SystemMalloc.allocHeap, HeapOutcome.haltsOutOfCore,
          hr, hn0]
      · intro ev
        simp [SystemMalloc.allocHeapOrHalt, SystemMalloc.allocHeap, hr, hn0]
  all_goals
    by_cases hr : r = 0
    · subst hr
      constructor
      · simp [PL_malloc, PL_malloc_atomic, PL_malloc_uncollectable,
          PL_malloc_atomic_uncollectable, PL_malloc_unmanaged, PL_malloc_atomic_unmanaged,
          PL_realloc, HeapOutcome.returnsBlock]
      · simp only [PL_malloc, PL_malloc_atomic, PL_malloc_uncollectable,
          PL_malloc_atomic_uncollectable, PL_malloc_unmanaged, PL_malloc_atomic_unmanaged,
          PL_realloc, ne_eq, not_true_eq_false, if_false, if_true,
          HeapOutcome.haltsOutOfCore, hlast, decide_True]
    · constructor
      · simp [PL_malloc, PL_malloc_atomic, PL_malloc_uncollectable,
          PL_malloc_atomic_uncollectable, PL_malloc_unmanaged, PL_malloc_atomic_unmanaged,
          PL_realloc, HeapOutcome.returnsBlock, hr]
      · simp [PL_malloc, PL_malloc_atomic, PL_malloc_uncollectable,
          PL_malloc_atomic_uncollectable, PL_malloc_unmanaged, PL_malloc_atomic_unmanaged,
          PL_realloc, HeapOutcome.haltsOutOfCore, hr]

/-- C25, at a concrete input: a request of 16 bytes for which the underlying
allocator returns `NULL`. -/
theorem required_allocation_never_null_witness :
    (SystemMalloc.allocHeapOrHalt false 0 16).haltsOutOfCore = true ∧
    (BoehmGC.allocHeapOrHalt false 0 16).haltsOutOfCore = true :=
  have h := (required_allocation_never_null false false 0 16 0).1 (by decide)
  ⟨h.2.2.2.2.1.2 rfl, h.2.1.2 rfl⟩

/-- C26 fails as stated: the two strategies differ on a request of 0 bytes.
`allocHeapOrHalt(0)` of the Boehm-GC strategy calls the allocator and returns
its block, or halts when that is `NULL`; the system-malloc one makes no call
and returns `NULL`. -/
theorem allocator_strategies_counterexample :
    BoehmGC.allocHeapOrHalt false 4096 0 = HeapOutcome.ret 4096 [HeapEvent.allocate 0] ∧
    SystemMalloc.allocHeapOrHalt false 4096 0 = HeapOutcome.ret 0 [] ∧
    (BoehmGC.allocHeapOrHalt false 0 0).haltsOutOfCore = true ∧
    SystemMalloc.allocHeapOrHalt false 0 0 = HeapOutcome.ret 0 [] := by
  decide

/-- C26 (amended): the two strategies agree on `allocHeap` for every size and
every outcome of the underlying allocator, on `allocHeapOrHalt` for every size
that is not 0, and on `freeHeap` for every block that is not `NULL`, and for
`NULL` too outside debug builds: same block returned, same decision to halt,
same calls of the underlying allocator and the same poisoning. For the size 0
`allocHeapOrHalt` of the system-malloc strategy returns `NULL` and makes no
call, where the one of the Boehm-GC strategy is `allocHeap` followed by the
test for `NULL`. -/
theorem allocator_strategies_agree (debug : Bool) (r n mem : Nat) :
    BoehmGC.allocHeap debug r n = SystemMalloc.allocHeap debug r n ∧
    (n ≠ 0 → BoehmGC.allocHeapOrHalt debug r n = SystemMalloc.allocHeapOrHalt debug r n) ∧
    (mem ≠ 0 ∨ debug = false →
      BoehmGC.freeHeap debug mem n = SystemMalloc.freeHeap debug mem n) ∧
    SystemMalloc.allocHeapOrHalt debug r 0 = HeapOutcome.ret 0 [] ∧
    (BoehmGC.allocHeapOrHalt debug r 0 = HeapOutcome.ret 0 [] → False) := by
  refine ⟨rfl, fun hn => ?_, fun h => ?_, ?_, ?_⟩
  · unfold BoehmGC.allocHeapOrHalt SystemMalloc.allocHeapOrHalt
    rw [if_pos hn]
    rfl
  · unfold BoehmGC.freeHeap SystemMalloc.freeHeap
    rcases h with h | h
    · cases debug <;> simp [h]
    · subst h
      simp
  · unfold SystemMalloc.allocHeapOrHalt
    simp
  · intro h
    unfold BoehmGC.allocHeapOrHalt at h
    by_cases hr : (BoehmGC.allocHeap debug r 0).1 = 0
    · rw [if_pos hr] at h
      cases h
    · rw [if_neg hr] at h
      simp only [HeapOutcome.ret.injEq] at h
      exact hr h.1

/-- The amended C26 at a concrete input: a request of 16 bytes and the release
of the block at 4096 in a debug build. -/
theorem allocator_strategies_agree_witness :
    BoehmGC.allocHeapOrHalt true 4096 16 = SystemMalloc.allocHeapOrHalt true 4096 16 ∧
    BoehmGC.freeHeap true 4096 16 = SystemMalloc.freeHeap true 4096 16 :=
  have h := allocator_strategies_agree true 4096 16 4096
  ⟨h.2.1 (by decide), h.2.2.1 (Or.inl (by decide))⟩

/-- In a debug build `freeHeap(NULL, 8)` of the system-malloc strategy makes
its `memset` through the null pointer and does not reach `free`; the one of
the Boehm-GC strategy skips the `memset` and calls `GC_FREE`. -/
theorem freeHeap_null_debug :
    SystemMalloc.freeHeap true 0 8 = FreeOutcome.fault [HeapEvent.memset 0 ALLOC_FREE_MAGIC 8] ∧
    BoehmGC.freeHeap true 0 8 = FreeOutcome.done [HeapEvent.release 0] := by
  decide

/-! ### The debugging list -/

theorem GCLingerChain.sameRecords {h h' : GCLingerHeap} :
    ∀ (objs : List Nat) (a : Nat),
      (∀ x, h.recs x ≠ none → h'.recs x = h.recs x) → GCLingerChain h a objs →
      GCLingerChain h' a objs
  | [], _, _, hc => hc
  | o :: rest, a, hr, hc => by
    obtain ⟨hne, r, hrec, ho, hrest⟩ := hc
    refine ⟨hne, r, ?_, ho, GCLingerChain.sameRecords rest r.next hr hrest⟩
    rw [hr a (by rw [hrec]; simp)]
    exact hrec

/-- C27 (divergence): `GC_linger(ptr)` with a fresh block `l` leaves
`GC_lingering` as it was, and the list reached from it holds exactly the
objects it held before the call: the new record, whose object is `ptr`, is not
linked in. -/
theorem GC_linger_drops_record (l ptr : Nat) (h : GCLingerHeap) (objs : List Nat)
    (hfresh : h.recs l = none) (hc : GCLingerChain h h.GC_lingering objs) :
    (GC_linger l ptr h).GC_lingering = h.GC_lingering ∧
    GCLingerChain (GC_linger l ptr h) (GC_linger l ptr h).GC_lingering objs ∧
    (GC_linger l ptr h).recs l = some ⟨h.GC_lingering, ptr⟩ := by
  have hhead : (GC_linger l ptr h).GC_lingering = h.GC_lingering := by
    simp [GC_linger]
  refine ⟨hhead, ?_, ?_⟩
  · rw [hhead]
    apply GCLingerChain.sameRecords objs _ _ hc
    intro x hx
    have hxl : x ≠ l := by
      intro e
      rw [e] at hx
      exact hx hfresh
    simp [GC_linger, hxl]
  · simp [GC_linger]

/-- C27, at a concrete input: the empty list and the object at address 42; the
list is still empty after the call. -/
theorem GC_linger_drops_record_witness :
    (GC_linger 8 42 emptyGCLingerHeap).GC_lingering = 0 ∧
    GCLingerChain (GC_linger 8 42 emptyGCLingerHeap)
      (GC_linger 8 42 emptyGCLingerHeap).GC_lingering [] :=
  have h := GC_linger_drops_record 8 42 emptyGCLingerHeap [] rfl rfl
  ⟨h.1, h.2.1⟩

/-! ### The count of choice points -/

theorem choicePointsLoop_no_query :
    ∀ (fuel : Nat) (c : ChoicePoint) (cs : Choice) (count : Int),
      choicePointsLoop fuel (c :: cs) [] count = none
  | 0, _, _, _ => rfl
  | fuel + 1, c, [], count => by
    simp only [choicePointsLoop]
    exact choicePointsLoop_no_query fuel c [] (count + 1)
  | fuel + 1, _, p :: rest, count => by
    simp only [choicePointsLoop]
    exact choicePointsLoop_no_query fuel p rest (count + 1)

theorem choicePointsLoop_spec :
    ∀ (query : QueryFrame) (chp : Choice),
      (countChoicePoints chp query = none →
        ∀ (fuel : Nat) (count : Int), choicePointsLoop fuel chp query count = none) ∧
      (∀ k, countChoicePoints chp query = some k →
        ∀ (fuel : Nat) (count : Int), k < fuel →
          choicePointsLoop fuel chp query count = some (count + k))
  | [], [] => by
    refine ⟨fun h => by simp [countChoicePoints] at h, fun k hk fuel count hf => ?_⟩
    simp only [countChoicePoints, Option.some.injEq] at hk
    subst hk
    obtain ⟨f, rfl⟩ : ∃ f, fuel = f + 1 := ⟨fuel - 1, by omega⟩
    simp [choicePointsLoop]
  | [], c :: cs => by
    refine ⟨fun _ fuel count => choicePointsLoop_no_query fuel c cs count, fun k hk => ?_⟩
    simp [countChoicePoints] at hk
  | q :: qs, [] => by
    refine ⟨fun h => by simp [countChoicePoints] at h, fun k hk fuel count hf => ?_⟩
    simp only [countChoicePoints, Option.some.injEq] at hk
    subst hk
    obtain ⟨f, rfl⟩ : ∃ f, fuel = f + 1 := ⟨fuel - 1, by omega⟩
    simp [choicePointsLoop]
  | q :: qs, c :: cs => by
    obtain ⟨o1, o2⟩ := choicePointsLoop_spec qs q.saved_bfr
    induction cs generalizing c with
    | nil =>
      constructor
      · intro h fuel count
        cases fuel with
        | zero => rfl
        | succ f =>
          simp only [choicePointsLoop]
          apply o1
          simp only [countChoicePoints, Option.map_eq_none'] at h
          exact h
      · intro k hk fuel count hf
        simp only [countChoicePoints, List.length_nil, Option.map_eq_some'] at hk
        obtain ⟨k', hk', e⟩ := hk
        obtain ⟨f, rfl⟩ : ∃ f, fuel = f + 1 := ⟨fuel - 1, by omega⟩
        simp only [choicePointsLoop]
        rw [o2 k' hk' f (count + 1) (by omega)]
        congr 1
        omega
    | cons p rest ih =>
      obtain ⟨i1, i2⟩ := ih p
      constructor
      · intro h fuel count
        cases fuel with
        | zero => rfl
        | succ f =>
          simp only [choicePointsLoop]
          apply i1
          simp only [countChoicePoints, Option.map_eq_none'] at h ⊢
          exact h
      · intro k hk fuel count hf
        simp only [countChoicePoints, List.length_cons, Option.map_eq_some'] at hk
        obtain ⟨k', hk', e⟩ := hk
        obtain ⟨f, rfl⟩ : ∃ f, fuel = f + 1 := ⟨fuel - 1, by omega⟩
        simp only [choicePointsLoop]
        rw [i2 (k' + (rest.length + 1))
          (by simp only [countChoicePoints, Option.map_eq_some']; exact ⟨k', hk', rfl⟩)
          f (count + 1) (by omega)]
        congr 1
        omega

theorem countChoicePoints_le :
    ∀ (query : QueryFrame) (chp : Choice) (k : Nat), countChoicePoints chp query = some k →
      k ≤ chp.length + (query.map (fun q => q.saved_bfr.length)).sum
  | _, [], k, h => by
    simp only [countChoicePoints, Option.some.injEq] at h
    omega
  | [], _ :: _, k, h => by simp [countChoicePoints] at h
  | q :: qs, c :: cs, k, h => by
    simp only [countChoicePoints, Option.map_eq_some'] at h
    obtain ⟨k', hk', e⟩ := h
    have := countChoicePoints_le qs q.saved_bfr k' hk'
    simp only [List.length_cons, List.map_cons, List.sum_cons]
    omega

/-- C28 fails as stated: for one choice point without parent in the state with
no active query frame, `choice_points` does not end: no number of passes of
the loop gives a result. -/
theorem choice_points_counterexample :
    choice_points [⟨1⟩] [] = none ∧
    ∀ (fuel : Nat) (count : Int), choicePointsLoop fuel [⟨1⟩] [] count = none :=
  ⟨by decide, fun fuel count => choicePointsLoop_no_query fuel ⟨1⟩ [] count⟩

/-- C28 (amended): `choice_points(chp)` ends and returns the count of the
choice points on its walk (those reached through the parent links and, at the
bottom of each chain, on from the saved choice point of the next enclosing
query frame) exactly when every chain that is not empty ends while a query
frame is left; it returns 0 for no choice point. When a chain that is not
empty ends with no query frame left, as for any choice point in the state with
no active query frame, no number of passes ends the loop. -/
theorem choice_points_counts (chp : Choice) (query : QueryFrame) :
    choice_points chp query = (countChoicePoints chp query).map (fun k => (k : Int)) ∧
    (∀ k, countChoicePoints chp query = some k → choice_points chp query = some (k : Int)) ∧
    choice_points [] query = some 0 ∧
    (countChoicePoints chp query = none →
      ∀ (fuel : Nat) (count : Int), choicePointsLoop fuel chp query count = none) ∧
    (chp ≠ [] → ∀ (fuel : Nat) (count : Int), choicePointsLoop fuel chp [] count = none) ∧
    (∀ (c : ChoicePoint) (cs : Choice) (q : QueryFrameData) (qs : QueryFrame),
      countChoicePoints (c :: cs) (q :: qs)
        = (countChoicePoints q.saved_bfr qs).map (fun k => k + (cs.length + 1))) := by
  obtain ⟨h1, h2⟩ := choicePointsLoop_spec query chp
  have hmain : choice_points chp query
      = (countChoicePoints chp query).map (fun k => (k : Int)) := by
    unfold choice_points
    cases hc : countChoicePoints chp query with
    | none => rw [h1 hc]; rfl
    | some k =>
      have := countChoicePoints_le query chp k hc
      rw [h2 k hc _ 0 (by omega)]
      simp
  refine ⟨hmain, ?_, ?_, h1, ?_, fun _ _ _ _ => rfl⟩
  · intro k hk
    rw [hmain, hk]
    rfl
  · unfold choice_points
    simp [choicePointsLoop]
  · intro hne fuel count
    cases chp with
    | nil => exact absurd rfl hne
    | cons c cs => exact choicePointsLoop_no_query fuel c cs count

/-- The amended C28 at a concrete input: the two choice points of
`exampleState`, whose chain ends in its one query frame. -/
theorem choice_points_counts_witness :
    countChoicePoints exampleState.BFR exampleState.query = some 2 ∧
    choice_points exampleState.BFR exampleState.query = some 2 :=
  ⟨by decide,
    (choice_points_counts exampleState.BFR exampleState.query).2.1 2 (by decide)⟩

/-! ### The canonical form of a string block -/

theorem eq_of_bytes (n n' : Nat) (h : n < 2 ^ 64) (h' : n' < 2 ^ 64)
    (hb : ∀ k, k < 8 → byteOf n k = byteOf n' k) : n = n' := by
  have b0 := hb 0 (by omega)
  have b1 := hb 1 (by omega)
  have b2 := hb 2 (by omega)
  have b3 := hb 3 (by omega)
  have b4 := hb 4 (by omega)
  have b5 := hb 5 (by omega)
  have b6 := hb 6 (by omega)
  have b7 := hb 7 (by omega)
  unfold byteOf at b0 b1 b2 b3 b4 b5 b6 b7
  norm_num at h h' b0 b1 b2 b3 b4 b5 b6 b7
  omega

theorem readCell_writeByte_bits (m : Mem) (a b x : Nat)
    (h : (∃ n, readCell m x = Word.bits n) ∨ x = a - a % sizeofWord) :
    ∃ n, readCell (writeByte m a b) x = Word.bits n := by
  by_cases hx : x = a - a % sizeofWord
  · subst hx
    exact ⟨_, readCell_head _ _ _⟩
  · rw [readCell_writeByte _ _ _ _ hx]
    rcases h with h | h
    · exact h
    · exact absurd h hx

theorem readCell_memcpy_bits (bs : List Nat) :
    ∀ (dst : Nat) (m : Mem) (x : Nat),
      ((∃ n, readCell m x = Word.bits n) ∨
        ∃ a, dst ≤ a ∧ a < dst + bs.length ∧ x = a - a % sizeofWord) →
      ∃ n, readCell (memcpy m dst bs) x = Word.bits n := by
  induction bs with
  | nil =>
    intro dst m x h
    rcases h with h | ⟨a, h1, h2, _⟩
    · exact h
    · simp at h2
      omega
  | cons b bs ih =>
    intro dst m x h
    simp only [memcpy]
    apply ih
    rcases h with h | ⟨a, h1, h2, h3⟩
    · exact Or.inl (readCell_writeByte_bits m dst b x (Or.inl h))
    · by_cases ha : a = dst
      · subst ha
        exact Or.inl (readCell_writeByte_bits m a b x (Or.inr h3))
      · simp only [List.length_cons] at h2
        exact Or.inr ⟨a, by omega, by omega, h3⟩

/-- The byte at offset `k` of an aligned cell, read through a byte pointer. -/
theorem readByte_cell (m : Mem) (x k : Nat) (hx : x % sizeofWord = 0) (hk : k < sizeofWord) :
    readByte m (x + k) = byteOf (wordBits (readCell m x)) k := by
  unfold readByte
  have e1 : (x + k) % sizeofWord = k := by simp only [sizeofWord] at *; omega
  have e2 : x + k - (x + k) % sizeofWord = x := by rw [e1]; omega
  rw [e2, e1]

/-- The bytes of a payload that is copied to a block whose last payload cell
is zero: the content, then zero up to the end of the last payload cell. -/
theorem block_bytes (A : Mem) (q : Nat) (content : List Nat) (hq : q % sizeofWord = 0)
    (hz : readCell A (q + (content.length / sizeofWord + 1) * sizeofWord) = Word.bits 0)
    (hlt : ∀ b ∈ content, b < 256) :
    ∀ t, t < (content.length / sizeofWord + 1) * sizeofWord →
      readByte (memcpy A (q + sizeofWord) content) (q + sizeofWord + t) = content.getD t 0 := by
  intro t ht
  by_cases hin : t < content.length
  · rw [memcpy_readByte_inside content _ _ t hin, List.getD_eq_getElem _ _ hin]
    exact Nat.mod_eq_of_lt (hlt _ (List.getElem_mem _))
  · rw [memcpy_readByte_outside _ _ _ _ (Or.inr (by omega)),
      List.getD_eq_default _ _ (by omega)]
    apply readByte_zero_cell
    have ha : (q + sizeofWord + t) - (q + sizeofWord + t) % sizeofWord
        = q + (content.length / sizeofWord + 1) * sizeofWord := by
      simp only [sizeofWord] at *
      omega
    rw [ha]
    exact hz

theorem stringBlock_of_bytes (M : Mem) (p : Nat) (content : List Nat) (hp : p % sizeofWord = 0)
    (hh : readCell M p
      = mkStrHdr (content.length / sizeofWord + 1)
          ((content.length / sizeofWord + 1) * sizeofWord - content.length))
    (hform : ∀ j, j < content.length / sizeofWord + 1 →
      ∃ n, readCell M (p + (j + 1) * sizeofWord) = Word.bits n)
    (hbits : ∀ j, j < content.length / sizeofWord + 1 →
      wordBits (readCell M (p + (j + 1) * sizeofWord)) < 2 ^ 64)
    (hbytes : ∀ t, t < (content.length / sizeofWord + 1) * sizeofWord →
      readByte M (p + sizeofWord + t) = content.getD t 0) :
    StringBlock M p content := by
  refine ⟨hh, fun j hj => ?_⟩
  obtain ⟨n, hn⟩ := hform j hj
  have hb := hbits j hj
  rw [hn] at hb
  refine ⟨n, hn, hb, fun k hk => ?_⟩
  have hx : (p + (j + 1) * sizeofWord) % sizeofWord = 0 := by
    simp only [sizeofWord] at *; omega
  have := readByte_cell M (p + (j + 1) * sizeofWord) k hx hk
  rw [hn] at this
  have e : p + (j + 1) * sizeofWord + k = p + sizeofWord + (j * sizeofWord + k) := by
    simp only [sizeofWord]; omega
  rw [e, hbytes _ (by simp only [sizeofWord] at *; omega)] at this
  exact this.symm

/-- The narrow form: after the block of `allocString` the marker and the bytes
are stored one after the other from the first payload byte on. -/
theorem narrow_block (A : Mem) (p : Nat) (content : List Nat) (hp : p % sizeofWord = 0)
    (hh : readCell A p
      = mkStrHdr (content.length / sizeofWord + 1)
          ((content.length / sizeofWord + 1) * sizeofWord - content.length))
    (hz : readCell A (p + (content.length / sizeofWord + 1) * sizeofWord) = Word.bits 0)
    (hlt : ∀ b ∈ content, b < 256)
    (hbits : ∀ j, j < content.length / sizeofWord + 1 →
      wordBits (readCell (memcpy A (p + sizeofWord) content) (p + (j + 1) * sizeofWord))
        < 2 ^ 64) :
    StringBlock (memcpy A (p + sizeofWord) content) p content := by
  apply stringBlock_of_bytes _ _ _ hp _ _ hbits (block_bytes A p content hp hz hlt)
  · rw [memcpy_readCell]
    · exact hh
    · intro a h1 _
      have := cell_of_byte_ge (p + sizeofWord) a (by simp only [sizeofWord] at *; omega) h1
      simp only [sizeofWord] at *; omega
  · intro j hj
    apply readCell_memcpy_bits
    by_cases hc : j * sizeofWord < content.length
    · refine Or.inr ⟨p + sizeofWord + j * sizeofWord, by omega, by omega, ?_⟩
      simp only [sizeofWord] at *; omega
    · left
      have hj2 : j = content.length / sizeofWord := by
        simp only [sizeofWord] at *; omega
      rw [hj2]
      exact ⟨0, hz⟩

/-- The wide form: after the block of `allocString`, `w[0] = 0`, the marker
and the code points leave the same bytes as storing the marker, three zero
bytes and the bytes of the code points one after the other. -/
theorem wide_block (A : Mem) (p : Nat) (wb : List Nat) (hp : p % sizeofWord = 0)
    (hh : readCell A p
      = mkStrHdr ((wb.length + 4) / sizeofWord + 1)
          (((wb.length + 4) / sizeofWord + 1) * sizeofWord - (wb.length + 4)))
    (hz : readCell A (p + ((wb.length + 4) / sizeofWord + 1) * sizeofWord) = Word.bits 0)
    (hlt : ∀ b ∈ wb, b < 256)
    (hbits : ∀ j, j < (wb.length + 4) / sizeofWord + 1 →
      wordBits (readCell
        (memcpy (writeByte (memcpy A (p + sizeofWord) (wcharBytes 0)) (p + sizeofWord) 87)
          (p + sizeofWord + sizeofWChar) wb) (p + (j + 1) * sizeofWord)) < 2 ^ 64) :
    StringBlock
      (memcpy (writeByte (memcpy A (p + sizeofWord) (wcharBytes 0)) (p + sizeofWord) 87)
        (p + sizeofWord + sizeofWChar) wb) p (87 :: 0 :: 0 :: 0 :: wb) := by
  have hlen : (87 :: 0 :: 0 :: 0 :: wb).length = wb.length + 4 := by simp
  apply stringBlock_of_bytes _ _ _ hp
  · rw [hlen, memcpy_readCell, readCell_writeByte, memcpy_readCell]
    · exact hh
    · intro a h1 _
      have := cell_of_byte_ge (p + sizeofWord) a (by simp only [sizeofWord] at *; omega) h1
      simp only [sizeofWord] at *; omega
    · simp only [sizeofWord] at *; omega
    · intro a h1 _
      have := cell_of_byte_ge (p + sizeofWord) a (by simp only [sizeofWord] at *; omega)
        (by simp only [sizeofWChar] at *; omega)
      simp only [sizeofWord] at *; omega
  · intro j hj
    rw [hlen] at hj
    apply readCell_memcpy_bits
    by_cases h0 : j = 0
    · subst h0
      left
      apply readCell_writeByte_bits
      right
      simp only [sizeofWord] at *; omega
    · by_cases hc : j * sizeofWord < wb.length + 4
      · refine Or.inr ⟨p + sizeofWord + j * sizeofWord, ?_, ?_, ?_⟩
        · simp only [sizeofWord, sizeofWChar] at *; omega
        · simp only [sizeofWord, sizeofWChar] at *; omega
        · simp only [sizeofWord] at *; omega
      · left
        apply readCell_writeByte_bits
        left
        apply readCell_memcpy_bits
        left
        have hj2 : j = (wb.length + 4) / sizeofWord := by
          simp only [sizeofWord] at *; omega
        rw [hj2]
        exact ⟨0, hz⟩
  · intro j hj
    rw [hlen] at hj
    exact hbits j hj
  · intro t ht
    rw [hlen] at ht
    by_cases h0 : t = 0
    · subst h0
      rw [memcpy_readByte_outside _ _ _ _ (Or.inl (by simp only [sizeofWChar]; omega))]
      exact readByte_writeByte_self _ _ _
    · by_cases h4 : t < 4
      · rw [memcpy_readByte_outside _ _ _ _ (Or.inl (by simp only [sizeofWChar]; omega)),
          readByte_writeByte_other _ _ _ _ (by omega),
          memcpy_readByte_inside (wcharBytes 0) _ _ t (by simp only [wcharBytes_length]; omega)]
        interval_cases t
        · exact absurd rfl h0
        · rfl
        · rfl
        · rfl
      · by_cases hin : t < wb.length + 4
        · have e : p + sizeofWord + t = p + sizeofWord + sizeofWChar + (t - 4) := by
            simp only [sizeofWChar]; omega
          rw [e, memcpy_readByte_inside wb _ _ (t - 4) (by omega),
            List.getD_eq_getElem _ _ (by omega)]
          have e2 : (87 :: 0 :: 0 :: 0 :: wb).getD t 0 = wb.getD (t - 4) 0 := by
            obtain ⟨u, rfl⟩ : ∃ u, t = u + 4 := ⟨t - 4, by omega⟩
            simp
          rw [e2, List.getD_eq_getElem _ _ (by omega)]
          exact Nat.mod_eq_of_lt (hlt _ (List.getElem_mem _))
        · rw [memcpy_readByte_outside _ _ _ _
              (Or.inr (by simp only [sizeofWChar]; omega)),
            readByte_writeByte_other _ _ _ _ (by omega),
            memcpy_readByte_outside _ _ _ _
              (Or.inr (by simp only [wcharBytes_length]; omega)),
            List.getD_eq_default _ _ (by rw [hlen]; omega)]
          apply readByte_zero_cell
          have ha : (p + sizeofWord + t) - (p + sizeofWord + t) % sizeofWord
              = p + ((wb.length + 4) / sizeofWord + 1) * sizeofWord := by
            simp only [sizeofWord] at *
            omega
          rw [ha]
          exact hz

/-- Two string blocks in one memory are equal under `equalIndirect` exactly
when they hold the same payload bytes. -/
theorem stringBlock_equal (m : Mem) (p1 p2 : Nat) (c1 c2 : List Nat)
    (h1 : StringBlock m p1 c1) (h2 : StringBlock m p2 c2) :
    equalIndirect m (consPtr p1 Storage.STG_GLOBAL Tag.TAG_STRING)
      (consPtr p2 Storage.STG_GLOBAL Tag.TAG_STRING) = true ↔ c1 = c2 := by
  obtain ⟨hh1, hc1⟩ := h1
  obtain ⟨hh2, hc2⟩ := h2
  rw [equalIndirect_iff]
  show (readCell m p1 = readCell m p2 ∧
    ∀ i, 1 ≤ i → i ≤ wsizeofInd (readCell m p1) →
      readCell m (p1 + i * sizeofWord) = readCell m (p2 + i * sizeofWord)) ↔ c1 = c2
  constructor
  · rintro ⟨hhdr, hcells⟩
    rw [hh1] at hcells
    rw [hh1, hh2] at hhdr
    simp only [mkStrHdr, Word.hdr.injEq, and_true] at hhdr
    obtain ⟨hlw, hpad⟩ := hhdr
    have hlen : c1.length = c2.length := by
      simp only [sizeofWord] at *
      omega
    apply List.ext_getElem hlen
    intro t ht1 ht2
    have hj : t / sizeofWord < c1.length / sizeofWord + 1 := by
      simp only [sizeofWord] at *; omega
    obtain ⟨n1, r1, _, b1⟩ := hc1 (t / sizeofWord) hj
    obtain ⟨n2, r2, _, b2⟩ := hc2 (t / sizeofWord) (by rw [← hlw]; exact hj)
    have hcell := hcells (t / sizeofWord + 1) (Nat.le_add_left 1 _) (by
      show t / sizeofWord + 1 ≤ c1.length / sizeofWord + 1
      exact Nat.succ_le_of_lt hj)
    rw [r1, r2] at hcell
    have hn : n1 = n2 := by
      simp only [Word.bits.injEq] at hcell
      exact hcell
    have hk : t % sizeofWord < sizeofWord := Nat.mod_lt _ (by norm_num)
    have e1 := b1 (t % sizeofWord) hk
    have e2 := b2 (t % sizeofWord) hk
    have et : t / sizeofWord * sizeofWord + t % sizeofWord = t := by
      simp only [sizeofWord]; omega
    rw [et] at e1 e2
    rw [List.getD_eq_getElem _ _ ht1] at e1
    rw [List.getD_eq_getElem _ _ ht2] at e2
    rw [← e1, ← e2, hn]
  · intro hc
    subst hc
    refine ⟨by rw [hh1, hh2], fun i hi1 hi2 => ?_⟩
    rw [hh1] at hi2
    have hi3 : i - 1 < c1.length / sizeofWord + 1 := by
      have : i ≤ c1.length / sizeofWord + 1 := hi2
      omega
    obtain ⟨n1, r1, v1, b1⟩ := hc1 (i - 1) hi3
    obtain ⟨n2, r2, v2, b2⟩ := hc2 (i - 1) hi3
    have e : i - 1 + 1 = i := by omega
    rw [e] at r1 r2
    rw [r1, r2]
    congr 1
    apply eq_of_bytes n1 n2 v1 v2
    intro k hk
    rw [b1 k hk, b2 k hk]

theorem textContent_narrow (len : Nat) (s : Nat → Nat) (h : ∀ j, j < len → s j ≤ 0xff) :
    textContent len s = 66 :: (List.range len).map s := by
  unfold textContent
  rw [if_pos (((wideScan_eq_len_iff s len).2 (fun j hj => by have := h j hj; omega)).2 h)]
  congr 1
  apply List.map_congr_left
  intro i hi
  have := h i (List.mem_range.1 hi)
  omega

theorem textContent_wide (len : Nat) (s : Nat → Nat) (hcp : ∀ j, j < len → s j < 2 ^ 31)
    (h : ¬ ∀ j, j < len → s j ≤ 0xff) :
    textContent len s = 87 :: 0 :: 0 :: 0 :: (((List.range len).map s).map wcharBytes).flatten := by
  unfold textContent
  rw [if_neg (fun hc => h (((wideScan_eq_len_iff s len).2 hcp).1 hc)), List.map_map]
  rfl

/-- Texts with the same payload bytes are the same text. -/
theorem textContent_inj (len1 len2 : Nat) (s1 s2 : Nat → Nat)
    (hcp1 : ∀ i, i < len1 → s1 i < 2 ^ 31) (hcp2 : ∀ i, i < len2 → s2 i < 2 ^ 31) :
    textContent len1 s1 = textContent len2 s2 ↔
      len1 = len2 ∧ ∀ i, i < len1 → s1 i = s2 i := by
  constructor
  · intro h
    by_cases n1 : ∀ j, j < len1 → s1 j ≤ 0xff
    · by_cases n2 : ∀ j, j < len2 → s2 j ≤ 0xff
      · rw [textContent_narrow len1 s1 n1, textContent_narrow len2 s2 n2] at h
        simp only [List.cons.injEq, true_and] at h
        have hlen : len1 = len2 := by
          have := congrArg List.length h
          simpa using this
        subst hlen
        refine ⟨rfl, fun i hi => ?_⟩
        have := congrArg (fun l => l.getD i 0) h
        simp only [List.getD_eq_getElem?_getD, List.getElem?_map, List.getElem?_range hi,
          Option.map_some', Option.getD_some] at this
        exact this
      · rw [textContent_narrow len1 s1 n1, textContent_wide len2 s2 hcp2 n2] at h
        simp at h
    · by_cases n2 : ∀ j, j < len2 → s2 j ≤ 0xff
      · rw [textContent_wide len1 s1 hcp1 n1, textContent_narrow len2 s2 n2] at h
        simp at h
      · rw [textContent_wide len1 s1 hcp1 n1, textContent_wide len2 s2 hcp2 n2] at h
        simp only [List.cons.injEq, true_and] at h
        have hlen : len1 = len2 := by
          have := congrArg List.length h
          rw [flatten_wcharBytes_length, flatten_wcharBytes_length, List.length_map,
            List.length_map, List.length_range, List.length_range] at this
          omega
        subst hlen
        refine ⟨rfl, fun i hi => ?_⟩
        have r1 := readWChar_memcpy_array ((List.range len1).map s1) 0 [] i (by simpa using hi)
        have r2 := readWChar_memcpy_array ((List.range len1).map s2) 0 [] i (by simpa using hi)
        rw [h] at r1
        rw [r1] at r2
        rw [List.getD_eq_getElem _ _ (by simpa using hi),
          List.getD_eq_getElem _ _ (by simpa using hi)] at r2
        simp only [List.getElem_map, List.getElem_range] at r2
        have a1 : s1 i < 2 ^ 32 := by have := hcp1 i hi; omega
        have a2 : s2 i < 2 ^ 32 := by have := hcp2 i hi; omega
        rw [Nat.mod_eq_of_lt a1, Nat.mod_eq_of_lt a2] at r2
        exact r2
  · rintro ⟨hlen, hall⟩
    subst hlen
    have hiff : (∀ j, j < len1 → s1 j ≤ 0xff) ↔ (∀ j, j < len1 → s2 j ≤ 0xff) := by
      constructor
      · intro h j hj; rw [← hall j hj]; exact h j hj
      · intro h j hj; rw [hall j hj]; exact h j hj
    have hmap : (List.range len1).map s1 = (List.range len1).map s2 := by
      apply List.map_congr_left
      intro i hi
      exact hall i (List.mem_range.1 hi)
    by_cases n1 : ∀ j, j < len1 → s1 j ≤ 0xff
    · rw [textContent_narrow len1 s1 n1, textContent_narrow len1 s2 (hiff.1 n1), hmap]
    · rw [textContent_wide len1 s1 hcp1 n1,
        textContent_wide len1 s2 hcp2 (fun h => n1 (hiff.2 h)), hmap]

/-- C29: the encoding of a string is canonical. For every wide input whose
code points are all at most `0xFF`, `globalWString` does exactly what
`globalString` does for the bytes: same result and same state, so the same
block. A block that `globalWString` builds at a (cell-aligned) address from
code points (values of `pl_wchar_t` that are not negative, in an array of
`len * sizeof(pl_wchar_t)` bytes), its payload cells holding 64 bits, is the
string block of the payload bytes of the text: header, marker, bytes of the
code points and zero pad bytes depend on the text alone. And two such blocks
in one memory are equal under `equalIndirect` exactly when the texts have the
same length and the same code points. -/
theorem string_encoding_canonical (E : Ext) :
    (∀ (len : Nat) (s : Nat → Nat) (st : PL_local_data), (∀ i, i < len → s i ≤ 0xff) →
      globalWString E len s st = globalString E len s st) ∧
    (∀ (len : Nat) (s : Nat → Nat) (st st' : PL_local_data) (p : Nat),
      p % sizeofWord = 0 → (∀ i, i < len → s i < 2 ^ 31) → len * sizeofWChar < 2 ^ 64 →
      globalWString E len s st
        = Outcome.ret (some (consPtr p Storage.STG_GLOBAL Tag.TAG_STRING)) st' →
      (∀ j, j < (textContent len s).length / sizeofWord + 1 →
        wordBits (readCell st'.mem (p + (j + 1) * sizeofWord)) < 2 ^ 64) →
      StringBlock st'.mem p (textContent len s)) ∧
    (∀ (m : Mem) (p1 p2 len1 len2 : Nat) (s1 s2 : Nat → Nat),
      (∀ i, i < len1 → s1 i < 2 ^ 31) → (∀ i, i < len2 → s2 i < 2 ^ 31) →
      StringBlock m p1 (textContent len1 s1) → StringBlock m p2 (textContent len2 s2) →
      (equalIndirect m (consPtr p1 Storage.STG_GLOBAL Tag.TAG_STRING)
          (consPtr p2 Storage.STG_GLOBAL Tag.TAG_STRING) = true ↔
        len1 = len2 ∧ ∀ i, i < len1 → s1 i = s2 i)) := by
  refine ⟨?_, ?_, ?_⟩
  · intro len s st hall
    have hmap : (List.range len).map (fun i => s i % 256) = (List.range len).map s := by
      apply List.map_congr_left
      intro i hi
      have := hall i (List.mem_range.1 hi)
      omega
    unfold globalWString globalString
    rw [if_pos (((wideScan_eq_len_iff s len).2 (fun j hj => by have := hall j hj; omega)).2
      hall), hmap]
  · intro len s st st' p hal hcp hsz h hbits
    obtain ⟨q, s1, hw, hcase⟩ := globalWString_ret E len s st st' _ hsz h
    have hq : q = p := by
      simp only [consPtr, Word.ptr.injEq] at hw
      exact hw.1.symm
    subst hq
    rcases hcase with ⟨hn, ha, hm, hb⟩ | ⟨hn, ha, hm, hb⟩
    · -- the narrow form
      obtain ⟨s0, _, hm1, _, _⟩ := allocString_ret E (len + 1) st s1 q hb ha
      have hc : textContent len s = 66 :: (List.range len).map (fun i => s i % 256) := by
        unfold textContent
        rw [if_pos hn]
      have hlen : (textContent len s).length = len + 1 := by
        rw [hc]; simp
      have hmem : st'.mem = memcpy s1.mem (q + sizeofWord) (textContent len s) := by
        rw [hm, hc]
        rfl
      have hlw : (len + 1 + sizeofWord) / sizeofWord = (len + 1) / sizeofWord + 1 := by
        simp only [sizeofWord]; omega
      rw [hlw] at hm1
      rw [hmem] at hbits ⊢
      apply narrow_block s1.mem q (textContent len s) hal
      · rw [hlen, hm1]
        simp only [readCell_cons, sizeofWord]
        split_ifs <;> first | rfl | (exfalso; omega)
      · rw [hlen, hm1, readCell_tail _ _ _ _ (by simp only [sizeofWord]; omega)]
        exact readCell_head _ _ _
      · intro b hb
        rw [hc] at hb
        rcases List.mem_cons.1 hb with rfl | hb
        · omega
        · obtain ⟨i, _, rfl⟩ := List.mem_map.1 hb
          exact Nat.mod_lt _ (by norm_num)
      · exact hbits
    · -- the wide form
      obtain ⟨s0, _, hm1, _, _⟩ := allocString_ret E ((len + 1) * sizeofWChar) st s1 q hb ha
      have hc : textContent len s
          = 87 :: 0 :: 0 :: 0 :: ((List.range len).map (fun i => wcharBytes (s i))).flatten := by
        unfold textContent
        rw [if_neg hn]
      have hflen : ((List.range len).map (fun i => wcharBytes (s i))).flatten.length
          = 4 * len := by
        have := flatten_wcharBytes_length ((List.range len).map s)
        rw [List.map_map, List.length_map, List.length_range] at this
        exact this
      have hlen : (textContent len s).length = 4 * len + 4 := by
        rw [hc]; simp only [List.length_cons, hflen]
      have hsz : (len + 1) * sizeofWChar = 4 * len + 4 := by
        simp only [sizeofWChar]; omega
      have hlw : ((len + 1) * sizeofWChar + sizeofWord) / sizeofWord
          = (4 * len + 4) / sizeofWord + 1 := by
        simp only [sizeofWord, sizeofWChar]; omega
      rw [hlw, hsz] at hm1
      rw [hc, hm] at hbits ⊢
      simp only [List.length_cons, hflen] at hbits
      apply wide_block s1.mem q _ hal
      · rw [hflen, hm1]
        simp only [readCell_cons, sizeofWord]
        split_ifs <;> first | rfl | (exfalso; omega)
      · rw [hflen, hm1, readCell_tail _ _ _ _ (by simp only [sizeofWord]; omega)]
        exact readCell_head _ _ _
      · intro b hb
        obtain ⟨l, hl, hbl⟩ := List.mem_flatten.1 hb
        obtain ⟨i, _, rfl⟩ := List.mem_map.1 hl
        simp only [wcharBytes, List.mem_cons, List.mem_singleton, List.not_mem_nil,
          or_false] at hbl
        rcases hbl with rfl | rfl | rfl | rfl <;> exact Nat.mod_lt _ (by norm_num)
      · rw [hflen]
        exact hbits
  · intro m p1 p2 len1 len2 s1 s2 hcp1 hcp2 h1 h2
    rw [stringBlock_equal m p1 p2 _ _ h1 h2]
    exact textContent_inj len1 len2 s1 s2 hcp1 hcp2

/-- C29, at a concrete input: the text `abc` given as code points, stored in
`exampleState`, where the block is taken at address 800; `globalWString` does
what `globalString` does, and the block is the string block of the payload
bytes of the text. -/
theorem string_encoding_canonical_witness :
    globalWString exampleExt 3 (fun i => 97 + i) exampleState
      = globalString exampleExt 3 (fun i => 97 + i) exampleState ∧
    ∃ st', globalWString exampleExt 3 (fun i => 97 + i) exampleState
        = Outcome.ret (some (consPtr 800 Storage.STG_GLOBAL Tag.TAG_STRING)) st' ∧
      StringBlock st'.mem 800 (textContent 3 (fun i => 97 + i)) :=
  ⟨(string_encoding_canonical exampleExt).1 3 (fun i => 97 + i) exampleState (by decide),
   _, rfl,
   (string_encoding_canonical exampleExt).2.1 3 (fun i => 97 + i) exampleState _ 800
     (by decide) (by decide) (by decide) rfl (by decide)⟩

end PlAlloc
